import Mathlib

/-!
# Maze generator: embedding of `generation.c`, `shared.h` and the file decoding of `maze.c`

The maze is a flat `char` buffer of `y_dimension * x_dimension` bytes that the C code
addresses through pointer arithmetic (`maze + i * x_dimension + j` and offsets from it).
The embedding keeps that addressing: a buffer is a `List Nat` of byte values, a cell address
is an `Int` offset from the start of the buffer, and an access outside the buffer is
undefined behaviour, reported as `Fault.undefined`.

`rand()` is an explicit stream `rand : Nat → Nat` together with the number `k` of values
already drawn.  Loops whose number of iterations is not bounded by the program text take a
`fuel : Nat`; running out of it is reported as `Fault.out_of_fuel`.

Values of type `int` are integers of `Int`: every value the program computes is a coordinate,
a dimension, a cell offset within two rows of the buffer, or a remainder of `rand()`, so none
leaves the range of `int` for a grid that fits in memory.  Values of type `char` and `uint8_t`
are natural numbers, the character codes.
-/

namespace Maze

/-! ## Results of running a piece of the program -/

/-- Ways in which a run does not return normally. -/
inductive Fault where
  | undefined
  | out_of_fuel
  deriving DecidableEq, Repr

/-- Outcome of a run: a value, or a fault. -/
abbrev Run (α : Type) := Except Fault α

/-! ## `shared.h` -/

/-- Macro HEADER_SIZE. -/
def HEADER_SIZE : Nat := 4
/-- Macro BORDER, the character 'B'. -/
def BORDER : Nat := 66
/-- Macro WALL, the character '1'. -/
def WALL : Nat := 49
/-- Macro FLOOR, the character '0'. -/
def FLOOR : Nat := 48
/-- Macro START, the character 'S'. -/
def START : Nat := 83
/-- Macro END, the character 'E'. -/
def END : Nat := 69

/-- Read of the byte at offset `p` of the buffer. -/
def load (maze : List Nat) (p : Int) : Run Nat :=
  if p < 0 then .error .undefined
  else match maze[p.toNat]? with
    | some c => .ok c
    | none => .error .undefined

/-- Write of the byte `c` at offset `p` of the buffer. -/
def store (maze : List Nat) (p : Int) (c : Nat) : Run (List Nat) :=
  if p < 0 ∨ (maze.length : Int) ≤ p then .error .undefined
  else .ok (maze.set p.toNat c)

/-- Offset named by the macro MAZE_OF_I_OF_J: `(i * x_dimension) + j`. -/
def MAZE_OF_I_OF_J (i j x_dimension : Int) : Int := (i * x_dimension) + j
/-- Offset named by the macro UP. -/
def UP (i j x_dimension : Int) : Int := MAZE_OF_I_OF_J i j x_dimension - x_dimension
/-- Offset named by the macro DOWN. -/
def DOWN (i j x_dimension : Int) : Int := MAZE_OF_I_OF_J i j x_dimension + x_dimension
/-- Offset named by the macro LEFT. -/
def LEFT (i j x_dimension : Int) : Int := MAZE_OF_I_OF_J i j x_dimension - 1
/-- Offset named by the macro RIGHT. -/
def RIGHT (i j x_dimension : Int) : Int := MAZE_OF_I_OF_J i j x_dimension + 1

/-! ## `generation.c`: macros -/

def DIRECTIONS : Int := 4
def GO_UP : Int := 0
def GO_DOWN : Int := 1
def GO_LEFT : Int := 2
def GO_RIGHT : Int := 3
def NO_VALID_STEP : Int := -1
def NOT_YET_FOUND : Int := 4

def UP_UP (i j x_dimension : Int) : Int := MAZE_OF_I_OF_J i j x_dimension - x_dimension - x_dimension
def UP_LEFT (i j x_dimension : Int) : Int := MAZE_OF_I_OF_J i j x_dimension - x_dimension - 1
def UP_RIGHT (i j x_dimension : Int) : Int := MAZE_OF_I_OF_J i j x_dimension - x_dimension + 1
def DOWN_DOWN (i j x_dimension : Int) : Int := MAZE_OF_I_OF_J i j x_dimension + x_dimension + x_dimension
def DOWN_LEFT (i j x_dimension : Int) : Int := MAZE_OF_I_OF_J i j x_dimension + x_dimension - 1
def DOWN_RIGHT (i j x_dimension : Int) : Int := MAZE_OF_I_OF_J i j x_dimension + x_dimension + 1
def LEFT_UP (i j x_dimension : Int) : Int := MAZE_OF_I_OF_J i j x_dimension - 1 - x_dimension
def LEFT_DOWN (i j x_dimension : Int) : Int := MAZE_OF_I_OF_J i j x_dimension - 1 + x_dimension
def LEFT_LEFT (i j x_dimension : Int) : Int := MAZE_OF_I_OF_J i j x_dimension - 1 - 1
def RIGHT_UP (i j x_dimension : Int) : Int := MAZE_OF_I_OF_J i j x_dimension + 1 - x_dimension
def RIGHT_DOWN (i j x_dimension : Int) : Int := MAZE_OF_I_OF_J i j x_dimension + 1 + x_dimension
def RIGHT_RIGHT (i j x_dimension : Int) : Int := MAZE_OF_I_OF_J i j x_dimension + 1 + 1

/-- Macro FLIP_COIN: `rand() % 2`, on the value `r` that `rand()` returned. -/
def FLIP_COIN (r : Nat) : Int := Int.tmod (r : Int) 2

/-- A counting loop `for (int n = 0; n < bound; n++) body`, the state threaded through. -/
def for_loop {σ : Type} (body : Int → σ → Run σ) : Nat → σ → Run σ
  | 0, s => .ok s
  | n + 1, s => for_loop body n s >>= body (n : Int)

/-! ## `find_move` -/

/-- One of the four direction tests of `find_move`: the neighbour at offset `n` must be WALL
and the cells at offsets `a`, `b`, `c` (read in this order, each only when the tests before it
did not already reject the direction) must not be FLOOR, START or END. -/
def valid_direction (maze : List Nat) (n a b c : Int) : Run Bool := do
  let vn ← load maze n
  if vn ≠ WALL then return false
  let va ← load maze a
  if va = FLOOR ∨ va = START ∨ va = END then return false
  let vb ← load maze b
  if vb = FLOOR ∨ vb = START ∨ vb = END then return false
  let vc ← load maze c
  if vc = FLOOR ∨ vc = START ∨ vc = END then return false
  return true

/-- The do-while loop of `find_move` that draws directions until a valid one comes up.
Returns the direction and the new count of random values drawn. -/
def pick_direction (valid_up valid_down valid_left valid_right : Bool) (rand : Nat → Nat) :
    Nat → Nat → Run (Int × Nat)
  | 0, _ => .error .out_of_fuel
  | fuel + 1, k =>
    let direction : Int := Int.tmod (rand k : Int) DIRECTIONS
    if direction = GO_UP ∧ !valid_up then pick_direction valid_up valid_down valid_left valid_right rand fuel (k + 1)
    else if direction = GO_DOWN ∧ !valid_down then pick_direction valid_up valid_down valid_left valid_right rand fuel (k + 1)
    else if direction = GO_LEFT ∧ !valid_left then pick_direction valid_up valid_down valid_left valid_right rand fuel (k + 1)
    else if direction = GO_RIGHT ∧ !valid_right then pick_direction valid_up valid_down valid_left valid_right rand fuel (k + 1)
    else .ok (direction, k + 1)

/-- Function `find_move`: the step (GO_UP, GO_DOWN, GO_LEFT, GO_RIGHT or NO_VALID_STEP) and the
new count of random values drawn.  The buffer is only read. -/
def find_move (fuel : Nat) (rand : Nat → Nat) (k : Nat) (maze : List Nat)
    (current_y current_x x_dimension : Int) : Run (Int × Nat) := do
  let i := current_y
  let j := current_x
  let valid_up ← valid_direction maze (UP i j x_dimension) (UP_UP i j x_dimension)
    (UP_LEFT i j x_dimension) (UP_RIGHT i j x_dimension)
  let valid_down ← valid_direction maze (DOWN i j x_dimension) (DOWN_DOWN i j x_dimension)
    (DOWN_LEFT i j x_dimension) (DOWN_RIGHT i j x_dimension)
  let valid_left ← valid_direction maze (LEFT i j x_dimension) (LEFT_UP i j x_dimension)
    (LEFT_DOWN i j x_dimension) (LEFT_LEFT i j x_dimension)
  let valid_right ← valid_direction maze (RIGHT i j x_dimension) (RIGHT_UP i j x_dimension)
    (RIGHT_DOWN i j x_dimension) (RIGHT_RIGHT i j x_dimension)
  if !valid_up && !valid_down && !valid_left && !valid_right then
    return (NO_VALID_STEP, k)
  else
    pick_direction valid_up valid_down valid_left valid_right rand fuel k

/-! ## `draw_border` -/

/-- Function `draw_border`. -/
def draw_border (maze : List Nat) (y_dimension x_dimension : Int) : Run (List Nat) :=
  for_loop (fun i maze =>
    for_loop (fun j maze =>
      if i = 0 ∨ i = y_dimension - 1 then
        store maze (MAZE_OF_I_OF_J i j x_dimension) BORDER
      else if j = 0 ∨ j = x_dimension - 1 then
        store maze (MAZE_OF_I_OF_J i j x_dimension) BORDER
      else .ok maze) x_dimension.toNat maze) y_dimension.toNat maze

/-! ## `draw_critical_path` -/

/-- State of the walk of `draw_critical_path`: the buffer, the position and the count of
random values drawn. -/
structure Walk where
  maze : List Nat
  i : Int
  j : Int
  k : Nat
  deriving DecidableEq, Repr

/-- Body of the do-while loop of `draw_critical_path`: one call of `find_move` and the
switch on its result.  Returns the new state and the new value of `valid_moves`. -/
def critical_path_step (fuel : Nat) (rand : Nat → Nat) (x_dimension : Int) (w : Walk) :
    Run (Walk × Bool) := do
  let (step, k) ← find_move fuel rand w.k w.maze w.i w.j x_dimension
  if step = GO_UP then
    let maze ← store w.maze (UP w.i w.j x_dimension) FLOOR
    return (⟨maze, w.i - 1, w.j, k⟩, true)
  else if step = GO_DOWN then
    let maze ← store w.maze (DOWN w.i w.j x_dimension) FLOOR
    return (⟨maze, w.i + 1, w.j, k⟩, true)
  else if step = GO_LEFT then
    let maze ← store w.maze (LEFT w.i w.j x_dimension) FLOOR
    return (⟨maze, w.i, w.j - 1, k⟩, true)
  else if step = GO_RIGHT then
    let maze ← store w.maze (RIGHT w.i w.j x_dimension) FLOOR
    return (⟨maze, w.i, w.j + 1, k⟩, true)
  else if step = NO_VALID_STEP then
    return (⟨w.maze, w.i, w.j, k⟩, false)
  else
    return (⟨w.maze, w.i, w.j, k⟩, true)

/-- The do-while loop of `draw_critical_path`: it repeats its body while `valid_moves`. -/
def critical_path_loop (rand : Nat → Nat) (x_dimension : Int) : Nat → Walk → Run Walk
  | 0, _ => .error .out_of_fuel
  | fuel + 1, w => do
    let (w, valid_moves) ← critical_path_step (fuel + 1) rand x_dimension w
    if valid_moves then critical_path_loop rand x_dimension fuel w
    else return w

/-- Function `draw_critical_path`: the buffer after the walk and the End write, and the count
of random values drawn. -/
def draw_critical_path (fuel : Nat) (rand : Nat → Nat) (k : Nat) (maze : List Nat)
    (_y_dimension x_dimension start_y start_x : Int) : Run (List Nat × Nat) := do
  let w ← critical_path_loop rand x_dimension fuel ⟨maze, start_y, start_x, k⟩
  let maze ← store w.maze (MAZE_OF_I_OF_J w.i w.j x_dimension) END
  return (maze, w.k)

/-! ## `draw_dead_ends` -/

/-- State of a scan of `draw_dead_ends`: the buffer, the count of random values drawn and the
flag `moved`. -/
structure Scan where
  maze : List Nat
  k : Nat
  moved : Bool
  deriving DecidableEq, Repr

/-- Body of the two nested for loops of `draw_dead_ends`, at the cell `(i, j)`. -/
def dead_end_visit (fuel : Nat) (rand : Nat → Nat) (x_dimension : Int) (i j : Int) (s : Scan) :
    Run Scan := do
  let c ← load s.maze (MAZE_OF_I_OF_J i j x_dimension)
  if c = FLOOR then
    let coin := FLIP_COIN (rand s.k)
    let (step, k) ← find_move fuel rand (s.k + 1) s.maze i j x_dimension
    if step = GO_UP then
      let maze ← if coin ≠ 0 then store s.maze (UP i j x_dimension) FLOOR else .ok s.maze
      return ⟨maze, k, true⟩
    else if step = GO_DOWN then
      let maze ← if coin ≠ 0 then store s.maze (DOWN i j x_dimension) FLOOR else .ok s.maze
      return ⟨maze, k, true⟩
    else if step = GO_LEFT then
      let maze ← if coin ≠ 0 then store s.maze (LEFT i j x_dimension) FLOOR else .ok s.maze
      return ⟨maze, k, true⟩
    else if step = GO_RIGHT then
      let maze ← if coin ≠ 0 then store s.maze (RIGHT i j x_dimension) FLOOR else .ok s.maze
      return ⟨maze, k, true⟩
    else
      return ⟨s.maze, k, s.moved⟩
  else
    return s

/-- One pass of the while loop of `draw_dead_ends`: `moved = false`, then the two nested for
loops over the whole buffer. -/
def dead_end_scan (fuel : Nat) (rand : Nat → Nat) (k : Nat) (maze : List Nat)
    (y_dimension x_dimension : Int) : Run Scan :=
  for_loop (fun i s =>
    for_loop (fun j s => dead_end_visit fuel rand x_dimension i j s) x_dimension.toNat s)
    y_dimension.toNat ⟨maze, k, false⟩

/-- The while loop of `draw_dead_ends`, `fuel` bounding the number of scans. -/
def dead_ends_loop (rand : Nat → Nat) (y_dimension x_dimension : Int) :
    Nat → Nat → List Nat → Run (List Nat × Nat)
  | 0, _, _ => .error .out_of_fuel
  | fuel + 1, k, maze => do
    let s ← dead_end_scan (fuel + 1) rand k maze y_dimension x_dimension
    if s.moved = false then return (s.maze, s.k)
    else dead_ends_loop rand y_dimension x_dimension fuel s.k s.maze

/-- Function `draw_dead_ends`: the buffer when the loop ends and the count of random values
drawn. -/
def draw_dead_ends (fuel : Nat) (rand : Nat → Nat) (k : Nat) (maze : List Nat)
    (y_dimension x_dimension : Int) : Run (List Nat × Nat) :=
  dead_ends_loop rand y_dimension x_dimension fuel k maze

/-! ## `draw_maze` -/

/-- The C operator `%` on `int`: undefined for a zero divisor, truncating otherwise. -/
def c_mod (a b : Int) : Run Int :=
  if b = 0 then .error .undefined else .ok (Int.tmod a b)

/-- The cast `(uint8_t) v` of an `int`. -/
def to_uint8 (v : Int) : Nat := (v % 256).toNat

/-- The first loop nest of `draw_maze`: `maze[i][j] = WALL` for every cell. -/
def fill_walls (maze : List Nat) (y_dimension x_dimension : Int) : Run (List Nat) :=
  for_loop (fun i maze =>
    for_loop (fun j maze => store maze (MAZE_OF_I_OF_J i j x_dimension) WALL)
      x_dimension.toNat maze) y_dimension.toNat maze

/-- The start selection of `draw_maze`: two values of `rand()` (the values number `k` and
`k + 1`), reduced and offset by one. Returns `(start_y, start_x)`. -/
def pick_start (rand : Nat → Nat) (k : Nat) (y_dimension x_dimension : Int) : Run (Int × Int) := do
  let start_y ← c_mod (rand k : Int) (y_dimension - 1 - 1)
  let start_x ← c_mod (rand (k + 1) : Int) (x_dimension - 1 - 1)
  let start_y := start_y + 1
  let start_x := start_x + 1
  return (start_y, start_x)

/-- The part of `draw_maze` that builds the maze in memory up to the Start write: the
all-WALL fill, `draw_border`, the start selection and `maze[start_y][start_x] = START`.
Returns the buffer and `(start_y, start_x)`. -/
def draw_maze_start (rand : Nat → Nat) (y_dimension x_dimension : Int) :
    Run (List Nat × Int × Int) := do
  -- `char maze[y_dimension][x_dimension]`: a variable-length array needs positive sizes
  if y_dimension ≤ 0 ∨ x_dimension ≤ 0 then throw Fault.undefined
  let maze := List.replicate (y_dimension * x_dimension).toNat 0
  let maze ← fill_walls maze y_dimension x_dimension
  let maze ← draw_border maze y_dimension x_dimension
  let (start_y, start_x) ← pick_start rand 0 y_dimension x_dimension
  let maze ← store maze (MAZE_OF_I_OF_J start_y start_x x_dimension) START
  return (maze, start_y, start_x)

/-- The two writing steps of `draw_maze`: the four header bytes, then every cell
`maze[i][j]` in the order of the two nested for loops.  Every `fwrite` is taken to succeed.
Returns the bytes written. -/
def write_maze (maze : List Nat) (y_dimension x_dimension start_y start_x : Int) :
    Run (List Nat) := do
  let header : List Nat :=
    [to_uint8 x_dimension, to_uint8 y_dimension, to_uint8 start_x, to_uint8 start_y]
  for_loop (fun i file =>
    for_loop (fun j file => do
      let c ← load maze (MAZE_OF_I_OF_J i j x_dimension)
      return file ++ [c]) x_dimension.toNat file) y_dimension.toNat header

/-- What a run of `draw_maze` leaves behind: the maze in memory when the function returns,
the start position, and the bytes written to `maze_file`. -/
structure Generated where
  maze : List Nat
  start_y : Int
  start_x : Int
  file : List Nat
  deriving DecidableEq, Repr

/-- Function `draw_maze`. -/
def draw_maze (fuel : Nat) (rand : Nat → Nat) (y_dimension x_dimension : Int) :
    Run Generated := do
  let (maze, start_y, start_x) ← draw_maze_start rand y_dimension x_dimension
  let (maze, k) ← draw_critical_path fuel rand 2 maze y_dimension x_dimension start_y start_x
  let (maze, _) ← draw_dead_ends fuel rand k maze y_dimension x_dimension
  let file ← write_maze maze y_dimension x_dimension start_y start_x
  return ⟨maze, start_y, start_x, file⟩

/-! ## `maze.c`: how `play` decodes a maze file -/

/-- What `play` holds after decoding the file. -/
structure Loaded where
  x_dimension : Int
  y_dimension : Int
  start_x : Int
  start_y : Int
  maze : List Nat
  deriving DecidableEq, Repr

/-- The decoding at the start of `play`: one `fread` of HEADER_SIZE bytes, the four header
fields, then one `fread` of `y_dimension * x_dimension` bytes into `maze`.  A `fread` that
does not return 1 ends the program through `error_check`, here `none`. -/
def play_decode (file : List Nat) : Option Loaded :=
  if file.length < HEADER_SIZE then none
  else
    let x_dimension : Int := (file.getD 0 0 : Nat)
    let y_dimension : Int := (file.getD 1 0 : Nat)
    let start_x : Int := (file.getD 2 0 : Nat)
    let start_y : Int := (file.getD 3 0 : Nat)
    let size : Nat := (y_dimension * x_dimension).toNat
    let rest := file.drop HEADER_SIZE
    if size = 0 ∨ rest.length < size then none
    else some ⟨x_dimension, y_dimension, start_x, start_y, rest.take size⟩

/-! ## The grid seen through rows and columns -/

/-- The buffer holds `y * x` cells, both dimensions positive. -/
def Sized (maze : List Nat) (y x : Int) : Prop :=
  0 < y ∧ 0 < x ∧ (maze.length : Int) = y * x

instance (maze : List Nat) (y x : Int) : Decidable (Sized maze y x) := by
  unfold Sized; infer_instance

/-- Content of the cell in row `i`, column `j` of a `y` by `x` grid; `none` outside the grid. -/
def cell (maze : List Nat) (y x i j : Int) : Option Nat :=
  if 0 ≤ i ∧ i < y ∧ 0 ≤ j ∧ j < x then maze[(MAZE_OF_I_OF_J i j x).toNat]? else none

/-- A path cell holds FLOOR, START or END. -/
def is_path (c : Option Nat) : Prop := c = some FLOOR ∨ c = some START ∨ c = some END

instance (c : Option Nat) : Decidable (is_path c) := by unfold is_path; infer_instance

/-- The cell lies on the ring: first or last row, first or last column. -/
def on_ring (y x i j : Int) : Prop := i = 0 ∨ i = y - 1 ∨ j = 0 ∨ j = x - 1

instance (y x i j : Int) : Decidable (on_ring y x i j) := by unfold on_ring; infer_instance

/-- The test of one direction, on cells named by row and column: the neighbour holds WALL and
none of the three look-ahead cells is a path cell. -/
def clear_at (maze : List Nat) (y x ni nj ai aj bi bj ci cj : Int) : Prop :=
  cell maze y x ni nj = some WALL ∧ ¬ is_path (cell maze y x ai aj) ∧
    ¬ is_path (cell maze y x bi bj) ∧ ¬ is_path (cell maze y x ci cj)

instance (maze : List Nat) (y x ni nj ai aj bi bj ci cj : Int) :
    Decidable (clear_at maze y x ni nj ai aj bi bj ci cj) := by
  unfold clear_at; infer_instance

/-! ## Legal directions, as section 4.2 of the specification words them -/

/-- Up is legal at `(i, j)`: the cell one row up holds WALL, and the cell two rows up and the
cells one row up, one column left and right are not path cells. -/
def legal_up (maze : List Nat) (y x i j : Int) : Prop :=
  clear_at maze y x (i - 1) j (i - 2) j (i - 1) (j - 1) (i - 1) (j + 1)

/-- Down is legal at `(i, j)`. -/
def legal_down (maze : List Nat) (y x i j : Int) : Prop :=
  clear_at maze y x (i + 1) j (i + 2) j (i + 1) (j - 1) (i + 1) (j + 1)

/-- Left is legal at `(i, j)`. -/
def legal_left (maze : List Nat) (y x i j : Int) : Prop :=
  clear_at maze y x i (j - 1) (i - 1) (j - 1) (i + 1) (j - 1) i (j - 2)

/-- Right is legal at `(i, j)`. -/
def legal_right (maze : List Nat) (y x i j : Int) : Prop :=
  clear_at maze y x i (j + 1) (i - 1) (j + 1) (i + 1) (j + 1) i (j + 2)

/-- Direction `d` (one of GO_UP, GO_DOWN, GO_LEFT, GO_RIGHT) is legal at `(i, j)`. -/
def legal (maze : List Nat) (y x i j d : Int) : Prop :=
  (d = GO_UP ∧ legal_up maze y x i j) ∨ (d = GO_DOWN ∧ legal_down maze y x i j) ∨
    (d = GO_LEFT ∧ legal_left maze y x i j) ∨ (d = GO_RIGHT ∧ legal_right maze y x i j)

instance (maze : List Nat) (y x i j : Int) : Decidable (legal_up maze y x i j) := by
  unfold legal_up; infer_instance
instance (maze : List Nat) (y x i j : Int) : Decidable (legal_down maze y x i j) := by
  unfold legal_down; infer_instance
instance (maze : List Nat) (y x i j : Int) : Decidable (legal_left maze y x i j) := by
  unfold legal_left; infer_instance
instance (maze : List Nat) (y x i j : Int) : Decidable (legal_right maze y x i j) := by
  unfold legal_right; infer_instance
instance (maze : List Nat) (y x i j d : Int) : Decidable (legal maze y x i j d) := by
  unfold legal; infer_instance

/-- The cell is strictly inside the ring. -/
def interior (y x i j : Int) : Prop := 1 ≤ i ∧ i ≤ y - 2 ∧ 1 ≤ j ∧ j ≤ x - 2

instance (y x i j : Int) : Decidable (interior y x i j) := by unfold interior; infer_instance

/-- No cell of the ring holds WALL. -/
def ring_closed (maze : List Nat) (y x : Int) : Prop :=
  ∀ i j, on_ring y x i j → cell maze y x i j ≠ some WALL

/-- The flag of direction `d` among the four flags. -/
def flag_of (vu vd vl vr : Bool) (d : Int) : Bool :=
  (d = GO_UP ∧ vu = true) ∨ (d = GO_DOWN ∧ vd = true) ∨ (d = GO_LEFT ∧ vl = true) ∨
    (d = GO_RIGHT ∧ vr = true)

/-! ## Properties of the grid during generation -/

/-- The cells holding BORDER are exactly the cells of the ring. -/
def framed (maze : List Nat) (y x : Int) : Prop :=
  ∀ i j, 0 ≤ i → i < y → 0 ≤ j → j < x → (cell maze y x i j = some BORDER ↔ on_ring y x i j)

/-- No two by two block of cells consists of four path cells. -/
def no_block (maze : List Nat) (y x : Int) : Prop :=
  ∀ i j, ¬ (is_path (cell maze y x i j) ∧ is_path (cell maze y x i (j + 1)) ∧
    is_path (cell maze y x (i + 1) j) ∧ is_path (cell maze y x (i + 1) (j + 1)))

/-- What the walk and the dead-end filler keep true of the grid. -/
structure Gen (maze : List Nat) (y x : Int) : Prop where
  sized : Sized maze y x
  framed : framed maze y x
  no_block : no_block maze y x

/-- The second grid has the same cells as the first for every value other than WALL and
FLOOR: no Border, Start or End cell appeared, disappeared or moved. -/
def keeps (m1 m2 : List Nat) (y x : Int) : Prop :=
  ∀ i j v, v ≠ WALL → v ≠ FLOOR → (cell m2 y x i j = some v ↔ cell m1 y x i j = some v)

/-- The grid as `draw_maze` hands it to `draw_critical_path`: BORDER on the ring, START at
`(sy, sx)`, WALL everywhere else. -/
def fresh (maze : List Nat) (y x sy sx : Int) : Prop :=
  ∀ i j, 0 ≤ i → i < y → 0 ≤ j → j < x → cell maze y x i j =
    some (if on_ring y x i j then BORDER else if i = sy ∧ j = sx then START else WALL)

/-- What the walk of `draw_critical_path` keeps true, `m0` being the grid it started from and
`(sy, sx)` the start position: the current cell is inside the ring and holds FLOOR, unless
no step has been made yet. -/
def walk_inv (m0 : List Nat) (y x sy sx : Int) (w : Walk) : Prop :=
  Gen w.maze y x ∧ interior y x w.i w.j ∧ keeps m0 w.maze y x ∧
    (cell w.maze y x w.i w.j = some FLOOR ∨ (w.maze = m0 ∧ w.i = sy ∧ w.j = sx))

/-- A grid on which a scan of `draw_dead_ends` finds nothing to do: every cell can be read,
and at every cell holding FLOOR `find_move` returns NO_VALID_STEP, whatever the random source. -/
def quiet (maze : List Nat) (y x : Int) : Prop :=
  ∀ i j, 0 ≤ i → i < y → 0 ≤ j → j < x →
    ∃ c, load maze (MAZE_OF_I_OF_J i j x) = .ok c ∧
      (c = FLOOR → ∀ (fuel : Nat) (rand : Nat → Nat) (k : Nat),
        find_move fuel rand k maze i j x = .ok (NO_VALID_STEP, k))

/-! ## A concrete run, used to exercise the theorems -/

/-- The random source that returns 0, 1, 2, ... -/
def counting_rand : Nat → Nat := fun n => n

/-- What `draw_maze` leaves behind for a 4 by 4 maze on `counting_rand`: the start at row 1,
column 2, one step left, one step down, End there. -/
def run_4x4 : Generated :=
  ⟨[66, 66, 66, 66, 66, 48, 83, 66, 66, 69, 49, 66, 66, 66, 66, 66], 1, 2,
    [4, 4, 2, 1, 66, 66, 66, 66, 66, 48, 83, 66, 66, 69, 49, 66, 66, 66, 66, 66]⟩

/-- A 4 by 4 buffer whose ring is not closed: WALL in row 1, column 0 and FLOOR in row 0,
column 3; BORDER in every other cell but the one at row 1, column 1, which holds FLOOR. -/
def open_ring_4x4 : List Nat :=
  [66, 66, 66, 48,
   49, 48, 66, 66,
   66, 66, 66, 66,
   66, 66, 66, 66]

/-- The random source that returns 0, 0, 1, 1, 2, 2, ... -/
def halving_rand : Nat → Nat := fun n => n / 2

/-- A 5 by 5 grid with the ring drawn and Start, one Floor cell and End in row 1. -/
def walked_5x5 : List Nat :=
  [66, 66, 66, 66, 66,
   66, 83, 48, 69, 66,
   66, 49, 49, 49, 66,
   66, 49, 49, 49, 66,
   66, 66, 66, 66, 66]

/-- What `draw_dead_ends` makes of `walked_5x5` on `halving_rand`. -/
def filled_5x5 : List Nat :=
  [66, 66, 66, 66, 66,
   66, 83, 48, 69, 66,
   66, 49, 48, 49, 66,
   66, 48, 48, 48, 66,
   66, 66, 66, 66, 66]

/-! ## `maze.c`: `caseless_cmp` -/

/-- A C string is the list of its characters before the terminating null character; this is
the list of character codes of a string literal. -/
def c_string (s : String) : List Nat := s.toList.map Char.toNat

/-- Function `strlen` of the C library. -/
def strlen (str : List Nat) : Nat := str.length

/-- Function `tolower` of the C library in the "C" locale, the locale of a program that
never calls `setlocale`: the letters 'A' to 'Z' go to 'a' to 'z'. -/
def tolower (c : Nat) : Nat := if 65 ≤ c ∧ c ≤ 90 then c + 32 else c

/-- The for loop of `caseless_cmp`, on what is left of the two strings from index `i` on:
it ends with `true` at the null character of `str1`, and with `false` at the first pair of
characters that differ after `tolower`.  Past the end of `str2` the character read is the
null character. -/
def caseless_cmp_loop : List Nat → List Nat → Bool
  | [], _ => true
  | c1 :: rest1, str2 =>
    if c1 = 0 then true
    else if tolower c1 ≠ tolower (str2.headD 0) then false
    else caseless_cmp_loop rest1 str2.tail

/-- Function `caseless_cmp`. -/
def caseless_cmp (str1 str2 : List Nat) : Bool :=
  if strlen str1 ≠ strlen str2 then false
  else caseless_cmp_loop str1 str2

/-! ## `maze.c`: the player and `obey_player` -/

/-- Offset named by the macro MAP_OF_I_OF_J: `(i * x_dimension) + j`, into the map. -/
def MAP_OF_I_OF_J (i j x_dimension : Int) : Int := (i * x_dimension) + j

/-- The variables of `play` that `obey_player` may change through its pointer parameters:
`movement`, `player_y`, `player_x`, `won` and the array `map`. -/
structure Player where
  movement : Bool
  player_y : Int
  player_x : Int
  won : Bool
  map : List Nat
  deriving DecidableEq, Repr

/-- How a call of `obey_player` ends: it returns, or it ends the program through `exit`. -/
inductive Obeyed where
  | returned (p : Player)
  | exited (status : Nat)
  deriving DecidableEq, Repr

/-- The loop nest of `play` that builds the first map, on the array `map` as declared:
`map[i][j] = maze[i][j] == BORDER ? WALL : 0` for every cell. -/
def play_init_map (map maze : List Nat) (y_dimension x_dimension : Int) : Run (List Nat) :=
  for_loop (fun i map =>
    for_loop (fun j map => do
      let c ← load maze (MAZE_OF_I_OF_J i j x_dimension)
      store map (MAZE_OF_I_OF_J i j x_dimension) (if c = BORDER then WALL else 0))
      x_dimension.toNat map) y_dimension.toNat map

/-- The loop nest of the restart command of `obey_player`:
`MAP_OF_I_OF_J = MAZE_OF_I_OF_J == BORDER ? WALL : 0` for every cell. -/
def restart_map (map maze : List Nat) (y_dimension x_dimension : Int) : Run (List Nat) :=
  for_loop (fun i map =>
    for_loop (fun j map => do
      let c ← load maze (MAZE_OF_I_OF_J i j x_dimension)
      store map (MAP_OF_I_OF_J i j x_dimension) (if c = BORDER then WALL else 0))
      x_dimension.toNat map) y_dimension.toNat map

/-- Function `obey_player`, without what it prints: the command, the variables it may change,
the maze and the values it only reads.  The command strings are compared in the order of
the source. -/
def obey_player (command : List Nat) (p : Player) (maze : List Nat)
    (y_dimension x_dimension start_y start_x : Int) : Run Obeyed := do
  let i := p.player_y
  let j := p.player_x
  if caseless_cmp command (c_string "up") = true ∨
      caseless_cmp command (c_string "w") = true then
    let target ← load maze (UP i j x_dimension)
    if target = FLOOR ∨ target = START then
      return .returned { p with player_y := p.player_y - 1, movement := true }
    else if target = END then
      return .returned { p with won := true, movement := true }
    else
      return .returned p
  else if caseless_cmp command (c_string "down") = true ∨
      caseless_cmp command (c_string "s") = true then
    let target ← load maze (DOWN i j x_dimension)
    if target = FLOOR ∨ target = START then
      return .returned { p with player_y := p.player_y + 1, movement := true }
    else if target = END then
      return .returned { p with won := true, movement := true }
    else
      return .returned p
  else if caseless_cmp command (c_string "left") = true ∨
      caseless_cmp command (c_string "a") = true then
    let target ← load maze (LEFT i j x_dimension)
    if target = FLOOR ∨ target = START then
      return .returned { p with player_x := p.player_x - 1, movement := true }
    else if target = END then
      return .returned { p with won := true, movement := true }
    else
      return .returned p
  else if caseless_cmp command (c_string "right") = true ∨
      caseless_cmp command (c_string "d") = true then
    let target ← load maze (RIGHT i j x_dimension)
    if target = FLOOR ∨ target = START then
      return .returned { p with player_x := p.player_x + 1, movement := true }
    else if target = END then
      return .returned { p with won := true, movement := true }
    else
      return .returned p
  else if caseless_cmp command (c_string "help") = true then
    return .returned p
  else if caseless_cmp command (c_string "restart") = true then
    let map ← restart_map p.map maze y_dimension x_dimension
    return .returned { p with map := map, player_y := start_y, player_x := start_x,
                              movement := true }
  else if caseless_cmp command (c_string "quit") = true then
    return .exited 0
  else
    return .returned p

/-- The command is one of the two spellings of a movement command, in any letter case. -/
def command_is (command : List Nat) (long short : String) : Prop :=
  caseless_cmp command (c_string long) = true ∨ caseless_cmp command (c_string short) = true

instance (command : List Nat) (long short : String) : Decidable (command_is command long short) := by
  unfold command_is; infer_instance

/-- The offset of the cell a movement command aims at, `none` for every other command. -/
def target_offset (command : List Nat) (p : Player) (x_dimension : Int) : Option Int :=
  if command_is command "up" "w" then some (UP p.player_y p.player_x x_dimension)
  else if command_is command "down" "s" then some (DOWN p.player_y p.player_x x_dimension)
  else if command_is command "left" "a" then some (LEFT p.player_y p.player_x x_dimension)
  else if command_is command "right" "d" then some (RIGHT p.player_y p.player_x x_dimension)
  else none

/-- What the map shows of a maze cell before the player has seen it: WALL for BORDER, the
null character for everything else. -/
def fog (c : Option Nat) : Nat := if c = some BORDER then WALL else 0

/-- The three-way test of a movement command on the cell it aims at: `moved` is the player
one cell further with `movement` set. -/
def after_move (p moved : Player) (target : Nat) : Player :=
  if target = FLOOR ∨ target = START then moved
  else if target = END then { p with won := true, movement := true }
  else p

/-- The player of the 4 by 4 run at the start cell (row 1, column 2), nothing seen yet. -/
def player_4x4 : Player := ⟨false, 1, 2, false, List.replicate 16 0⟩

/-! ## `shared.c`: `error_check`, and the writes of `draw_maze` when `fwrite` can fail -/

/-- What the macro CLEAR_CONSOLE prints. -/
def CLEAR_CONSOLE : String := "\x1b[H\x1b[2J\x1b[3J"

/-- How `error_check` ends the program: what it has printed and the status it passes to
`exit`. -/
structure Exit where
  printed : List String
  status : Nat
  deriving DecidableEq, Repr

/-- Function `error_check`: `none` when it returns, the end of the program otherwise. -/
def error_check (function_name : String) (check_against return_value : Int) : Option Exit :=
  if return_value ≠ check_against then
    if function_name = "scanf()" then
      some ⟨[CLEAR_CONSOLE, "Error 1: Could not read input from stdin.\n",
        "scanf() returned " ++ toString return_value ++ ", but should have returned " ++
          toString check_against ++ "\n"], 1⟩
    else if function_name = "fwrite()" then
      some ⟨[CLEAR_CONSOLE, "Error 2: Write-to-file error.\n",
        "fwrite() returned " ++ toString return_value ++ ", but should have returned " ++
          toString check_against ++ "\n"], 2⟩
    else if function_name = "fread()" then
      some ⟨[CLEAR_CONSOLE, "Error 3: Read-from-file error.\n",
        "fread() returned " ++ toString return_value ++ ", but should have returned " ++
          toString check_against ++ "\n"], 3⟩
    else if function_name = "fseek()" then
      some ⟨[CLEAR_CONSOLE, "Error 4: File-position error.\n",
        "fseek() returned " ++ toString return_value ++ ", but should have returned " ++
          toString check_against ++ "\n"], 4⟩
    else none
  else none

/-- The file and the program while `draw_maze` writes: the bytes in the file, the number of
calls of `fwrite` made, and the end of the program if `error_check` has ended it. -/
structure Written where
  file : List Nat
  calls : Nat
  ended : Option Exit
  deriving DecidableEq, Repr

/-- One statement `error_check("fwrite()", 1, fwrite(bytes, size, 1, maze_file), maze_file)`,
where `fwrite_result n` is what the call number `n` of `fwrite` returns: 1 when the bytes were
written.  Nothing happens once the program has ended. -/
def checked_fwrite (fwrite_result : Nat → Int) (bytes : List Nat) (w : Written) : Written :=
  match w.ended with
  | some _ => w
  | none =>
    match error_check "fwrite()" 1 (fwrite_result w.calls) with
    | some e => ⟨w.file, w.calls + 1, some e⟩
    | none => ⟨w.file ++ bytes, w.calls + 1, none⟩

/-- The two writing steps of `draw_maze` with their calls of `error_check`: the header in one
call of `fwrite`, then one call for every cell `maze[i][j]`. -/
def write_maze_checked (fwrite_result : Nat → Int) (maze : List Nat)
    (y_dimension x_dimension start_y start_x : Int) : Run Written :=
  let header : List Nat :=
    [to_uint8 x_dimension, to_uint8 y_dimension, to_uint8 start_x, to_uint8 start_y]
  for_loop (fun i w =>
    for_loop (fun j w =>
      match w.ended with
      | some _ => .ok w
      | none => do
        let c ← load maze (MAZE_OF_I_OF_J i j x_dimension)
        return checked_fwrite fwrite_result [c] w) x_dimension.toNat w) y_dimension.toNat
    (checked_fwrite fwrite_result header ⟨[], 0, none⟩)

/-- What `error_check` prints and the status it exits with when `fwrite` returned `r`
instead of 1. -/
def fwrite_report (r : Int) : Exit :=
  ⟨[CLEAR_CONSOLE, "Error 2: Write-to-file error.\n",
    "fwrite() returned " ++ toString r ++ ", but should have returned " ++
      toString (1 : Int) ++ "\n"], 2⟩

/-- The result of `fwrite` that fails (returns 0) at call number `n` only. -/
def fails_at (n : Nat) : Nat → Int := fun m => if m = n then 0 else 1

/-! ## The walk of `draw_critical_path`, position by position -/

/-- Two positions (row, column) that differ by exactly one step up, down, left or right. -/
def adjacent (p q : Int × Int) : Prop :=
  (q.1 = p.1 - 1 ∧ q.2 = p.2) ∨ (q.1 = p.1 + 1 ∧ q.2 = p.2) ∨
    (q.1 = p.1 ∧ q.2 = p.2 - 1) ∨ (q.1 = p.1 ∧ q.2 = p.2 + 1)

instance (p q : Int × Int) : Decidable (adjacent p q) := by unfold adjacent; infer_instance

/-- The position held by a state of the walk. -/
def Walk.position (w : Walk) : Int × Int := (w.i, w.j)

/-- The states of the do-while loop of `draw_critical_path` at the start of each of its
passes, in order: the state it is entered with, then the state after every pass whose
`find_move` gave a step.  The list ends with the pass that leaves the loop (`valid_moves`
false), or when the pass does not return. -/
def critical_path_trace (rand : Nat → Nat) (x_dimension : Int) : Nat → Walk → List Walk
  | 0, w => [w]
  | fuel + 1, w =>
    match critical_path_step (fuel + 1) rand x_dimension w with
    | .ok (w2, true) => w :: critical_path_trace rand x_dimension fuel w2
    | _ => [w]

/-- No two cells of the list that are not next to each other in the list are adjacent. -/
def apart : List (Int × Int) → Prop
  | [] => True
  | [_] => True
  | p :: q :: rest => (∀ r ∈ rest, ¬ adjacent p r) ∧ apart (q :: rest)

/-- Number of path cells among the four cells one step up, down, left and right of
`(i, j)`. -/
def path_neighbours (maze : List Nat) (y x i j : Int) : Nat :=
  ([(i - 1, j), (i + 1, j), (i, j - 1), (i, j + 1)].filter
    (fun p => decide (is_path (cell maze y x p.1 p.2)))).length

/-- What the trace `w :: rest` of a walk that returned `wl` satisfies; `w.maze` is the grid
at the start of the walk. -/
structure Trail (y x : Int) (w wl : Walk) (rest : List Walk) : Prop where
  last : ∃ wz, (w :: rest).getLast? = some wz ∧ wz.maze = wl.maze ∧ wz.i = wl.i ∧ wz.j = wl.j
  chain : List.Chain' (fun a b : Walk => adjacent (a.i, a.j) (b.i, b.j) ∧
    cell a.maze y x b.i b.j = some WALL) (w :: rest)
  wall : ∀ b ∈ rest, cell w.maze y x b.i b.j = some WALL
  first : ∀ b, rest.head? = some b → ∀ q : Int × Int, adjacent (b.i, b.j) q →
    is_path (cell w.maze y x q.1 q.2) → q = (w.i, w.j)
  later : ∀ b ∈ rest.tail, ∀ q : Int × Int, adjacent (b.i, b.j) q →
    ¬ is_path (cell w.maze y x q.1 q.2)
  apart : apart ((w :: rest).map Walk.position)
  nodup : ((w :: rest).map Walk.position).Nodup
  cells : ∀ a c, is_path (cell wl.maze y x a c) ↔
    is_path (cell w.maze y x a c) ∨ (a, c) ∈ rest.map Walk.position
  stuck : rest = [] → ∀ d, ¬ legal w.maze y x w.i w.j d

/-- The random source that returns 1, 1, 0, 3 and from then on 2. -/
def stall_rand : Nat → Nat := fun n => [1, 1, 0, 3].getD n 2

/-- The 5 by 5 grid that `draw_maze` hands to `draw_critical_path` on `stall_rand`: the ring
drawn, START in row 2, column 2, WALL elsewhere. -/
def fresh_5x5 : List Nat :=
  [66, 66, 66, 66, 66,
   66, 49, 49, 49, 66,
   66, 49, 83, 49, 66,
   66, 49, 49, 49, 66,
   66, 66, 66, 66, 66]

/-- What `draw_critical_path` makes of `fresh_5x5` on `stall_rand`: one step up, one step
right, END there. -/
def stalled_5x5 : List Nat :=
  [66, 66, 66, 66, 66,
   66, 49, 48, 69, 66,
   66, 49, 83, 49, 66,
   66, 49, 49, 49, 66,
   66, 66, 66, 66, 66]

/-! ## The scans of `draw_dead_ends` -/

/-- Number of cells of the buffer that hold WALL. -/
def wall_count (maze : List Nat) : Nat := maze.count WALL

/-- The random source that returns 2, 1 and from then on 2. -/
def west_rand : Nat → Nat := fun n => if n = 1 then 1 else 2

/-! ## `maze.c`: the dimensions that `main` passes to `draw_maze` -/

/-- One of the two prompt loops of `main`, `do { SCAN("%d", &v) } while (v < low || v > high)`,
on the outcomes of the successive calls of `scanf`: `some v` when it stored `v` and returned
1, `none` when it did not return 1, which ends the program through `error_check`.  Returns
the value the loop ends with and the input left, or `none` when the program ended or the
input ran out. -/
def prompt_dimension (low high : Int) : List (Option Int) → Option (Int × List (Option Int))
  | [] => none
  | none :: _ => none
  | some v :: rest =>
    if v < low ∨ v > high then prompt_dimension low high rest else some (v, rest)

/-- The part of `main` that makes a new maze: the prompt for the width (10 to 150), the prompt
for the height (10 to 50), then the call `draw_maze(maze_file, y, x)`. -/
def main_new_maze (fuel : Nat) (rand : Nat → Nat) (inputs : List (Option Int)) :
    Option (Run Generated) := do
  let (x, rest) ← prompt_dimension 10 150 inputs
  let (y, _) ← prompt_dimension 10 50 rest
  return draw_maze fuel rand y x

/-! ## Grids that differ by carving -/

/-- The second grid comes from the first by carving: every cell is as it was, or held WALL
and now holds FLOOR or END, or held FLOOR and now holds END. -/
def carved (g g2 : List Nat) (y x : Int) : Prop :=
  ∀ i j, cell g2 y x i j = cell g y x i j ∨
    (cell g y x i j = some WALL ∧
      (cell g2 y x i j = some FLOOR ∨ cell g2 y x i j = some END)) ∨
    (cell g y x i j = some FLOOR ∧ cell g2 y x i j = some END)

/-! ## The cell a step leads to -/

/-- The cell one step from `(i, j)` in direction `d`: up for GO_UP, down for GO_DOWN, left
for GO_LEFT, right for every other value. -/
def step_target (d i j : Int) : Int × Int :=
  if d = GO_UP then (i - 1, j)
  else if d = GO_DOWN then (i + 1, j)
  else if d = GO_LEFT then (i, j - 1)
  else (i, j + 1)

/-- The second grid comes from the first by turning WALL cells into FLOOR: every cell is as
it was, or held WALL and now holds FLOOR. -/
def dug (g g2 : List Nat) (y x : Int) : Prop :=
  ∀ i j, cell g2 y x i j = cell g y x i j ∨
    (cell g y x i j = some WALL ∧ cell g2 y x i j = some FLOOR)

/-! ## Trees of cells -/

/-- The cells of the list were put together one by one, the newest first in the list: the
last cell of the list stood alone, and every other cell, when it was added, was not yet there
and was adjacent to exactly one of the cells already there. -/
def grown : List (Int × Int) → Prop
  | [] => False
  | c :: rest => rest = [] ∨ (c ∉ rest ∧
      (∃ a ∈ rest, adjacent c a ∧ ∀ a2 ∈ rest, adjacent c a2 → a2 = a) ∧ grown rest)

/-- A route from `s` to `c` through cells of the set `cells`: consecutive cells are
adjacent and no cell occurs twice. -/
structure Route (cells : Int × Int → Prop) (s c : Int × Int) (r : List (Int × Int)) :
    Prop where
  head : r.head? = some s
  last : r.getLast? = some c
  chain : r.Chain' adjacent
  nodup : r.Nodup
  inside : ∀ p ∈ r, cells p

/-- The path cells of the grid are the cells of `order`, which is grown from the cell `s`. -/
structure Tree (m : List Nat) (y x : Int) (s : Int × Int) (order : List (Int × Int)) :
    Prop where
  last : order.getLast? = some s
  grown : grown order
  cells : ∀ a b, is_path (cell m y x a b) ↔ (a, b) ∈ order

/-- The state `b` of the walk comes from the state `a` by one carving step: the position of
`b` is inside the ring and adjacent to that of `a`, it held WALL in the grid of `a`, and the
grid of `b` is the grid of `a` with FLOOR at that position. -/
def carve_step (y x : Int) (a b : Walk) : Prop :=
  interior y x b.i b.j ∧ adjacent (a.i, a.j) (b.i, b.j) ∧
    cell a.maze y x b.i b.j = some WALL ∧
    ∀ p q, cell b.maze y x p q = if p = b.i ∧ q = b.j then some FLOOR else cell a.maze y x p q

/-! ## The cells that `find_move` reads, and the grids it is called on -/

/-- A read of the buffer: the offset read, and the row and column that the macro used for
the read names (`UP_LEFT` names the cell one row up and one column left, and so on). -/
structure Read where
  offset : Int
  row : Int
  col : Int
  deriving DecidableEq, Repr

/-- The reads of one direction test of `find_move`, in the order of `valid_direction`: the
neighbour, then each look-ahead cell as long as the tests before it did not settle the
direction. -/
def valid_direction_reads (maze : List Nat) (n a b c : Read) : List Read :=
  n :: match load maze n.offset with
    | .error _ => []
    | .ok vn =>
      if vn ≠ WALL then []
      else a :: match load maze a.offset with
        | .error _ => []
        | .ok va =>
          if va = FLOOR ∨ va = START ∨ va = END then []
          else b :: match load maze b.offset with
            | .error _ => []
            | .ok vb =>
              if vb = FLOOR ∨ vb = START ∨ vb = END then [] else [c]

/-- The reads of a call of `find_move` at `(i, j)`: those of the four direction tests, up,
down, left, right, a test being made only when the one before it returned. -/
def find_move_reads (maze : List Nat) (i j x_dimension : Int) : List Read :=
  valid_direction_reads maze ⟨UP i j x_dimension, i - 1, j⟩
      ⟨UP_UP i j x_dimension, i - 2, j⟩ ⟨UP_LEFT i j x_dimension, i - 1, j - 1⟩
      ⟨UP_RIGHT i j x_dimension, i - 1, j + 1⟩ ++
    match valid_direction maze (UP i j x_dimension) (UP_UP i j x_dimension)
      (UP_LEFT i j x_dimension) (UP_RIGHT i j x_dimension) with
    | .error _ => []
    | .ok _ =>
      valid_direction_reads maze ⟨DOWN i j x_dimension, i + 1, j⟩
          ⟨DOWN_DOWN i j x_dimension, i + 2, j⟩ ⟨DOWN_LEFT i j x_dimension, i + 1, j - 1⟩
          ⟨DOWN_RIGHT i j x_dimension, i + 1, j + 1⟩ ++
        match valid_direction maze (DOWN i j x_dimension) (DOWN_DOWN i j x_dimension)
          (DOWN_LEFT i j x_dimension) (DOWN_RIGHT i j x_dimension) with
        | .error _ => []
        | .ok _ =>
          valid_direction_reads maze ⟨LEFT i j x_dimension, i, j - 1⟩
              ⟨LEFT_UP i j x_dimension, i - 1, j - 1⟩
              ⟨LEFT_DOWN i j x_dimension, i + 1, j - 1⟩
              ⟨LEFT_LEFT i j x_dimension, i, j - 2⟩ ++
            match valid_direction maze (LEFT i j x_dimension) (LEFT_UP i j x_dimension)
              (LEFT_DOWN i j x_dimension) (LEFT_LEFT i j x_dimension) with
            | .error _ => []
            | .ok _ =>
              valid_direction_reads maze ⟨RIGHT i j x_dimension, i, j + 1⟩
                ⟨RIGHT_UP i j x_dimension, i - 1, j + 1⟩
                ⟨RIGHT_DOWN i j x_dimension, i + 1, j + 1⟩
                ⟨RIGHT_RIGHT i j x_dimension, i, j + 2⟩

/-- The grid has its size and every cell of its ring holds BORDER. -/
def bordered (maze : List Nat) (y x : Int) : Prop :=
  Sized maze y x ∧
    ∀ i j, 0 ≤ i → i < y → 0 ≤ j → j < x → on_ring y x i j → cell maze y x i j = some BORDER

/-- The state of a scan of `draw_dead_ends` when it comes to the cell in row `i`, column
`j`: the rows before row `i` have been visited, and the cells of row `i` before column `j`. -/
def dead_end_scan_upto (fuel : Nat) (rand : Nat → Nat) (k : Nat) (maze : List Nat)
    (x_dimension : Int) (i j : Nat) : Run Scan := do
  let s ← for_loop (fun i s =>
    for_loop (fun j s => dead_end_visit fuel rand x_dimension i j s) x_dimension.toNat s)
    i ⟨maze, k, false⟩
  for_loop (fun j s => dead_end_visit fuel rand x_dimension (i : Int) j s) j s

/-! ## `maze.c`: `update_map` and the gameplay loop of `play` -/

/-- One statement `MAP_OF_I_OF_J = MAZE_OF_I_OF_J == BORDER ? WALL : MAZE_OF_I_OF_J` of
`update_map`, at the values `i`, `j`. -/
def reveal (map maze : List Nat) (i j x_dimension : Int) : Run (List Nat) := do
  let c ← load maze (MAZE_OF_I_OF_J i j x_dimension)
  store map (MAP_OF_I_OF_J i j x_dimension) (if c = BORDER then WALL else c)

/-- Function `update_map`: the player's cell, the cells one row up, one row down, one column
right and one column left of it, in this order, then the mark of the player, the
character `*`. -/
def update_map (map maze : List Nat) (player_y player_x x_dimension : Int) :
    Run (List Nat) := do
  let map ← reveal map maze player_y player_x x_dimension
  let map ← reveal map maze (player_y - 1) player_x x_dimension
  let map ← reveal map maze (player_y + 1) player_x x_dimension
  let map ← reveal map maze player_y (player_x + 1) x_dimension
  let map ← reveal map maze player_y (player_x - 1) x_dimension
  store map (MAP_OF_I_OF_J player_y player_x x_dimension) 42

/-- How the gameplay loop of `play` ends: the player has won, or the program has ended
through `exit`. -/
inductive Ending where
  | won
  | exited (status : Nat)
  deriving DecidableEq, Repr

/-- What the gameplay loop of `play` went through: the variables of `play` after every call
of `obey_player` that returned, in order, and how the loop ended. -/
structure Played where
  states : List Player
  ending : Ending
  deriving DecidableEq, Repr

/-- The do-while loop of `play` from a call of `read_player` on, and through it the passes
of the while loop that follow, on the commands that `read_player` reads one after the
other.  When the input has ended `scanf` does not return 1 and `error_check` ends the
program with status 1.  After `obey_player`: the do-while loop goes on while `movement` is
false; then the while loop ends when `won` is set, and otherwise makes its next pass, with
`update_map` and `movement = false`. -/
def play_turn (maze : List Nat) (y_dimension x_dimension start_y start_x : Int) :
    List (List Nat) → Player → Run Played
  | [], _ => .ok ⟨[], .exited 1⟩
  | command :: rest, p => do
    let r ← obey_player command p maze y_dimension x_dimension start_y start_x
    match r with
    | .exited status => return ⟨[], .exited status⟩
    | .returned p2 =>
      if p2.movement = false then do
        let r ← play_turn maze y_dimension x_dimension start_y start_x rest p2
        return ⟨p2 :: r.states, r.ending⟩
      else if p2.won = true then return ⟨[p2], .won⟩
      else do
        let map ← update_map p2.map maze p2.player_y p2.player_x x_dimension
        let r ← play_turn maze y_dimension x_dimension start_y start_x rest
          { p2 with map := map, movement := false }
        return ⟨p2 :: r.states, r.ending⟩

/-- Function `play` from the decoded file to the end of its gameplay loop, without what it
prints: the player at the start cell, the first map, the first pass of the while loop up to
the do-while loop, and then the commands. -/
def play_game (l : Loaded) (commands : List (List Nat)) : Run Played := do
  let map := List.replicate (l.y_dimension * l.x_dimension).toNat 0
  let map ← play_init_map map l.maze l.y_dimension l.x_dimension
  let map ← update_map map l.maze l.start_y l.start_x l.x_dimension
  play_turn l.maze l.y_dimension l.x_dimension l.start_y l.start_x commands
    ⟨false, l.start_y, l.start_x, false, map⟩

/-- The player stands on a cell that holds FLOOR or START. -/
def on_floor (maze : List Nat) (y x : Int) (p : Player) : Prop :=
  cell maze y x p.player_y p.player_x = some FLOOR ∨
    cell maze y x p.player_y p.player_x = some START

instance (maze : List Nat) (y x : Int) (p : Player) : Decidable (on_floor maze y x p) := by
  unfold on_floor; infer_instance

/-! ## What `update_map` writes -/

/-- What `update_map` shows of a maze cell: WALL for BORDER, the value of the cell
otherwise. -/
def shown (c : Nat) : Nat := if c = BORDER then WALL else c

/-- The map holds the mark of the player, the character `*`, in row `i`, column `j` and in
no other cell. -/
def one_mark (map : List Nat) (y x i j : Int) : Prop :=
  ∀ a b, cell map y x a b = some 42 ↔ (a = i ∧ b = j)

theorem index_bounds {y x i j : Int} (hi0 : 0 ≤ i) (hi : i < y) (hj0 : 0 ≤ j) (hj : j < x) :
    0 ≤ i * x + j ∧ i * x + j < y * x := by
  have h1 : 0 ≤ i * x := mul_nonneg hi0 (by omega)
  have h2 : (i + 1) * x ≤ y * x := mul_le_mul_of_nonneg_right (by omega) (by omega)
  have h3 : (i + 1) * x = i * x + x := by ring
  constructor <;> omega

theorem index_inj {x i j a b : Int} (hj0 : 0 ≤ j) (hj : j < x) (hb0 : 0 ≤ b) (hb : b < x)
    (h : i * x + j = a * x + b) : i = a ∧ j = b := by
  have hia : i = a := by
    rcases lt_trichotomy i a with hlt | heq | hgt
    · exfalso
      have h2 : (i + 1) * x ≤ a * x := mul_le_mul_of_nonneg_right (by omega) (by omega)
      have h3 : (i + 1) * x = i * x + x := by ring
      omega
    · exact heq
    · exfalso
      have h2 : (a + 1) * x ≤ i * x := mul_le_mul_of_nonneg_right (by omega) (by omega)
      have h3 : (a + 1) * x = a * x + x := by ring
      omega
  subst hia
  exact ⟨rfl, by omega⟩

/-! ## Reads and writes through rows and columns -/

theorem load_ok_iff {maze : List Nat} {p : Int} {c : Nat} :
    load maze p = .ok c ↔ 0 ≤ p ∧ maze[p.toNat]? = some c := by
  unfold load
  by_cases hp : p < 0
  · simp [hp]
  · simp only [hp, if_false]
    cases h : maze[p.toNat]? <;> simp
    omega

theorem cell_in_range {maze : List Nat} {y x i j : Int} {c : Nat}
    (h : cell maze y x i j = some c) : 0 ≤ i ∧ i < y ∧ 0 ≤ j ∧ j < x := by
  unfold cell at h
  by_cases hr : 0 ≤ i ∧ i < y ∧ 0 ≤ j ∧ j < x
  · exact hr
  · simp [hr] at h

theorem cell_some {maze : List Nat} {y x i j : Int} (hs : Sized maze y x)
    (hi0 : 0 ≤ i) (hi : i < y) (hj0 : 0 ≤ j) (hj : j < x) :
    ∃ c, cell maze y x i j = some c := by
  obtain ⟨_, _, hlen⟩ := hs
  obtain ⟨h1, h2⟩ := index_bounds hi0 hi hj0 hj
  have hlt : (MAZE_OF_I_OF_J i j x).toNat < maze.length := by
    unfold MAZE_OF_I_OF_J; omega
  refine ⟨maze[(MAZE_OF_I_OF_J i j x).toNat], ?_⟩
  unfold cell
  simp only [hi0, hi, hj0, hj, and_self, if_true]
  exact List.getElem?_eq_getElem hlt

theorem load_cell {maze : List Nat} {y x i j : Int}
    (hi0 : 0 ≤ i) (hi : i < y) (hj0 : 0 ≤ j) (hj : j < x) (c : Nat) :
    load maze (MAZE_OF_I_OF_J i j x) = .ok c ↔ cell maze y x i j = some c := by
  rw [load_ok_iff]
  have h1 : 0 ≤ MAZE_OF_I_OF_J i j x := by
    unfold MAZE_OF_I_OF_J; exact (index_bounds hi0 hi hj0 hj).1
  unfold cell
  simp only [hi0, hi, hj0, hj, and_self, if_true, h1, true_and]

theorem store_cell {maze : List Nat} {y x a b : Int} (hs : Sized maze y x)
    (ha0 : 0 ≤ a) (ha : a < y) (hb0 : 0 ≤ b) (hb : b < x) (v : Nat) :
    ∃ m, store maze (MAZE_OF_I_OF_J a b x) v = .ok m ∧ Sized m y x ∧
      ∀ i j, cell m y x i j = if i = a ∧ j = b then some v else cell maze y x i j := by
  obtain ⟨hy, hx, hlen⟩ := hs
  obtain ⟨h1, h2⟩ := index_bounds ha0 ha hb0 hb
  have hlt : (MAZE_OF_I_OF_J a b x).toNat < maze.length := by
    unfold MAZE_OF_I_OF_J; omega
  have h1m : 0 ≤ MAZE_OF_I_OF_J a b x := h1
  refine ⟨maze.set (MAZE_OF_I_OF_J a b x).toNat v, ?_, ⟨hy, hx, by simpa using hlen⟩, ?_⟩
  · unfold store
    have : ¬ (MAZE_OF_I_OF_J a b x < 0 ∨ (maze.length : Int) ≤ MAZE_OF_I_OF_J a b x) := by omega
    simp only [this, if_false]
  · intro i j
    unfold cell
    by_cases hr : 0 ≤ i ∧ i < y ∧ 0 ≤ j ∧ j < x
    · simp only [hr, and_self, if_true]
      obtain ⟨hi0, hi, hj0, hj⟩ := hr
      have h3 : 0 ≤ MAZE_OF_I_OF_J i j x := (index_bounds hi0 hi hj0 hj).1
      by_cases hij : i = a ∧ j = b
      · obtain ⟨rfl, rfl⟩ := hij
        simp only [and_self, if_true]
        rw [List.getElem?_set_self hlt]
      · simp only [hij, if_false]
        rw [List.getElem?_set_ne]
        intro heq
        apply hij
        have : MAZE_OF_I_OF_J a b x = MAZE_OF_I_OF_J i j x := by omega
        unfold MAZE_OF_I_OF_J at this
        exact index_inj hj0 hj hb0 hb this.symm
    · have : ¬ (i = a ∧ j = b) := by
        intro ⟨e1, e2⟩; subst e1; subst e2; exact hr ⟨ha0, ha, hb0, hb⟩
      simp [hr, this]

/-! ## The offsets of the macros are the neighbouring rows and columns -/

theorem UP_eq (i j x : Int) : UP i j x = MAZE_OF_I_OF_J (i - 1) j x := by
  unfold UP MAZE_OF_I_OF_J; ring
theorem DOWN_eq (i j x : Int) : DOWN i j x = MAZE_OF_I_OF_J (i + 1) j x := by
  unfold DOWN MAZE_OF_I_OF_J; ring
theorem LEFT_eq (i j x : Int) : LEFT i j x = MAZE_OF_I_OF_J i (j - 1) x := by
  unfold LEFT MAZE_OF_I_OF_J; ring
theorem RIGHT_eq (i j x : Int) : RIGHT i j x = MAZE_OF_I_OF_J i (j + 1) x := by
  unfold RIGHT MAZE_OF_I_OF_J; ring
theorem UP_UP_eq (i j x : Int) : UP_UP i j x = MAZE_OF_I_OF_J (i - 2) j x := by
  unfold UP_UP MAZE_OF_I_OF_J; ring
theorem UP_LEFT_eq (i j x : Int) : UP_LEFT i j x = MAZE_OF_I_OF_J (i - 1) (j - 1) x := by
  unfold UP_LEFT MAZE_OF_I_OF_J; ring
theorem UP_RIGHT_eq (i j x : Int) : UP_RIGHT i j x = MAZE_OF_I_OF_J (i - 1) (j + 1) x := by
  unfold UP_RIGHT MAZE_OF_I_OF_J; ring
theorem DOWN_DOWN_eq (i j x : Int) : DOWN_DOWN i j x = MAZE_OF_I_OF_J (i + 2) j x := by
  unfold DOWN_DOWN MAZE_OF_I_OF_J; ring
theorem DOWN_LEFT_eq (i j x : Int) : DOWN_LEFT i j x = MAZE_OF_I_OF_J (i + 1) (j - 1) x := by
  unfold DOWN_LEFT MAZE_OF_I_OF_J; ring
theorem DOWN_RIGHT_eq (i j x : Int) : DOWN_RIGHT i j x = MAZE_OF_I_OF_J (i + 1) (j + 1) x := by
  unfold DOWN_RIGHT MAZE_OF_I_OF_J; ring
theorem LEFT_UP_eq (i j x : Int) : LEFT_UP i j x = MAZE_OF_I_OF_J (i - 1) (j - 1) x := by
  unfold LEFT_UP MAZE_OF_I_OF_J; ring
theorem LEFT_DOWN_eq (i j x : Int) : LEFT_DOWN i j x = MAZE_OF_I_OF_J (i + 1) (j - 1) x := by
  unfold LEFT_DOWN MAZE_OF_I_OF_J; ring
theorem LEFT_LEFT_eq (i j x : Int) : LEFT_LEFT i j x = MAZE_OF_I_OF_J i (j - 2) x := by
  unfold LEFT_LEFT MAZE_OF_I_OF_J; ring
theorem RIGHT_UP_eq (i j x : Int) : RIGHT_UP i j x = MAZE_OF_I_OF_J (i - 1) (j + 1) x := by
  unfold RIGHT_UP MAZE_OF_I_OF_J; ring
theorem RIGHT_DOWN_eq (i j x : Int) : RIGHT_DOWN i j x = MAZE_OF_I_OF_J (i + 1) (j + 1) x := by
  unfold RIGHT_DOWN MAZE_OF_I_OF_J; ring
theorem RIGHT_RIGHT_eq (i j x : Int) : RIGHT_RIGHT i j x = MAZE_OF_I_OF_J i (j + 2) x := by
  unfold RIGHT_RIGHT MAZE_OF_I_OF_J; ring

/-! ## What `valid_direction` computes -/

theorem is_path_some (v : Nat) : is_path (some v) ↔ (v = FLOOR ∨ v = START ∨ v = END) := by
  simp [is_path]

theorem valid_direction_cells {maze : List Nat} {y x ni nj ai aj bi bj ci cj : Int}
    (hs : Sized maze y x)
    (hn : 0 ≤ ni ∧ ni < y ∧ 0 ≤ nj ∧ nj < x)
    (hnext : cell maze y x ni nj = some WALL →
      (0 ≤ ai ∧ ai < y ∧ 0 ≤ aj ∧ aj < x) ∧ (0 ≤ bi ∧ bi < y ∧ 0 ≤ bj ∧ bj < x) ∧
      (0 ≤ ci ∧ ci < y ∧ 0 ≤ cj ∧ cj < x)) :
    valid_direction maze (MAZE_OF_I_OF_J ni nj x) (MAZE_OF_I_OF_J ai aj x)
      (MAZE_OF_I_OF_J bi bj x) (MAZE_OF_I_OF_J ci cj x)
      = .ok (decide (clear_at maze y x ni nj ai aj bi bj ci cj)) := by
  obtain ⟨vn, hvn⟩ := cell_some hs hn.1 hn.2.1 hn.2.2.1 hn.2.2.2
  have ln := (load_cell hn.1 hn.2.1 hn.2.2.1 hn.2.2.2 vn).2 hvn
  unfold valid_direction
  by_cases hw : vn = WALL
  · subst hw
    obtain ⟨ha, hb, hc⟩ := hnext hvn
    obtain ⟨va, hva⟩ := cell_some hs ha.1 ha.2.1 ha.2.2.1 ha.2.2.2
    obtain ⟨vb, hvb⟩ := cell_some hs hb.1 hb.2.1 hb.2.2.1 hb.2.2.2
    obtain ⟨vc, hvc⟩ := cell_some hs hc.1 hc.2.1 hc.2.2.1 hc.2.2.2
    have la := (load_cell ha.1 ha.2.1 ha.2.2.1 ha.2.2.2 va).2 hva
    have lb := (load_cell hb.1 hb.2.1 hb.2.2.1 hb.2.2.2 vb).2 hvb
    have lc := (load_cell hc.1 hc.2.1 hc.2.2.1 hc.2.2.2 vc).2 hvc
    simp only [ln, la, lb, lc, clear_at, hvn, hva, hvb, hvc, is_path_some, bind, Except.bind,
      pure, Except.pure, ne_eq, not_true_eq_false, if_false, true_and]
    by_cases pa : va = FLOOR ∨ va = START ∨ va = END
    · simp [pa]
    · by_cases pb : vb = FLOOR ∨ vb = START ∨ vb = END
      · simp [pa, pb]
      · by_cases pc : vc = FLOOR ∨ vc = START ∨ vc = END
        · simp [pa, pb, pc]
        · simp [pa, pb, pc]
  · have : ¬ cell maze y x ni nj = some WALL := by rw [hvn]; simpa using hw
    simp [ln, hw, clear_at, this, bind, Except.bind, pure, Except.pure]

/-! ## What `find_move` computes -/

theorem find_move_eq {maze : List Nat} {y x i j : Int} (hs : Sized maze y x)
    (hring : ring_closed maze y x) (hin : interior y x i j)
    (fuel : Nat) (rand : Nat → Nat) (k : Nat) :
    find_move fuel rand k maze i j x =
      if ¬ legal_up maze y x i j ∧ ¬ legal_down maze y x i j ∧
          ¬ legal_left maze y x i j ∧ ¬ legal_right maze y x i j then .ok (NO_VALID_STEP, k)
      else pick_direction (decide (legal_up maze y x i j)) (decide (legal_down maze y x i j))
        (decide (legal_left maze y x i j)) (decide (legal_right maze y x i j)) rand fuel k := by
  obtain ⟨h1, h2, h3, h4⟩ := hin
  have hu : valid_direction maze (UP i j x) (UP_UP i j x) (UP_LEFT i j x) (UP_RIGHT i j x)
      = .ok (decide (legal_up maze y x i j)) := by
    rw [UP_eq, UP_UP_eq, UP_LEFT_eq, UP_RIGHT_eq]
    apply valid_direction_cells hs (by omega)
    intro hw
    have : ¬ on_ring y x (i - 1) j := fun hr => hring _ _ hr hw
    unfold on_ring at this
    omega
  have hd : valid_direction maze (DOWN i j x) (DOWN_DOWN i j x) (DOWN_LEFT i j x)
      (DOWN_RIGHT i j x) = .ok (decide (legal_down maze y x i j)) := by
    rw [DOWN_eq, DOWN_DOWN_eq, DOWN_LEFT_eq, DOWN_RIGHT_eq]
    apply valid_direction_cells hs (by omega)
    intro hw
    have : ¬ on_ring y x (i + 1) j := fun hr => hring _ _ hr hw
    unfold on_ring at this
    omega
  have hl : valid_direction maze (LEFT i j x) (LEFT_UP i j x) (LEFT_DOWN i j x)
      (LEFT_LEFT i j x) = .ok (decide (legal_left maze y x i j)) := by
    rw [LEFT_eq, LEFT_UP_eq, LEFT_DOWN_eq, LEFT_LEFT_eq]
    apply valid_direction_cells hs (by omega)
    intro hw
    have : ¬ on_ring y x i (j - 1) := fun hr => hring _ _ hr hw
    unfold on_ring at this
    omega
  have hr : valid_direction maze (RIGHT i j x) (RIGHT_UP i j x) (RIGHT_DOWN i j x)
      (RIGHT_RIGHT i j x) = .ok (decide (legal_right maze y x i j)) := by
    rw [RIGHT_eq, RIGHT_UP_eq, RIGHT_DOWN_eq, RIGHT_RIGHT_eq]
    apply valid_direction_cells hs (by omega)
    intro hw
    have : ¬ on_ring y x i (j + 1) := fun hr => hring _ _ hr hw
    unfold on_ring at this
    omega
  unfold find_move
  simp only [hu, hd, hl, hr, bind, Except.bind, pure, Except.pure]
  by_cases c1 : legal_up maze y x i j <;> by_cases c2 : legal_down maze y x i j <;>
    by_cases c3 : legal_left maze y x i j <;> by_cases c4 : legal_right maze y x i j <;>
    simp [c1, c2, c3, c4]

theorem tmod_directions (r : Nat) :
    Int.tmod (r : Int) DIRECTIONS = GO_UP ∨ Int.tmod (r : Int) DIRECTIONS = GO_DOWN ∨
      Int.tmod (r : Int) DIRECTIONS = GO_LEFT ∨ Int.tmod (r : Int) DIRECTIONS = GO_RIGHT := by
  unfold DIRECTIONS GO_UP GO_DOWN GO_LEFT GO_RIGHT
  rw [Int.tmod_eq_emod (by omega) (by omega)]
  omega

/-- What the selection loop returns is a direction whose flag is set, and it has drawn at
least one random value. -/
theorem pick_direction_sound {vu vd vl vr : Bool} {rand : Nat → Nat} :
    ∀ (fuel k : Nat) {d : Int} {k2 : Nat},
      pick_direction vu vd vl vr rand fuel k = .ok (d, k2) →
      k < k2 ∧ ((d = GO_UP ∧ vu = true) ∨ (d = GO_DOWN ∧ vd = true) ∨
        (d = GO_LEFT ∧ vl = true) ∨ (d = GO_RIGHT ∧ vr = true)) := by
  intro fuel
  induction fuel with
  | zero => intro k d k2 h; simp [pick_direction] at h
  | succ n ih =>
    intro k d k2 h
    unfold pick_direction at h
    simp only at h
    split_ifs at h with c1 c2 c3 c4
    · have := ih _ h; exact ⟨by omega, this.2⟩
    · have := ih _ h; exact ⟨by omega, this.2⟩
    · have := ih _ h; exact ⟨by omega, this.2⟩
    · have := ih _ h; exact ⟨by omega, this.2⟩
    · simp only [Except.ok.injEq, Prod.mk.injEq] at h
      obtain ⟨hd, hk⟩ := h
      subst hd
      refine ⟨by omega, ?_⟩
      rcases tmod_directions (rand k) with e | e | e | e
      · left; refine ⟨e, ?_⟩; by_contra hv; exact c1 ⟨e, by simpa using hv⟩
      · right; left; refine ⟨e, ?_⟩; by_contra hv; exact c2 ⟨e, by simpa using hv⟩
      · right; right; left; refine ⟨e, ?_⟩; by_contra hv; exact c3 ⟨e, by simpa using hv⟩
      · right; right; right; refine ⟨e, ?_⟩; by_contra hv; exact c4 ⟨e, by simpa using hv⟩

/-- The selection loop performs no undefined operation. -/
theorem pick_direction_defined {vu vd vl vr : Bool} {rand : Nat → Nat} :
    ∀ (fuel k : Nat), pick_direction vu vd vl vr rand fuel k ≠ .error .undefined := by
  intro fuel
  induction fuel with
  | zero => intro k; simp [pick_direction]
  | succ n ih =>
    intro k
    unfold pick_direction
    simp only
    split_ifs
    · exact ih _
    · exact ih _
    · exact ih _
    · exact ih _
    · simp

/-- The selection loop returns once the random source supplies the number of a direction
whose flag is set: `n + 1` draws are enough when the draw number `k + n` is such a number. -/
theorem pick_direction_returns {vu vd vl vr : Bool} {rand : Nat → Nat} :
    ∀ (n k : Nat), flag_of vu vd vl vr (Int.tmod (rand (k + n) : Int) DIRECTIONS) = true →
      ∀ fuel, n + 1 ≤ fuel → ∃ r, pick_direction vu vd vl vr rand fuel k = .ok r := by
  intro n
  induction n with
  | zero =>
    intro k hf fuel hfuel
    obtain ⟨m, rfl⟩ : ∃ m, fuel = m + 1 := ⟨fuel - 1, by omega⟩
    unfold pick_direction
    simp only [flag_of, Nat.add_zero, decide_eq_true_eq] at hf
    simp only
    rcases hf with ⟨e, v⟩ | ⟨e, v⟩ | ⟨e, v⟩ | ⟨e, v⟩ <;>
      simp [e, v, GO_UP, GO_DOWN, GO_LEFT, GO_RIGHT]
  | succ n ih =>
    intro k hf fuel hfuel
    obtain ⟨m, rfl⟩ : ∃ m, fuel = m + 1 := ⟨fuel - 1, by omega⟩
    have hf2 : flag_of vu vd vl vr (Int.tmod (rand (k + 1 + n) : Int) DIRECTIONS) = true := by
      have : k + 1 + n = k + (n + 1) := by omega
      rw [this]; exact hf
    have := ih (k + 1) hf2 m (by omega)
    unfold pick_direction
    simp only
    split_ifs
    · exact this
    · exact this
    · exact this
    · exact this
    · exact ⟨_, rfl⟩

/-! ## Counting loops -/

/-- A property that every iteration carries from `n` to `n + 1` holds after the loop,
when the loop returns. -/
theorem for_loop_inv {σ : Type} (body : Int → σ → Run σ) (I : Nat → σ → Prop) (N : Nat)
    (hstep : ∀ n s s2, n < N → I n s → body (n : Int) s = .ok s2 → I (n + 1) s2) :
    ∀ M, M ≤ N → ∀ s s2, I 0 s → for_loop body M s = .ok s2 → I M s2 := by
  intro M
  induction M with
  | zero =>
    intro _ s s2 h0 h
    simp only [for_loop, Except.ok.injEq] at h
    subst h; exact h0
  | succ n ih =>
    intro hM s s2 h0 h
    simp only [for_loop, bind, Except.bind] at h
    cases hr : for_loop body n s with
    | error e => rw [hr] at h; simp at h
    | ok s1 =>
      rw [hr] at h
      exact hstep n s1 s2 (by omega) (ih (by omega) s s1 h0 hr) h

/-- The loop returns when every iteration returns under the property it carries. -/
theorem for_loop_total {σ : Type} (body : Int → σ → Run σ) (I : Nat → σ → Prop) (N : Nat)
    (hstep : ∀ n s, n < N → I n s → ∃ s2, body (n : Int) s = .ok s2 ∧ I (n + 1) s2) :
    ∀ M, M ≤ N → ∀ s, I 0 s → ∃ s2, for_loop body M s = .ok s2 ∧ I M s2 := by
  intro M
  induction M with
  | zero => intro _ s h0; exact ⟨s, rfl, h0⟩
  | succ n ih =>
    intro hM s h0
    obtain ⟨s1, h1, i1⟩ := ih (by omega) s h0
    obtain ⟨s2, h2, i2⟩ := hstep n s1 (by omega) i1
    refine ⟨s2, ?_, i2⟩
    simp only [for_loop, bind, Except.bind, h1]
    exact h2

/-- Two nested counting loops: a property carried cell by cell in row-major order. -/
theorem for_loop2_inv {σ : Type} (body : Int → Int → σ → Run σ) (I : Nat → Nat → σ → Prop)
    (Y X : Nat)
    (hrow : ∀ i s, i < Y → I i X s → I (i + 1) 0 s)
    (hstep : ∀ i j s s2, i < Y → j < X → I i j s → body (i : Int) (j : Int) s = .ok s2 →
      I i (j + 1) s2) :
    ∀ s s2, I 0 0 s →
      for_loop (fun i s => for_loop (fun j s => body i j s) X s) Y s = .ok s2 → I Y 0 s2 := by
  intro s s2 h0 h
  refine for_loop_inv (fun i s => for_loop (fun j s => body i j s) X s) (fun i s => I i 0 s) Y
    ?_ Y (le_refl _) s s2 h0 h
  intro i s1 s3 hi hI hrun
  apply hrow i s3 hi
  exact for_loop_inv (fun j s => body (i : Int) j s) (fun j s => I i j s) X
    (fun j t t2 hj hIj hb => hstep i j t t2 hi hj hIj hb) X (le_refl _) s1 s3 hI hrun

/-- Two nested counting loops return when every visit returns under the property carried. -/
theorem for_loop2_total {σ : Type} (body : Int → Int → σ → Run σ) (I : Nat → Nat → σ → Prop)
    (Y X : Nat)
    (hrow : ∀ i s, i < Y → I i X s → I (i + 1) 0 s)
    (hstep : ∀ i j s, i < Y → j < X → I i j s →
      ∃ s2, body (i : Int) (j : Int) s = .ok s2 ∧ I i (j + 1) s2) :
    ∀ s, I 0 0 s →
      ∃ s2, for_loop (fun i s => for_loop (fun j s => body i j s) X s) Y s = .ok s2 ∧
        I Y 0 s2 := by
  intro s h0
  refine for_loop_total (fun i s => for_loop (fun j s => body i j s) X s) (fun i s => I i 0 s) Y
    ?_ Y (le_refl _) s h0
  intro i s1 hi hI
  obtain ⟨s3, h3, i3⟩ := for_loop_total (fun j s => body (i : Int) j s) (fun j s => I i j s) X
    (fun j t hj hIj => hstep i j t hi hj hIj) X (le_refl _) s1 hI
  exact ⟨s3, h3, hrow i s3 hi i3⟩

/-! ## The grid before the walk: all WALL, the ring, the Start cell -/

theorem fill_walls_spec {maze : List Nat} {y x : Int} (hs : Sized maze y x) :
    ∃ m, fill_walls maze y x = .ok m ∧ Sized m y x ∧
      ∀ i j, 0 ≤ i → i < y → 0 ≤ j → j < x → cell m y x i j = some WALL := by
  have key := for_loop2_total (fun i j maze => store maze (MAZE_OF_I_OF_J i j x) WALL)
    (fun i j m => Sized m y x ∧ ∀ a b : Int, 0 ≤ a → a < y → 0 ≤ b → b < x →
      (a < i ∨ (a = i ∧ b < j)) → cell m y x a b = some WALL) y.toNat x.toNat
    (by
      intro i s _ ⟨h1, h2⟩
      refine ⟨h1, ?_⟩
      intro a b ha0 ha hb0 hb hlt
      apply h2 a b ha0 ha hb0 hb
      omega)
    (by
      intro i j s hi hj ⟨h1, h2⟩
      obtain ⟨m, hm, hsz, hc⟩ := store_cell h1 (a := (i : Int)) (b := (j : Int))
        (by omega) (by omega) (by omega) (by omega) WALL
      refine ⟨m, hm, hsz, ?_⟩
      intro a b ha0 ha hb0 hb hlt
      rw [hc]
      by_cases e : a = (i : Int) ∧ b = (j : Int)
      · simp [e]
      · simp only [e, if_false]
        apply h2 a b ha0 ha hb0 hb
        omega)
    maze ⟨hs, by intro a b ha0 _ hb0 _ h; omega⟩
  obtain ⟨m, hm, hsz, hc⟩ := key
  refine ⟨m, hm, hsz, ?_⟩
  intro i j hi0 hi hj0 hj
  apply hc i j hi0 hi hj0 hj
  omega

theorem draw_border_spec {maze : List Nat} {y x : Int} (hs : Sized maze y x) :
    ∃ m, draw_border maze y x = .ok m ∧ Sized m y x ∧
      ∀ i j, cell m y x i j =
        if 0 ≤ i ∧ i < y ∧ 0 ≤ j ∧ j < x ∧ on_ring y x i j then some BORDER
        else cell maze y x i j := by
  have key := for_loop2_total
    (fun i j maze =>
      if i = 0 ∨ i = y - 1 then store maze (MAZE_OF_I_OF_J i j x) BORDER
      else if j = 0 ∨ j = x - 1 then store maze (MAZE_OF_I_OF_J i j x) BORDER
      else .ok maze)
    (fun i j m => Sized m y x ∧ ∀ a b : Int, cell m y x a b =
      if (0 ≤ a ∧ a < y ∧ 0 ≤ b ∧ b < x ∧ on_ring y x a b) ∧ (a < i ∨ (a = i ∧ b < j))
      then some BORDER else cell maze y x a b) y.toNat x.toNat
    (by
      intro i s _ ⟨h1, h2⟩
      refine ⟨h1, ?_⟩
      intro a b
      rw [h2]
      by_cases hr : 0 ≤ a ∧ a < y ∧ 0 ≤ b ∧ b < x ∧ on_ring y x a b
      · have e : (a < (i : Int) ∨ (a = (i : Int) ∧ b < ((x.toNat : Nat) : Int))) ↔
            (a < ((i + 1 : Nat) : Int) ∨ (a = ((i + 1 : Nat) : Int) ∧ b < ((0 : Nat) : Int))) := by
          omega
        simp only [hr, true_and, e, and_self]
      · simp [hr])
    (by
      intro i j s hi hj ⟨h1, h2⟩
      by_cases hr : on_ring y x (i : Int) (j : Int)
      · obtain ⟨m, hm, hsz, hc⟩ := store_cell h1 (a := (i : Int)) (b := (j : Int))
          (by omega) (by omega) (by omega) (by omega) BORDER
        refine ⟨m, ?_, hsz, ?_⟩
        · unfold on_ring at hr
          by_cases h0 : (i : Int) = 0 ∨ (i : Int) = y - 1
          · simp only [h0, if_true]; exact hm
          · have : (j : Int) = 0 ∨ (j : Int) = x - 1 := by omega
            simp only [h0, this, if_true, if_false]; exact hm
        · intro a b
          rw [hc]
          by_cases e : a = (i : Int) ∧ b = (j : Int)
          · obtain ⟨rfl, rfl⟩ := e
            have : (0 ≤ (i : Int) ∧ (i : Int) < y ∧ 0 ≤ (j : Int) ∧ (j : Int) < x ∧
                on_ring y x (i : Int) (j : Int)) ∧
                ((i : Int) < (i : Int) ∨ ((i : Int) = (i : Int) ∧ (j : Int) < ((j + 1 : Nat) : Int))) :=
              ⟨⟨by omega, by omega, by omega, by omega, hr⟩, by omega⟩
            rw [if_pos ⟨rfl, rfl⟩, if_pos this]
          · have e2 : (a < (i : Int) ∨ (a = (i : Int) ∧ b < ((j + 1 : Nat) : Int))) ↔
                (a < (i : Int) ∨ (a = (i : Int) ∧ b < (j : Int))) := by omega
            rw [if_neg e, h2]
            simp only [e2]
      · refine ⟨s, ?_, h1, ?_⟩
        · unfold on_ring at hr
          have h0 : ¬ ((i : Int) = 0 ∨ (i : Int) = y - 1) := by omega
          have h3 : ¬ ((j : Int) = 0 ∨ (j : Int) = x - 1) := by omega
          simp only [h0, h3, if_false]
        · intro a b
          rw [h2]
          by_cases e : a = (i : Int) ∧ b = (j : Int)
          · obtain ⟨rfl, rfl⟩ := e
            simp [hr]
          · have e2 : (a < (i : Int) ∨ (a = (i : Int) ∧ b < ((j + 1 : Nat) : Int))) ↔
                (a < (i : Int) ∨ (a = (i : Int) ∧ b < (j : Int))) := by omega
            simp only [e2])
    maze ⟨hs, by
      intro a b
      rw [if_neg]
      rintro ⟨⟨h1, _, h3, _⟩, h5⟩
      omega⟩
  obtain ⟨m, hm, hsz, hc⟩ := key
  refine ⟨m, hm, hsz, ?_⟩
  intro i j
  rw [hc]
  by_cases hr : 0 ≤ i ∧ i < y ∧ 0 ≤ j ∧ j < x ∧ on_ring y x i j
  · have : i < ((y.toNat : Nat) : Int) ∨ (i = ((y.toNat : Nat) : Int) ∧ j < ((0 : Nat) : Int)) := by
      omega
    simp only [hr, and_self, this, if_true]
  · simp [hr]

theorem replicate_sized {y x : Int} (hy : 0 < y) (hx : 0 < x) (c : Nat) :
    Sized (List.replicate (y * x).toNat c) y x := by
  refine ⟨hy, hx, ?_⟩
  have : 0 ≤ y * x := mul_nonneg (by omega) (by omega)
  simp only [List.length_replicate]
  omega

theorem pick_start_spec (rand : Nat → Nat) (k : Nat) {y x : Int} (hy : 3 ≤ y) (hx : 3 ≤ x) :
    pick_start rand k y x =
      .ok ((rand k : Int) % (y - 2) + 1, (rand (k + 1) : Int) % (x - 2) + 1) := by
  unfold pick_start c_mod
  have h1 : ¬ (y - 1 - 1 = 0) := by omega
  have h2 : ¬ (x - 1 - 1 = 0) := by omega
  have e1 : y - 1 - 1 = y - 2 := by omega
  have e2 : x - 1 - 1 = x - 2 := by omega
  simp only [h1, h2, if_false, bind, Except.bind, pure, Except.pure]
  rw [Int.tmod_eq_emod (by omega) (by omega), Int.tmod_eq_emod (by omega) (by omega), e1, e2]

theorem draw_maze_start_spec (rand : Nat → Nat) {y x : Int} (hy : 3 ≤ y) (hx : 3 ≤ x) :
    ∃ m sy sx, draw_maze_start rand y x = .ok (m, sy, sx) ∧
      sy = (rand 0 : Int) % (y - 2) + 1 ∧ sx = (rand 1 : Int) % (x - 2) + 1 ∧
      interior y x sy sx ∧ Sized m y x ∧
      fresh m y x sy sx := by
  obtain ⟨m1, hm1, hs1, hc1⟩ := fill_walls_spec (replicate_sized (by omega : 0 < y) (by omega : 0 < x) 0)
  obtain ⟨m2, hm2, hs2, hc2⟩ := draw_border_spec hs1
  have hsy0 := Int.emod_nonneg (rand 0 : Int) (by omega : y - 2 ≠ 0)
  have hsy1 := Int.emod_lt_of_pos (rand 0 : Int) (by omega : 0 < y - 2)
  have hsx0 := Int.emod_nonneg (rand 1 : Int) (by omega : x - 2 ≠ 0)
  have hsx1 := Int.emod_lt_of_pos (rand 1 : Int) (by omega : 0 < x - 2)
  obtain ⟨m3, hm3, hs3, hc3⟩ := store_cell hs2 (a := (rand 0 : Int) % (y - 2) + 1)
    (b := (rand 1 : Int) % (x - 2) + 1) (by omega) (by omega) (by omega) (by omega) START
  refine ⟨m3, _, _, ?_, rfl, rfl, ⟨by omega, by omega, by omega, by omega⟩, hs3, ?_⟩
  · unfold draw_maze_start
    have hpos : ¬ (y ≤ 0 ∨ x ≤ 0) := by omega
    simp only [hpos, if_false, bind, Except.bind, pure, Except.pure, hm1, hm2,
      pick_start_spec rand 0 hy hx, hm3, Nat.zero_add]
  · intro i j hi0 hi hj0 hj
    rw [hc3, hc2]
    by_cases hr : on_ring y x i j
    · have hne : ¬ (i = (rand 0 : Int) % (y - 2) + 1 ∧ j = (rand 1 : Int) % (x - 2) + 1) := by
        unfold on_ring at hr; omega
      have hrr : 0 ≤ i ∧ i < y ∧ 0 ≤ j ∧ j < x ∧ on_ring y x i j := ⟨hi0, hi, hj0, hj, hr⟩
      rw [if_neg hne, if_pos hrr, if_pos hr]
    · have hrr : ¬ (0 ≤ i ∧ i < y ∧ 0 ≤ j ∧ j < x ∧ on_ring y x i j) := fun h => hr h.2.2.2.2
      by_cases he : i = (rand 0 : Int) % (y - 2) + 1 ∧ j = (rand 1 : Int) % (x - 2) + 1
      · rw [if_pos he, if_neg hr, if_pos he]
      · rw [if_neg he, if_neg hrr, if_neg hr, if_neg he]
        exact hc1 i j hi0 hi hj0 hj

/-! ## One carve keeps the grid well formed -/

theorem keeps_refl (m : List Nat) (y x : Int) : keeps m m y x := fun _ _ _ _ _ => Iff.rfl

theorem keeps_trans {m1 m2 m3 : List Nat} {y x : Int} (h12 : keeps m1 m2 y x)
    (h23 : keeps m2 m3 y x) : keeps m1 m3 y x :=
  fun i j v hw hf => (h23 i j v hw hf).trans (h12 i j v hw hf)

theorem framed_ring_closed {maze : List Nat} {y x : Int} (hf : framed maze y x) :
    ring_closed maze y x := by
  intro i j hr hw
  obtain ⟨h1, h2, h3, h4⟩ := cell_in_range hw
  have := (hf i j h1 h2 h3 h4).2 hr
  rw [hw] at this
  simp [WALL, BORDER] at this

theorem no_block_carve {m m2 : List Nat} {y x p q : Int} (hnb : no_block m y x)
    (hc : ∀ a b, cell m2 y x a b = if a = p ∧ b = q then some FLOOR else cell m y x a b)
    (hside : (¬ is_path (cell m y x p (q - 1)) ∧ ¬ is_path (cell m y x p (q + 1))) ∨
      (¬ is_path (cell m y x (p - 1) q) ∧ ¬ is_path (cell m y x (p + 1) q))) :
    no_block m2 y x := by
  intro a b ⟨h1, h2, h3, h4⟩
  have hne : ∀ a2 b2, ¬ (a2 = p ∧ b2 = q) → cell m2 y x a2 b2 = cell m y x a2 b2 :=
    fun a2 b2 h => by rw [hc, if_neg h]
  have key : ∀ a2 b2, (a2 = a ∨ a2 = a + 1) → (b2 = b ∨ b2 = b + 1) →
      is_path (cell m2 y x a2 b2) := by
    rintro a2 b2 (rfl | rfl) (rfl | rfl) <;> assumption
  by_cases hin : (a = p ∨ a + 1 = p) ∧ (b = q ∨ b + 1 = q)
  · obtain ⟨hp, hq⟩ := hin
    rcases hside with ⟨s1, s2⟩ | ⟨s1, s2⟩
    · rcases hq with hq | hq
      · have := key p (q + 1) (by omega) (by omega)
        rw [hne _ _ (by omega)] at this
        exact s2 this
      · have := key p (q - 1) (by omega) (by omega)
        rw [hne _ _ (by omega)] at this
        exact s1 this
    · rcases hp with hp | hp
      · have := key (p + 1) q (by omega) (by omega)
        rw [hne _ _ (by omega)] at this
        exact s2 this
      · have := key (p - 1) q (by omega) (by omega)
        rw [hne _ _ (by omega)] at this
        exact s1 this
  · rw [hne _ _ (by omega)] at h1 h2 h3 h4
    exact hnb a b ⟨h1, h2, h3, h4⟩

/-- Carving a WALL cell whose two side neighbours (left and right, or above and below) are
not path cells. -/
theorem carve_spec {m : List Nat} {y x p q : Int} (hg : Gen m y x)
    (hw : cell m y x p q = some WALL)
    (hside : (¬ is_path (cell m y x p (q - 1)) ∧ ¬ is_path (cell m y x p (q + 1))) ∨
      (¬ is_path (cell m y x (p - 1) q) ∧ ¬ is_path (cell m y x (p + 1) q))) :
    ∃ m2, store m (MAZE_OF_I_OF_J p q x) FLOOR = .ok m2 ∧ Gen m2 y x ∧ keeps m m2 y x ∧
      interior y x p q ∧
      ∀ a b, cell m2 y x a b = if a = p ∧ b = q then some FLOOR else cell m y x a b := by
  obtain ⟨h1, h2, h3, h4⟩ := cell_in_range hw
  obtain ⟨m2, hm2, hs2, hc⟩ := store_cell hg.sized h1 h2 h3 h4 FLOOR
  have hnr : ¬ on_ring y x p q := by
    intro hr
    have := (hg.framed p q h1 h2 h3 h4).2 hr
    rw [hw] at this
    simp [WALL, BORDER] at this
  refine ⟨m2, hm2, ⟨hs2, ?_, no_block_carve hg.no_block hc hside⟩, ?_, ?_, hc⟩
  · intro i j hi0 hi hj0 hj
    rw [hc]
    by_cases e : i = p ∧ j = q
    · obtain ⟨rfl, rfl⟩ := e
      simp [hnr, FLOOR, BORDER]
    · rw [if_neg e]
      exact hg.framed i j hi0 hi hj0 hj
  · intro i j v hvw hvf
    rw [hc]
    by_cases e : i = p ∧ j = q
    · obtain ⟨rfl, rfl⟩ := e
      rw [hw]
      simp only [and_self, if_true, Option.some.injEq]
      constructor
      · intro h; exact absurd h.symm hvf
      · intro h; exact absurd h.symm hvw
    · rw [if_neg e]
  · unfold on_ring at hnr
    unfold interior
    omega

/-- Carving in a legal direction. -/
theorem legal_carve {m : List Nat} {y x i j d : Int} (hg : Gen m y x)
    (hl : legal m y x i j d) :
    ∃ p q m2, ((d = GO_UP ∧ p = i - 1 ∧ q = j) ∨ (d = GO_DOWN ∧ p = i + 1 ∧ q = j) ∨
        (d = GO_LEFT ∧ p = i ∧ q = j - 1) ∨ (d = GO_RIGHT ∧ p = i ∧ q = j + 1)) ∧
      store m (MAZE_OF_I_OF_J p q x) FLOOR = .ok m2 ∧ Gen m2 y x ∧ keeps m m2 y x ∧
      interior y x p q ∧ cell m y x p q = some WALL ∧
      ∀ a b, cell m2 y x a b = if a = p ∧ b = q then some FLOOR else cell m y x a b := by
  rcases hl with ⟨hd, hw, _, h2, h3⟩ | ⟨hd, hw, _, h2, h3⟩ | ⟨hd, hw, h2, h3, _⟩ |
    ⟨hd, hw, h2, h3, _⟩
  · obtain ⟨m2, r1, r2, r3, r4, r5⟩ := carve_spec hg hw (Or.inl ⟨h2, h3⟩)
    exact ⟨i - 1, j, m2, Or.inl ⟨hd, rfl, rfl⟩, r1, r2, r3, r4, hw, r5⟩
  · obtain ⟨m2, r1, r2, r3, r4, r5⟩ := carve_spec hg hw (Or.inl ⟨h2, h3⟩)
    exact ⟨i + 1, j, m2, Or.inr (Or.inl ⟨hd, rfl, rfl⟩), r1, r2, r3, r4, hw, r5⟩
  · have h2b : ¬ is_path (cell m y x (i - 1) (j - 1)) := h2
    have h3b : ¬ is_path (cell m y x (i + 1) (j - 1)) := h3
    obtain ⟨m2, r1, r2, r3, r4, r5⟩ := carve_spec hg hw (Or.inr ⟨h2b, h3b⟩)
    exact ⟨i, j - 1, m2, Or.inr (Or.inr (Or.inl ⟨hd, rfl, rfl⟩)), r1, r2, r3, r4, hw, r5⟩
  · have h2b : ¬ is_path (cell m y x (i - 1) (j + 1)) := h2
    have h3b : ¬ is_path (cell m y x (i + 1) (j + 1)) := h3
    obtain ⟨m2, r1, r2, r3, r4, r5⟩ := carve_spec hg hw (Or.inr ⟨h2b, h3b⟩)
    exact ⟨i, j + 1, m2, Or.inr (Or.inr (Or.inr ⟨hd, rfl, rfl⟩)), r1, r2, r3, r4, hw, r5⟩

/-- Writing END on a path cell inside the ring. -/
theorem end_write_spec {m : List Nat} {y x i j : Int} (hg : Gen m y x)
    (hin : interior y x i j) (hp : is_path (cell m y x i j)) :
    ∃ m2, store m (MAZE_OF_I_OF_J i j x) END = .ok m2 ∧ Gen m2 y x ∧
      ∀ a b, cell m2 y x a b = if a = i ∧ b = j then some END else cell m y x a b := by
  obtain ⟨h1, h2, h3, h4⟩ := hin
  obtain ⟨m2, hm2, hs2, hc⟩ := store_cell hg.sized (a := i) (b := j) (by omega) (by omega)
    (by omega) (by omega) END
  have hpath : ∀ a b, is_path (cell m2 y x a b) ↔ is_path (cell m y x a b) := by
    intro a b
    rw [hc]
    by_cases e : a = i ∧ b = j
    · obtain ⟨rfl, rfl⟩ := e
      simp only [and_self, if_true, hp, iff_true]
      right; right; rfl
    · rw [if_neg e]
  refine ⟨m2, hm2, ⟨hs2, ?_, ?_⟩, hc⟩
  · intro a b ha0 ha hb0 hb
    rw [hc]
    by_cases e : a = i ∧ b = j
    · obtain ⟨rfl, rfl⟩ := e
      have : ¬ on_ring y x a b := by unfold on_ring; omega
      simp [this, END, BORDER]
    · rw [if_neg e]
      exact hg.framed a b ha0 ha hb0 hb
  · intro a b ⟨p1, p2, p3, p4⟩
    exact hg.no_block a b ⟨(hpath _ _).1 p1, (hpath _ _).1 p2, (hpath _ _).1 p3,
      (hpath _ _).1 p4⟩

/-! ## The walk of `draw_critical_path` -/

theorem not_legal_of_none {m : List Nat} {y x i j : Int}
    (h : ¬ legal_up m y x i j ∧ ¬ legal_down m y x i j ∧ ¬ legal_left m y x i j ∧
      ¬ legal_right m y x i j) : ∀ d, ¬ legal m y x i j d := by
  intro d hl
  rcases hl with ⟨_, hl⟩ | ⟨_, hl⟩ | ⟨_, hl⟩ | ⟨_, hl⟩
  · exact h.1 hl
  · exact h.2.1 hl
  · exact h.2.2.1 hl
  · exact h.2.2.2 hl

/-- What `find_move` returns at a cell inside the ring of a grid whose ring holds no WALL:
NO_VALID_STEP without drawing a random value when no direction is legal, a legal direction
otherwise. -/
theorem find_move_spec {maze : List Nat} {y x i j : Int} (hs : Sized maze y x)
    (hring : ring_closed maze y x) (hin : interior y x i j)
    {fuel : Nat} {rand : Nat → Nat} {k : Nat} {step : Int} {k2 : Nat}
    (h : find_move fuel rand k maze i j x = .ok (step, k2)) :
    (step = NO_VALID_STEP ∧ k2 = k ∧ ∀ d, ¬ legal maze y x i j d) ∨
      (step ≠ NO_VALID_STEP ∧ k < k2 ∧ legal maze y x i j step) := by
  rw [find_move_eq hs hring hin] at h
  split_ifs at h with hnone
  · simp only [Except.ok.injEq, Prod.mk.injEq] at h
    exact Or.inl ⟨h.1.symm, h.2.symm, not_legal_of_none hnone⟩
  · right
    obtain ⟨hk, hd⟩ := pick_direction_sound _ _ h
    simp only [decide_eq_true_eq] at hd
    refine ⟨?_, hk, hd⟩
    rcases hd with ⟨e, _⟩ | ⟨e, _⟩ | ⟨e, _⟩ | ⟨e, _⟩ <;> rw [e] <;> decide

theorem critical_path_step_spec {w : Walk} {y x : Int} (hg : Gen w.maze y x)
    (hin : interior y x w.i w.j) {fuel : Nat} {rand : Nat → Nat} {w2 : Walk} {b : Bool}
    (h : critical_path_step fuel rand x w = .ok (w2, b)) :
    (b = false ∧ w2.maze = w.maze ∧ w2.i = w.i ∧ w2.j = w.j ∧
        ∀ d, ¬ legal w.maze y x w.i w.j d) ∨
      (b = true ∧ ∃ d, legal w.maze y x w.i w.j d ∧
        ((d = GO_UP ∧ w2.i = w.i - 1 ∧ w2.j = w.j) ∨ (d = GO_DOWN ∧ w2.i = w.i + 1 ∧ w2.j = w.j) ∨
          (d = GO_LEFT ∧ w2.i = w.i ∧ w2.j = w.j - 1) ∨
          (d = GO_RIGHT ∧ w2.i = w.i ∧ w2.j = w.j + 1)) ∧
        Gen w2.maze y x ∧ keeps w.maze w2.maze y x ∧ interior y x w2.i w2.j ∧
        cell w.maze y x w2.i w2.j = some WALL ∧
        ∀ a c, cell w2.maze y x a c =
          if a = w2.i ∧ c = w2.j then some FLOOR else cell w.maze y x a c) := by
  unfold critical_path_step at h
  simp only [bind, Except.bind, pure, Except.pure] at h
  cases hfm : find_move fuel rand w.k w.maze w.i w.j x with
  | error e => rw [hfm] at h; simp at h
  | ok r =>
    obtain ⟨step, k2⟩ := r
    rw [hfm] at h
    simp only at h
    rcases find_move_spec hg.sized (framed_ring_closed hg.framed) hin hfm with
      ⟨hs, _, hnone⟩ | ⟨hs, _, hl⟩
    · subst hs
      simp only [NO_VALID_STEP, GO_UP, GO_DOWN, GO_LEFT, GO_RIGHT] at h
      norm_num at h
      obtain ⟨h1, h2⟩ := h
      subst h1
      exact Or.inl ⟨h2, rfl, rfl, rfl, hnone⟩
    · right
      obtain ⟨p, q, m2, hpq, hst, hg2, hk, hin2, hw, hc⟩ := legal_carve hg hl
      rcases hpq with ⟨hd, hp, hq⟩ | ⟨hd, hp, hq⟩ | ⟨hd, hp, hq⟩ | ⟨hd, hp, hq⟩
      · subst hd hp hq
        rw [← UP_eq] at hst
        simp only [hst, if_true, Except.ok.injEq, Prod.mk.injEq] at h
        obtain ⟨h1, h2⟩ := h
        subst h1
        exact ⟨h2.symm, GO_UP, hl, Or.inl ⟨rfl, rfl, rfl⟩, hg2, hk, hin2, hw, hc⟩
      · subst hd hp hq
        rw [← DOWN_eq] at hst
        simp only [hst, GO_UP, GO_DOWN] at h
        norm_num at h
        obtain ⟨h1, h2⟩ := h
        subst h1
        exact ⟨h2, GO_DOWN, hl, Or.inr (Or.inl ⟨rfl, rfl, rfl⟩), hg2, hk, hin2, hw, hc⟩
      · subst hd hp hq
        rw [← LEFT_eq] at hst
        simp only [hst, GO_UP, GO_DOWN, GO_LEFT] at h
        norm_num at h
        obtain ⟨h1, h2⟩ := h
        subst h1
        exact ⟨h2, GO_LEFT, hl, Or.inr (Or.inr (Or.inl ⟨rfl, rfl, rfl⟩)), hg2, hk, hin2,
          hw, hc⟩
      · subst hd hp hq
        rw [← RIGHT_eq] at hst
        simp only [hst, GO_UP, GO_DOWN, GO_LEFT, GO_RIGHT] at h
        norm_num at h
        obtain ⟨h1, h2⟩ := h
        subst h1
        exact ⟨h2, GO_RIGHT, hl, Or.inr (Or.inr (Or.inr ⟨rfl, rfl, rfl⟩)), hg2, hk, hin2,
          hw, hc⟩

theorem critical_path_loop_spec {rand : Nat → Nat} {m0 : List Nat} {y x sy sx : Int} :
    ∀ (fuel : Nat) (w w2 : Walk), walk_inv m0 y x sy sx w →
      critical_path_loop rand x fuel w = .ok w2 →
      walk_inv m0 y x sy sx w2 ∧ ∀ d, ¬ legal w2.maze y x w2.i w2.j d := by
  intro fuel
  induction fuel with
  | zero => intro w w2 _ h; simp [critical_path_loop] at h
  | succ n ih =>
    intro w w2 hw h
    obtain ⟨hg, hin, hk, hcur⟩ := hw
    unfold critical_path_loop at h
    simp only [bind, Except.bind, pure, Except.pure] at h
    cases hst : critical_path_step (n + 1) rand x w with
    | error e => rw [hst] at h; simp at h
    | ok r =>
      obtain ⟨w1, b⟩ := r
      rw [hst] at h
      simp only at h
      rcases critical_path_step_spec hg hin hst with
        ⟨hb, e1, e2, e3, hnone⟩ | ⟨hb, d, _, _, hg1, hk1, hin1, _, hc⟩
      · subst hb
        simp only [Bool.false_eq_true, if_false, Except.ok.injEq] at h
        subst h
        refine ⟨⟨by rw [e1]; exact hg, by rw [e2, e3]; exact hin, by rw [e1]; exact hk, ?_⟩, ?_⟩
        · rw [e1, e2, e3]; exact hcur
        · rw [e1, e2, e3]; exact hnone
      · subst hb
        simp only [if_true] at h
        apply ih w1 w2 ⟨hg1, hin1, keeps_trans hk hk1, Or.inl ?_⟩ h
        rw [hc]; simp

/-! ## The fresh grid -/

theorem fresh_not_path {m : List Nat} {y x sy sx i j : Int} (hf : fresh m y x sy sx)
    (hne : ¬ (i = sy ∧ j = sx)) : ¬ is_path (cell m y x i j) := by
  by_cases hr : 0 ≤ i ∧ i < y ∧ 0 ≤ j ∧ j < x
  · rw [hf i j hr.1 hr.2.1 hr.2.2.1 hr.2.2.2, is_path_some]
    by_cases h1 : on_ring y x i j
    · simp [h1, BORDER, FLOOR, START, END]
    · simp [h1, hne, WALL, FLOOR, START, END]
  · unfold cell
    rw [if_neg hr]
    simp [is_path]

theorem fresh_gen {m : List Nat} {y x sy sx : Int} (hs : Sized m y x)
    (hf : fresh m y x sy sx) : Gen m y x := by
  refine ⟨hs, ?_, ?_⟩
  · intro i j hi0 hi hj0 hj
    rw [hf i j hi0 hi hj0 hj]
    by_cases h1 : on_ring y x i j
    · simp [h1]
    · by_cases h2 : i = sy ∧ j = sx
      · simp [h1, h2, START, BORDER]
      · simp [h1, h2, WALL, BORDER]
  · intro i j ⟨h1, h2, _, _⟩
    by_cases e : j = sx
    · exact fresh_not_path hf (by omega) h2
    · exact fresh_not_path hf (by omega) h1

/-- On the fresh grid of a maze at least four rows high, the start cell has a legal
direction: down, or up when the start is in the last row inside the ring. -/
theorem fresh_start_legal {m : List Nat} {y x sy sx : Int} (hy : 4 ≤ y)
    (hf : fresh m y x sy sx) (hin : interior y x sy sx) :
    legal m y x sy sx GO_DOWN ∨ legal m y x sy sx GO_UP := by
  obtain ⟨h1, h2, h3, h4⟩ := hin
  by_cases hd : sy + 1 ≤ y - 2
  · left
    right; left
    refine ⟨rfl, ?_, fresh_not_path hf (by omega), fresh_not_path hf (by omega),
      fresh_not_path hf (by omega)⟩
    rw [hf (sy + 1) sx (by omega) (by omega) (by omega) (by omega)]
    have hr : ¬ on_ring y x (sy + 1) sx := by unfold on_ring; omega
    have hne : ¬ (sy + 1 = sy ∧ sx = sx) := by omega
    rw [if_neg hr, if_neg hne]
  · right
    left
    refine ⟨rfl, ?_, fresh_not_path hf (by omega), fresh_not_path hf (by omega),
      fresh_not_path hf (by omega)⟩
    rw [hf (sy - 1) sx (by omega) (by omega) (by omega) (by omega)]
    have hr : ¬ on_ring y x (sy - 1) sx := by unfold on_ring; omega
    have hne : ¬ (sy - 1 = sy ∧ sx = sx) := by omega
    rw [if_neg hr, if_neg hne]

/-- What `draw_critical_path` returns on a grid that satisfies the generation properties:
the walk ends at a cell without legal direction, and END is written there. -/
theorem draw_critical_path_spec {fuel : Nat} {rand : Nat → Nat} {k k2 : Nat}
    {m0 m : List Nat} {y x sy sx : Int} (hg : Gen m0 y x) (hin : interior y x sy sx)
    (h : draw_critical_path fuel rand k m0 y x sy sx = .ok (m, k2)) :
    ∃ w : Walk, walk_inv m0 y x sy sx w ∧ (∀ d, ¬ legal w.maze y x w.i w.j d) ∧
      store w.maze (MAZE_OF_I_OF_J w.i w.j x) END = .ok m ∧
      (is_path (cell w.maze y x w.i w.j) → Gen m y x) ∧
      ∀ a b, cell m y x a b = if a = w.i ∧ b = w.j then some END else cell w.maze y x a b := by
  unfold draw_critical_path at h
  simp only [bind, Except.bind, pure, Except.pure] at h
  cases hl : critical_path_loop rand x fuel ⟨m0, sy, sx, k⟩ with
  | error e => rw [hl] at h; simp at h
  | ok w =>
    rw [hl] at h
    simp only at h
    obtain ⟨hw, hnone⟩ := critical_path_loop_spec fuel ⟨m0, sy, sx, k⟩ w
      ⟨hg, hin, keeps_refl _ _ _, Or.inr ⟨rfl, rfl, rfl⟩⟩ hl
    obtain ⟨h1, h2, h3, h4⟩ := hw.2.1
    obtain ⟨m2, hm2, _, hc⟩ := store_cell hw.1.sized (a := w.i) (b := w.j) (by omega) (by omega)
      (by omega) (by omega) END
    rw [hm2] at h
    simp only [Except.ok.injEq, Prod.mk.injEq] at h
    obtain ⟨e1, _⟩ := h
    subst e1
    refine ⟨w, hw, hnone, hm2, ?_, hc⟩
    intro hp
    obtain ⟨m3, hm3, hg3, _⟩ := end_write_spec hw.1 hw.2.1 hp
    rw [hm2] at hm3
    simp only [Except.ok.injEq] at hm3
    rw [hm3]; exact hg3

/-! ## `find_move` on an arbitrary buffer -/

theorem load_cases (maze : List Nat) (p : Int) :
    load maze p = .error .undefined ∨ ∃ c, load maze p = .ok c := by
  unfold load
  split_ifs
  · left; rfl
  · cases maze[p.toNat]? with
    | none => left; rfl
    | some c => right; exact ⟨c, rfl⟩

theorem valid_direction_cases (maze : List Nat) (n a b c : Int) :
    valid_direction maze n a b c = .error .undefined ∨
      ∃ v, valid_direction maze n a b c = .ok v := by
  unfold valid_direction
  simp only [bind, Except.bind, pure, Except.pure]
  rcases load_cases maze n with h | ⟨vn, h⟩
  · left; rw [h]
  rw [h]; simp only
  split_ifs
  · right; exact ⟨_, rfl⟩
  rcases load_cases maze a with h | ⟨va, h⟩
  · left; rw [h]
  rw [h]; simp only
  split_ifs
  · right; exact ⟨_, rfl⟩
  rcases load_cases maze b with h | ⟨vb, h⟩
  · left; rw [h]
  rw [h]; simp only
  split_ifs
  · right; exact ⟨_, rfl⟩
  rcases load_cases maze c with h | ⟨vc, h⟩
  · left; rw [h]
  rw [h]; simp only
  split_ifs
  · right; exact ⟨_, rfl⟩
  · right; exact ⟨_, rfl⟩

/-- The three ways a call of `find_move` can go, none depending on the random source for the
choice between them: a read outside the buffer; no direction passes the test; some direction
passes and the selection loop runs on the four flags. -/
theorem find_move_cases (maze : List Nat) (i j x : Int) :
    (∀ (fuel : Nat) (rand : Nat → Nat) (k : Nat),
        find_move fuel rand k maze i j x = .error .undefined) ∨
      (∀ (fuel : Nat) (rand : Nat → Nat) (k : Nat),
        find_move fuel rand k maze i j x = .ok (NO_VALID_STEP, k)) ∨
      (∃ vu vd vl vr : Bool, ∀ (fuel : Nat) (rand : Nat → Nat) (k : Nat),
        find_move fuel rand k maze i j x = pick_direction vu vd vl vr rand fuel k) := by
  have hvd := valid_direction_cases maze
  unfold find_move
  simp only [bind, Except.bind, pure, Except.pure]
  rcases hvd (UP i j x) (UP_UP i j x) (UP_LEFT i j x) (UP_RIGHT i j x) with hu | ⟨vu, hu⟩
  · left; intro _ _ _; rw [hu]
  rcases hvd (DOWN i j x) (DOWN_DOWN i j x) (DOWN_LEFT i j x) (DOWN_RIGHT i j x) with
    hd | ⟨vd, hd⟩
  · left; intro _ _ _; rw [hu, hd]
  rcases hvd (LEFT i j x) (LEFT_UP i j x) (LEFT_DOWN i j x) (LEFT_LEFT i j x) with
    hl | ⟨vl, hl⟩
  · left; intro _ _ _; rw [hu, hd, hl]
  rcases hvd (RIGHT i j x) (RIGHT_UP i j x) (RIGHT_DOWN i j x) (RIGHT_RIGHT i j x) with
    hr | ⟨vr, hr⟩
  · left; intro _ _ _; rw [hu, hd, hl, hr]
  right
  by_cases hall : (!vu && !vd && !vl && !vr) = true
  · left; intro _ _ _; rw [hu, hd, hl, hr]; simp only [hall, if_true]
  · right
    refine ⟨vu, vd, vl, vr, ?_⟩
    intro _ _ _; rw [hu, hd, hl, hr]; simp only [hall, if_false]
    rfl

/-- A step returned by `find_move` is NO_VALID_STEP, with no random value drawn, or one of
the four directions. -/
theorem find_move_range {fuel : Nat} {rand : Nat → Nat} {k : Nat} {maze : List Nat}
    {i j x : Int} {step : Int} {k2 : Nat}
    (h : find_move fuel rand k maze i j x = .ok (step, k2)) :
    (step = NO_VALID_STEP ∧ k2 = k) ∨
      ((step = GO_UP ∨ step = GO_DOWN ∨ step = GO_LEFT ∨ step = GO_RIGHT) ∧ k < k2) := by
  rcases find_move_cases maze i j x with hc | hc | ⟨vu, vd, vl, vr, hc⟩
  · rw [hc] at h; simp at h
  · rw [hc] at h
    simp only [Except.ok.injEq, Prod.mk.injEq] at h
    exact Or.inl ⟨h.1.symm, h.2.symm⟩
  · rw [hc] at h
    obtain ⟨hk, hd⟩ := pick_direction_sound _ _ h
    right
    refine ⟨?_, hk⟩
    rcases hd with ⟨e, _⟩ | ⟨e, _⟩ | ⟨e, _⟩ | ⟨e, _⟩
    · exact Or.inl e
    · exact Or.inr (Or.inl e)
    · exact Or.inr (Or.inr (Or.inl e))
    · exact Or.inr (Or.inr (Or.inr e))

/-- When `find_move` returns NO_VALID_STEP once, it does so for every random source. -/
theorem find_move_no_step {fuel : Nat} {rand : Nat → Nat} {k : Nat} {maze : List Nat}
    {i j x : Int} {k2 : Nat}
    (h : find_move fuel rand k maze i j x = .ok (NO_VALID_STEP, k2)) :
    ∀ (fuel2 : Nat) (rand2 : Nat → Nat) (k3 : Nat),
      find_move fuel2 rand2 k3 maze i j x = .ok (NO_VALID_STEP, k3) := by
  rcases find_move_cases maze i j x with hc | hc | ⟨vu, vd, vl, vr, hc⟩
  · rw [hc] at h; simp at h
  · exact hc
  · rw [hc] at h
    obtain ⟨_, hd⟩ := pick_direction_sound _ _ h
    exfalso
    rcases hd with ⟨e, _⟩ | ⟨e, _⟩ | ⟨e, _⟩ | ⟨e, _⟩ <;> revert e <;> decide

/-! ## One visit of the dead-end filler -/

theorem legal_store {m : List Nat} {y x i j d : Int} (hg : Gen m y x)
    (hl : legal m y x i j d) :
    ∃ m2, Gen m2 y x ∧ keeps m m2 y x ∧
      ((d = GO_UP ∧ store m (UP i j x) FLOOR = .ok m2) ∨
        (d = GO_DOWN ∧ store m (DOWN i j x) FLOOR = .ok m2) ∨
        (d = GO_LEFT ∧ store m (LEFT i j x) FLOOR = .ok m2) ∨
        (d = GO_RIGHT ∧ store m (RIGHT i j x) FLOOR = .ok m2)) := by
  obtain ⟨p, q, m2, hpq, hst, hg2, hk, _, _, _⟩ := legal_carve hg hl
  refine ⟨m2, hg2, hk, ?_⟩
  rcases hpq with ⟨hd, hp, hq⟩ | ⟨hd, hp, hq⟩ | ⟨hd, hp, hq⟩ | ⟨hd, hp, hq⟩
  · subst hp hq; rw [← UP_eq] at hst; exact Or.inl ⟨hd, hst⟩
  · subst hp hq; rw [← DOWN_eq] at hst; exact Or.inr (Or.inl ⟨hd, hst⟩)
  · subst hp hq; rw [← LEFT_eq] at hst; exact Or.inr (Or.inr (Or.inl ⟨hd, hst⟩))
  · subst hp hq; rw [← RIGHT_eq] at hst; exact Or.inr (Or.inr (Or.inr ⟨hd, hst⟩))

/-- A FLOOR cell of a framed grid lies inside the ring. -/
theorem floor_interior {m : List Nat} {y x i j : Int} (hf : framed m y x)
    (hc : cell m y x i j = some FLOOR) : interior y x i j := by
  obtain ⟨h1, h2, h3, h4⟩ := cell_in_range hc
  have hnr : ¬ on_ring y x i j := by
    intro hr
    have := (hf i j h1 h2 h3 h4).2 hr
    rw [hc] at this
    simp [FLOOR, BORDER] at this
  unfold on_ring at hnr
  unfold interior
  omega

/-- A visit that leaves `moved` false changed nothing, found `moved` false, could read its
cell, and if the cell holds FLOOR then `find_move` has no step there. -/
theorem dead_end_visit_quiet {fuel : Nat} {rand : Nat → Nat} {x i j : Int} {s s2 : Scan}
    (h : dead_end_visit fuel rand x i j s = .ok s2) (hm : s2.moved = false) :
    s.moved = false ∧ s2.maze = s.maze ∧
      ∃ c, load s.maze (MAZE_OF_I_OF_J i j x) = .ok c ∧
        (c = FLOOR → ∀ (fuel2 : Nat) (rand2 : Nat → Nat) (k : Nat),
          find_move fuel2 rand2 k s.maze i j x = .ok (NO_VALID_STEP, k)) := by
  unfold dead_end_visit at h
  simp only [bind, Except.bind, pure, Except.pure] at h
  rcases load_cases s.maze (MAZE_OF_I_OF_J i j x) with hl | ⟨c, hl⟩
  · rw [hl] at h; simp at h
  rw [hl] at h
  simp only at h
  by_cases hc : c = FLOOR
  · simp only [hc, if_true] at h
    cases hfm : find_move fuel rand (s.k + 1) s.maze i j x with
    | error e => rw [hfm] at h; simp at h
    | ok r =>
      obtain ⟨step, k2⟩ := r
      rw [hfm] at h
      simp only at h
      rcases find_move_range hfm with ⟨hs, _⟩ | ⟨hs, _⟩
      · subst hs
        simp only [NO_VALID_STEP, GO_UP, GO_DOWN, GO_LEFT, GO_RIGHT] at h
        norm_num at h
        subst h
        exact ⟨hm, rfl, c, hl, fun _ => find_move_no_step hfm⟩
      · exfalso
        rcases hs with e | e | e | e
        · subst e
          rw [if_pos rfl] at h
          split_ifs at h
          · split at h
            · simp at h
            · simp only [Except.ok.injEq] at h
              subst h
              simp at hm
          · simp only [Except.ok.injEq] at h
            subst h
            simp at hm
        · subst e
          rw [if_neg (by decide), if_pos rfl] at h
          split_ifs at h
          · split at h
            · simp at h
            · simp only [Except.ok.injEq] at h
              subst h
              simp at hm
          · simp only [Except.ok.injEq] at h
            subst h
            simp at hm
        · subst e
          rw [if_neg (by decide), if_neg (by decide), if_pos rfl] at h
          split_ifs at h
          · split at h
            · simp at h
            · simp only [Except.ok.injEq] at h
              subst h
              simp at hm
          · simp only [Except.ok.injEq] at h
            subst h
            simp at hm
        · subst e
          rw [if_neg (by decide), if_neg (by decide), if_neg (by decide), if_pos rfl] at h
          split_ifs at h
          · split at h
            · simp at h
            · simp only [Except.ok.injEq] at h
              subst h
              simp at hm
          · simp only [Except.ok.injEq] at h
            subst h
            simp at hm
  · simp only [hc, if_false, Except.ok.injEq] at h
    subst h
    exact ⟨hm, rfl, c, hl, fun e => absurd e hc⟩

/-- A visit keeps the generation properties of the grid, and its Border, Start and End
cells. -/
theorem dead_end_visit_gen {fuel : Nat} {rand : Nat → Nat} {y x i j : Int} {s s2 : Scan}
    (hg : Gen s.maze y x) (hi0 : 0 ≤ i) (hi : i < y) (hj0 : 0 ≤ j) (hj : j < x)
    (h : dead_end_visit fuel rand x i j s = .ok s2) :
    Gen s2.maze y x ∧ keeps s.maze s2.maze y x := by
  unfold dead_end_visit at h
  simp only [bind, Except.bind, pure, Except.pure] at h
  obtain ⟨c, hcell⟩ := cell_some hg.sized hi0 hi hj0 hj
  have hl := (load_cell hi0 hi hj0 hj c).2 hcell
  rw [hl] at h
  simp only at h
  by_cases hc : c = FLOOR
  · subst hc
    simp only [if_true] at h
    have hin := floor_interior hg.framed hcell
    cases hfm : find_move fuel rand (s.k + 1) s.maze i j x with
    | error e => rw [hfm] at h; simp at h
    | ok r =>
      obtain ⟨step, k2⟩ := r
      rw [hfm] at h
      simp only at h
      rcases find_move_spec hg.sized (framed_ring_closed hg.framed) hin hfm with
        ⟨hs, _, _⟩ | ⟨_, _, hleg⟩
      · subst hs
        simp only [NO_VALID_STEP, GO_UP, GO_DOWN, GO_LEFT, GO_RIGHT] at h
        norm_num at h
        subst h
        exact ⟨hg, keeps_refl _ _ _⟩
      · obtain ⟨m2, hg2, hk2, hst⟩ := legal_store hg hleg
        rcases hst with ⟨e, hp⟩ | ⟨e, hp⟩ | ⟨e, hp⟩ | ⟨e, hp⟩
        · subst e
          rw [if_pos rfl] at h
          split_ifs at h
          · rw [hp] at h
            simp only [Except.ok.injEq] at h
            subst h
            exact ⟨hg2, hk2⟩
          · simp only [Except.ok.injEq] at h
            subst h
            exact ⟨hg, keeps_refl _ _ _⟩
        · subst e
          rw [if_neg (by decide), if_pos rfl] at h
          split_ifs at h
          · rw [hp] at h
            simp only [Except.ok.injEq] at h
            subst h
            exact ⟨hg2, hk2⟩
          · simp only [Except.ok.injEq] at h
            subst h
            exact ⟨hg, keeps_refl _ _ _⟩
        · subst e
          rw [if_neg (by decide), if_neg (by decide), if_pos rfl] at h
          split_ifs at h
          · rw [hp] at h
            simp only [Except.ok.injEq] at h
            subst h
            exact ⟨hg2, hk2⟩
          · simp only [Except.ok.injEq] at h
            subst h
            exact ⟨hg, keeps_refl _ _ _⟩
        · subst e
          rw [if_neg (by decide), if_neg (by decide), if_neg (by decide), if_pos rfl] at h
          split_ifs at h
          · rw [hp] at h
            simp only [Except.ok.injEq] at h
            subst h
            exact ⟨hg2, hk2⟩
          · simp only [Except.ok.injEq] at h
            subst h
            exact ⟨hg, keeps_refl _ _ _⟩
  · simp only [hc, if_false, Except.ok.injEq] at h
    subst h
    exact ⟨hg, keeps_refl _ _ _⟩

/-! ## Scans of the dead-end filler -/

theorem dead_end_scan_gen {fuel : Nat} {rand : Nat → Nat} {k : Nat} {m : List Nat}
    {y x : Int} {s : Scan} (hg : Gen m y x)
    (h : dead_end_scan fuel rand k m y x = .ok s) : Gen s.maze y x ∧ keeps m s.maze y x := by
  exact for_loop2_inv (fun i j s => dead_end_visit fuel rand x i j s)
    (fun _ _ s => Gen s.maze y x ∧ keeps m s.maze y x) y.toNat x.toNat
    (fun _ _ _ hI => hI)
    (fun i j s s2 hi hj hI hb =>
      have r := dead_end_visit_gen hI.1 (i := (i : Int)) (j := (j : Int)) (by omega) (by omega)
        (by omega) (by omega) hb
      ⟨r.1, keeps_trans hI.2 r.2⟩)
    ⟨m, k, false⟩ s ⟨hg, keeps_refl _ _ _⟩ h

/-- A scan that ends with `moved` false changed nothing, and the grid is quiet. -/
theorem dead_end_scan_quiet {fuel : Nat} {rand : Nat → Nat} {k : Nat} {m : List Nat}
    {y x : Int} {s : Scan} (h : dead_end_scan fuel rand k m y x = .ok s)
    (hm : s.moved = false) : s.maze = m ∧ quiet m y x := by
  have key := for_loop2_inv (fun i j s => dead_end_visit fuel rand x i j s)
    (fun i j s => s.moved = false → s.maze = m ∧
      ∀ a b : Int, 0 ≤ a → a < y → 0 ≤ b → b < x → (a < i ∨ (a = i ∧ b < j)) →
        ∃ c, load m (MAZE_OF_I_OF_J a b x) = .ok c ∧
          (c = FLOOR → ∀ (fuel : Nat) (rand : Nat → Nat) (k : Nat),
            find_move fuel rand k m a b x = .ok (NO_VALID_STEP, k))) y.toNat x.toNat
    (by
      intro i s _ hI hmv
      obtain ⟨h1, h2⟩ := hI hmv
      refine ⟨h1, ?_⟩
      intro a b ha0 ha hb0 hb hlt
      exact h2 a b ha0 ha hb0 hb (by omega))
    (by
      intro i j s s2 hi hj hI hb hmv
      obtain ⟨q1, q2, c, q3, q4⟩ := dead_end_visit_quiet hb hmv
      obtain ⟨h1, h2⟩ := hI q1
      refine ⟨by rw [q2, h1], ?_⟩
      intro a b ha0 ha hb0 hb2 hlt
      by_cases e : a = (i : Int) ∧ b = (j : Int)
      · obtain ⟨rfl, rfl⟩ := e
        rw [h1] at q3 q4
        exact ⟨c, q3, q4⟩
      · exact h2 a b ha0 ha hb0 hb2 (by omega))
    ⟨m, k, false⟩ s (by
      intro _
      refine ⟨rfl, ?_⟩
      intro a b ha0 _ hb0 _ hlt
      omega) h
  obtain ⟨h1, h2⟩ := key hm
  refine ⟨h1, ?_⟩
  intro i j hi0 hi hj0 hj
  exact h2 i j hi0 hi hj0 hj (by omega)

/-- On a quiet grid a scan returns the grid unchanged with `moved` false, for every random
source. -/
theorem quiet_scan {m : List Nat} {y x : Int} (hq : quiet m y x) (fuel : Nat)
    (rand : Nat → Nat) (k : Nat) :
    ∃ k2, dead_end_scan fuel rand k m y x = .ok ⟨m, k2, false⟩ := by
  have key := for_loop2_total (fun i j s => dead_end_visit fuel rand x i j s)
    (fun _ _ s => s.maze = m ∧ s.moved = false) y.toNat x.toNat
    (fun _ _ _ hI => hI)
    (by
      intro i j s hi hj ⟨h1, h2⟩
      obtain ⟨c, hl, hf⟩ := hq (i : Int) (j : Int) (by omega) (by omega) (by omega) (by omega)
      unfold dead_end_visit
      simp only [bind, Except.bind, pure, Except.pure, h1, hl]
      by_cases hc : c = FLOOR
      · rw [if_pos hc, hf hc]
        simp only
        rw [if_neg (by decide), if_neg (by decide), if_neg (by decide), if_neg (by decide)]
        exact ⟨_, rfl, rfl, h2⟩
      · rw [if_neg hc]
        exact ⟨s, rfl, h1, h2⟩)
    ⟨m, k, false⟩ ⟨rfl, rfl⟩
  obtain ⟨s, hs, h1, h2⟩ := key
  refine ⟨s.k, ?_⟩
  unfold dead_end_scan
  rw [hs]
  obtain ⟨sm, sk, smv⟩ := s
  simp only at h1 h2
  subst h1 h2
  rfl

theorem dead_ends_loop_gen {rand : Nat → Nat} {y x : Int} :
    ∀ (fuel k : Nat) (m m2 : List Nat) (k2 : Nat), Gen m y x →
      dead_ends_loop rand y x fuel k m = .ok (m2, k2) → Gen m2 y x ∧ keeps m m2 y x := by
  intro fuel
  induction fuel with
  | zero => intro k m m2 k2 _ h; simp [dead_ends_loop] at h
  | succ n ih =>
    intro k m m2 k2 hg h
    unfold dead_ends_loop at h
    simp only [bind, Except.bind, pure, Except.pure] at h
    cases hs : dead_end_scan (n + 1) rand k m y x with
    | error e => rw [hs] at h; simp at h
    | ok s =>
      rw [hs] at h
      simp only at h
      obtain ⟨g1, k1⟩ := dead_end_scan_gen hg hs
      split_ifs at h with hmv
      · simp only [Except.ok.injEq, Prod.mk.injEq] at h
        rw [← h.1]; exact ⟨g1, k1⟩
      · obtain ⟨g2, k3⟩ := ih s.k s.maze m2 k2 g1 h
        exact ⟨g2, keeps_trans k1 k3⟩

/-- The grid that the while loop of `draw_dead_ends` returns is quiet. -/
theorem dead_ends_loop_quiet {rand : Nat → Nat} {y x : Int} :
    ∀ (fuel k : Nat) (m m2 : List Nat) (k2 : Nat),
      dead_ends_loop rand y x fuel k m = .ok (m2, k2) → quiet m2 y x := by
  intro fuel
  induction fuel with
  | zero => intro k m m2 k2 h; simp [dead_ends_loop] at h
  | succ n ih =>
    intro k m m2 k2 h
    unfold dead_ends_loop at h
    simp only [bind, Except.bind, pure, Except.pure] at h
    cases hs : dead_end_scan (n + 1) rand k m y x with
    | error e => rw [hs] at h; simp at h
    | ok s =>
      rw [hs] at h
      simp only at h
      split_ifs at h with hmv
      · simp only [Except.ok.injEq, Prod.mk.injEq] at h
        obtain ⟨q1, q2⟩ := dead_end_scan_quiet hs hmv
        rw [← h.1, q1]; exact q2
      · exact ih s.k s.maze m2 k2 h

/-! ## Writing the file and decoding it -/

theorem write_maze_spec {m : List Nat} {y x : Int} (hs : Sized m y x) (sy sx : Int) :
    write_maze m y x sy sx =
      .ok ([to_uint8 x, to_uint8 y, to_uint8 sx, to_uint8 sy] ++ m) := by
  obtain ⟨hy, hx, hlen⟩ := hs
  have key := for_loop2_total
    (fun i j (file : List Nat) => do
      let c ← load m (MAZE_OF_I_OF_J i j x)
      return file ++ [c])
    (fun i j file =>
      file = [to_uint8 x, to_uint8 y, to_uint8 sx, to_uint8 sy] ++ m.take (i * x.toNat + j))
    y.toNat x.toNat
    (by
      intro i s _ hI
      rw [hI, Nat.add_zero, Nat.succ_mul])
    (by
      intro i j s hi hj hI
      have hb := index_bounds (y := y) (x := x) (i := (i : Int)) (j := (j : Int)) (by omega)
        (by omega) (by omega) (by omega)
      have hxn : ((x.toNat : Nat) : Int) = x := by omega
      have hp : (MAZE_OF_I_OF_J (i : Int) (j : Int) x).toNat = i * x.toNat + j := by
        unfold MAZE_OF_I_OF_J
        have : ((i * x.toNat + j : Nat) : Int) = (i : Int) * x + (j : Int) := by
          push_cast; rw [hxn]
        omega
      have hlt : i * x.toNat + j < m.length := by
        have : ((i * x.toNat + j : Nat) : Int) = (i : Int) * x + (j : Int) := by
          push_cast; rw [hxn]
        omega
      have hl : load m (MAZE_OF_I_OF_J (i : Int) (j : Int) x) = .ok m[i * x.toNat + j] := by
        rw [load_ok_iff, hp]
        exact ⟨hb.1, List.getElem?_eq_getElem hlt⟩
      refine ⟨s ++ [m[i * x.toNat + j]], ?_, ?_⟩
      · simp only [hl, bind, Except.bind, pure, Except.pure]
      · show s ++ [m[i * x.toNat + j]] =
          [to_uint8 x, to_uint8 y, to_uint8 sx, to_uint8 sy] ++ m.take (i * x.toNat + (j + 1))
        rw [hI, ← Nat.add_assoc, List.take_succ, List.getElem?_eq_getElem hlt]
        simp)
    [to_uint8 x, to_uint8 y, to_uint8 sx, to_uint8 sy] (by simp)
  obtain ⟨file, hf, hI⟩ := key
  unfold write_maze
  simp only [bind, Except.bind, pure, Except.pure] at hf ⊢
  rw [hf, hI]
  have : m.length ≤ y.toNat * x.toNat + 0 := by
    have h2 : ((y.toNat * x.toNat : Nat) : Int) = y * x := by
      push_cast
      have hxn : ((x.toNat : Nat) : Int) = x := by omega
      have hyn : ((y.toNat : Nat) : Int) = y := by omega
      rw [hxn, hyn]
    omega
  rw [List.take_of_length_le this]

/-! ## The whole of `draw_maze` -/

/-- What a returning run of `draw_maze` went through, for dimensions of at least 3: the fresh
grid `m0`, the state `w` in which the walk ended, the grid `m1` after the End write, and the
final grid, which keeps the generation properties and is quiet. -/
theorem draw_maze_spec {fuel : Nat} {rand : Nat → Nat} {y x : Int} {g : Generated}
    (hy : 3 ≤ y) (hx : 3 ≤ x) (h : draw_maze fuel rand y x = .ok g) :
    ∃ (m0 : List Nat) (w : Walk) (m1 : List Nat),
      draw_maze_start rand y x = .ok (m0, g.start_y, g.start_x) ∧
      Sized m0 y x ∧ fresh m0 y x g.start_y g.start_x ∧ interior y x g.start_y g.start_x ∧
      walk_inv m0 y x g.start_y g.start_x w ∧ (∀ d, ¬ legal w.maze y x w.i w.j d) ∧
      (∀ a b, cell m1 y x a b = if a = w.i ∧ b = w.j then some END else cell w.maze y x a b) ∧
      Gen m1 y x ∧ Gen g.maze y x ∧ keeps m1 g.maze y x ∧ quiet g.maze y x ∧
      g.file = [to_uint8 x, to_uint8 y, to_uint8 g.start_x, to_uint8 g.start_y] ++ g.maze := by
  obtain ⟨m0, sy, sx, hstart, _, _, hin, hs0, hfresh⟩ := draw_maze_start_spec rand hy hx
  have hg0 := fresh_gen hs0 hfresh
  unfold draw_maze at h
  simp only [bind, Except.bind, pure, Except.pure, hstart] at h
  cases hcp : draw_critical_path fuel rand 2 m0 y x sy sx with
  | error e => rw [hcp] at h; simp at h
  | ok r1 =>
    obtain ⟨m1, k1⟩ := r1
    rw [hcp] at h
    simp only at h
    obtain ⟨w, hw, hnone, _, hgen1, hc1⟩ := draw_critical_path_spec hg0 hin hcp
    have hpath : is_path (cell w.maze y x w.i w.j) := by
      rcases hw.2.2.2 with hf | ⟨e1, e2, e3⟩
      · exact Or.inl hf
      · rw [e1, e2, e3, hfresh sy sx (by unfold interior at hin; omega)
          (by unfold interior at hin; omega) (by unfold interior at hin; omega)
          (by unfold interior at hin; omega)]
        have hr : ¬ on_ring y x sy sx := by unfold on_ring; unfold interior at hin; omega
        rw [if_neg hr, if_pos ⟨rfl, rfl⟩]
        exact Or.inr (Or.inl rfl)
    have hg1 := hgen1 hpath
    cases hde : draw_dead_ends fuel rand k1 m1 y x with
    | error e => rw [hde] at h; simp at h
    | ok r2 =>
      obtain ⟨m2, k2⟩ := r2
      rw [hde] at h
      simp only at h
      unfold draw_dead_ends at hde
      obtain ⟨hg2, hk2⟩ := dead_ends_loop_gen fuel k1 m1 m2 k2 hg1 hde
      have hq := dead_ends_loop_quiet fuel k1 m1 m2 k2 hde
      rw [write_maze_spec hg2.sized] at h
      simp only [Except.ok.injEq] at h
      subst h
      exact ⟨m0, w, m1, hstart, hs0, hfresh, hin, hw, hnone, hc1, hg1, hg2, hk2, hq, rfl⟩

/-- Where the Start and End cells of a generated maze of at least four rows are: Start at
the recorded start position and nowhere else, End at one cell and nowhere else. -/
theorem draw_maze_marks {fuel : Nat} {rand : Nat → Nat} {y x : Int} {g : Generated}
    (hy : 4 ≤ y) (hx : 3 ≤ x) (h : draw_maze fuel rand y x = .ok g) :
    (∀ a b, cell g.maze y x a b = some START ↔ (a = g.start_y ∧ b = g.start_x)) ∧
      ∃ ei ej, ∀ a b, cell g.maze y x a b = some END ↔ (a = ei ∧ b = ej) := by
  obtain ⟨m0, w, m1, _, hs0, hfresh, hin, hw, hnone, hc1, _, _, hk2, _, _⟩ :=
    draw_maze_spec (by omega) hx h
  obtain ⟨_, hwin, hk0, hcur⟩ := hw
  have hfloor : cell w.maze y x w.i w.j = some FLOOR := by
    rcases hcur with hf | ⟨e1, e2, e3⟩
    · exact hf
    · exfalso
      rcases fresh_start_legal hy hfresh hin with hl | hl
      · exact hnone GO_DOWN (by rw [e1, e2, e3]; exact hl)
      · exact hnone GO_UP (by rw [e1, e2, e3]; exact hl)
  have hfr : ∀ a b v, cell m0 y x a b = some v →
      (v = BORDER ∨ (v = START ∧ a = g.start_y ∧ b = g.start_x) ∨ v = WALL) := by
    intro a b v hv
    obtain ⟨h1, h2, h3, h4⟩ := cell_in_range hv
    rw [hfresh a b h1 h2 h3 h4] at hv
    simp only [Option.some.injEq] at hv
    split_ifs at hv with c1 c2
    · exact Or.inl hv.symm
    · exact Or.inr (Or.inl ⟨hv.symm, c2.1, c2.2⟩)
    · exact Or.inr (Or.inr hv.symm)
  have hin2 := hin
  obtain ⟨i1, i2, i3, i4⟩ := hin2
  have hst0 : cell m0 y x g.start_y g.start_x = some START := by
    rw [hfresh _ _ (by omega) (by omega) (by omega) (by omega)]
    have hr : ¬ on_ring y x g.start_y g.start_x := by unfold on_ring; omega
    rw [if_neg hr, if_pos ⟨rfl, rfl⟩]
  constructor
  · intro a b
    rw [hk2 a b START (by decide) (by decide), hc1]
    by_cases e : a = w.i ∧ b = w.j
    · rw [if_pos e]
      obtain ⟨rfl, rfl⟩ := e
      constructor
      · intro hh; simp [END, START] at hh
      · rintro ⟨e1, e2⟩
        exfalso
        have := (hk0 w.i w.j START (by decide) (by decide)).2 (by rw [e1, e2]; exact hst0)
        rw [hfloor] at this
        simp [FLOOR, START] at this
    · rw [if_neg e, hk0 a b START (by decide) (by decide)]
      constructor
      · intro hh
        rcases hfr a b START hh with hb | ⟨_, e1, e2⟩ | hb
        · exact absurd hb (by decide)
        · exact ⟨e1, e2⟩
        · exact absurd hb (by decide)
      · rintro ⟨rfl, rfl⟩; exact hst0
  · refine ⟨w.i, w.j, ?_⟩
    intro a b
    rw [hk2 a b END (by decide) (by decide), hc1]
    by_cases e : a = w.i ∧ b = w.j
    · rw [if_pos e]; simp [e]
    · rw [if_neg e, hk0 a b END (by decide) (by decide)]
      constructor
      · intro hh
        exfalso
        rcases hfr a b END hh with hb | ⟨hb, _, _⟩ | hb <;> exact absurd hb (by decide)
      · intro hh; exact absurd hh e

theorem run_4x4_eq : draw_maze 50 counting_rand 4 4 = .ok run_4x4 := by rfl

/-- With two rows or two columns the start selection divides by zero, so `draw_maze`
produces no grid. -/
theorem draw_maze_two {fuel : Nat} {rand : Nat → Nat} {y x : Int} {g : Generated}
    (h : draw_maze fuel rand y x = .ok g) : y ≠ 2 ∧ x ≠ 2 := by
  by_contra hne
  have hps : ∀ k, ∃ e, pick_start rand k y x = .error e := by
    intro k
    unfold pick_start c_mod
    by_cases hy : y = 2
    · subst hy; exact ⟨_, rfl⟩
    · have hx : x = 2 := by omega
      subst hx
      have : ¬ (y - 1 - 1 = 0) := by omega
      simp only [this, if_false, bind, Except.bind]
      exact ⟨_, rfl⟩
  obtain ⟨e, he⟩ := hps 0
  have hst : ∀ r, draw_maze_start rand y x ≠ .ok r := by
    intro r hr
    unfold draw_maze_start at hr
    simp only [bind, Except.bind, pure, Except.pure, he] at hr
    split_ifs at hr
    cases h1 : fill_walls (List.replicate (y * x).toNat 0) y x with
    | error e => rw [h1] at hr; simp at hr
    | ok m1 =>
      rw [h1] at hr
      simp only at hr
      cases h2 : draw_border m1 y x with
      | error e => rw [h2] at hr; simp at hr
      | ok m2 => rw [h2] at hr; simp at hr
  unfold draw_maze at h
  simp only [bind, Except.bind, pure, Except.pure] at h
  cases h0 : draw_maze_start rand y x with
  | error e => rw [h0] at h; simp at h
  | ok r => exact hst r h0

theorem run_4x4_gen : Gen run_4x4.maze 4 4 := by
  obtain ⟨_, _, _, _, _, _, _, _, _, _, _, hg, _⟩ :=
    draw_maze_spec (by decide : (3 : Int) ≤ 4) (by decide : (3 : Int) ≤ 4) run_4x4_eq
  exact hg

theorem filled_5x5_eq :
    draw_dead_ends 10 halving_rand 0 walked_5x5 5 5 = .ok (filled_5x5, 45) := by rfl

/-- The cell values are the character codes of the macros of `shared.h`. -/
theorem char_codes :
    BORDER = 'B'.toNat ∧ WALL = '1'.toNat ∧ FLOOR = '0'.toNat ∧ START = 'S'.toNat ∧
      END = 'E'.toNat := by decide

/-- A remainder of a value of `rand()` by a dimension less two. -/
theorem c_mod_range {a b r : Int} (ha : 0 ≤ a) (hb1 : -1 ≤ b) (hb2 : b ≤ 253)
    (h : c_mod a b = .ok r) : 0 ≤ r ∧ r ≤ 252 := by
  unfold c_mod at h
  split_ifs at h with h0
  simp only [Except.ok.injEq] at h
  subst h
  by_cases hneg : b = -1
  · subst hneg
    have : Int.tmod a (-1) = 0 := by
      rw [Int.tmod_neg, Int.tmod_one]
    omega
  · have h1 := Int.tmod_nonneg b ha
    have h2 := Int.tmod_lt_of_pos a (by omega : 0 < b)
    omega

/-- For dimensions from 1 to 255, a start position that the start selection returns fits a
byte. -/
theorem pick_start_byte {rand : Nat → Nat} {k : Nat} {y x sy sx : Int}
    (hy1 : 1 ≤ y) (hy2 : y ≤ 255) (hx1 : 1 ≤ x) (hx2 : x ≤ 255)
    (h : pick_start rand k y x = .ok (sy, sx)) :
    (0 ≤ sy ∧ sy ≤ 255) ∧ (0 ≤ sx ∧ sx ≤ 255) := by
  unfold pick_start at h
  simp only [bind, Except.bind, pure, Except.pure] at h
  cases h1 : c_mod (rand k : Int) (y - 1 - 1) with
  | error e => rw [h1] at h; simp at h
  | ok r1 =>
    rw [h1] at h
    simp only at h
    cases h2 : c_mod (rand (k + 1) : Int) (x - 1 - 1) with
    | error e => rw [h2] at h; simp at h
    | ok r2 =>
      rw [h2] at h
      simp only [Except.ok.injEq, Prod.mk.injEq] at h
      have b1 := c_mod_range (by omega) (by omega) (by omega) h1
      have b2 := c_mod_range (by omega) (by omega) (by omega) h2
      omega

/-! ## `caseless_cmp` -/

theorem caseless_cmp_loop_iff : ∀ (str1 str2 : List Nat), (∀ c ∈ str1, c ≠ 0) →
    str1.length = str2.length →
    (caseless_cmp_loop str1 str2 = true ↔
      ∀ i, i < str1.length → tolower (str1.getD i 0) = tolower (str2.getD i 0)) := by
  intro str1
  induction str1 with
  | nil => intro str2 _ _; simp [caseless_cmp_loop]
  | cons c1 rest1 ih =>
    intro str2 hnul hlen
    cases str2 with
    | nil => simp at hlen
    | cons c2 rest2 =>
      have hc1 : c1 ≠ 0 := hnul c1 (List.mem_cons_self _ _)
      have hrest := ih rest2 (fun c hc => hnul c (List.mem_cons_of_mem _ hc))
        (by simpa using hlen)
      unfold caseless_cmp_loop
      simp only [hc1, if_false, List.headD_cons, List.tail_cons]
      by_cases ht : tolower c1 = tolower c2
      · simp only [ht, ne_eq, not_true_eq_false, if_false, hrest]
        constructor
        · intro h i hi
          cases i with
          | zero => simpa using ht
          | succ n =>
            simp only [List.getD_cons_succ]
            exact h n (by simpa using hi)
        · intro h i hi
          have := h (i + 1) (by simpa using hi)
          simpa using this
      · simp only [ne_eq, ht, not_false_eq_true, if_true, Bool.false_eq_true, false_iff]
        intro h
        exact ht (by simpa using h 0 (by simp))

theorem caseless_cmp_true_iff (a b : List Nat) (ha : ∀ c ∈ a, c ≠ 0) :
    caseless_cmp a b = true ↔
      a.length = b.length ∧ ∀ i, i < a.length → tolower (a.getD i 0) = tolower (b.getD i 0) := by
  unfold caseless_cmp strlen
  by_cases hlen : a.length = b.length
  · simp only [hlen, ne_eq, not_true_eq_false, if_false, true_and]
    rw [caseless_cmp_loop_iff a b ha hlen, hlen]
  · simp [hlen]

/-- A string that compares equal to one word does not compare equal to a word that differs
from it. -/
theorem caseless_cmp_other (command w1 w2 : List Nat) (hc : ∀ c ∈ command, c ≠ 0)
    (hw : ∀ c ∈ w1, c ≠ 0) (h1 : caseless_cmp command w1 = true)
    (hne : caseless_cmp w1 w2 = false) : caseless_cmp command w2 = false := by
  cases h2 : caseless_cmp command w2 with
  | false => rfl
  | true =>
    exfalso
    obtain ⟨l1, p1⟩ := (caseless_cmp_true_iff command w1 hc).1 h1
    obtain ⟨l2, p2⟩ := (caseless_cmp_true_iff command w2 hc).1 h2
    have : caseless_cmp w1 w2 = true := by
      rw [caseless_cmp_true_iff w1 w2 hw]
      refine ⟨by omega, ?_⟩
      intro i hi
      rw [← p1 i (by omega), p2 i (by omega)]
    rw [this] at hne
    simp at hne

/-! ## Which branch of `obey_player` a command takes -/

theorem obey_player_up (command : List Nat) (p : Player) (maze : List Nat)
    (y x sy sx : Int) (_hc : ∀ c ∈ command, c ≠ 0) (hcmd : command_is command "up" "w") :
    obey_player command p maze y x sy sx =
      (load maze (UP p.player_y p.player_x x) >>= fun target =>
        pure (.returned (after_move p { p with player_y := p.player_y - 1, movement := true } target))) := by
  have hbody : ∀ target : Nat,
      (if target = FLOOR ∨ target = START then
          (pure (.returned { p with player_y := p.player_y - 1, movement := true }) : Run Obeyed)
        else if target = END then pure (.returned { p with won := true, movement := true })
        else pure (.returned p)) =
      pure (.returned (after_move p { p with player_y := p.player_y - 1, movement := true } target)) := by
    intro target
    unfold after_move
    split_ifs <;> rfl
  unfold obey_player
  rcases hcmd with h | h
  · simp only [h, Bool.false_eq_true, or_self, or_true, true_or, if_true, if_false, hbody]
  · simp only [h, Bool.false_eq_true, or_self, or_true, true_or, if_true, if_false, hbody]

theorem obey_player_down (command : List Nat) (p : Player) (maze : List Nat)
    (y x sy sx : Int) (hc : ∀ c ∈ command, c ≠ 0) (hcmd : command_is command "down" "s") :
    obey_player command p maze y x sy sx =
      (load maze (DOWN p.player_y p.player_x x) >>= fun target =>
        pure (.returned (after_move p { p with player_y := p.player_y + 1, movement := true } target))) := by
  have hbody : ∀ target : Nat,
      (if target = FLOOR ∨ target = START then
          (pure (.returned { p with player_y := p.player_y + 1, movement := true }) : Run Obeyed)
        else if target = END then pure (.returned { p with won := true, movement := true })
        else pure (.returned p)) =
      pure (.returned (after_move p { p with player_y := p.player_y + 1, movement := true } target)) := by
    intro target
    unfold after_move
    split_ifs <;> rfl
  unfold obey_player
  rcases hcmd with h | h
  · have n0 := caseless_cmp_other command (c_string "down") (c_string "up") hc
      (by decide) h (by decide)
    have n1 := caseless_cmp_other command (c_string "down") (c_string "w") hc
      (by decide) h (by decide)
    simp only [n0, n1, h, Bool.false_eq_true, or_self, or_true, true_or, if_true, if_false, hbody]
  · have n0 := caseless_cmp_other command (c_string "s") (c_string "up") hc
      (by decide) h (by decide)
    have n1 := caseless_cmp_other command (c_string "s") (c_string "w") hc
      (by decide) h (by decide)
    simp only [n0, n1, h, Bool.false_eq_true, or_self, or_true, true_or, if_true, if_false, hbody]

theorem obey_player_left (command : List Nat) (p : Player) (maze : List Nat)
    (y x sy sx : Int) (hc : ∀ c ∈ command, c ≠ 0) (hcmd : command_is command "left" "a") :
    obey_player command p maze y x sy sx =
      (load maze (LEFT p.player_y p.player_x x) >>= fun target =>
        pure (.returned (after_move p { p with player_x := p.player_x - 1, movement := true } target))) := by
  have hbody : ∀ target : Nat,
      (if target = FLOOR ∨ target = START then
          (pure (.returned { p with player_x := p.player_x - 1, movement := true }) : Run Obeyed)
        else if target = END then pure (.returned { p with won := true, movement := true })
        else pure (.returned p)) =
      pure (.returned (after_move p { p with player_x := p.player_x - 1, movement := true } target)) := by
    intro target
    unfold after_move
    split_ifs <;> rfl
  unfold obey_player
  rcases hcmd with h | h
  · have n0 := caseless_cmp_other command (c_string "left") (c_string "up") hc
      (by decide) h (by decide)
    have n1 := caseless_cmp_other command (c_string "left") (c_string "w") hc
      (by decide) h (by decide)
    have n2 := caseless_cmp_other command (c_string "left") (c_string "down") hc
      (by decide) h (by decide)
    have n3 := caseless_cmp_other command (c_string "left") (c_string "s") hc
      (by decide) h (by decide)
    simp only [n0, n1, n2, n3, h, Bool.false_eq_true, or_self, or_true, true_or, if_true, if_false, hbody]
  · have n0 := caseless_cmp_other command (c_string "a") (c_string "up") hc
      (by decide) h (by decide)
    have n1 := caseless_cmp_other command (c_string "a") (c_string "w") hc
      (by decide) h (by decide)
    have n2 := caseless_cmp_other command (c_string "a") (c_string "down") hc
      (by decide) h (by decide)
    have n3 := caseless_cmp_other command (c_string "a") (c_string "s") hc
      (by decide) h (by decide)
    simp only [n0, n1, n2, n3, h, Bool.false_eq_true, or_self, or_true, true_or, if_true, if_false, hbody]

theorem obey_player_right (command : List Nat) (p : Player) (maze : List Nat)
    (y x sy sx : Int) (hc : ∀ c ∈ command, c ≠ 0) (hcmd : command_is command "right" "d") :
    obey_player command p maze y x sy sx =
      (load maze (RIGHT p.player_y p.player_x x) >>= fun target =>
        pure (.returned (after_move p { p with player_x := p.player_x + 1, movement := true } target))) := by
  have hbody : ∀ target : Nat,
      (if target = FLOOR ∨ target = START then
          (pure (.returned { p with player_x := p.player_x + 1, movement := true }) : Run Obeyed)
        else if target = END then pure (.returned { p with won := true, movement := true })
        else pure (.returned p)) =
      pure (.returned (after_move p { p with player_x := p.player_x + 1, movement := true } target)) := by
    intro target
    unfold after_move
    split_ifs <;> rfl
  unfold obey_player
  rcases hcmd with h | h
  · have n0 := caseless_cmp_other command (c_string "right") (c_string "up") hc
      (by decide) h (by decide)
    have n1 := caseless_cmp_other command (c_string "right") (c_string "w") hc
      (by decide) h (by decide)
    have n2 := caseless_cmp_other command (c_string "right") (c_string "down") hc
      (by decide) h (by decide)
    have n3 := caseless_cmp_other command (c_string "right") (c_string "s") hc
      (by decide) h (by decide)
    have n4 := caseless_cmp_other command (c_string "right") (c_string "left") hc
      (by decide) h (by decide)
    have n5 := caseless_cmp_other command (c_string "right") (c_string "a") hc
      (by decide) h (by decide)
    simp only [n0, n1, n2, n3, n4, n5, h, Bool.false_eq_true, or_self, or_true, true_or, if_true, if_false, hbody]
  · have n0 := caseless_cmp_other command (c_string "d") (c_string "up") hc
      (by decide) h (by decide)
    have n1 := caseless_cmp_other command (c_string "d") (c_string "w") hc
      (by decide) h (by decide)
    have n2 := caseless_cmp_other command (c_string "d") (c_string "down") hc
      (by decide) h (by decide)
    have n3 := caseless_cmp_other command (c_string "d") (c_string "s") hc
      (by decide) h (by decide)
    have n4 := caseless_cmp_other command (c_string "d") (c_string "left") hc
      (by decide) h (by decide)
    have n5 := caseless_cmp_other command (c_string "d") (c_string "a") hc
      (by decide) h (by decide)
    simp only [n0, n1, n2, n3, n4, n5, h, Bool.false_eq_true, or_self, or_true, true_or, if_true, if_false, hbody]

theorem obey_player_other (command : List Nat) (p : Player) (maze : List Nat)
    (y x sy sx : Int) (h : target_offset command p x = none) :
    obey_player command p maze y x sy sx =
      if caseless_cmp command (c_string "help") = true then pure (.returned p)
      else if caseless_cmp command (c_string "restart") = true then
        (restart_map p.map maze y x >>= fun map =>
          pure (.returned { p with map := map, player_y := sy, player_x := sx,
                                   movement := true }))
      else if caseless_cmp command (c_string "quit") = true then pure (.exited 0)
      else pure (.returned p) := by
  unfold target_offset at h
  split_ifs at h with h1 h2 h3 h4
  unfold command_is at h1 h2 h3 h4
  unfold obey_player
  simp only [h1, h2, h3, h4, if_false]

/-- A movement command reads the cell it aims at and applies the three-way test to it. -/
theorem obey_player_target (command : List Nat) (p : Player) (maze : List Nat)
    (y x sy sx : Int) (hc : ∀ c ∈ command, c ≠ 0) (off : Int)
    (h : target_offset command p x = some off) :
    ∃ moved : Player, moved.won = p.won ∧ moved.movement = true ∧ moved.map = p.map ∧
      obey_player command p maze y x sy sx =
        (load maze off >>= fun target => pure (.returned (after_move p moved target))) := by
  unfold target_offset at h
  split_ifs at h with h1 h2 h3 h4
  · simp only [Option.some.injEq] at h
    subst h
    exact ⟨{ p with player_y := p.player_y - 1, movement := true }, rfl, rfl, rfl,
      obey_player_up command p maze y x sy sx hc h1⟩
  · simp only [Option.some.injEq] at h
    subst h
    exact ⟨{ p with player_y := p.player_y + 1, movement := true }, rfl, rfl, rfl,
      obey_player_down command p maze y x sy sx hc h2⟩
  · simp only [Option.some.injEq] at h
    subst h
    exact ⟨{ p with player_x := p.player_x - 1, movement := true }, rfl, rfl, rfl,
      obey_player_left command p maze y x sy sx hc h3⟩
  · simp only [Option.some.injEq] at h
    subst h
    exact ⟨{ p with player_x := p.player_x + 1, movement := true }, rfl, rfl, rfl,
      obey_player_right command p maze y x sy sx hc h4⟩

/-! ## The map before the player has seen anything -/

/-- Two grids of the same size with the same cells are the same buffer. -/
theorem sized_ext {a b : List Nat} {y x : Int} (ha : Sized a y x) (hb : Sized b y x)
    (h : ∀ i j, 0 ≤ i → i < y → 0 ≤ j → j < x → cell a y x i j = cell b y x i j) : a = b := by
  obtain ⟨hy, hx, hla⟩ := ha
  obtain ⟨_, _, hlb⟩ := hb
  apply List.ext_getElem?
  intro n
  by_cases hn : n < a.length
  · have hq0 : 0 ≤ (n : Int) / x := Int.ediv_nonneg (by omega) (by omega)
    have hr0 : 0 ≤ (n : Int) % x := Int.emod_nonneg _ (by omega)
    have hr1 : (n : Int) % x < x := Int.emod_lt_of_pos _ hx
    have hdm : (n : Int) / x * x + (n : Int) % x = n := by
      have := Int.ediv_add_emod (n : Int) x
      rw [mul_comm] at this
      exact this
    have hq1 : (n : Int) / x < y := by
      by_contra hge
      have h2 : y * x ≤ ((n : Int) / x) * x := mul_le_mul_of_nonneg_right (by omega) (by omega)
      omega
    have := h ((n : Int) / x) ((n : Int) % x) hq0 hq1 hr0 hr1
    unfold cell MAZE_OF_I_OF_J at this
    rw [if_pos ⟨hq0, hq1, hr0, hr1⟩, if_pos ⟨hq0, hq1, hr0, hr1⟩, hdm] at this
    simpa using this
  · have hb2 : ¬ n < b.length := by omega
    rw [List.getElem?_eq_none (by omega), List.getElem?_eq_none (by omega)]

theorem play_init_map_spec {map maze : List Nat} {y x : Int} (hmaze : Sized maze y x)
    (hmap : Sized map y x) :
    ∃ m, play_init_map map maze y x = .ok m ∧ Sized m y x ∧
      ∀ i j, 0 ≤ i → i < y → 0 ≤ j → j < x → cell m y x i j = some (fog (cell maze y x i j)) := by
  have key := for_loop2_total
    (fun i j (map : List Nat) => do
      let c ← load maze (MAZE_OF_I_OF_J i j x)
      store map (MAZE_OF_I_OF_J i j x) (if c = BORDER then WALL else 0))
    (fun i j m => Sized m y x ∧ ∀ a b : Int, 0 ≤ a → a < y → 0 ≤ b → b < x →
      (a < i ∨ (a = i ∧ b < j)) → cell m y x a b = some (fog (cell maze y x a b))) y.toNat x.toNat
    (by
      intro i s _ ⟨h1, h2⟩
      refine ⟨h1, ?_⟩
      intro a b ha0 ha hb0 hb hlt
      apply h2 a b ha0 ha hb0 hb
      omega)
    (by
      intro i j s hi hj ⟨h1, h2⟩
      have hr : 0 ≤ (i : Int) ∧ (i : Int) < y ∧ 0 ≤ (j : Int) ∧ (j : Int) < x := by omega
      obtain ⟨c, hc⟩ := cell_some hmaze hr.1 hr.2.1 hr.2.2.1 hr.2.2.2
      have hl := (load_cell hr.1 hr.2.1 hr.2.2.1 hr.2.2.2 c).2 hc
      obtain ⟨m, hm, hsz, hcm⟩ := store_cell h1 hr.1 hr.2.1 hr.2.2.1 hr.2.2.2
        (if c = BORDER then WALL else 0)
      refine ⟨m, ?_, hsz, ?_⟩
      · simp only [hl, bind, Except.bind]
        exact hm
      · intro a b ha0 ha hb0 hb hlt
        rw [hcm]
        by_cases e : a = (i : Int) ∧ b = (j : Int)
        · obtain ⟨rfl, rfl⟩ := e
          rw [if_pos ⟨rfl, rfl⟩, hc]
          simp [fog]
        · rw [if_neg e]
          apply h2 a b ha0 ha hb0 hb
          omega)
    map ⟨hmap, by intro a b ha0 _ hb0 _ h; omega⟩
  obtain ⟨m, hm, hsz, hc⟩ := key
  refine ⟨m, hm, hsz, ?_⟩
  intro i j hi0 hi hj0 hj
  apply hc i j hi0 hi hj0 hj
  omega

theorem restart_map_eq (map maze : List Nat) (y x : Int) :
    restart_map map maze y x = play_init_map map maze y x := rfl

/-! ## The writes of `draw_maze` when `fwrite` can fail -/

theorem error_check_fwrite (r : Int) :
    error_check "fwrite()" 1 r = if r = 1 then none else some (fwrite_report r) := by
  unfold error_check fwrite_report
  by_cases h : r = 1
  · simp [h]
  · simp only [ne_eq, h, not_false_eq_true, if_true, if_false]
    rfl

theorem checked_fwrite_ended (r : Nat → Int) (bytes : List Nat) (w : Written) (e : Exit)
    (h : w.ended = some e) : checked_fwrite r bytes w = w := by
  unfold checked_fwrite
  rw [h]

theorem checked_fwrite_ok (r : Nat → Int) (bytes : List Nat) (w : Written)
    (h : w.ended = none) (hr : r w.calls = 1) :
    checked_fwrite r bytes w = ⟨w.file ++ bytes, w.calls + 1, none⟩ := by
  unfold checked_fwrite
  rw [h, error_check_fwrite, if_pos hr]

theorem checked_fwrite_fail (r : Nat → Int) (bytes : List Nat) (w : Written)
    (h : w.ended = none) (hr : r w.calls ≠ 1) :
    checked_fwrite r bytes w = ⟨w.file, w.calls + 1, some (fwrite_report (r w.calls))⟩ := by
  unfold checked_fwrite
  rw [h, error_check_fwrite, if_neg hr]

theorem cells_written_ended (r : Nat → Int) : ∀ (cells : List Nat) (w : Written) (e : Exit),
    w.ended = some e → cells.foldl (fun w c => checked_fwrite r [c] w) w = w := by
  intro cells
  induction cells with
  | nil => intro w e _; rfl
  | cons c rest ih =>
    intro w e h
    rw [List.foldl_cons, checked_fwrite_ended r [c] w e h]
    exact ih w e h

theorem cells_written_ok (r : Nat → Int) : ∀ (cells : List Nat) (w : Written),
    w.ended = none → (∀ m, w.calls ≤ m → m < w.calls + cells.length → r m = 1) →
    cells.foldl (fun w c => checked_fwrite r [c] w) w =
      ⟨w.file ++ cells, w.calls + cells.length, none⟩ := by
  intro cells
  induction cells with
  | nil => intro w h _; cases w; simp_all
  | cons c rest ih =>
    intro w h hr
    rw [List.foldl_cons, checked_fwrite_ok r [c] w h (hr _ (le_refl _) (by simp))]
    rw [ih _ rfl (by
      intro m h1 h2
      simp only at h1 h2
      apply hr m (by omega)
      simp only [List.length_cons]
      omega)]
    simp only [List.length_cons, List.append_assoc, List.singleton_append, Written.mk.injEq,
      and_true, true_and]
    omega

/-- The loops of the writing steps make the calls of `fwrite` one cell after the other, in
the order of the buffer. -/
theorem write_maze_checked_eq {m : List Nat} {y x : Int} (hs : Sized m y x) (r : Nat → Int)
    (sy sx : Int) :
    write_maze_checked r m y x sy sx =
      .ok (m.foldl (fun w c => checked_fwrite r [c] w)
        (checked_fwrite r [to_uint8 x, to_uint8 y, to_uint8 sx, to_uint8 sy] ⟨[], 0, none⟩)) := by
  obtain ⟨hy, hx, hlen⟩ := hs
  have key := for_loop2_total
    (fun i j (w : Written) =>
      match w.ended with
      | some _ => .ok w
      | none => do
        let c ← load m (MAZE_OF_I_OF_J i j x)
        return checked_fwrite r [c] w)
    (fun i j w =>
      w = (m.take (i * x.toNat + j)).foldl (fun w c => checked_fwrite r [c] w)
        (checked_fwrite r [to_uint8 x, to_uint8 y, to_uint8 sx, to_uint8 sy] ⟨[], 0, none⟩))
    y.toNat x.toNat
    (by
      intro i s _ hI
      rw [hI, Nat.add_zero, Nat.succ_mul])
    (by
      intro i j s hi hj hI
      have hb := index_bounds (y := y) (x := x) (i := (i : Int)) (j := (j : Int)) (by omega)
        (by omega) (by omega) (by omega)
      have hxn : ((x.toNat : Nat) : Int) = x := by omega
      have hcast : ((i * x.toNat + j : Nat) : Int) = (i : Int) * x + (j : Int) := by
        push_cast; rw [hxn]
      have hp : (MAZE_OF_I_OF_J (i : Int) (j : Int) x).toNat = i * x.toNat + j := by
        unfold MAZE_OF_I_OF_J; omega
      have hlt : i * x.toNat + j < m.length := by omega
      have hl : load m (MAZE_OF_I_OF_J (i : Int) (j : Int) x) = .ok m[i * x.toNat + j] := by
        rw [load_ok_iff, hp]
        exact ⟨hb.1, List.getElem?_eq_getElem hlt⟩
      refine ⟨checked_fwrite r [m[i * x.toNat + j]] s, ?_, ?_⟩
      · cases he : s.ended with
        | some e => simp only [he, checked_fwrite_ended r _ s e he]
        | none => simp only [he, hl, bind, Except.bind, pure, Except.pure]
      · show checked_fwrite r [m[i * x.toNat + j]] s = (m.take (i * x.toNat + (j + 1))).foldl _ _
        rw [← Nat.add_assoc, List.take_succ, List.getElem?_eq_getElem hlt, List.foldl_append,
          ← hI]
        rfl)
    (checked_fwrite r [to_uint8 x, to_uint8 y, to_uint8 sx, to_uint8 sy] ⟨[], 0, none⟩)
    (by simp)
  obtain ⟨w, hw, hI⟩ := key
  unfold write_maze_checked
  simp only [bind, Except.bind, pure, Except.pure] at hw ⊢
  rw [hw, hI]
  have : m.length ≤ y.toNat * x.toNat + 0 := by
    have h2 : ((y.toNat * x.toNat : Nat) : Int) = y * x := by
      push_cast
      have hxn : ((x.toNat : Nat) : Int) = x := by omega
      have hyn : ((y.toNat : Nat) : Int) = y := by omega
      rw [hxn, hyn]
    omega
  rw [List.take_of_length_le this]

/-! ## The trace of the walk -/

theorem adjacent_symm {p q : Int × Int} (h : adjacent p q) : adjacent q p := by
  simp only [adjacent] at *
  omega

theorem wall_not_path : ¬ is_path (some WALL) := by decide

theorem floor_is_path : is_path (some FLOOR) := by decide

theorem critical_path_trace_spec {rand : Nat → Nat} {y x : Int} :
    ∀ (fuel : Nat) (w wl : Walk), Gen w.maze y x → interior y x w.i w.j →
      is_path (cell w.maze y x w.i w.j) →
      critical_path_loop rand x fuel w = .ok wl →
      ∃ rest, critical_path_trace rand x fuel w = w :: rest ∧ Trail y x w wl rest := by
  intro fuel
  induction fuel with
  | zero => intro w wl _ _ _ h; simp [critical_path_loop] at h
  | succ n ih =>
    intro w wl hg hin hp h
    unfold critical_path_loop at h
    simp only [bind, Except.bind, pure, Except.pure] at h
    cases hst : critical_path_step (n + 1) rand x w with
    | error e => rw [hst] at h; simp at h
    | ok r =>
      obtain ⟨w1, b⟩ := r
      rw [hst] at h
      simp only at h
      rcases critical_path_step_spec hg hin hst with
        ⟨hb, e1, e2, e3, hnone⟩ | ⟨hb, d, hl, hd, hg1, _, hin1, hw1, hc⟩
      · subst hb
        simp only [Bool.false_eq_true, if_false, Except.ok.injEq] at h
        subst h
        refine ⟨[], by simp only [critical_path_trace, hst], ?_⟩
        refine ⟨⟨w, rfl, e1.symm, e2.symm, e3.symm⟩, List.chain'_singleton _, ?_, ?_, ?_,
          trivial, by simp, ?_, fun _ => hnone⟩
        · intro b hb; simp at hb
        · intro b hb; simp at hb
        · intro b hb; simp at hb
        · intro a c; rw [e1]; simp
      · subst hb
        simp only [if_true] at h
        have hp1 : is_path (cell w1.maze y x w1.i w1.j) := by
          rw [hc]; simp only [and_self, if_true]; exact floor_is_path
        obtain ⟨rest1, ht, T⟩ := ih w1 wl hg1 hin1 hp1 h
        have hup : ∀ a c, is_path (cell w.maze y x a c) → is_path (cell w1.maze y x a c) := by
          intro a c hq
          rw [hc]
          split_ifs
          · exact floor_is_path
          · exact hq
        have hadj : adjacent (w.i, w.j) (w1.i, w1.j) := by
          simp only [adjacent]
          rcases hd with ⟨_, a, b⟩ | ⟨_, a, b⟩ | ⟨_, a, b⟩ | ⟨_, a, b⟩ <;> omega
        have hfirst : ∀ q : Int × Int, adjacent (w1.i, w1.j) q →
            is_path (cell w.maze y x q.1 q.2) → q = (w.i, w.j) := by
          rintro ⟨a, c⟩ ha hq
          simp only [adjacent] at ha
          simp only [Prod.mk.injEq]
          rcases hd with ⟨ed, a1, b1⟩ | ⟨ed, a1, b1⟩ | ⟨ed, a1, b1⟩ | ⟨ed, a1, b1⟩
          all_goals
            subst ed
            rcases hl with ⟨e, hl⟩ | ⟨e, hl⟩ | ⟨e, hl⟩ | ⟨e, hl⟩
            all_goals first | (exact absurd e (by decide)) | skip
            obtain ⟨_, n1, n2, n3⟩ := hl
            rw [a1, b1] at ha
            rcases ha with ⟨u, v⟩ | ⟨u, v⟩ | ⟨u, v⟩ | ⟨u, v⟩
            all_goals first
              | (constructor <;> omega)
              | (exfalso; apply n1; convert hq using 2 <;> omega)
              | (exfalso; apply n2; convert hq using 2 <;> omega)
              | (exfalso; apply n3; convert hq using 2 <;> omega)
        have hlater : ∀ b ∈ rest1, ∀ q : Int × Int, adjacent (b.i, b.j) q →
            ¬ is_path (cell w.maze y x q.1 q.2) := by
          intro b hb q ha hq
          cases rest1 with
          | nil => simp at hb
          | cons b0 rest2 =>
            rcases List.mem_cons.1 hb with e | hb2
            · subst e
              have e2 := T.first b rfl q ha (hup _ _ hq)
              rw [e2] at hq
              simp only at hq
              rw [hw1] at hq
              exact wall_not_path hq
            · exact T.later b hb2 q ha (hup _ _ hq)
        have hwall : ∀ b ∈ w1 :: rest1, cell w.maze y x b.i b.j = some WALL := by
          intro b hb
          rcases List.mem_cons.1 hb with e | hb2
          · rw [e]; exact hw1
          · have h1 := T.wall b hb2
            rw [hc] at h1
            split_ifs at h1 with hh
            · exact absurd h1 (by decide)
            · exact h1
        refine ⟨w1 :: rest1, by simp only [critical_path_trace, hst, ht], ?_⟩
        refine ⟨?_, ?_, hwall, ?_, ?_, ?_, ?_, ?_, fun e => absurd e (by simp)⟩
        · obtain ⟨wz, hz, r⟩ := T.last
          exact ⟨wz, by rw [List.getLast?_cons_cons]; exact hz, r⟩
        · exact List.chain'_cons.2 ⟨⟨hadj, hw1⟩, T.chain⟩
        · intro b hb q ha hq
          simp only [List.head?_cons, Option.some.injEq] at hb
          subst hb
          exact hfirst q ha hq
        · intro b hb
          simp only [List.tail_cons] at hb
          exact hlater b hb
        · simp only [List.map_cons, apart]
          refine ⟨?_, by simpa [List.map_cons] using T.apart⟩
          intro r hr ha
          obtain ⟨b, hb, e⟩ := List.mem_map.1 hr
          subst e
          exact hlater b hb (w.i, w.j) (adjacent_symm ha) hp
        · rw [List.map_cons, List.nodup_cons]
          refine ⟨?_, T.nodup⟩
          intro hm
          obtain ⟨b, hb, e⟩ := List.mem_map.1 hm
          have h1 := hwall b hb
          simp only [Walk.position, Prod.mk.injEq] at e
          rw [e.1, e.2] at h1
          rw [h1] at hp
          exact wall_not_path hp
        · intro a c
          rw [T.cells a c, hc a c]
          simp only [List.map_cons, List.mem_cons, Walk.position, Prod.mk.injEq]
          by_cases hh : a = w1.i ∧ c = w1.j
          · simp only [hh, and_self, if_true, true_or, or_true, iff_true]
            exact Or.inl floor_is_path
          · rw [if_neg hh]
            simp only [hh, false_or]

theorem apart_append {l1 l : List (Int × Int)} (h : apart (l1 ++ l)) : apart l := by
  induction l1 with
  | nil => exact h
  | cons a l1 ih =>
    apply ih
    cases hl : l1 ++ l with
    | nil => trivial
    | cons b r =>
      rw [List.cons_append, hl] at h
      exact h.2

theorem apart_far {l1 l2 l3 : List (Int × Int)} {p q : Int × Int}
    (h : apart (l1 ++ p :: l2 ++ q :: l3)) (hne : l2 ≠ []) : ¬ adjacent p q := by
  rw [List.append_assoc] at h
  have h1 := apart_append h
  cases l2 with
  | nil => exact absurd rfl hne
  | cons a l2 =>
    simp only [List.cons_append, apart] at h1
    exact h1.1 q (by simp)

theorem path_neighbours_eq (m : List Nat) (y x i j : Int) :
    path_neighbours m y x i j =
      (if is_path (cell m y x (i - 1) j) then 1 else 0) +
        (if is_path (cell m y x (i + 1) j) then 1 else 0) +
        (if is_path (cell m y x i (j - 1)) then 1 else 0) +
        (if is_path (cell m y x i (j + 1)) then 1 else 0) := by
  simp only [path_neighbours, List.filter_cons, List.filter_nil, decide_eq_true_eq]
  by_cases h1 : is_path (cell m y x (i - 1) j) <;>
    by_cases h2 : is_path (cell m y x (i + 1) j) <;>
    by_cases h3 : is_path (cell m y x i (j - 1)) <;>
    by_cases h4 : is_path (cell m y x i (j + 1)) <;>
    simp [h1, h2, h3, h4]

theorem path_neighbours_two {m : List Nat} {y x : Int} {p u v : Int × Int}
    (hu : adjacent p u) (hv : adjacent p v) (hne : u ≠ v)
    (h : ∀ q, adjacent p q → (is_path (cell m y x q.1 q.2) ↔ q = u ∨ q = v)) :
    path_neighbours m y x p.1 p.2 = 2 := by
  obtain ⟨i, j⟩ := p
  obtain ⟨a, b⟩ := u
  obtain ⟨c, d⟩ := v
  have h1 := h (i - 1, j) (by simp [adjacent])
  have h2 := h (i + 1, j) (by simp [adjacent])
  have h3 := h (i, j - 1) (by simp [adjacent])
  have h4 := h (i, j + 1) (by simp [adjacent])
  simp only [adjacent, Prod.mk.injEq, ne_eq] at hu hv hne h1 h2 h3 h4
  have e1 : ¬ (i - 1 = i + 1) := by omega
  have e2 : ¬ (i + 1 = i - 1) := by omega
  have e3 : ¬ (i = i - 1) := by omega
  have e4 : ¬ (i = i + 1) := by omega
  have e5 : ¬ (i - 1 = i) := by omega
  have e6 : ¬ (i + 1 = i) := by omega
  have f1 : ¬ (j - 1 = j + 1) := by omega
  have f2 : ¬ (j + 1 = j - 1) := by omega
  have f3 : ¬ (j = j - 1) := by omega
  have f4 : ¬ (j = j + 1) := by omega
  have f5 : ¬ (j - 1 = j) := by omega
  have f6 : ¬ (j + 1 = j) := by omega
  rw [path_neighbours_eq]
  rcases hu with ⟨ea, eb⟩ | ⟨ea, eb⟩ | ⟨ea, eb⟩ | ⟨ea, eb⟩ <;>
    rcases hv with ⟨ec, ed⟩ | ⟨ec, ed⟩ | ⟨ec, ed⟩ | ⟨ec, ed⟩ <;>
    first
      | (exfalso; omega)
      | (rw [show (if is_path (cell m y x (i - 1) j) then 1 else 0) =
              if (i - 1 = a ∧ j = b ∨ i - 1 = c ∧ j = d) then 1 else 0 from if_congr h1 rfl rfl,
            show (if is_path (cell m y x (i + 1) j) then 1 else 0) =
              if (i + 1 = a ∧ j = b ∨ i + 1 = c ∧ j = d) then 1 else 0 from if_congr h2 rfl rfl,
            show (if is_path (cell m y x i (j - 1)) then 1 else 0) =
              if (i = a ∧ j - 1 = b ∨ i = c ∧ j - 1 = d) then 1 else 0 from if_congr h3 rfl rfl,
            show (if is_path (cell m y x i (j + 1)) then 1 else 0) =
              if (i = a ∧ j + 1 = b ∨ i = c ∧ j + 1 = d) then 1 else 0 from if_congr h4 rfl rfl]
         simp only [ea, eb, ec, ed, e1, e2, e3, e4, e5, e6, f1, f2, f3, f4, f5, f6, and_self,
           and_true, true_and, and_false, false_and, or_self, or_true, true_or, or_false,
           false_or, if_true, if_false])

theorem path_neighbours_one {m : List Nat} {y x : Int} {p u : Int × Int}
    (hu : adjacent p u)
    (h : ∀ q, adjacent p q → (is_path (cell m y x q.1 q.2) ↔ q = u)) :
    path_neighbours m y x p.1 p.2 = 1 := by
  obtain ⟨i, j⟩ := p
  obtain ⟨a, b⟩ := u
  have h1 := h (i - 1, j) (by simp [adjacent])
  have h2 := h (i + 1, j) (by simp [adjacent])
  have h3 := h (i, j - 1) (by simp [adjacent])
  have h4 := h (i, j + 1) (by simp [adjacent])
  simp only [adjacent, Prod.mk.injEq] at hu h1 h2 h3 h4
  rw [path_neighbours_eq, if_congr h1 rfl rfl, if_congr h2 rfl rfl, if_congr h3 rfl rfl,
    if_congr h4 rfl rfl]
  have e1 : ¬ (i - 1 = i + 1) := by omega
  have e2 : ¬ (i + 1 = i - 1) := by omega
  have e3 : ¬ (i = i - 1) := by omega
  have e4 : ¬ (i = i + 1) := by omega
  have e5 : ¬ (i - 1 = i) := by omega
  have e6 : ¬ (i + 1 = i) := by omega
  have f1 : ¬ (j - 1 = j + 1) := by omega
  have f2 : ¬ (j + 1 = j - 1) := by omega
  have f3 : ¬ (j = j - 1) := by omega
  have f4 : ¬ (j = j + 1) := by omega
  have f5 : ¬ (j - 1 = j) := by omega
  have f6 : ¬ (j + 1 = j) := by omega
  rcases hu with ⟨ea, eb⟩ | ⟨ea, eb⟩ | ⟨ea, eb⟩ | ⟨ea, eb⟩ <;>
    simp only [ea, eb, e1, e2, e3, e4, e5, e6, f1, f2, f3, f4, f5, f6, and_self, and_true,
      true_and, and_false, false_and, if_true, if_false]

theorem adjacent_irrefl (p : Int × Int) : ¬ adjacent p p := by
  simp only [adjacent]
  omega

theorem chain_at {α : Type} {R : α → α → Prop} {l1 l2 : List α} {a b : α}
    (h : List.Chain' R (l1 ++ a :: b :: l2)) : R a b := by
  have h1 := (List.chain'_split.1 h).2
  exact (List.chain'_cons.1 h1).1

/-- In a list whose cells are apart, a cell of the list adjacent to `p` comes right before
or right after `p`. -/
theorem apart_neighbours {l1 l2 : List (Int × Int)} {p q : Int × Int}
    (ha : apart (l1 ++ p :: l2)) (hq : q ∈ l1 ++ p :: l2) (hadj : adjacent p q) :
    l1.getLast? = some q ∨ l2.head? = some q := by
  rcases List.mem_append.1 hq with h1 | h1
  · obtain ⟨s, t, e⟩ := List.append_of_mem h1
    subst e
    cases t with
    | nil => left; simp
    | cons c t =>
      exfalso
      have h2 : apart (s ++ q :: (c :: t) ++ p :: l2) := by
        simpa [List.append_assoc] using ha
      exact apart_far h2 (by simp) (adjacent_symm hadj)
  · rcases List.mem_cons.1 h1 with e | h2
    · subst e
      exact absurd hadj (adjacent_irrefl _)
    · obtain ⟨s, t, e⟩ := List.append_of_mem h2
      subst e
      cases s with
      | nil => right; simp
      | cons c s =>
        exfalso
        have h3 : apart (l1 ++ p :: (c :: s) ++ q :: t) := by
          simpa [List.append_assoc] using ha
        exact apart_far h3 (by simp) hadj

/-- The walk of `draw_critical_path` on a grid with the generation properties, from a start
cell that is a path cell: its trace, the state `wl` the loop ends in, and the END write. -/
theorem draw_critical_path_trail {fuel : Nat} {rand : Nat → Nat} {k k2 : Nat}
    {m0 m : List Nat} {y x sy sx : Int} (hg : Gen m0 y x) (hin : interior y x sy sx)
    (hp : is_path (cell m0 y x sy sx))
    (h : draw_critical_path fuel rand k m0 y x sy sx = .ok (m, k2)) :
    ∃ (rest : List Walk) (wl : Walk),
      critical_path_trace rand x fuel ⟨m0, sy, sx, k⟩ = ⟨m0, sy, sx, k⟩ :: rest ∧
      Trail y x ⟨m0, sy, sx, k⟩ wl rest ∧
      store wl.maze (MAZE_OF_I_OF_J wl.i wl.j x) END = .ok m ∧
      ∀ a c, cell m y x a c = if a = wl.i ∧ c = wl.j then some END else cell wl.maze y x a c := by
  unfold draw_critical_path at h
  simp only [bind, Except.bind, pure, Except.pure] at h
  cases hl : critical_path_loop rand x fuel ⟨m0, sy, sx, k⟩ with
  | error e => rw [hl] at h; simp at h
  | ok wl =>
    rw [hl] at h
    simp only at h
    obtain ⟨rest, ht, T⟩ := critical_path_trace_spec fuel ⟨m0, sy, sx, k⟩ wl hg hin hp hl
    obtain ⟨hw, _⟩ := @critical_path_loop_spec rand m0 y x sy sx fuel
      ⟨m0, sy, sx, k⟩ wl ⟨hg, hin, keeps_refl _ _ _, Or.inr ⟨rfl, rfl, rfl⟩⟩ hl
    obtain ⟨h1, h2, h3, h4⟩ := hw.2.1
    obtain ⟨m2, hm2, _, hc⟩ := store_cell hw.1.sized (a := wl.i) (b := wl.j) (by omega)
      (by omega) (by omega) (by omega) END
    rw [hm2] at h
    simp only [Except.ok.injEq, Prod.mk.injEq] at h
    obtain ⟨e1, _⟩ := h
    subst e1
    exact ⟨rest, wl, ht, T, hm2, hc⟩

/-! ## The 5 by 5 run on `stall_rand` -/

theorem fresh_5x5_fresh : fresh fresh_5x5 5 5 2 2 := by
  intro i j hi0 hi hj0 hj
  interval_cases i <;> interval_cases j <;> rfl

theorem fresh_5x5_gen : Gen fresh_5x5 5 5 := fresh_gen (by decide) fresh_5x5_fresh

theorem stalled_5x5_eq :
    draw_critical_path 10 stall_rand 2 fresh_5x5 5 5 2 2 = .ok (stalled_5x5, 4) := by rfl

theorem eq_append_last {α : Type} {l : List α} (h : l ≠ []) : ∃ L b, l = L ++ [b] := by
  rcases List.eq_nil_or_concat l with e | ⟨L, b, e⟩
  · exact absurd e h
  · exact ⟨L, b, by rw [e, List.concat_eq_append]⟩

theorem last_append_last {α : Type} (l : List α) (b : α) : (l ++ [b]).getLast? = some b := by
  induction l with
  | nil => rfl
  | cons a l ih =>
    cases hl : l ++ [b] with
    | nil => simp at hl
    | cons c r =>
      rw [List.cons_append, hl, List.getLast?_cons_cons, ← hl]
      exact ih

/-! ## Scans and the number of WALL cells -/

theorem count_set_wall : ∀ (l : List Nat) (n : Nat), l[n]? = some WALL →
    (l.set n FLOOR).count WALL + 1 = l.count WALL := by
  intro l
  induction l with
  | nil => intro n h; simp at h
  | cons a l ih =>
    intro n h
    cases n with
    | zero =>
      simp only [List.getElem?_cons_zero, Option.some.injEq] at h
      subst h
      simp [List.count_cons, WALL, FLOOR]
    | succ n =>
      simp only [List.getElem?_cons_succ] at h
      have h1 := ih n h
      simp only [List.set_cons_succ, List.count_cons]
      omega

theorem store_wall_count {m m2 : List Nat} {y x p q : Int}
    (hst : store m (MAZE_OF_I_OF_J p q x) FLOOR = .ok m2)
    (hw : cell m y x p q = some WALL) : wall_count m2 + 1 = wall_count m := by
  unfold store at hst
  split_ifs at hst
  simp only [Except.ok.injEq] at hst
  subst hst
  unfold cell at hw
  split_ifs at hw
  exact count_set_wall m _ hw

theorem stalled_5x5_gen : Gen stalled_5x5 5 5 := by
  obtain ⟨w, hw, _, _, hgen, _⟩ :=
    draw_critical_path_spec fresh_5x5_gen (by decide : interior 5 5 2 2) stalled_5x5_eq
  apply hgen
  rcases hw.2.2.2 with h | ⟨h1, h2, h3⟩
  · rw [h]; decide
  · rw [h1, h2, h3]; decide

theorem error_defined {α : Type} {e : Fault} {r : Run α} (h : r = .error e)
    (hr : r ≠ .error .undefined) : e ≠ .undefined := by
  intro he
  rw [he] at h
  exact hr h

theorem for_loop_defined {σ : Type} (body : Int → σ → Run σ) (I : Nat → σ → Prop) (N : Nat)
    (hstep : ∀ n s, n < N → I n s → body (n : Int) s ≠ .error .undefined ∧
      ∀ s2, body (n : Int) s = .ok s2 → I (n + 1) s2) :
    ∀ M, M ≤ N → ∀ s, I 0 s → for_loop body M s ≠ .error .undefined ∧
      ∀ s2, for_loop body M s = .ok s2 → I M s2 := by
  intro M
  induction M with
  | zero =>
    intro _ s h0
    refine ⟨by simp [for_loop], ?_⟩
    intro s2 h
    simp only [for_loop, Except.ok.injEq] at h
    subst h; exact h0
  | succ n ih =>
    intro hn s h0
    obtain ⟨h1, h2⟩ := ih (by omega) s h0
    simp only [for_loop, bind, Except.bind]
    cases hs : for_loop body n s with
    | error e =>
      simp only
      exact ⟨fun hh => error_defined hs h1 (by injection hh), fun s2 hh => by simp at hh⟩
    | ok s1 =>
      simp only
      exact hstep n s1 (by omega) (h2 s1 hs)

theorem for_loop2_defined {σ : Type} (body : Int → Int → σ → Run σ)
    (I : Nat → Nat → σ → Prop) (Y X : Nat)
    (hrow : ∀ i s, i < Y → I i X s → I (i + 1) 0 s)
    (hstep : ∀ i j s, i < Y → j < X → I i j s →
      body (i : Int) (j : Int) s ≠ .error .undefined ∧
        ∀ s2, body (i : Int) (j : Int) s = .ok s2 → I i (j + 1) s2) :
    ∀ s, I 0 0 s →
      for_loop (fun i s => for_loop (fun j s => body i j s) X s) Y s ≠ .error .undefined := by
  intro s h0
  refine (for_loop_defined (fun i s => for_loop (fun j s => body i j s) X s)
    (fun i s => I i 0 s) Y ?_ Y (le_refl _) s h0).1
  intro i s1 hi hI
  have r := for_loop_defined (fun j s => body (i : Int) j s) (fun j s => I i j s) X
    (fun j s2 hj hI2 => hstep i j s2 hi hj hI2) X (le_refl _) s1 hI
  exact ⟨r.1, fun s2 hs2 => hrow i s2 hi (r.2 s2 hs2)⟩

theorem find_move_defined {maze : List Nat} {y x i j : Int} (hs : Sized maze y x)
    (hring : ring_closed maze y x) (hin : interior y x i j)
    (fuel : Nat) (rand : Nat → Nat) (k : Nat) :
    find_move fuel rand k maze i j x ≠ .error .undefined := by
  rw [find_move_eq hs hring hin]
  split_ifs
  · simp
  · exact pick_direction_defined _ _

theorem critical_path_step_defined {w : Walk} {y x : Int} (hg : Gen w.maze y x)
    (hin : interior y x w.i w.j) (fuel : Nat) (rand : Nat → Nat) :
    critical_path_step fuel rand x w ≠ .error .undefined := by
  unfold critical_path_step
  simp only [bind, Except.bind, pure, Except.pure]
  have hd := find_move_defined hg.sized (framed_ring_closed hg.framed) hin fuel rand w.k
  cases hfm : find_move fuel rand w.k w.maze w.i w.j x with
  | error e =>
    simp only
    exact fun hh => error_defined hfm hd (by injection hh)
  | ok r =>
    obtain ⟨step, k2⟩ := r
    simp only
    rcases find_move_spec hg.sized (framed_ring_closed hg.framed) hin hfm with
      ⟨hs, _, _⟩ | ⟨_, _, hl⟩
    · subst hs
      simp [NO_VALID_STEP, GO_UP, GO_DOWN, GO_LEFT, GO_RIGHT]
    · obtain ⟨m2, _, _, hst⟩ := legal_store hg hl
      rcases hst with ⟨e, hp⟩ | ⟨e, hp⟩ | ⟨e, hp⟩ | ⟨e, hp⟩
      · subst e
        rw [if_pos rfl, hp]; simp
      · subst e
        rw [if_neg (by decide), if_pos rfl, hp]; simp
      · subst e
        rw [if_neg (by decide), if_neg (by decide), if_pos rfl, hp]; simp
      · subst e
        rw [if_neg (by decide), if_neg (by decide), if_neg (by decide), if_pos rfl, hp]; simp

theorem critical_path_loop_defined {rand : Nat → Nat} {y x : Int} :
    ∀ (fuel : Nat) (w : Walk), Gen w.maze y x → interior y x w.i w.j →
      critical_path_loop rand x fuel w ≠ .error .undefined := by
  intro fuel
  induction fuel with
  | zero => intro w _ _; simp [critical_path_loop]
  | succ n ih =>
    intro w hg hin
    unfold critical_path_loop
    simp only [bind, Except.bind, pure, Except.pure]
    have hd := critical_path_step_defined hg hin (n + 1) rand
    cases hst : critical_path_step (n + 1) rand x w with
    | error e =>
      simp only
      exact fun hh => error_defined hst hd (by injection hh)
    | ok r =>
      obtain ⟨w1, b⟩ := r
      simp only
      rcases critical_path_step_spec hg hin hst with
        ⟨hb, _⟩ | ⟨hb, _, _, _, hg1, _, hin1, _⟩
      · subst hb; simp
      · subst hb
        simp only [if_true]
        exact ih w1 hg1 hin1

theorem draw_critical_path_defined {m0 : List Nat} {y x sy sx : Int} (hg : Gen m0 y x)
    (hin : interior y x sy sx) (fuel : Nat) (rand : Nat → Nat) (k : Nat) :
    draw_critical_path fuel rand k m0 y x sy sx ≠ .error .undefined := by
  unfold draw_critical_path
  simp only [bind, Except.bind, pure, Except.pure]
  have hd := @critical_path_loop_defined rand y x fuel ⟨m0, sy, sx, k⟩ hg hin
  cases hl : critical_path_loop rand x fuel ⟨m0, sy, sx, k⟩ with
  | error e =>
    simp only
    exact fun hh => error_defined hl hd (by injection hh)
  | ok wl =>
    simp only
    obtain ⟨hw, _⟩ := @critical_path_loop_spec rand m0 y x sy sx fuel
      ⟨m0, sy, sx, k⟩ wl ⟨hg, hin, keeps_refl _ _ _, Or.inr ⟨rfl, rfl, rfl⟩⟩ hl
    obtain ⟨h1, h2, h3, h4⟩ := hw.2.1
    obtain ⟨m2, hm2, _, _⟩ := store_cell hw.1.sized (a := wl.i) (b := wl.j) (by omega)
      (by omega) (by omega) (by omega) END
    rw [hm2]; simp

theorem dead_end_visit_defined {y x i j : Int} {s : Scan}
    (hg : Gen s.maze y x) (hi0 : 0 ≤ i) (hi : i < y) (hj0 : 0 ≤ j) (hj : j < x)
    (fuel : Nat) (rand : Nat → Nat) :
    dead_end_visit fuel rand x i j s ≠ .error .undefined := by
  unfold dead_end_visit
  simp only [bind, Except.bind, pure, Except.pure]
  obtain ⟨c, hcell⟩ := cell_some hg.sized hi0 hi hj0 hj
  have hl := (load_cell hi0 hi hj0 hj c).2 hcell
  rw [hl]
  simp only
  by_cases hc : c = FLOOR
  · subst hc
    simp only [if_true]
    have hin := floor_interior hg.framed hcell
    have hd := find_move_defined hg.sized (framed_ring_closed hg.framed) hin fuel rand (s.k + 1)
    cases hfm : find_move fuel rand (s.k + 1) s.maze i j x with
    | error e =>
      simp only
      exact fun hh => error_defined hfm hd (by injection hh)
    | ok r =>
      obtain ⟨step, k2⟩ := r
      simp only
      rcases find_move_spec hg.sized (framed_ring_closed hg.framed) hin hfm with
        ⟨hs, _, _⟩ | ⟨_, _, hleg⟩
      · subst hs
        simp [NO_VALID_STEP, GO_UP, GO_DOWN, GO_LEFT, GO_RIGHT]
      · obtain ⟨m2, _, _, hst⟩ := legal_store hg hleg
        rcases hst with ⟨e, hp⟩ | ⟨e, hp⟩ | ⟨e, hp⟩ | ⟨e, hp⟩
        · subst e
          rw [if_pos rfl, hp]
          split_ifs <;> simp
        · subst e
          rw [if_neg (by decide), if_pos rfl, hp]
          split_ifs <;> simp
        · subst e
          rw [if_neg (by decide), if_neg (by decide), if_pos rfl, hp]
          split_ifs <;> simp
        · subst e
          rw [if_neg (by decide), if_neg (by decide), if_neg (by decide), if_pos rfl, hp]
          split_ifs <;> simp
  · simp [hc]

theorem dead_end_scan_defined {m : List Nat} {y x : Int} (hg : Gen m y x)
    (fuel : Nat) (rand : Nat → Nat) (k : Nat) :
    dead_end_scan fuel rand k m y x ≠ .error .undefined := by
  exact for_loop2_defined (fun i j s => dead_end_visit fuel rand x i j s)
    (fun _ _ s => Gen s.maze y x) y.toNat x.toNat (fun _ _ _ hI => hI)
    (fun i j s hi hj hI =>
      ⟨dead_end_visit_defined hI (i := (i : Int)) (j := (j : Int)) (by omega) (by omega)
        (by omega) (by omega) fuel rand,
      fun s2 hb => (dead_end_visit_gen hI (i := (i : Int)) (j := (j : Int)) (by omega)
        (by omega) (by omega) (by omega) hb).1⟩)
    ⟨m, k, false⟩ hg

theorem dead_ends_loop_defined {rand : Nat → Nat} {y x : Int} :
    ∀ (fuel k : Nat) (m : List Nat), Gen m y x →
      dead_ends_loop rand y x fuel k m ≠ .error .undefined := by
  intro fuel
  induction fuel with
  | zero => intro k m _; simp [dead_ends_loop]
  | succ n ih =>
    intro k m hg
    unfold dead_ends_loop
    simp only [bind, Except.bind, pure, Except.pure]
    have hd := dead_end_scan_defined hg (n + 1) rand k
    cases hs : dead_end_scan (n + 1) rand k m y x with
    | error e =>
      simp only
      exact fun hh => error_defined hs hd (by injection hh)
    | ok s =>
      simp only
      split_ifs
      · simp
      · exact ih s.k s.maze (dead_end_scan_gen hg hs).1

/-- The grid that `draw_critical_path` returns in `draw_maze` has the generation
properties. -/
theorem draw_critical_path_gen {fuel : Nat} {rand : Nat → Nat} {k k2 : Nat}
    {m0 m : List Nat} {y x sy sx : Int} (hg : Gen m0 y x) (hin : interior y x sy sx)
    (hp : is_path (cell m0 y x sy sx))
    (h : draw_critical_path fuel rand k m0 y x sy sx = .ok (m, k2)) : Gen m y x := by
  obtain ⟨w, hw, _, _, hgen, _⟩ := draw_critical_path_spec hg hin h
  apply hgen
  rcases hw.2.2.2 with h1 | ⟨h1, h2, h3⟩
  · rw [h1]; decide
  · rw [h1, h2, h3]; exact hp

theorem fresh_start {m : List Nat} {y x sy sx : Int} (hf : fresh m y x sy sx)
    (hin : interior y x sy sx) : cell m y x sy sx = some START := by
  obtain ⟨h1, h2, h3, h4⟩ := hin
  rw [hf sy sx (by omega) (by omega) (by omega) (by omega)]
  have hr : ¬ on_ring y x sy sx := by unfold on_ring; omega
  rw [if_neg hr, if_pos ⟨rfl, rfl⟩]

theorem draw_maze_defined {y x : Int} (hy : 3 ≤ y) (hx : 3 ≤ x) (fuel : Nat)
    (rand : Nat → Nat) : draw_maze fuel rand y x ≠ .error .undefined := by
  obtain ⟨m0, sy, sx, h0, _, _, hin, hs, hf⟩ := draw_maze_start_spec rand hy hx
  have hg := fresh_gen hs hf
  have hp : is_path (cell m0 y x sy sx) := by rw [fresh_start hf hin]; decide
  unfold draw_maze
  simp only [bind, Except.bind, pure, Except.pure, h0]
  have hd1 := draw_critical_path_defined hg hin fuel rand 2
  cases h1 : draw_critical_path fuel rand 2 m0 y x sy sx with
  | error e =>
    simp only
    exact fun hh => error_defined h1 hd1 (by injection hh)
  | ok r =>
    obtain ⟨m1, k1⟩ := r
    simp only
    have hg1 := draw_critical_path_gen hg hin hp h1
    have hd2 := @dead_ends_loop_defined rand y x fuel k1 m1 hg1
    cases h2 : draw_dead_ends fuel rand k1 m1 y x with
    | error e =>
      simp only
      exact fun hh => error_defined h2 hd2 (by injection hh)
    | ok r2 =>
      obtain ⟨m2, k2⟩ := r2
      simp only
      have hg2 := (dead_ends_loop_gen fuel k1 m1 m2 k2 hg1 h2).1
      rw [write_maze_spec hg2.sized]
      simp

/-! ## Dimensions below 3 -/

/-- With one row, the start selection takes a remainder by -1 and yields row 1, which is not
a row of the grid: the START write falls outside the buffer. -/
theorem draw_maze_start_one (rand : Nat → Nat) :
    draw_maze_start rand 1 5 = .error .undefined := by
  have hp : ∃ sx : Int, 1 ≤ sx ∧ pick_start rand 0 1 5 = .ok (1, sx) := by
    refine ⟨Int.tmod (rand 1) 3 + 1, ?_, ?_⟩
    · have := Int.tmod_nonneg (b := 3) (Int.ofNat_nonneg (rand 1))
      omega
    · simp [pick_start, c_mod, bind, Except.bind, pure, Except.pure]
  obtain ⟨sx, h1, h2⟩ := hp
  have hf : fill_walls (List.replicate ((1 : Int) * 5).toNat 0) 1 5 =
      .ok [49, 49, 49, 49, 49] := rfl
  have hb : draw_border [49, 49, 49, 49, 49] 1 5 = .ok [66, 66, 66, 66, 66] := rfl
  have hs : store [66, 66, 66, 66, 66] (MAZE_OF_I_OF_J 1 sx 5) START = .error .undefined := by
    unfold store MAZE_OF_I_OF_J
    rw [if_pos]
    right
    simp only [List.length_cons, List.length_nil]
    omega
  unfold draw_maze_start
  simp only [bind, Except.bind, pure, Except.pure, hf, hb, h2, hs]
  rfl

/-! ## A maze three rows high, of any width -/

/-- On `west_rand` and with three rows, `draw_maze` returns whatever the width from 4 on:
the start is in row 1, column 2, the walk makes one step left and ends there, and the
filler finds no FLOOR cell. -/
theorem corridor_run {x : Int} (hx : 4 ≤ x) (fuel : Nat) :
    ∃ g, draw_maze (fuel + 2) west_rand 3 x = .ok g := by
  obtain ⟨m0, sy, sx, h0, e1, e2, hin, hs, hf⟩ :=
    draw_maze_start_spec west_rand (by decide : (3 : Int) ≤ 3) (by omega : 3 ≤ x)
  have hsy : sy = 1 := by rw [e1]; simp [west_rand]
  have hsx : sx = 2 := by
    rw [e2]
    have : ((west_rand 1 : Nat) : Int) % (x - 2) = 1 := by
      simp only [west_rand, if_true, Nat.cast_one]
      exact Int.emod_eq_of_lt (by omega) (by omega)
    omega
  subst hsy hsx
  have hg := fresh_gen hs hf
  have hstart := fresh_start hf hin
  have hw11 : cell m0 3 x 1 1 = some WALL := by
    rw [hf 1 1 (by omega) (by omega) (by omega) (by omega)]
    have hr : ¬ on_ring 3 x 1 1 := by unfold on_ring; omega
    rw [if_neg hr, if_neg (by omega)]
  have hleft : legal_left m0 3 x 1 2 :=
    ⟨hw11, fresh_not_path hf (by omega), fresh_not_path hf (by omega),
      fresh_not_path hf (by omega)⟩
  have hfm : ∀ f, find_move (f + 1) west_rand 2 m0 1 2 x = .ok (GO_LEFT, 3) := by
    intro f
    rw [find_move_eq hs (framed_ring_closed hg.framed) hin, if_neg (fun h => h.2.2.1 hleft)]
    have ht : Int.tmod 2 4 = 2 := by decide
    unfold pick_direction
    simp [hleft, west_rand, DIRECTIONS, GO_UP, GO_DOWN, GO_LEFT, GO_RIGHT, ht]
  obtain ⟨m1, hst1, hg1, _, hin1, hc1⟩ := carve_spec (p := 1) (q := 1) hg hw11
    (Or.inr ⟨fresh_not_path hf (by omega), fresh_not_path hf (by omega)⟩)
  have hstep1 : ∀ f, critical_path_step (f + 1) west_rand x ⟨m0, 1, 2, 2⟩ =
      .ok (⟨m1, 1, 1, 3⟩, true) := by
    intro f
    have e : LEFT 1 2 x = MAZE_OF_I_OF_J 1 1 x := by rw [LEFT_eq]; norm_num
    unfold critical_path_step
    simp only [bind, Except.bind, pure, Except.pure, hfm]
    rw [if_neg (by decide), if_neg (by decide), if_pos trivial, e, hst1]
    simp
  have hring : ∀ a c, 0 ≤ a → a < 3 → 0 ≤ c → c < x → on_ring 3 x a c →
      cell m1 3 x a c ≠ some WALL := by
    intro a c h1 h2 h3 h4 hr
    rw [(hg1.framed a c h1 h2 h3 h4).2 hr]
    decide
  have hnone : ¬ legal_up m1 3 x 1 1 ∧ ¬ legal_down m1 3 x 1 1 ∧ ¬ legal_left m1 3 x 1 1 ∧
      ¬ legal_right m1 3 x 1 1 := by
    refine ⟨fun h => ?_, fun h => ?_, fun h => ?_, fun h => ?_⟩
    · exact hring (1 - 1) 1 (by omega) (by omega) (by omega) (by omega)
        (by unfold on_ring; omega) h.1
    · exact hring (1 + 1) 1 (by omega) (by omega) (by omega) (by omega)
        (by unfold on_ring; omega) h.1
    · exact hring 1 (1 - 1) (by omega) (by omega) (by omega) (by omega)
        (by unfold on_ring; omega) h.1
    · have h1 := h.1
      rw [hc1, if_neg (by omega)] at h1
      have e : (1 : Int) + 1 = 2 := by norm_num
      rw [e, hstart] at h1
      exact absurd h1 (by decide)
  have hfm2 : ∀ f, find_move f west_rand 3 m1 1 1 x = .ok (NO_VALID_STEP, 3) := by
    intro f
    rw [find_move_eq hg1.sized (framed_ring_closed hg1.framed) hin1, if_pos hnone]
  have hstep2 : ∀ f, critical_path_step f west_rand x ⟨m1, 1, 1, 3⟩ =
      .ok (⟨m1, 1, 1, 3⟩, false) := by
    intro f
    unfold critical_path_step
    simp only [bind, Except.bind, pure, Except.pure, hfm2]
    rw [if_neg (by decide), if_neg (by decide), if_neg (by decide), if_neg (by decide),
      if_pos trivial]
  have hloop : critical_path_loop west_rand x (fuel + 2) ⟨m0, 1, 2, 2⟩ =
      .ok ⟨m1, 1, 1, 3⟩ := by
    simp only [critical_path_loop, bind, Except.bind, pure, Except.pure, hstep1, hstep2,
      if_true, Bool.false_eq_true, if_false]
  have hp1 : is_path (cell m1 3 x 1 1) := by
    rw [hc1, if_pos ⟨rfl, rfl⟩]; decide
  obtain ⟨m2, hst2, hg2, hc2⟩ := end_write_spec hg1 hin1 hp1
  have hwalk : draw_critical_path (fuel + 2) west_rand 2 m0 3 x 1 2 = .ok (m2, 3) := by
    unfold draw_critical_path
    simp only [bind, Except.bind, pure, Except.pure, hloop, hst2]
  have hq : quiet m2 3 x := by
    intro i j hi0 hi hj0 hj
    obtain ⟨c, hc⟩ := cell_some hg2.sized hi0 hi hj0 hj
    refine ⟨c, (load_cell hi0 hi hj0 hj c).2 hc, ?_⟩
    intro hcf
    exfalso
    subst hcf
    rw [hc2] at hc
    split_ifs at hc with h1
    · exact absurd hc (by decide)
    · rw [hc1, if_neg h1] at hc
      by_cases h2 : i = 1 ∧ j = 2
      · rw [h2.1, h2.2, hstart] at hc
        exact absurd hc (by decide)
      · exact fresh_not_path hf h2 (Or.inl hc)
  obtain ⟨k2, hk2⟩ := quiet_scan hq (fuel + 2) west_rand 3
  have hfill : draw_dead_ends (fuel + 2) west_rand 3 m2 3 x = .ok (m2, k2) := by
    unfold draw_dead_ends dead_ends_loop
    simp only [bind, Except.bind, pure, Except.pure, hk2, if_true]
  unfold draw_maze
  simp only [bind, Except.bind, pure, Except.pure, h0, hwalk, hfill,
    write_maze_spec hg2.sized]
  exact ⟨_, rfl⟩

theorem prompt_dimension_range {low high : Int} :
    ∀ (inputs : List (Option Int)) (v : Int) (rest : List (Option Int)),
      prompt_dimension low high inputs = some (v, rest) → low ≤ v ∧ v ≤ high := by
  intro inputs
  induction inputs with
  | nil => intro v rest h; simp [prompt_dimension] at h
  | cons a l ih =>
    intro v rest h
    cases a with
    | none => simp [prompt_dimension] at h
    | some u =>
      simp only [prompt_dimension] at h
      split_ifs at h with hu
      · exact ih v rest h
      · simp only [Option.some.injEq, Prod.mk.injEq] at h
        obtain ⟨rfl, _⟩ := h
        omega

/-! ## Legality and carving -/

theorem carved_wall {g g2 : List Nat} {y x i j : Int} (hc : carved g g2 y x)
    (h : cell g2 y x i j = some WALL) : cell g y x i j = some WALL := by
  rcases hc i j with e | ⟨e, _⟩ | ⟨_, e⟩
  · rw [← e]; exact h
  · exact e
  · rw [e] at h; exact absurd h (by decide)

theorem carved_path {g g2 : List Nat} {y x i j : Int} (hc : carved g g2 y x)
    (h : is_path (cell g y x i j)) : is_path (cell g2 y x i j) := by
  rcases hc i j with e | ⟨e, _⟩ | ⟨_, e⟩
  · rw [e]; exact h
  · rw [e] at h; exact absurd h (by decide)
  · rw [e]; decide

theorem carved_clear {g g2 : List Nat} {y x ni nj ai aj bi bj ci cj : Int}
    (hc : carved g g2 y x) (h : clear_at g2 y x ni nj ai aj bi bj ci cj) :
    clear_at g y x ni nj ai aj bi bj ci cj :=
  ⟨carved_wall hc h.1, fun hp => h.2.1 (carved_path hc hp),
    fun hp => h.2.2.1 (carved_path hc hp), fun hp => h.2.2.2 (carved_path hc hp)⟩

theorem carved_legal {g g2 : List Nat} {y x i j d : Int} (hc : carved g g2 y x)
    (h : legal g2 y x i j d) : legal g y x i j d := by
  rcases h with ⟨e, h⟩ | ⟨e, h⟩ | ⟨e, h⟩ | ⟨e, h⟩
  · exact Or.inl ⟨e, carved_clear hc h⟩
  · exact Or.inr (Or.inl ⟨e, carved_clear hc h⟩)
  · exact Or.inr (Or.inr (Or.inl ⟨e, carved_clear hc h⟩))
  · exact Or.inr (Or.inr (Or.inr ⟨e, carved_clear hc h⟩))

theorem carved_5x5 : carved fresh_5x5 stalled_5x5 5 5 := by
  intro i j
  by_cases hr : 0 ≤ i ∧ i < 5 ∧ 0 ≤ j ∧ j < 5
  · obtain ⟨h1, h2, h3, h4⟩ := hr
    interval_cases i <;> interval_cases j <;> decide
  · left
    unfold cell
    rw [if_neg hr, if_neg hr]

/-! ## One visit of the dead-end filler, case by case -/

/-- The cell a legal step leads to is adjacent to the cell it leaves, holds WALL, and has no
other path cell next to it. -/
theorem legal_target {m : List Nat} {y x i j d : Int} (hl : legal m y x i j d) :
    adjacent (i, j) (step_target d i j) ∧
      cell m y x (step_target d i j).1 (step_target d i j).2 = some WALL ∧
      ∀ q : Int × Int, adjacent (step_target d i j) q → is_path (cell m y x q.1 q.2) →
        q = (i, j) := by
  rcases hl with ⟨e, hw, n1, n2, n3⟩ | ⟨e, hw, n1, n2, n3⟩ | ⟨e, hw, n1, n2, n3⟩ |
    ⟨e, hw, n1, n2, n3⟩
  all_goals
    subst e
    simp only [step_target, GO_UP, GO_DOWN, GO_LEFT, GO_RIGHT]
    norm_num
    refine ⟨by simp [adjacent], hw, ?_⟩
    intro a c ha hq
    simp only [adjacent] at ha
    rcases ha with ⟨u, v⟩ | ⟨u, v⟩ | ⟨u, v⟩ | ⟨u, v⟩
    all_goals first
      | (constructor <;> omega)
      | (exfalso; apply n1; convert hq using 2 <;> omega)
      | (exfalso; apply n2; convert hq using 2 <;> omega)
      | (exfalso; apply n3; convert hq using 2 <;> omega)

/-- The store of a legal step, named by its target cell. -/
theorem legal_store_target {m : List Nat} {y x i j d : Int} (hg : Gen m y x)
    (hl : legal m y x i j d) :
    ∃ m2, Gen m2 y x ∧ keeps m m2 y x ∧ wall_count m2 + 1 = wall_count m ∧
      interior y x (step_target d i j).1 (step_target d i j).2 ∧
      (∀ a b, cell m2 y x a b =
        if a = (step_target d i j).1 ∧ b = (step_target d i j).2 then some FLOOR
        else cell m y x a b) ∧
      ((d = GO_UP ∧ store m (UP i j x) FLOOR = .ok m2) ∨
        (d = GO_DOWN ∧ store m (DOWN i j x) FLOOR = .ok m2) ∨
        (d = GO_LEFT ∧ store m (LEFT i j x) FLOOR = .ok m2) ∨
        (d = GO_RIGHT ∧ store m (RIGHT i j x) FLOOR = .ok m2)) := by
  obtain ⟨p, q, m2, hpq, hst, hg2, hk, hin, hw, hc⟩ := legal_carve hg hl
  have ht : step_target d i j = (p, q) := by
    rcases hpq with ⟨hd, hp, hq⟩ | ⟨hd, hp, hq⟩ | ⟨hd, hp, hq⟩ | ⟨hd, hp, hq⟩ <;>
      subst hd hp hq <;> simp [step_target, GO_UP, GO_DOWN, GO_LEFT, GO_RIGHT]
  refine ⟨m2, hg2, hk, store_wall_count hst hw, by rw [ht]; exact hin, by rw [ht]; exact hc, ?_⟩
  rcases hpq with ⟨hd, hp, hq⟩ | ⟨hd, hp, hq⟩ | ⟨hd, hp, hq⟩ | ⟨hd, hp, hq⟩
  · subst hp hq; rw [← UP_eq] at hst; exact Or.inl ⟨hd, hst⟩
  · subst hp hq; rw [← DOWN_eq] at hst; exact Or.inr (Or.inl ⟨hd, hst⟩)
  · subst hp hq; rw [← LEFT_eq] at hst; exact Or.inr (Or.inr (Or.inl ⟨hd, hst⟩))
  · subst hp hq; rw [← RIGHT_eq] at hst; exact Or.inr (Or.inr (Or.inr ⟨hd, hst⟩))

/-- What one visit of the filler does on a grid with the generation properties.  At a cell
that does not hold FLOOR: nothing.  At a FLOOR cell: `find_move` runs on the random values
from number `s.k + 1` on; with no legal direction only the count of values moves on; with a
legal direction `moved` is set, and the cell the step leads to is carved when the coin, the
value number `s.k`, is not 0. -/
theorem dead_end_visit_cases {fuel : Nat} {rand : Nat → Nat} {y x i j : Int} {s s2 : Scan}
    (hg : Gen s.maze y x) (hi0 : 0 ≤ i) (hi : i < y) (hj0 : 0 ≤ j) (hj : j < x)
    (h : dead_end_visit fuel rand x i j s = .ok s2) :
    (cell s.maze y x i j ≠ some FLOOR ∧ s2 = s) ∨
      (cell s.maze y x i j = some FLOOR ∧ interior y x i j ∧
        ∃ step k2, find_move fuel rand (s.k + 1) s.maze i j x = .ok (step, k2) ∧ s2.k = k2 ∧
          ((step = NO_VALID_STEP ∧ k2 = s.k + 1 ∧ s2.maze = s.maze ∧ s2.moved = s.moved ∧
              ∀ d, ¬ legal s.maze y x i j d) ∨
            (step ≠ NO_VALID_STEP ∧ s.k + 1 < k2 ∧ legal s.maze y x i j step ∧
              s2.moved = true ∧
              ((FLIP_COIN (rand s.k) = 0 ∧ s2.maze = s.maze) ∨
                (FLIP_COIN (rand s.k) ≠ 0 ∧ Gen s2.maze y x ∧
                  wall_count s2.maze + 1 = wall_count s.maze ∧
                  ∀ a b, cell s2.maze y x a b =
                    if a = (step_target step i j).1 ∧ b = (step_target step i j).2
                    then some FLOOR else cell s.maze y x a b))))) := by
  unfold dead_end_visit at h
  simp only [bind, Except.bind, pure, Except.pure] at h
  obtain ⟨c, hcell⟩ := cell_some hg.sized hi0 hi hj0 hj
  have hl := (load_cell hi0 hi hj0 hj c).2 hcell
  rw [hl] at h
  simp only at h
  by_cases hc : c = FLOOR
  · subst hc
    right
    simp only [if_true] at h
    have hin := floor_interior hg.framed hcell
    refine ⟨hcell, hin, ?_⟩
    cases hfm : find_move fuel rand (s.k + 1) s.maze i j x with
    | error e => rw [hfm] at h; simp at h
    | ok r =>
      obtain ⟨step, k2⟩ := r
      rw [hfm] at h
      simp only at h
      refine ⟨step, k2, rfl, ?_⟩
      rcases find_move_spec hg.sized (framed_ring_closed hg.framed) hin hfm with
        ⟨hs, hk, hnone⟩ | ⟨hne, hk, hleg⟩
      · subst hs
        simp only [NO_VALID_STEP, GO_UP, GO_DOWN, GO_LEFT, GO_RIGHT] at h
        norm_num at h
        subst h
        exact ⟨rfl, Or.inl ⟨rfl, hk, rfl, rfl, hnone⟩⟩
      · obtain ⟨m2, hg2, _, hcount, _, hcells, hst⟩ := legal_store_target hg hleg
        have key : ∀ t : Scan, (t = ⟨s.maze, k2, true⟩ ∧ FLIP_COIN (rand s.k) = 0) ∨
            (t = ⟨m2, k2, true⟩ ∧ FLIP_COIN (rand s.k) ≠ 0) →
            t.k = k2 ∧ ((step = NO_VALID_STEP ∧ k2 = s.k + 1 ∧ t.maze = s.maze ∧
              t.moved = s.moved ∧ ∀ d, ¬ legal s.maze y x i j d) ∨
            (step ≠ NO_VALID_STEP ∧ s.k + 1 < k2 ∧ legal s.maze y x i j step ∧
              t.moved = true ∧
              ((FLIP_COIN (rand s.k) = 0 ∧ t.maze = s.maze) ∨
                (FLIP_COIN (rand s.k) ≠ 0 ∧ Gen t.maze y x ∧
                  wall_count t.maze + 1 = wall_count s.maze ∧
                  ∀ a b, cell t.maze y x a b =
                    if a = (step_target step i j).1 ∧ b = (step_target step i j).2
                    then some FLOOR else cell s.maze y x a b)))) := by
          intro t ht
          rcases ht with ⟨e, hcoin⟩ | ⟨e, hcoin⟩
          · subst e
            exact ⟨rfl, Or.inr ⟨hne, hk, hleg, rfl, Or.inl ⟨hcoin, rfl⟩⟩⟩
          · subst e
            exact ⟨rfl, Or.inr ⟨hne, hk, hleg, rfl, Or.inr ⟨hcoin, hg2, hcount, hcells⟩⟩⟩
        apply key
        rcases hst with ⟨e, hp⟩ | ⟨e, hp⟩ | ⟨e, hp⟩ | ⟨e, hp⟩
        · subst e
          rw [if_pos rfl] at h
          split_ifs at h with hcoin
          · rw [hp] at h
            simp only [Except.ok.injEq] at h
            exact Or.inr ⟨h.symm, hcoin⟩
          · simp only [Except.ok.injEq] at h
            exact Or.inl ⟨h.symm, not_not.1 hcoin⟩
        · subst e
          rw [if_neg (by decide), if_pos rfl] at h
          split_ifs at h with hcoin
          · rw [hp] at h
            simp only [Except.ok.injEq] at h
            exact Or.inr ⟨h.symm, hcoin⟩
          · simp only [Except.ok.injEq] at h
            exact Or.inl ⟨h.symm, not_not.1 hcoin⟩
        · subst e
          rw [if_neg (by decide), if_neg (by decide), if_pos rfl] at h
          split_ifs at h with hcoin
          · rw [hp] at h
            simp only [Except.ok.injEq] at h
            exact Or.inr ⟨h.symm, hcoin⟩
          · simp only [Except.ok.injEq] at h
            exact Or.inl ⟨h.symm, not_not.1 hcoin⟩
        · subst e
          rw [if_neg (by decide), if_neg (by decide), if_neg (by decide), if_pos rfl] at h
          split_ifs at h with hcoin
          · rw [hp] at h
            simp only [Except.ok.injEq] at h
            exact Or.inr ⟨h.symm, hcoin⟩
          · simp only [Except.ok.injEq] at h
            exact Or.inl ⟨h.symm, not_not.1 hcoin⟩
  · left
    simp only [hc, if_false, Except.ok.injEq] at h
    refine ⟨?_, h.symm⟩
    rw [hcell]
    intro e
    exact hc (Option.some.inj e)

/-! ## The filler only turns WALL into FLOOR -/

theorem dug_refl (g : List Nat) (y x : Int) : dug g g y x := fun _ _ => Or.inl rfl

theorem dug_trans {g1 g2 g3 : List Nat} {y x : Int} (h1 : dug g1 g2 y x)
    (h2 : dug g2 g3 y x) : dug g1 g3 y x := by
  intro i j
  rcases h2 i j with e | ⟨e, e2⟩
  · rw [e]; exact h1 i j
  · rcases h1 i j with e1 | ⟨e1, e3⟩
    · right; rw [← e1]; exact ⟨e, e2⟩
    · rw [e3] at e; exact absurd e (by decide)

theorem dead_end_visit_dug {fuel : Nat} {rand : Nat → Nat} {y x i j : Int} {s s2 : Scan}
    (hg : Gen s.maze y x) (hi0 : 0 ≤ i) (hi : i < y) (hj0 : 0 ≤ j) (hj : j < x)
    (h : dead_end_visit fuel rand x i j s = .ok s2) : dug s.maze s2.maze y x := by
  rcases dead_end_visit_cases hg hi0 hi hj0 hj h with ⟨_, e⟩ | ⟨_, _, step, k2, _, _, hc⟩
  · rw [e]; exact dug_refl _ _ _
  · rcases hc with ⟨_, _, e, _⟩ | ⟨_, _, hl, _, ⟨_, e⟩ | ⟨_, _, _, hcells⟩⟩
    · rw [e]; exact dug_refl _ _ _
    · rw [e]; exact dug_refl _ _ _
    · intro a b
      rw [hcells]
      split_ifs with hh
      · right
        rw [hh.1, hh.2]
        exact ⟨(legal_target hl).2.1, rfl⟩
      · left; rfl

theorem dead_end_scan_dug {fuel : Nat} {rand : Nat → Nat} {k : Nat} {m : List Nat}
    {y x : Int} {s : Scan} (hg : Gen m y x)
    (h : dead_end_scan fuel rand k m y x = .ok s) : dug m s.maze y x := by
  have r := for_loop2_inv (fun i j s => dead_end_visit fuel rand x i j s)
    (fun _ _ s => Gen s.maze y x ∧ dug m s.maze y x) y.toNat x.toNat (fun _ _ _ hI => hI)
    (fun i j s s2 hi hj hI hb =>
      ⟨(dead_end_visit_gen hI.1 (i := (i : Int)) (j := (j : Int)) (by omega) (by omega)
        (by omega) (by omega) hb).1,
      dug_trans hI.2 (dead_end_visit_dug hI.1 (i := (i : Int)) (j := (j : Int)) (by omega)
        (by omega) (by omega) (by omega) hb)⟩)
    ⟨m, k, false⟩ s ⟨hg, dug_refl _ _ _⟩ h
  exact r.2

theorem dead_ends_loop_dug {rand : Nat → Nat} {y x : Int} :
    ∀ (fuel k : Nat) (m m2 : List Nat) (k2 : Nat), Gen m y x →
      dead_ends_loop rand y x fuel k m = .ok (m2, k2) → dug m m2 y x := by
  intro fuel
  induction fuel with
  | zero => intro k m m2 k2 _ h; simp [dead_ends_loop] at h
  | succ n ih =>
    intro k m m2 k2 hg h
    unfold dead_ends_loop at h
    simp only [bind, Except.bind, pure, Except.pure] at h
    cases hs : dead_end_scan (n + 1) rand k m y x with
    | error e => rw [hs] at h; simp at h
    | ok s =>
      rw [hs] at h
      simp only at h
      have g1 := (dead_end_scan_gen hg hs).1
      have d1 := dead_end_scan_dug hg hs
      split_ifs at h with hmv
      · simp only [Except.ok.injEq, Prod.mk.injEq] at h
        rw [← h.1]; exact d1
      · exact dug_trans d1 (ih s.k s.maze m2 k2 g1 h)

/-! ## Routes in a grown list of cells -/

theorem route_mono {P Q : Int × Int → Prop} {s c : Int × Int} {r : List (Int × Int)}
    (h : Route P s c r) (hpq : ∀ p ∈ r, P p → Q p) : Route Q s c r :=
  ⟨h.head, h.last, h.chain, h.nodup, fun p hp => hpq p hp (h.inside p hp)⟩

theorem grown_connected : ∀ (order : List (Int × Int)) (s : Int × Int), grown order →
    order.getLast? = some s → ∀ c ∈ order, ∃ r, Route (fun p => p ∈ order) s c r := by
  intro order
  induction order with
  | nil => intro s h; exact absurd h (by simp [grown])
  | cons n rest ih =>
    intro s hg hlast c hc
    rcases hg with e | ⟨hn, ⟨a, ha, hadj, _⟩, hg2⟩
    · subst e
      simp only [List.getLast?_singleton, Option.some.injEq] at hlast
      simp only [List.mem_singleton] at hc
      rw [← hlast, hc]
      exact ⟨[n], rfl, rfl, List.chain'_singleton _, List.nodup_singleton _,
        fun p hp => hp⟩
    · have hne : rest ≠ [] := List.ne_nil_of_mem ha
      obtain ⟨b, rest2, e⟩ := List.exists_cons_of_ne_nil hne
      have hlast2 : rest.getLast? = some s := by
        rw [e] at hlast ⊢
        rw [List.getLast?_cons_cons] at hlast
        exact hlast
      rcases List.mem_cons.1 hc with e1 | hc2
      · subst e1
        obtain ⟨r, hr⟩ := ih s hg2 hlast2 a ha
        have hrne : r ≠ [] := by
          intro e0
          have := hr.head
          rw [e0] at this
          simp at this
        obtain ⟨r0, z, e3⟩ := eq_append_last hrne
        have hz : z = a := by
          have := hr.last
          rw [e3, last_append_last] at this
          exact Option.some.inj this
        refine ⟨r ++ [c], ?_, last_append_last _ _, ?_, ?_, ?_⟩
        · obtain ⟨h0, r1, e4⟩ := List.exists_cons_of_ne_nil hrne
          rw [e4] at hr ⊢
          exact hr.head
        · apply List.Chain'.append hr.chain (List.chain'_singleton _)
          intro u hu v hv
          rw [hr.last] at hu
          simp only [Option.mem_def, Option.some.injEq, List.head?_cons] at hu hv
          subst hu hv
          exact adjacent_symm hadj
        · rw [List.nodup_append]
          refine ⟨hr.nodup, List.nodup_singleton _, ?_⟩
          intro u hu hu2
          simp only [List.mem_singleton] at hu2
          subst hu2
          exact hn (hr.inside u hu)
        · intro p hp
          rcases List.mem_append.1 hp with h1 | h1
          · exact List.mem_cons_of_mem _ (hr.inside p h1)
          · simp only [List.mem_singleton] at h1
            rw [h1]; exact List.mem_cons_self _ _
      · obtain ⟨r, hr⟩ := ih s hg2 hlast2 c hc2
        exact ⟨r, route_mono hr (fun p _ hp => List.mem_cons_of_mem _ hp)⟩

/-- In a route from a cell other than the newest, the newest cell can only be the last:
the route before it is a route to the one cell the newest was attached to. -/
theorem route_newest {n s c a : Int × Int} {rest r : List (Int × Int)} (hn : n ∉ rest)
    (hs : s ∈ rest) (hu : ∀ a2 ∈ rest, adjacent n a2 → a2 = a)
    (hr : Route (fun p => p ∈ n :: rest) s c r) (hmem : n ∈ r) :
    c = n ∧ ∃ r2, r = r2 ++ [n] ∧ Route (fun p => p ∈ rest) s a r2 := by
  obtain ⟨r1, r2, e⟩ := List.append_of_mem hmem
  subst e
  have hin : ∀ p ∈ r1 ++ n :: r2, p ≠ n → p ∈ rest := by
    intro p hp hne
    rcases List.mem_cons.1 (hr.inside p hp) with e | e
    · exact absurd e hne
    · exact e
  have hnd := hr.nodup
  rw [List.nodup_append] at hnd
  obtain ⟨hnd1, hnd2, hdis⟩ := hnd
  have hn1 : n ∉ r1 := fun h => hdis h (List.mem_cons_self _ _)
  have hn2 : n ∉ r2 := (List.nodup_cons.1 hnd2).1
  have hr1 : r1 ≠ [] := by
    intro e
    subst e
    have := hr.head
    simp only [List.nil_append, List.head?_cons, Option.some.injEq] at this
    rw [this] at hn
    exact hn hs
  obtain ⟨r0, p, e⟩ := eq_append_last hr1
  subst e
  have hp1 : p ∈ r0 ++ [p] := by simp
  have hpn : p ≠ n := fun e => hn1 (e ▸ hp1)
  have hch := hr.chain
  have hadj1 : adjacent p n := by
    have : (r0 ++ [p]) ++ n :: r2 = r0 ++ p :: n :: r2 := by simp
    rw [this] at hch
    exact chain_at hch
  have hpa : p = a := hu p (hin p (List.mem_append_left _ hp1) hpn) (adjacent_symm hadj1)
  have hr2 : r2 = [] := by
    cases r2 with
    | nil => rfl
    | cons q r3 =>
      exfalso
      have hadj2 : adjacent n q := chain_at hch
      have hq2 : q ∈ n :: q :: r3 := by simp
      have hqn : q ≠ n := fun e => hn2 (by rw [← e]; exact List.mem_cons_self _ _)
      have hqa : q = a := hu q (hin q (List.mem_append_right _ hq2) hqn) hadj2
      exact hdis hp1 (by rw [hpa, ← hqa]; exact List.mem_cons_of_mem _ (List.mem_cons_self _ _))
  subst hr2
  have hc : c = n := by
    have := hr.last
    rw [last_append_last] at this
    exact (Option.some.inj this).symm
  refine ⟨hc, r0 ++ [p], rfl, ?_, ?_, ?_, hnd1, ?_⟩
  · have := hr.head
    obtain ⟨h0, t0, e4⟩ := List.exists_cons_of_ne_nil hr1
    rw [e4] at this ⊢
    exact this
  · rw [last_append_last, hpa]
  · exact (List.chain'_append.1 hch).1
  · intro u hu2
    exact hin u (List.mem_append_left _ hu2) (fun e => hn1 (e ▸ hu2))

theorem grown_unique : ∀ (order : List (Int × Int)) (s : Int × Int), grown order →
    order.getLast? = some s → ∀ (c : Int × Int) (r1 r2 : List (Int × Int)),
      Route (fun p => p ∈ order) s c r1 → Route (fun p => p ∈ order) s c r2 → r1 = r2 := by
  intro order
  induction order with
  | nil => intro s h; exact absurd h (by simp [grown])
  | cons n rest ih =>
    intro s hg hlast c r1 r2 h1 h2
    rcases hg with e | ⟨hn, ⟨a, ha, _, hu⟩, hg2⟩
    · subst e
      have key : ∀ r, Route (fun p => p ∈ [n]) s c r → r = [s] := by
        intro r hr
        cases r with
        | nil => have := hr.head; simp at this
        | cons u r3 =>
          have hh := hr.head
          simp only [List.head?_cons, Option.some.injEq] at hh
          subst hh
          cases r3 with
          | nil => rfl
          | cons v r4 =>
            exfalso
            have hu1 := hr.inside u (by simp)
            have hv1 := hr.inside v (by simp)
            simp only [List.mem_singleton] at hu1 hv1
            have := (List.nodup_cons.1 hr.nodup).1
            rw [hu1, hv1] at this
            exact this (List.mem_cons_self _ _)
      rw [key r1 h1, key r2 h2]
    · have hne : rest ≠ [] := List.ne_nil_of_mem ha
      obtain ⟨b, rest2, e⟩ := List.exists_cons_of_ne_nil hne
      have hlast2 : rest.getLast? = some s := by
        rw [e] at hlast ⊢
        rw [List.getLast?_cons_cons] at hlast
        exact hlast
      have hs : s ∈ rest := List.mem_of_getLast?_eq_some hlast2
      have down : ∀ r, Route (fun p => p ∈ n :: rest) s c r → n ∉ r →
          Route (fun p => p ∈ rest) s c r := by
        intro r hr hnr
        refine route_mono hr ?_
        intro p hp hp2
        rcases List.mem_cons.1 hp2 with e1 | e1
        · exact absurd (e1 ▸ hp) hnr
        · exact e1
      by_cases hcn : c = n
      · have m1 : n ∈ r1 := by
          rw [← hcn]; exact List.mem_of_getLast?_eq_some h1.last
        have m2 : n ∈ r2 := by
          rw [← hcn]; exact List.mem_of_getLast?_eq_some h2.last
        obtain ⟨_, q1, e1, hq1⟩ := route_newest hn hs hu h1 m1
        obtain ⟨_, q2, e2, hq2⟩ := route_newest hn hs hu h2 m2
        rw [e1, e2, ih s hg2 hlast2 a q1 q2 hq1 hq2]
      · have m1 : n ∉ r1 := fun hm => hcn (route_newest hn hs hu h1 hm).1
        have m2 : n ∉ r2 := fun hm => hcn (route_newest hn hs hu h2 hm).1
        exact ih s hg2 hlast2 c r1 r2 (down r1 h1 m1) (down r2 h2 m2)

/-- A grown list of cells holds no cycle: no list of three or more of its cells, each
occurring once and adjacent to the next, has its last cell adjacent to its first. -/
theorem grown_acyclic : ∀ (order : List (Int × Int)), grown order →
    ∀ (cyc : List (Int × Int)), 3 ≤ cyc.length → cyc.Nodup → cyc.Chain' adjacent →
      (∀ p ∈ cyc, p ∈ order) → ∀ h t, cyc.head? = some h → cyc.getLast? = some t →
      ¬ adjacent t h := by
  intro order
  induction order with
  | nil => intro h; exact absurd h (by simp [grown])
  | cons n rest ih =>
    intro hg cyc hlen hnd hch hin h t hh ht hadj
    rcases hg with e | ⟨hn, ⟨a, _, _, hu⟩, hg2⟩
    · subst e
      cases cyc with
      | nil => simp at hlen
      | cons u c2 =>
        cases c2 with
        | nil => simp at hlen
        | cons v c3 =>
          have hu1 := hin u (by simp)
          have hv1 := hin v (by simp)
          simp only [List.mem_singleton] at hu1 hv1
          have := (List.nodup_cons.1 hnd).1
          rw [hu1, hv1] at this
          exact this (List.mem_cons_self _ _)
    · have hrest : ∀ p ∈ cyc, p ≠ n → p ∈ rest := by
        intro p hp hne
        rcases List.mem_cons.1 (hin p hp) with e | e
        · exact absurd e hne
        · exact e
      have two : ∀ p q, p ∈ cyc → q ∈ cyc → p ≠ n → q ≠ n → adjacent n p → adjacent n q →
          p = q := by
        intro p q hp hq hpn hqn ap aq
        rw [hu p (hrest p hp hpn) ap, hu q (hrest q hq hqn) aq]
      by_cases hm : n ∈ cyc
      · obtain ⟨c1, c2, e⟩ := List.append_of_mem hm
        subst e
        have hnd0 := hnd
        rw [List.nodup_append] at hnd
        obtain ⟨hnd1, hnd2, hdis⟩ := hnd
        have hn1 : n ∉ c1 := fun h0 => hdis h0 (List.mem_cons_self _ _)
        have hn2 : n ∉ c2 := (List.nodup_cons.1 hnd2).1
        cases c1 with
        | nil =>
          simp only [List.nil_append, List.head?_cons, Option.some.injEq] at hh
          subst hh
          cases c2 with
          | nil => simp at hlen
          | cons q c3 =>
            have hc3 : c3 ≠ [] := by
              intro e; subst e; simp at hlen
            obtain ⟨c4, z, e⟩ := eq_append_last hc3
            subst e
            have hz : z = t := by
              have e1 : [] ++ n :: q :: (c4 ++ [z]) = (n :: q :: c4) ++ [z] := by simp
              rw [e1, last_append_last] at ht
              exact Option.some.inj ht
            subst hz
            have aq : adjacent n q := chain_at hch
            have hqz : q = z := two q z (by simp) (by simp)
              (fun e => hn2 (by rw [← e]; simp)) (fun e => hn2 (by rw [← e]; simp))
              aq (adjacent_symm hadj)
            have := (List.nodup_cons.1 (List.nodup_cons.1 hnd2).2).1
            rw [hqz] at this
            exact this (by simp)
        | cons h0 c5 =>
          obtain ⟨c6, p, e⟩ := eq_append_last (l := h0 :: c5) (by simp)
          have hp1 : p ∈ h0 :: c5 := by rw [e]; simp
          have hpn : p ≠ n := fun e1 => hn1 (e1 ▸ hp1)
          have ap : adjacent p n := by
            rw [e] at hch
            have e1 : (c6 ++ [p]) ++ n :: c2 = c6 ++ p :: n :: c2 := by simp
            rw [e1] at hch
            exact chain_at hch
          cases c2 with
          | cons q c3 =>
            have aq : adjacent n q := chain_at hch
            have hpq : p = q := two p q (List.mem_append_left _ hp1) (by simp) hpn
              (fun e1 => hn2 (by rw [← e1]; simp)) (adjacent_symm ap) aq
            exact hdis hp1 (by rw [hpq]; simp)
          | nil =>
            simp only [List.cons_append, List.head?_cons, Option.some.injEq] at hh
            subst hh
            have hz : n = t := by
              rw [last_append_last] at ht
              exact Option.some.inj ht
            subst hz
            have hc5 : c5 ≠ [] := by
              intro e1; subst e1; simp at hlen
            have hpc5 : p ∈ c5 := by
              cases c6 with
              | nil =>
                simp only [List.nil_append, List.cons.injEq] at e
                exact absurd e.2 hc5
              | cons h1 c8 =>
                simp only [List.cons_append, List.cons.injEq] at e
                rw [e.2]; simp
            have hph : p = h0 := two p h0 (List.mem_append_left _ hp1) (by simp) hpn
              (fun e1 => hn1 (by rw [← e1]; simp)) (adjacent_symm ap) hadj
            have := (List.nodup_cons.1 hnd1).1
            rw [← hph] at this
            exact this hpc5
      · refine ih hg2 cyc hlen hnd hch ?_ h t hh ht hadj
        intro p hp
        exact hrest p hp (fun e => hm (e ▸ hp))

/-! ## The path cells of the grid under generation form a tree -/

theorem grown_ne_nil {order : List (Int × Int)} (h : grown order) : order ≠ [] := by
  intro e
  rw [e] at h
  exact h

theorem tree_fresh {m : List Nat} {y x sy sx : Int} (hf : fresh m y x sy sx)
    (hin : interior y x sy sx) : Tree m y x (sy, sx) [(sy, sx)] := by
  refine ⟨rfl, Or.inl rfl, ?_⟩
  intro a b
  simp only [List.mem_singleton, Prod.mk.injEq]
  constructor
  · intro hq
    by_contra hn
    exact fresh_not_path hf hn hq
  · intro e
    rw [e.1, e.2, fresh_start hf hin]
    decide

theorem tree_carve {m m2 : List Nat} {y x i j d : Int} {s : Int × Int}
    {order : List (Int × Int)} (T : Tree m y x s order) (hl : legal m y x i j d)
    (hp : is_path (cell m y x i j))
    (hc : ∀ a b, cell m2 y x a b =
      if a = (step_target d i j).1 ∧ b = (step_target d i j).2 then some FLOOR
      else cell m y x a b) :
    Tree m2 y x s (step_target d i j :: order) := by
  obtain ⟨hadj, hw, huniq⟩ := legal_target hl
  have hne := grown_ne_nil T.grown
  have hnot : step_target d i j ∉ order := by
    intro hm
    have := (T.cells (step_target d i j).1 (step_target d i j).2).2 hm
    rw [hw] at this
    exact wall_not_path this
  refine ⟨?_, Or.inr ⟨hnot, ⟨(i, j), (T.cells i j).1 hp, adjacent_symm hadj, ?_⟩, T.grown⟩, ?_⟩
  · obtain ⟨b, rest, e⟩ := List.exists_cons_of_ne_nil hne
    rw [e, List.getLast?_cons_cons, ← e]
    exact T.last
  · intro a2 ha2 hadj2
    exact huniq a2 hadj2 ((T.cells a2.1 a2.2).2 ha2)
  · intro a b
    rw [hc, List.mem_cons]
    by_cases hh : a = (step_target d i j).1 ∧ b = (step_target d i j).2
    · rw [if_pos hh]
      constructor
      · intro _
        left
        exact Prod.ext hh.1 hh.2
      · intro _
        exact floor_is_path
    · rw [if_neg hh, T.cells]
      constructor
      · intro h1; exact Or.inr h1
      · intro h1
        rcases h1 with e | h1
        · exfalso
          apply hh
          rw [← e]
          exact ⟨rfl, rfl⟩
        · exact h1

theorem tree_end {m m2 : List Nat} {y x i j : Int} {s : Int × Int}
    {order : List (Int × Int)} (T : Tree m y x s order) (hp : is_path (cell m y x i j))
    (hc : ∀ a b, cell m2 y x a b = if a = i ∧ b = j then some END else cell m y x a b) :
    Tree m2 y x s order := by
  refine ⟨T.last, T.grown, ?_⟩
  intro a b
  rw [hc, ← T.cells]
  by_cases hh : a = i ∧ b = j
  · rw [if_pos hh, hh.1, hh.2]
    exact ⟨fun _ => hp, fun _ => by decide⟩
  · rw [if_neg hh]

theorem critical_path_loop_tree {rand : Nat → Nat} {y x : Int} {s : Int × Int} :
    ∀ (fuel : Nat) (w wl : Walk), Gen w.maze y x → interior y x w.i w.j →
      is_path (cell w.maze y x w.i w.j) → (∃ order, Tree w.maze y x s order) →
      critical_path_loop rand x fuel w = .ok wl →
      (∃ order, Tree wl.maze y x s order) ∧ Gen wl.maze y x ∧ interior y x wl.i wl.j ∧
        is_path (cell wl.maze y x wl.i wl.j) := by
  intro fuel
  induction fuel with
  | zero => intro w wl _ _ _ _ h; simp [critical_path_loop] at h
  | succ n ih =>
    intro w wl hg hin hp hT h
    unfold critical_path_loop at h
    simp only [bind, Except.bind, pure, Except.pure] at h
    cases hst : critical_path_step (n + 1) rand x w with
    | error e => rw [hst] at h; simp at h
    | ok r =>
      obtain ⟨w1, b⟩ := r
      rw [hst] at h
      simp only at h
      rcases critical_path_step_spec hg hin hst with
        ⟨hb, e1, e2, e3, _⟩ | ⟨hb, d, hl, hd, hg1, _, hin1, _, hc⟩
      · subst hb
        simp only [Bool.false_eq_true, if_false, Except.ok.injEq] at h
        subst h
        rw [e1, e2, e3]
        exact ⟨hT, hg, hin, hp⟩
      · subst hb
        simp only [if_true] at h
        have ht : step_target d w.i w.j = (w1.i, w1.j) := by
          rcases hd with ⟨e, a, b⟩ | ⟨e, a, b⟩ | ⟨e, a, b⟩ | ⟨e, a, b⟩ <;>
            subst e <;> simp [step_target, GO_UP, GO_DOWN, GO_LEFT, GO_RIGHT, a, b]
        obtain ⟨order, T⟩ := hT
        have T1 : Tree w1.maze y x s (step_target d w.i w.j :: order) :=
          tree_carve T hl hp (by rw [ht]; exact hc)
        have hp1 : is_path (cell w1.maze y x w1.i w1.j) := by
          rw [hc]; simp only [and_self, if_true]; exact floor_is_path
        exact ih w1 wl hg1 hin1 hp1 ⟨_, T1⟩ h

theorem draw_critical_path_tree {fuel : Nat} {rand : Nat → Nat} {k k2 : Nat}
    {m0 m : List Nat} {y x sy sx : Int} {s : Int × Int} (hg : Gen m0 y x)
    (hin : interior y x sy sx) (hp : is_path (cell m0 y x sy sx))
    (hT : ∃ order, Tree m0 y x s order)
    (h : draw_critical_path fuel rand k m0 y x sy sx = .ok (m, k2)) :
    ∃ order, Tree m y x s order := by
  unfold draw_critical_path at h
  simp only [bind, Except.bind, pure, Except.pure] at h
  cases hl : critical_path_loop rand x fuel ⟨m0, sy, sx, k⟩ with
  | error e => rw [hl] at h; simp at h
  | ok wl =>
    rw [hl] at h
    simp only at h
    obtain ⟨⟨order, T⟩, hgl, hinl, hpl⟩ :=
      critical_path_loop_tree fuel ⟨m0, sy, sx, k⟩ wl hg hin hp hT hl
    obtain ⟨h1, h2, h3, h4⟩ := hinl
    obtain ⟨m2, hm2, _, hc⟩ := store_cell hgl.sized (a := wl.i) (b := wl.j) (by omega)
      (by omega) (by omega) (by omega) END
    rw [hm2] at h
    simp only [Except.ok.injEq, Prod.mk.injEq] at h
    obtain ⟨e1, _⟩ := h
    subst e1
    exact ⟨order, tree_end T hpl hc⟩

theorem dead_end_visit_tree {fuel : Nat} {rand : Nat → Nat} {y x i j : Int} {s s2 : Scan}
    {r : Int × Int} (hg : Gen s.maze y x) (hi0 : 0 ≤ i) (hi : i < y) (hj0 : 0 ≤ j)
    (hj : j < x) (h : dead_end_visit fuel rand x i j s = .ok s2)
    (hT : ∃ order, Tree s.maze y x r order) : ∃ order, Tree s2.maze y x r order := by
  rcases dead_end_visit_cases hg hi0 hi hj0 hj h with ⟨_, e⟩ | ⟨hfl, _, step, k2, _, _, hc⟩
  · rw [e]; exact hT
  · rcases hc with ⟨_, _, e, _⟩ | ⟨_, _, hl, _, ⟨_, e⟩ | ⟨_, _, _, hcells⟩⟩
    · rw [e]; exact hT
    · rw [e]; exact hT
    · obtain ⟨order, T⟩ := hT
      exact ⟨_, tree_carve T hl (by rw [hfl]; exact floor_is_path) hcells⟩

theorem dead_end_scan_tree {fuel : Nat} {rand : Nat → Nat} {k : Nat} {m : List Nat}
    {y x : Int} {s : Scan} {r : Int × Int} (hg : Gen m y x)
    (hT : ∃ order, Tree m y x r order)
    (h : dead_end_scan fuel rand k m y x = .ok s) : ∃ order, Tree s.maze y x r order := by
  have key := for_loop2_inv (fun i j s => dead_end_visit fuel rand x i j s)
    (fun _ _ s => Gen s.maze y x ∧ ∃ order, Tree s.maze y x r order) y.toNat x.toNat
    (fun _ _ _ hI => hI)
    (fun i j s s2 hi hj hI hb =>
      ⟨(dead_end_visit_gen hI.1 (i := (i : Int)) (j := (j : Int)) (by omega) (by omega)
        (by omega) (by omega) hb).1,
      dead_end_visit_tree hI.1 (i := (i : Int)) (j := (j : Int)) (by omega) (by omega)
        (by omega) (by omega) hb hI.2⟩)
    ⟨m, k, false⟩ s ⟨hg, hT⟩ h
  exact key.2

theorem dead_ends_loop_tree {rand : Nat → Nat} {y x : Int} {r : Int × Int} :
    ∀ (fuel k : Nat) (m m2 : List Nat) (k2 : Nat), Gen m y x →
      (∃ order, Tree m y x r order) →
      dead_ends_loop rand y x fuel k m = .ok (m2, k2) → ∃ order, Tree m2 y x r order := by
  intro fuel
  induction fuel with
  | zero => intro k m m2 k2 _ _ h; simp [dead_ends_loop] at h
  | succ n ih =>
    intro k m m2 k2 hg hT h
    unfold dead_ends_loop at h
    simp only [bind, Except.bind, pure, Except.pure] at h
    cases hs : dead_end_scan (n + 1) rand k m y x with
    | error e => rw [hs] at h; simp at h
    | ok s =>
      rw [hs] at h
      simp only at h
      have g1 := (dead_end_scan_gen hg hs).1
      have t1 := dead_end_scan_tree hg hT hs
      split_ifs at h with hmv
      · simp only [Except.ok.injEq, Prod.mk.injEq] at h
        rw [← h.1]; exact t1
      · exact ih s.k s.maze m2 k2 g1 t1 h

/-- The three stages of a run of `draw_maze` that returns. -/
theorem draw_maze_parts {fuel : Nat} {rand : Nat → Nat} {y x : Int} {g : Generated}
    (hy : 3 ≤ y) (hx : 3 ≤ x) (h : draw_maze fuel rand y x = .ok g) :
    ∃ (m0 m1 : List Nat) (k1 k2 : Nat),
      draw_maze_start rand y x = .ok (m0, g.start_y, g.start_x) ∧
      Sized m0 y x ∧ fresh m0 y x g.start_y g.start_x ∧ interior y x g.start_y g.start_x ∧
      draw_critical_path fuel rand 2 m0 y x g.start_y g.start_x = .ok (m1, k1) ∧
      Gen m1 y x ∧
      draw_dead_ends fuel rand k1 m1 y x = .ok (g.maze, k2) := by
  obtain ⟨m0, sy, sx, hstart, _, _, hin, hs0, hfresh⟩ := draw_maze_start_spec rand hy hx
  have hg0 := fresh_gen hs0 hfresh
  unfold draw_maze at h
  simp only [bind, Except.bind, pure, Except.pure, hstart] at h
  cases hcp : draw_critical_path fuel rand 2 m0 y x sy sx with
  | error e => rw [hcp] at h; simp at h
  | ok r1 =>
    obtain ⟨m1, k1⟩ := r1
    rw [hcp] at h
    simp only at h
    have hp : is_path (cell m0 y x sy sx) := by rw [fresh_start hfresh hin]; decide
    have hg1 := draw_critical_path_gen hg0 hin hp hcp
    cases hde : draw_dead_ends fuel rand k1 m1 y x with
    | error e => rw [hde] at h; simp at h
    | ok r2 =>
      obtain ⟨m2, k2⟩ := r2
      rw [hde] at h
      simp only at h
      have hg2 := (dead_ends_loop_gen fuel k1 m1 m2 k2 hg1 hde).1
      rw [write_maze_spec hg2.sized] at h
      simp only [Except.ok.injEq] at h
      subst h
      exact ⟨m0, m1, k1, k2, hstart, hs0, hfresh, hin, hcp, hg1, hde⟩

theorem draw_maze_grown {fuel : Nat} {rand : Nat → Nat} {y x : Int} {g : Generated}
    (hy : 3 ≤ y) (hx : 3 ≤ x) (h : draw_maze fuel rand y x = .ok g) :
    ∃ order, Tree g.maze y x (g.start_y, g.start_x) order := by
  obtain ⟨m0, m1, k1, k2, _, hs0, hf, hin, hcp, hg1, hde⟩ := draw_maze_parts hy hx h
  have hp : is_path (cell m0 y x g.start_y g.start_x) := by
    rw [fresh_start hf hin]; decide
  have T1 := draw_critical_path_tree (fresh_gen hs0 hf) hin hp ⟨_, tree_fresh hf hin⟩ hcp
  unfold draw_dead_ends at hde
  exact dead_ends_loop_tree fuel k1 m1 g.maze k2 hg1 T1 hde

/-! ## The two ends of the walk -/

/-- After the walk on the fresh grid, the start having a legal direction: END is at a cell
other than the start, and the start cell and the END cell each have exactly one adjacent
path cell. -/
theorem critical_path_ends {fuel : Nat} {rand : Nat → Nat} {k k2 : Nat}
    {m0 m : List Nat} {y x sy sx : Int} (hs : Sized m0 y x) (hf : fresh m0 y x sy sx)
    (hin : interior y x sy sx) (hl : ∃ d, legal m0 y x sy sx d)
    (h : draw_critical_path fuel rand k m0 y x sy sx = .ok (m, k2)) :
    ∃ e : Int × Int, cell m y x e.1 e.2 = some END ∧ e ≠ (sy, sx) ∧
      path_neighbours m y x sy sx = 1 ∧ path_neighbours m y x e.1 e.2 = 1 := by
  have hstart : cell m0 y x sy sx = some START := by
    obtain ⟨h1, h2, h3, h4⟩ := hin
    rw [hf sy sx (by omega) (by omega) (by omega) (by omega)]
    have hr : ¬ on_ring y x sy sx := by unfold on_ring; omega
    rw [if_neg hr, if_pos ⟨rfl, rfl⟩]
  have hp : is_path (cell m0 y x sy sx) := by rw [hstart]; decide
  obtain ⟨rest, wl, ht, T, _, hc⟩ := draw_critical_path_trail (fresh_gen hs hf) hin hp h
  have hne : rest ≠ [] := fun e => by
    obtain ⟨d, hd⟩ := hl
    exact T.stuck e d hd
  obtain ⟨L, b, rfl⟩ := eq_append_last hne
  obtain ⟨wz, hz, _, e2, e3⟩ := T.last
  have hzb : b = wz := by
    rw [← List.cons_append, last_append_last] at hz
    exact Option.some.inj hz
  subst hzb
  have hpath : ((⟨m0, sy, sx, k⟩ : Walk) :: (L ++ [b])).map Walk.position =
      (sy, sx) :: L.map Walk.position ++ [(wl.i, wl.j)] := by
    simp [Walk.position, e2, e3]
  have hrest : (L ++ [b]).map Walk.position = L.map Walk.position ++ [(wl.i, wl.j)] := by
    simp [Walk.position, e2, e3]
  have hap := T.apart
  have hnd := T.nodup
  have hch : List.Chain' adjacent (((⟨m0, sy, sx, k⟩ : Walk) :: (L ++ [b])).map
      Walk.position) := by
    rw [List.chain'_map]
    exact T.chain.imp (fun a c hab => show adjacent (a.i, a.j) (c.i, c.j) from hab.1)
  rw [hpath] at hap hnd hch
  generalize L.map Walk.position = mid at *
  have hmem : ∀ a c, is_path (cell m y x a c) ↔ (a, c) ∈ (sy, sx) :: mid ++ [(wl.i, wl.j)] := by
    intro a c
    have hwl : is_path (cell wl.maze y x wl.i wl.j) := by
      rw [T.cells, hrest]
      right; simp
    have h1 : is_path (cell m y x a c) ↔ is_path (cell wl.maze y x a c) := by
      rw [hc]
      by_cases hh : a = wl.i ∧ c = wl.j
      · rw [if_pos hh, hh.1, hh.2]
        exact ⟨fun _ => hwl, fun _ => by decide⟩
      · rw [if_neg hh]
    have h2 : is_path (cell m0 y x a c) ↔ (a, c) = (sy, sx) := by
      constructor
      · intro hq
        by_contra hn
        exact fresh_not_path hf (by simpa using hn) hq
      · intro e
        simp only [Prod.mk.injEq] at e
        rw [e.1, e.2]; exact hp
    rw [h1, T.cells, hrest, h2]
    simp only [List.cons_append, List.mem_cons]
  have hnb : ∀ l1 p l2, (sy, sx) :: mid ++ [(wl.i, wl.j)] = l1 ++ p :: l2 →
      ∀ q : Int × Int, adjacent p q → is_path (cell m y x q.1 q.2) →
        l1.getLast? = some q ∨ l2.head? = some q := by
    intro l1 p l2 e q ha hq
    rw [hmem, e] at hq
    rw [e] at hap
    exact apart_neighbours hap hq ha
  have hne2 : (wl.i, wl.j) ≠ (sy, sx) := by
    intro e
    have h1 := (List.nodup_cons.1 hnd).1
    apply h1
    rw [← e]; simp
  refine ⟨(wl.i, wl.j), by rw [hc]; simp, hne2, ?_, ?_⟩
  · cases hmid : mid ++ [(wl.i, wl.j)] with
    | nil => simp at hmid
    | cons v l2 =>
      have e : (sy, sx) :: mid ++ [(wl.i, wl.j)] = [] ++ (sy, sx) :: v :: l2 := by
        rw [List.cons_append, hmid]; rfl
      rw [e] at hch
      apply path_neighbours_one (p := (sy, sx)) (u := v) (chain_at hch)
      intro q ha
      constructor
      · intro hq
        have e1 : (sy, sx) :: mid ++ [(wl.i, wl.j)] = [] ++ (sy, sx) :: (v :: l2) := e
        rcases hnb _ _ _ e1 q ha hq with h1 | h1
        · simp at h1
        · simpa using h1.symm
      · intro hq
        rw [hmem, e, hq]; simp
  · obtain ⟨l1, u, hl1⟩ := eq_append_last (l := (sy, sx) :: mid) (by simp)
    have e : (sy, sx) :: mid ++ [(wl.i, wl.j)] = l1 ++ u :: (wl.i, wl.j) :: [] := by
      rw [hl1]; simp
    rw [e] at hch
    apply path_neighbours_one (p := (wl.i, wl.j)) (u := u) (adjacent_symm (chain_at hch))
    intro q ha
    constructor
    · intro hq
      have e1 : (sy, sx) :: mid ++ [(wl.i, wl.j)] = (l1 ++ [u]) ++ (wl.i, wl.j) :: [] := by
        rw [e]; simp
      rcases hnb _ _ _ e1 q ha hq with h1 | h1
      · simpa using h1.symm
      · simp at h1
    · intro hq
      rw [hmem, e, hq]; simp

/-! ## The filler stays away from START and END -/

theorem dead_end_visit_far {fuel : Nat} {rand : Nat → Nat} {y x i j : Int} {s s2 : Scan}
    {P : Int × Int} {v : Nat} (hv : v = START ∨ v = END)
    (hP : cell s.maze y x P.1 P.2 = some v)
    (hg : Gen s.maze y x) (hi0 : 0 ≤ i) (hi : i < y) (hj0 : 0 ≤ j) (hj : j < x)
    (h : dead_end_visit fuel rand x i j s = .ok s2) :
    ∀ q : Int × Int, adjacent P q → cell s2.maze y x q.1 q.2 = cell s.maze y x q.1 q.2 := by
  intro q hq
  rcases dead_end_visit_cases hg hi0 hi hj0 hj h with ⟨_, e⟩ | ⟨hfl, _, step, k2, _, _, hc⟩
  · rw [e]
  · rcases hc with ⟨_, _, e, _⟩ | ⟨_, _, hl, _, ⟨_, e⟩ | ⟨_, _, _, hcells⟩⟩
    · rw [e]
    · rw [e]
    · rw [hcells]
      split_ifs with hh
      · exfalso
        have hq2 : q = step_target step i j := Prod.ext hh.1 hh.2
        have hpath : is_path (cell s.maze y x P.1 P.2) := by
          rw [hP]; rcases hv with e | e <;> rw [e] <;> decide
        have e1 := (legal_target hl).2.2 P (by rw [← hq2]; exact adjacent_symm hq) hpath
        rw [e1] at hP
        simp only at hP
        rw [hfl] at hP
        rcases hv with e | e <;> rw [e] at hP <;> exact absurd hP (by decide)
      · rfl

theorem dead_end_scan_far {fuel : Nat} {rand : Nat → Nat} {k : Nat} {m : List Nat}
    {y x : Int} {s : Scan} {P : Int × Int} {v : Nat} (hv : v = START ∨ v = END)
    (hP : cell m y x P.1 P.2 = some v) (hg : Gen m y x)
    (h : dead_end_scan fuel rand k m y x = .ok s) :
    ∀ q : Int × Int, adjacent P q → cell s.maze y x q.1 q.2 = cell m y x q.1 q.2 := by
  have hvw : v ≠ WALL := by rcases hv with e | e <;> rw [e] <;> decide
  have hvf : v ≠ FLOOR := by rcases hv with e | e <;> rw [e] <;> decide
  have key := for_loop2_inv (fun i j s => dead_end_visit fuel rand x i j s)
    (fun _ _ s => Gen s.maze y x ∧ keeps m s.maze y x ∧
      ∀ q : Int × Int, adjacent P q → cell s.maze y x q.1 q.2 = cell m y x q.1 q.2)
    y.toNat x.toNat (fun _ _ _ hI => hI)
    (fun i j s s2 hi hj hI hb => by
      have r := dead_end_visit_gen hI.1 (i := (i : Int)) (j := (j : Int)) (by omega)
        (by omega) (by omega) (by omega) hb
      have hP2 : cell s.maze y x P.1 P.2 = some v := (hI.2.1 P.1 P.2 v hvw hvf).2 hP
      have f := dead_end_visit_far hv hP2 hI.1 (i := (i : Int)) (j := (j : Int)) (by omega)
        (by omega) (by omega) (by omega) hb
      exact ⟨r.1, keeps_trans hI.2.1 r.2, fun q hq => by rw [f q hq, hI.2.2 q hq]⟩)
    ⟨m, k, false⟩ s ⟨hg, keeps_refl _ _ _, fun _ _ => rfl⟩ h
  exact key.2.2

theorem dead_ends_loop_far {rand : Nat → Nat} {y x : Int} {P : Int × Int} {v : Nat}
    (hv : v = START ∨ v = END) :
    ∀ (fuel k : Nat) (m m2 : List Nat) (k2 : Nat), Gen m y x →
      cell m y x P.1 P.2 = some v → dead_ends_loop rand y x fuel k m = .ok (m2, k2) →
      ∀ q : Int × Int, adjacent P q → cell m2 y x q.1 q.2 = cell m y x q.1 q.2 := by
  have hvw : v ≠ WALL := by rcases hv with e | e <;> rw [e] <;> decide
  have hvf : v ≠ FLOOR := by rcases hv with e | e <;> rw [e] <;> decide
  intro fuel
  induction fuel with
  | zero => intro k m m2 k2 _ _ h; simp [dead_ends_loop] at h
  | succ n ih =>
    intro k m m2 k2 hg hP h
    unfold dead_ends_loop at h
    simp only [bind, Except.bind, pure, Except.pure] at h
    cases hs : dead_end_scan (n + 1) rand k m y x with
    | error e => rw [hs] at h; simp at h
    | ok s =>
      rw [hs] at h
      simp only at h
      obtain ⟨g1, k1⟩ := dead_end_scan_gen hg hs
      have f1 := dead_end_scan_far hv hP hg hs
      split_ifs at h with hmv
      · simp only [Except.ok.injEq, Prod.mk.injEq] at h
        rw [← h.1]; exact f1
      · have hP2 : cell s.maze y x P.1 P.2 = some v := (k1 P.1 P.2 v hvw hvf).2 hP
        intro q hq
        rw [ih s.k s.maze m2 k2 g1 hP2 h q hq, f1 q hq]

theorem path_neighbours_congr {m m2 : List Nat} {y x i j : Int}
    (h : ∀ q : Int × Int, adjacent (i, j) q → cell m2 y x q.1 q.2 = cell m y x q.1 q.2) :
    path_neighbours m2 y x i j = path_neighbours m y x i j := by
  rw [path_neighbours_eq, path_neighbours_eq, h (i - 1, j) (by simp [adjacent]),
    h (i + 1, j) (by simp [adjacent]), h (i, j - 1) (by simp [adjacent]),
    h (i, j + 1) (by simp [adjacent])]

/-! ## A start cell without legal direction -/

theorem critical_path_step_stuck {w : Walk} {y x : Int} (hg : Gen w.maze y x)
    (hin : interior y x w.i w.j) (hn : ∀ d, ¬ legal w.maze y x w.i w.j d)
    (fuel : Nat) (rand : Nat → Nat) :
    critical_path_step fuel rand x w = .ok (⟨w.maze, w.i, w.j, w.k⟩, false) := by
  have hnone : ¬ legal_up w.maze y x w.i w.j ∧ ¬ legal_down w.maze y x w.i w.j ∧
      ¬ legal_left w.maze y x w.i w.j ∧ ¬ legal_right w.maze y x w.i w.j :=
    ⟨fun h => hn GO_UP (Or.inl ⟨rfl, h⟩), fun h => hn GO_DOWN (Or.inr (Or.inl ⟨rfl, h⟩)),
      fun h => hn GO_LEFT (Or.inr (Or.inr (Or.inl ⟨rfl, h⟩))),
      fun h => hn GO_RIGHT (Or.inr (Or.inr (Or.inr ⟨rfl, h⟩)))⟩
  have hfm : find_move fuel rand w.k w.maze w.i w.j x = .ok (NO_VALID_STEP, w.k) := by
    rw [find_move_eq hg.sized (framed_ring_closed hg.framed) hin, if_pos hnone]
  unfold critical_path_step
  simp only [bind, Except.bind, pure, Except.pure, hfm]
  rw [if_neg (by decide), if_neg (by decide), if_neg (by decide), if_neg (by decide),
    if_pos trivial]

/-- With no legal direction at the start, `draw_critical_path` returns with any fuel but 0,
having drawn no random value and written END onto the start cell. -/
theorem draw_critical_path_stuck {m0 : List Nat} {y x sy sx : Int} (hg : Gen m0 y x)
    (hin : interior y x sy sx) (hn : ∀ d, ¬ legal m0 y x sy sx d)
    (fuel : Nat) (rand : Nat → Nat) (k : Nat) :
    ∃ m, draw_critical_path (fuel + 1) rand k m0 y x sy sx = .ok (m, k) ∧ Sized m y x ∧
      ∀ a b, cell m y x a b = if a = sy ∧ b = sx then some END else cell m0 y x a b := by
  have hstep := critical_path_step_stuck (w := ⟨m0, sy, sx, k⟩) hg hin hn (fuel + 1) rand
  obtain ⟨h1, h2, h3, h4⟩ := hin
  obtain ⟨m, hm, hs, hc⟩ := store_cell hg.sized (a := sy) (b := sx) (by omega) (by omega)
    (by omega) (by omega) END
  refine ⟨m, ?_, hs, hc⟩
  unfold draw_critical_path critical_path_loop
  simp only [bind, Except.bind, pure, Except.pure, hstep, Bool.false_eq_true, if_false, hm]

theorem fresh_3x3_stuck {m : List Nat} {sy sx : Int} (hf : fresh m 3 3 sy sx)
    (hin : interior 3 3 sy sx) : ∀ d, ¬ legal m 3 3 sy sx d := by
  obtain ⟨h1, h2, h3, h4⟩ := hin
  have hy : sy = 1 := by omega
  have hx : sx = 1 := by omega
  subst hy hx
  have hb : ∀ a b : Int, 0 ≤ a → a < 3 → 0 ≤ b → b < 3 → ¬ (a = 1 ∧ b = 1) →
      cell m 3 3 a b ≠ some WALL := by
    intro a b a0 a1 b0 b1 hne
    rw [hf a b a0 a1 b0 b1]
    have hr : on_ring 3 3 a b := by unfold on_ring; omega
    rw [if_pos hr]
    decide
  apply not_legal_of_none
  refine ⟨fun h => ?_, fun h => ?_, fun h => ?_, fun h => ?_⟩
  · exact hb _ _ (by omega) (by omega) (by omega) (by omega) (by omega) h.1
  · exact hb _ _ (by omega) (by omega) (by omega) (by omega) (by omega) h.1
  · exact hb _ _ (by omega) (by omega) (by omega) (by omega) (by omega) h.1
  · exact hb _ _ (by omega) (by omega) (by omega) (by omega) (by omega) h.1

/-- A grid without FLOOR cell is quiet. -/
theorem quiet_of_no_floor {m : List Nat} {y x : Int} (hs : Sized m y x)
    (hn : ∀ a b, cell m y x a b ≠ some FLOOR) : quiet m y x := by
  intro i j hi0 hi hj0 hj
  obtain ⟨c, hc⟩ := cell_some hs hi0 hi hj0 hj
  refine ⟨c, (load_cell hi0 hi hj0 hj c).2 hc, ?_⟩
  intro hcf
  rw [hcf] at hc
  exact absurd hc (hn i j)

/-! ## The number of steps of the walk -/

theorem critical_path_step_error {w : Walk} {y x : Int} (hg : Gen w.maze y x)
    (hin : interior y x w.i w.j) {fuel : Nat} {rand : Nat → Nat} {e : Fault}
    (h : critical_path_step fuel rand x w = .error e) :
    find_move fuel rand w.k w.maze w.i w.j x = .error .out_of_fuel := by
  have hd := find_move_defined hg.sized (framed_ring_closed hg.framed) hin fuel rand w.k
  unfold critical_path_step at h
  simp only [bind, Except.bind, pure, Except.pure] at h
  cases hfm : find_move fuel rand w.k w.maze w.i w.j x with
  | error e2 =>
    cases e2 with
    | undefined => exact absurd hfm hd
    | out_of_fuel => rfl
  | ok r =>
    exfalso
    obtain ⟨step, k2⟩ := r
    rw [hfm] at h
    simp only at h
    rcases find_move_spec hg.sized (framed_ring_closed hg.framed) hin hfm with
      ⟨hs, _, _⟩ | ⟨_, _, hl⟩
    · subst hs
      simp [NO_VALID_STEP, GO_UP, GO_DOWN, GO_LEFT, GO_RIGHT] at h
    · obtain ⟨m2, _, _, hst⟩ := legal_store hg hl
      rcases hst with ⟨e1, hp⟩ | ⟨e1, hp⟩ | ⟨e1, hp⟩ | ⟨e1, hp⟩
      · subst e1
        rw [if_pos rfl, hp] at h; simp at h
      · subst e1
        rw [if_neg (by decide), if_pos rfl, hp] at h; simp at h
      · subst e1
        rw [if_neg (by decide), if_neg (by decide), if_pos rfl, hp] at h; simp at h
      · subst e1
        rw [if_neg (by decide), if_neg (by decide), if_neg (by decide), if_pos rfl, hp] at h
        simp at h

/-- The trace of the walk, whether the walk returns or not: every state comes from the one
before by a carving step, no position occurs twice, all positions are inside the ring; and
the walk either returns, at a cell without legal direction, or runs out of fuel, which it
does either after as many steps as there is fuel or in a call of `find_move`. -/
theorem critical_path_trace_steps {rand : Nat → Nat} {y x : Int} :
    ∀ (fuel : Nat) (w : Walk), Gen w.maze y x → interior y x w.i w.j →
      is_path (cell w.maze y x w.i w.j) →
      ∃ rest, critical_path_trace rand x fuel w = w :: rest ∧
        List.Chain' (carve_step y x) (w :: rest) ∧
        (∀ b ∈ rest, cell w.maze y x b.i b.j = some WALL) ∧
        (∀ b ∈ w :: rest, interior y x b.i b.j) ∧
        ((w :: rest).map Walk.position).Nodup ∧
        ((∃ wl wz, critical_path_loop rand x fuel w = .ok wl ∧
            (w :: rest).getLast? = some wz ∧ wz.maze = wl.maze ∧ wz.i = wl.i ∧
            wz.j = wl.j ∧ ∀ d, ¬ legal wl.maze y x wl.i wl.j d) ∨
          (critical_path_loop rand x fuel w = .error .out_of_fuel ∧
            (rest.length = fuel ∨ ∃ wz f2, (w :: rest).getLast? = some wz ∧ 0 < f2 ∧
              f2 ≤ fuel ∧
              find_move f2 rand wz.k wz.maze wz.i wz.j x = .error .out_of_fuel))) := by
  intro fuel
  induction fuel with
  | zero =>
    intro w _ hin _
    refine ⟨[], rfl, List.chain'_singleton _, by simp, ?_, by simp, Or.inr ⟨rfl, Or.inl rfl⟩⟩
    intro b hb
    simp only [List.mem_singleton] at hb
    rw [hb]; exact hin
  | succ n ih =>
    intro w hg hin hp
    have hsingle : ∀ b ∈ [w], interior y x b.i b.j := by
      intro b hb
      simp only [List.mem_singleton] at hb
      rw [hb]; exact hin
    cases hst : critical_path_step (n + 1) rand x w with
    | error e =>
      have hfm := critical_path_step_error hg hin hst
      have he : e = .out_of_fuel := by
        cases e with
        | undefined => exact absurd hst (critical_path_step_defined hg hin (n + 1) rand)
        | out_of_fuel => rfl
      subst he
      refine ⟨[], by simp only [critical_path_trace, hst], List.chain'_singleton _, by simp,
        hsingle, by simp, Or.inr ⟨?_, Or.inr ⟨w, n + 1, rfl, by omega, le_refl _, hfm⟩⟩⟩
      unfold critical_path_loop
      simp only [bind, Except.bind, hst]
    | ok r =>
      obtain ⟨w1, b⟩ := r
      rcases critical_path_step_spec hg hin hst with
        ⟨hb, e1, e2, e3, hnone⟩ | ⟨hb, d, hl, hd, hg1, _, hin1, hw1, hc⟩
      · subst hb
        refine ⟨[], by simp only [critical_path_trace, hst], List.chain'_singleton _, by simp,
          hsingle, by simp, Or.inl ⟨w1, w, ?_, rfl, e1.symm, e2.symm, e3.symm, ?_⟩⟩
        · unfold critical_path_loop
          simp only [bind, Except.bind, pure, Except.pure, hst, Bool.false_eq_true, if_false]
        · rw [e1, e2, e3]; exact hnone
      · subst hb
        have hp1 : is_path (cell w1.maze y x w1.i w1.j) := by
          rw [hc]; simp only [and_self, if_true]; exact floor_is_path
        obtain ⟨rest1, ht, hch, hwall, hint, hnd, hout⟩ := ih w1 hg1 hin1 hp1
        have hadj : adjacent (w.i, w.j) (w1.i, w1.j) := by
          simp only [adjacent]
          rcases hd with ⟨_, a, b⟩ | ⟨_, a, b⟩ | ⟨_, a, b⟩ | ⟨_, a, b⟩ <;> omega
        have hwall2 : ∀ b ∈ w1 :: rest1, cell w.maze y x b.i b.j = some WALL := by
          intro b hb
          rcases List.mem_cons.1 hb with e | hb2
          · rw [e]; exact hw1
          · have h1 := hwall b hb2
            rw [hc] at h1
            split_ifs at h1 with hh
            · exact absurd h1 (by decide)
            · exact h1
        have hloop : critical_path_loop rand x (n + 1) w = critical_path_loop rand x n w1 := by
          conv_lhs => unfold critical_path_loop
          simp only [bind, Except.bind, pure, Except.pure, hst, if_true]
        refine ⟨w1 :: rest1, by simp only [critical_path_trace, hst, ht],
          List.chain'_cons.2 ⟨⟨hin1, hadj, hw1, hc⟩, hch⟩, hwall2, ?_, ?_, ?_⟩
        · intro b hb
          rcases List.mem_cons.1 hb with e | hb2
          · rw [e]; exact hin
          · exact hint b hb2
        · rw [List.map_cons, List.nodup_cons]
          refine ⟨?_, hnd⟩
          intro hm
          obtain ⟨b, hb, e⟩ := List.mem_map.1 hm
          have h1 := hwall2 b hb
          simp only [Walk.position, Prod.mk.injEq] at e
          rw [e.1, e.2] at h1
          rw [h1] at hp
          exact wall_not_path hp
        · rw [hloop, List.getLast?_cons_cons]
          rcases hout with h1 | ⟨h1, h2⟩
          · exact Or.inl h1
          · right
            refine ⟨h1, ?_⟩
            rcases h2 with h2 | ⟨wz, f2, a1, a2, a3, a4⟩
            · left; simp only [List.length_cons]; omega
            · exact Or.inr ⟨wz, f2, a1, a2, by omega, a4⟩

/-- A list of cells inside the ring, none twice, is no longer than the number of cells
inside the ring. -/
theorem interior_count {y x : Int} (l : List (Int × Int)) (hnd : l.Nodup)
    (hin : ∀ p ∈ l, interior y x p.1 p.2) :
    l.length ≤ (y - 2).toNat * (x - 2).toNat := by
  have hsub : l.toFinset ⊆ Finset.Icc 1 (y - 2) ×ˢ Finset.Icc 1 (x - 2) := by
    intro p hp
    have h := hin p (List.mem_toFinset.1 hp)
    obtain ⟨h1, h2, h3, h4⟩ := h
    simp only [Finset.mem_product, Finset.mem_Icc]
    exact ⟨⟨h1, h2⟩, ⟨h3, h4⟩⟩
  have hcard := Finset.card_le_card hsub
  rw [List.toFinset_card_of_nodup hnd, Finset.card_product, Int.card_Icc, Int.card_Icc] at hcard
  have e1 : y - 2 + 1 - 1 = y - 2 := by ring
  have e2 : x - 2 + 1 - 1 = x - 2 := by ring
  rw [e1, e2] at hcard
  exact hcard

/-! ## Reads of `find_move` on a grid with a BORDER ring -/

theorem bordered_ring_closed {m : List Nat} {y x : Int} (hb : bordered m y x) :
    ring_closed m y x := by
  intro i j hr hw
  obtain ⟨h1, h2, h3, h4⟩ := cell_in_range hw
  rw [hb.2 i j h1 h2 h3 h4 hr] at hw
  exact absurd hw (by decide)

theorem gen_bordered {m : List Nat} {y x : Int} (hg : Gen m y x) : bordered m y x :=
  ⟨hg.sized, fun i j h1 h2 h3 h4 hr => (hg.framed i j h1 h2 h3 h4).2 hr⟩

/-- A cell of a bordered grid that holds WALL or FLOOR lies inside the ring. -/
theorem bordered_interior {m : List Nat} {y x i j : Int} {v : Nat} (hb : bordered m y x)
    (hc : cell m y x i j = some v) (hv : v ≠ BORDER) : interior y x i j := by
  obtain ⟨h1, h2, h3, h4⟩ := cell_in_range hc
  have hr : ¬ on_ring y x i j := by
    intro hr
    rw [hb.2 i j h1 h2 h3 h4 hr] at hc
    exact hv (Option.some.inj hc).symm
  unfold on_ring at hr
  unfold interior
  omega

theorem valid_direction_reads_mem {maze : List Nat} {n a b c r : Read}
    (h : r ∈ valid_direction_reads maze n a b c) :
    r = n ∨ (load maze n.offset = .ok WALL ∧ (r = a ∨ r = b ∨ r = c)) := by
  unfold valid_direction_reads at h
  rcases List.mem_cons.1 h with e | h
  · exact Or.inl e
  · right
    cases hn : load maze n.offset with
    | error e => rw [hn] at h; simp at h
    | ok vn =>
      rw [hn] at h
      simp only at h
      split_ifs at h with hw
      · simp at h
      · have hw2 : vn = WALL := not_not.1 hw
        subst hw2
        refine ⟨rfl, ?_⟩
        rcases List.mem_cons.1 h with e | h
        · exact Or.inl e
        · right
          cases ha : load maze a.offset with
          | error e => rw [ha] at h; simp at h
          | ok va =>
            rw [ha] at h
            simp only at h
            split_ifs at h
            · simp at h
            · rcases List.mem_cons.1 h with e | h
              · exact Or.inl e
              · right
                cases hb : load maze b.offset with
                | error e => rw [hb] at h; simp at h
                | ok vb =>
                  rw [hb] at h
                  simp only at h
                  split_ifs at h
                  · simp at h
                  · simpa using h

/-- The reads of one direction test are inside the grid, in the row and column they name,
when the neighbour is inside the grid and, if it holds WALL, the look-ahead cells are. -/
theorem valid_direction_reads_safe {maze : List Nat} {y x : Int} {n a b c r : Read}
    (hs : Sized maze y x)
    (hn : 0 ≤ n.row ∧ n.row < y ∧ 0 ≤ n.col ∧ n.col < x ∧
      n.offset = MAZE_OF_I_OF_J n.row n.col x)
    (hnext : cell maze y x n.row n.col = some WALL → ∀ q, q = a ∨ q = b ∨ q = c →
      0 ≤ q.row ∧ q.row < y ∧ 0 ≤ q.col ∧ q.col < x ∧
        q.offset = MAZE_OF_I_OF_J q.row q.col x)
    (h : r ∈ valid_direction_reads maze n a b c) :
    0 ≤ r.row ∧ r.row < y ∧ 0 ≤ r.col ∧ r.col < x ∧
      r.offset = MAZE_OF_I_OF_J r.row r.col x ∧
      ∃ v, load maze r.offset = .ok v ∧ cell maze y x r.row r.col = some v := by
  have fin : ∀ q : Read, 0 ≤ q.row ∧ q.row < y ∧ 0 ≤ q.col ∧ q.col < x ∧
      q.offset = MAZE_OF_I_OF_J q.row q.col x →
      0 ≤ q.row ∧ q.row < y ∧ 0 ≤ q.col ∧ q.col < x ∧
        q.offset = MAZE_OF_I_OF_J q.row q.col x ∧
        ∃ v, load maze q.offset = .ok v ∧ cell maze y x q.row q.col = some v := by
    intro q ⟨q1, q2, q3, q4, q5⟩
    obtain ⟨v, hv⟩ := cell_some hs q1 q2 q3 q4
    exact ⟨q1, q2, q3, q4, q5, v, by rw [q5]; exact (load_cell q1 q2 q3 q4 v).2 hv, hv⟩
  rcases valid_direction_reads_mem h with e | ⟨hw, e⟩
  · rw [e]; exact fin n hn
  · obtain ⟨n1, n2, n3, n4, n5⟩ := hn
    rw [n5] at hw
    have hcell := (load_cell n1 n2 n3 n4 WALL).1 hw
    exact fin r (hnext hcell r e)

theorem find_move_reads_mem {maze : List Nat} {i j x : Int} {r : Read}
    (h : r ∈ find_move_reads maze i j x) :
    r ∈ valid_direction_reads maze ⟨UP i j x, i - 1, j⟩ ⟨UP_UP i j x, i - 2, j⟩
      ⟨UP_LEFT i j x, i - 1, j - 1⟩ ⟨UP_RIGHT i j x, i - 1, j + 1⟩ ∨
    r ∈ valid_direction_reads maze ⟨DOWN i j x, i + 1, j⟩ ⟨DOWN_DOWN i j x, i + 2, j⟩
      ⟨DOWN_LEFT i j x, i + 1, j - 1⟩ ⟨DOWN_RIGHT i j x, i + 1, j + 1⟩ ∨
    r ∈ valid_direction_reads maze ⟨LEFT i j x, i, j - 1⟩ ⟨LEFT_UP i j x, i - 1, j - 1⟩
      ⟨LEFT_DOWN i j x, i + 1, j - 1⟩ ⟨LEFT_LEFT i j x, i, j - 2⟩ ∨
    r ∈ valid_direction_reads maze ⟨RIGHT i j x, i, j + 1⟩ ⟨RIGHT_UP i j x, i - 1, j + 1⟩
      ⟨RIGHT_DOWN i j x, i + 1, j + 1⟩ ⟨RIGHT_RIGHT i j x, i, j + 2⟩ := by
  unfold find_move_reads at h
  rcases List.mem_append.1 h with h | h
  · exact Or.inl h
  · split at h
    · simp at h
    · rcases List.mem_append.1 h with h | h
      · exact Or.inr (Or.inl h)
      · split at h
        · simp at h
        · rcases List.mem_append.1 h with h | h
          · exact Or.inr (Or.inr (Or.inl h))
          · split at h
            · simp at h
            · exact Or.inr (Or.inr (Or.inr h))

/-- A read of `find_move` at a cell inside the ring is a read of one of the four neighbours,
or of a cell next to a neighbour that holds WALL. -/
theorem find_move_reads_shape {maze : List Nat} {y x i j : Int}
    (hin : interior y x i j) {r : Read} (h : r ∈ find_move_reads maze i j x) :
    adjacent (i, j) (r.row, r.col) ∨
      ∃ a c, adjacent (i, j) (a, c) ∧ cell maze y x a c = some WALL ∧
        adjacent (a, c) (r.row, r.col) := by
  obtain ⟨h1, h2, h3, h4⟩ := hin
  rcases find_move_reads_mem h with h | h | h | h
  · rcases valid_direction_reads_mem h with e | ⟨hw, e⟩
    · subst e; left; simp [adjacent]
    · right
      simp only [UP_eq] at hw
      refine ⟨i - 1, j, by simp [adjacent],
        (load_cell (by omega) (by omega) (by omega) (by omega) WALL).1 hw, ?_⟩
      rcases e with e | e | e <;> subst e <;> (simp [adjacent]; try omega)
  · rcases valid_direction_reads_mem h with e | ⟨hw, e⟩
    · subst e; left; simp [adjacent]
    · right
      simp only [DOWN_eq] at hw
      refine ⟨i + 1, j, by simp [adjacent],
        (load_cell (by omega) (by omega) (by omega) (by omega) WALL).1 hw, ?_⟩
      rcases e with e | e | e <;> subst e <;> (simp [adjacent]; try omega)
  · rcases valid_direction_reads_mem h with e | ⟨hw, e⟩
    · subst e; left; simp [adjacent]
    · right
      simp only [LEFT_eq] at hw
      refine ⟨i, j - 1, by simp [adjacent],
        (load_cell (by omega) (by omega) (by omega) (by omega) WALL).1 hw, ?_⟩
      rcases e with e | e | e <;> subst e <;> (simp [adjacent]; try omega)
  · rcases valid_direction_reads_mem h with e | ⟨hw, e⟩
    · subst e; left; simp [adjacent]
    · right
      simp only [RIGHT_eq] at hw
      refine ⟨i, j + 1, by simp [adjacent],
        (load_cell (by omega) (by omega) (by omega) (by omega) WALL).1 hw, ?_⟩
      rcases e with e | e | e <;> subst e <;> (simp [adjacent]; try omega)

theorem find_move_reads_safe {maze : List Nat} {y x i j : Int} (hb : bordered maze y x)
    (hin : interior y x i j) {r : Read} (h : r ∈ find_move_reads maze i j x) :
    0 ≤ r.row ∧ r.row < y ∧ 0 ≤ r.col ∧ r.col < x ∧
      r.offset = MAZE_OF_I_OF_J r.row r.col x ∧
      ∃ v, load maze r.offset = .ok v ∧ cell maze y x r.row r.col = some v := by
  obtain ⟨h1, h2, h3, h4⟩ := hin
  have inner : ∀ a c : Int, cell maze y x a c = some WALL →
      1 ≤ a ∧ a ≤ y - 2 ∧ 1 ≤ c ∧ c ≤ x - 2 := fun a c hc =>
    bordered_interior hb hc (by decide)
  rcases find_move_reads_mem h with h | h | h | h
  · refine valid_direction_reads_safe hb.1 ⟨by simp only; omega, by simp only; omega,
      by simp only; omega, by simp only; omega, UP_eq i j x⟩ ?_ h
    intro hw q hq
    have hi := inner _ _ hw
    simp only at hi
    rcases hq with e | e | e <;> subst e
    · exact ⟨by simp only; omega, by simp only; omega, by simp only; omega,
        by simp only; omega, UP_UP_eq i j x⟩
    · exact ⟨by simp only; omega, by simp only; omega, by simp only; omega,
        by simp only; omega, UP_LEFT_eq i j x⟩
    · exact ⟨by simp only; omega, by simp only; omega, by simp only; omega,
        by simp only; omega, UP_RIGHT_eq i j x⟩
  · refine valid_direction_reads_safe hb.1 ⟨by simp only; omega, by simp only; omega,
      by simp only; omega, by simp only; omega, DOWN_eq i j x⟩ ?_ h
    intro hw q hq
    have hi := inner _ _ hw
    simp only at hi
    rcases hq with e | e | e <;> subst e
    · exact ⟨by simp only; omega, by simp only; omega, by simp only; omega,
        by simp only; omega, DOWN_DOWN_eq i j x⟩
    · exact ⟨by simp only; omega, by simp only; omega, by simp only; omega,
        by simp only; omega, DOWN_LEFT_eq i j x⟩
    · exact ⟨by simp only; omega, by simp only; omega, by simp only; omega,
        by simp only; omega, DOWN_RIGHT_eq i j x⟩
  · refine valid_direction_reads_safe hb.1 ⟨by simp only; omega, by simp only; omega,
      by simp only; omega, by simp only; omega, LEFT_eq i j x⟩ ?_ h
    intro hw q hq
    have hi := inner _ _ hw
    simp only at hi
    rcases hq with e | e | e <;> subst e
    · exact ⟨by simp only; omega, by simp only; omega, by simp only; omega,
        by simp only; omega, LEFT_UP_eq i j x⟩
    · exact ⟨by simp only; omega, by simp only; omega, by simp only; omega,
        by simp only; omega, LEFT_DOWN_eq i j x⟩
    · exact ⟨by simp only; omega, by simp only; omega, by simp only; omega,
        by simp only; omega, LEFT_LEFT_eq i j x⟩
  · refine valid_direction_reads_safe hb.1 ⟨by simp only; omega, by simp only; omega,
      by simp only; omega, by simp only; omega, RIGHT_eq i j x⟩ ?_ h
    intro hw q hq
    have hi := inner _ _ hw
    simp only at hi
    rcases hq with e | e | e <;> subst e
    · exact ⟨by simp only; omega, by simp only; omega, by simp only; omega,
        by simp only; omega, RIGHT_UP_eq i j x⟩
    · exact ⟨by simp only; omega, by simp only; omega, by simp only; omega,
        by simp only; omega, RIGHT_DOWN_eq i j x⟩
    · exact ⟨by simp only; omega, by simp only; omega, by simp only; omega,
        by simp only; omega, RIGHT_RIGHT_eq i j x⟩

/-- The store of a legal step on a grid with a BORDER ring: it succeeds, at a cell inside
the ring, and the ring still holds BORDER. -/
theorem legal_store_bordered {m : List Nat} {y x i j d : Int} (hb : bordered m y x)
    (hl : legal m y x i j d) :
    ∃ m2, bordered m2 y x ∧ interior y x (step_target d i j).1 (step_target d i j).2 ∧
      ((d = GO_UP ∧ store m (UP i j x) FLOOR = .ok m2) ∨
        (d = GO_DOWN ∧ store m (DOWN i j x) FLOOR = .ok m2) ∨
        (d = GO_LEFT ∧ store m (LEFT i j x) FLOOR = .ok m2) ∨
        (d = GO_RIGHT ∧ store m (RIGHT i j x) FLOOR = .ok m2)) := by
  have hw := (legal_target hl).2.1
  have hin : interior y x (step_target d i j).1 (step_target d i j).2 :=
    bordered_interior hb hw (by decide)
  obtain ⟨h1, h2, h3, h4⟩ := hin
  obtain ⟨m2, hst, hs2, hc⟩ := store_cell hb.1 (a := (step_target d i j).1)
    (b := (step_target d i j).2) (by omega) (by omega) (by omega) (by omega) FLOOR
  refine ⟨m2, ⟨hs2, ?_⟩, ⟨h1, h2, h3, h4⟩, ?_⟩
  · intro a c a1 a2 c1 c2 hr
    rw [hc]
    have hne : ¬ (a = (step_target d i j).1 ∧ c = (step_target d i j).2) := by
      unfold on_ring at hr
      omega
    rw [if_neg hne]
    exact hb.2 a c a1 a2 c1 c2 hr
  · rcases hl with ⟨e, _⟩ | ⟨e, _⟩ | ⟨e, _⟩ | ⟨e, _⟩
    · subst e
      simp only [step_target, if_true] at hst
      rw [← UP_eq] at hst
      exact Or.inl ⟨rfl, hst⟩
    · subst e
      simp only [step_target, GO_UP, GO_DOWN] at hst
      norm_num at hst
      rw [← DOWN_eq] at hst
      exact Or.inr (Or.inl ⟨rfl, hst⟩)
    · subst e
      simp only [step_target, GO_UP, GO_DOWN, GO_LEFT] at hst
      norm_num at hst
      rw [← LEFT_eq] at hst
      exact Or.inr (Or.inr (Or.inl ⟨rfl, hst⟩))
    · subst e
      simp only [step_target, GO_UP, GO_DOWN, GO_LEFT, GO_RIGHT] at hst
      norm_num at hst
      rw [← RIGHT_eq] at hst
      exact Or.inr (Or.inr (Or.inr ⟨rfl, hst⟩))

theorem step_target_up (i j : Int) : step_target GO_UP i j = (i - 1, j) := rfl
theorem step_target_down (i j : Int) : step_target GO_DOWN i j = (i + 1, j) := rfl
theorem step_target_left (i j : Int) : step_target GO_LEFT i j = (i, j - 1) := rfl
theorem step_target_right (i j : Int) : step_target GO_RIGHT i j = (i, j + 1) := rfl

/-- One pass of the walk on a grid with a BORDER ring, from a cell inside the ring: the ring
still holds BORDER and the new position is inside the ring. -/
theorem critical_path_step_bordered {w : Walk} {y x : Int} (hb : bordered w.maze y x)
    (hin : interior y x w.i w.j) {fuel : Nat} {rand : Nat → Nat} {w2 : Walk} {b : Bool}
    (h : critical_path_step fuel rand x w = .ok (w2, b)) :
    bordered w2.maze y x ∧ interior y x w2.i w2.j := by
  unfold critical_path_step at h
  simp only [bind, Except.bind, pure, Except.pure] at h
  cases hfm : find_move fuel rand w.k w.maze w.i w.j x with
  | error e => rw [hfm] at h; simp at h
  | ok r =>
    obtain ⟨step, k2⟩ := r
    rw [hfm] at h
    simp only at h
    rcases find_move_spec hb.1 (bordered_ring_closed hb) hin hfm with
      ⟨hs, _, hnone⟩ | ⟨hs, _, hl⟩
    · subst hs
      simp only [NO_VALID_STEP, GO_UP, GO_DOWN, GO_LEFT, GO_RIGHT] at h
      norm_num at h
      obtain ⟨h1, h2⟩ := h
      subst h1
      exact ⟨hb, hin⟩
    · obtain ⟨m2, hb2, hin2, hst⟩ := legal_store_bordered hb hl
      rcases hst with ⟨hd, hst⟩ | ⟨hd, hst⟩ | ⟨hd, hst⟩ | ⟨hd, hst⟩
      · subst hd
        rw [step_target_up] at hin2
        simp only [hst, if_true, Except.ok.injEq, Prod.mk.injEq] at h
        obtain ⟨h1, h2⟩ := h
        subst h1
        exact ⟨hb2, hin2⟩
      · subst hd
        rw [step_target_down] at hin2
        simp only [hst, GO_UP, GO_DOWN] at h
        norm_num at h
        obtain ⟨h1, h2⟩ := h
        subst h1
        exact ⟨hb2, hin2⟩
      · subst hd
        rw [step_target_left] at hin2
        simp only [hst, GO_UP, GO_DOWN, GO_LEFT] at h
        norm_num at h
        obtain ⟨h1, h2⟩ := h
        subst h1
        exact ⟨hb2, hin2⟩
      · subst hd
        rw [step_target_right] at hin2
        simp only [hst, GO_UP, GO_DOWN, GO_LEFT, GO_RIGHT] at h
        norm_num at h
        obtain ⟨h1, h2⟩ := h
        subst h1
        exact ⟨hb2, hin2⟩

theorem critical_path_trace_bordered {rand : Nat → Nat} {y x : Int} :
    ∀ (fuel : Nat) (w : Walk), bordered w.maze y x → interior y x w.i w.j →
      ∀ v ∈ critical_path_trace rand x fuel w, bordered v.maze y x ∧ interior y x v.i v.j := by
  intro fuel
  induction fuel with
  | zero =>
    intro w hb hin v hv
    simp only [critical_path_trace, List.mem_singleton] at hv
    subst hv
    exact ⟨hb, hin⟩
  | succ n ih =>
    intro w hb hin v hv
    unfold critical_path_trace at hv
    cases hst : critical_path_step (n + 1) rand x w with
    | error e =>
      rw [hst] at hv
      simp only [List.mem_singleton] at hv
      subst hv
      exact ⟨hb, hin⟩
    | ok r =>
      obtain ⟨w2, b⟩ := r
      rw [hst] at hv
      cases b with
      | false =>
        simp only [List.mem_singleton] at hv
        subst hv
        exact ⟨hb, hin⟩
      | true =>
        simp only [List.mem_cons] at hv
        rcases hv with e | hv
        · subst e; exact ⟨hb, hin⟩
        · obtain ⟨hb2, hin2⟩ := critical_path_step_bordered hb hin hst
          exact ih w2 hb2 hin2 v hv

/-- One visit of the filler on a grid with a BORDER ring leaves the ring holding BORDER. -/
theorem dead_end_visit_bordered {fuel : Nat} {rand : Nat → Nat} {y x i j : Int} {s s2 : Scan}
    (hb : bordered s.maze y x) (hi0 : 0 ≤ i) (hi : i < y) (hj0 : 0 ≤ j) (hj : j < x)
    (h : dead_end_visit fuel rand x i j s = .ok s2) : bordered s2.maze y x := by
  unfold dead_end_visit at h
  simp only [bind, Except.bind, pure, Except.pure] at h
  obtain ⟨c, hcell⟩ := cell_some hb.1 hi0 hi hj0 hj
  have hl := (load_cell hi0 hi hj0 hj c).2 hcell
  rw [hl] at h
  simp only at h
  by_cases hc : c = FLOOR
  · subst hc
    simp only [if_true] at h
    have hin : interior y x i j := bordered_interior hb hcell (by decide)
    cases hfm : find_move fuel rand (s.k + 1) s.maze i j x with
    | error e => rw [hfm] at h; simp at h
    | ok r =>
      obtain ⟨step, k2⟩ := r
      rw [hfm] at h
      simp only at h
      rcases find_move_spec hb.1 (bordered_ring_closed hb) hin hfm with
        ⟨hs, hk, hnone⟩ | ⟨hne, hk, hleg⟩
      · subst hs
        simp only [NO_VALID_STEP, GO_UP, GO_DOWN, GO_LEFT, GO_RIGHT] at h
        norm_num at h
        subst h
        exact hb
      · obtain ⟨m2, hb2, _, hst⟩ := legal_store_bordered hb hleg
        have key : ∀ t : Scan, t = ⟨s.maze, k2, true⟩ ∨ t = ⟨m2, k2, true⟩ →
            bordered t.maze y x := by
          intro t ht
          rcases ht with e | e <;> subst e
          · exact hb
          · exact hb2
        apply key
        rcases hst with ⟨e, hp⟩ | ⟨e, hp⟩ | ⟨e, hp⟩ | ⟨e, hp⟩
        · subst e
          rw [if_pos rfl] at h
          split_ifs at h with hcoin
          · rw [hp] at h
            simp only [Except.ok.injEq] at h
            exact Or.inr h.symm
          · simp only [Except.ok.injEq] at h
            exact Or.inl h.symm
        · subst e
          rw [if_neg (by decide), if_pos rfl] at h
          split_ifs at h with hcoin
          · rw [hp] at h
            simp only [Except.ok.injEq] at h
            exact Or.inr h.symm
          · simp only [Except.ok.injEq] at h
            exact Or.inl h.symm
        · subst e
          rw [if_neg (by decide), if_neg (by decide), if_pos rfl] at h
          split_ifs at h with hcoin
          · rw [hp] at h
            simp only [Except.ok.injEq] at h
            exact Or.inr h.symm
          · simp only [Except.ok.injEq] at h
            exact Or.inl h.symm
        · subst e
          rw [if_neg (by decide), if_neg (by decide), if_neg (by decide), if_pos rfl] at h
          split_ifs at h with hcoin
          · rw [hp] at h
            simp only [Except.ok.injEq] at h
            exact Or.inr h.symm
          · simp only [Except.ok.injEq] at h
            exact Or.inl h.symm
  · simp only [hc, if_false, Except.ok.injEq] at h
    rw [← h]
    exact hb

theorem dead_end_scan_bordered {fuel : Nat} {rand : Nat → Nat} {k : Nat} {m : List Nat}
    {y x : Int} {s : Scan} (hb : bordered m y x)
    (h : dead_end_scan fuel rand k m y x = .ok s) : bordered s.maze y x :=
  for_loop2_inv (fun i j s => dead_end_visit fuel rand x i j s)
    (fun _ _ s => bordered s.maze y x) y.toNat x.toNat (fun _ _ _ hI => hI)
    (fun i j s s2 hi hj hI hv =>
      dead_end_visit_bordered hI (i := (i : Int)) (j := (j : Int)) (by omega) (by omega)
        (by omega) (by omega) hv)
    ⟨m, k, false⟩ s hb h

/-- The state in which the scan comes to a cell of the grid has a BORDER ring. -/
theorem dead_end_scan_upto_bordered {fuel : Nat} {rand : Nat → Nat} {k : Nat} {m : List Nat}
    {y x : Int} {i j : Nat} {s : Scan} (hb : bordered m y x) (hi : (i : Int) < y)
    (hj : (j : Int) < x) (h : dead_end_scan_upto fuel rand k m x i j = .ok s) :
    bordered s.maze y x := by
  unfold dead_end_scan_upto at h
  simp only [bind, Except.bind] at h
  cases hrows : for_loop (fun i s =>
      for_loop (fun j s => dead_end_visit fuel rand x i j s) x.toNat s) i ⟨m, k, false⟩ with
  | error e => rw [hrows] at h; simp at h
  | ok s1 =>
    rw [hrows] at h
    simp only at h
    have h1 : bordered s1.maze y x :=
      for_loop2_inv (fun i j s => dead_end_visit fuel rand x i j s)
        (fun _ _ s => bordered s.maze y x) i x.toNat (fun _ _ _ hI => hI)
        (fun a b s s2 ha hb2 hI hv =>
          dead_end_visit_bordered hI (i := (a : Int)) (j := (b : Int)) (by omega) (by omega)
            (by omega) (by omega) hv)
        ⟨m, k, false⟩ s1 hb hrows
    exact for_loop_inv (fun j s => dead_end_visit fuel rand x (i : Int) j s)
      (fun _ s => bordered s.maze y x) j
      (fun b s s2 hb2 hI hv =>
        dead_end_visit_bordered hI (i := (i : Int)) (j := (b : Int)) (by omega) (by omega)
          (by omega) (by omega) hv)
      j (le_refl _) s1 s h1 h

/-- The scan is the state it comes to the end of the grid with. -/
theorem dead_end_scan_upto_end (fuel : Nat) (rand : Nat → Nat) (k : Nat) (m : List Nat)
    (y x : Int) :
    dead_end_scan_upto fuel rand k m x y.toNat 0 = dead_end_scan fuel rand k m y x := by
  unfold dead_end_scan_upto dead_end_scan
  simp only [bind, Except.bind, for_loop]
  cases for_loop (fun i s =>
      for_loop (fun j s => dead_end_visit fuel rand x i j s) x.toNat s) y.toNat
      ⟨m, k, false⟩ <;> rfl

/-! ## The player stays on FLOOR and START -/

theorem reveal_sized {map maze : List Nat} {y x i j : Int} (hmaze : Sized maze y x)
    (hmap : Sized map y x) (hi0 : 0 ≤ i) (hi : i < y) (hj0 : 0 ≤ j) (hj : j < x) :
    ∃ m, reveal map maze i j x = .ok m ∧ Sized m y x := by
  obtain ⟨c, hc⟩ := cell_some hmaze hi0 hi hj0 hj
  have hl := (load_cell hi0 hi hj0 hj c).2 hc
  obtain ⟨m, hm, hsz, _⟩ := store_cell hmap hi0 hi hj0 hj (if c = BORDER then WALL else c)
  refine ⟨m, ?_, hsz⟩
  unfold reveal
  simp only [hl, bind, Except.bind]
  exact hm

/-- At a cell inside the ring `update_map` returns, with a map of the size of the maze. -/
theorem update_map_sized {map maze : List Nat} {y x i j : Int} (hmaze : Sized maze y x)
    (hmap : Sized map y x) (hin : interior y x i j) :
    ∃ m, update_map map maze i j x = .ok m ∧ Sized m y x := by
  obtain ⟨h1, h2, h3, h4⟩ := hin
  obtain ⟨m1, e1, s1⟩ := reveal_sized hmaze hmap (i := i) (j := j) (by omega) (by omega)
    (by omega) (by omega)
  obtain ⟨m2, e2, s2⟩ := reveal_sized hmaze s1 (i := i - 1) (j := j) (by omega) (by omega)
    (by omega) (by omega)
  obtain ⟨m3, e3, s3⟩ := reveal_sized hmaze s2 (i := i + 1) (j := j) (by omega) (by omega)
    (by omega) (by omega)
  obtain ⟨m4, e4, s4⟩ := reveal_sized hmaze s3 (i := i) (j := j + 1) (by omega) (by omega)
    (by omega) (by omega)
  obtain ⟨m5, e5, s5⟩ := reveal_sized hmaze s4 (i := i) (j := j - 1) (by omega) (by omega)
    (by omega) (by omega)
  obtain ⟨m6, e6, s6, _⟩ := store_cell s5 (a := i) (b := j) (by omega) (by omega) (by omega)
    (by omega) 42
  refine ⟨m6, ?_, s6⟩
  unfold update_map
  simp only [e1, e2, e3, e4, e5, bind, Except.bind]
  exact e6

theorem on_floor_interior {maze : List Nat} {y x : Int} {p : Player} (hb : bordered maze y x)
    (h : on_floor maze y x p) : interior y x p.player_y p.player_x := by
  rcases h with h | h
  · exact bordered_interior hb h (by decide)
  · exact bordered_interior hb h (by decide)

/-- One call of `obey_player` for a player on FLOOR or START, in a maze with a BORDER ring
whose start cell holds START: the call returns or exits with status 0, and the player is
on FLOOR or START again, the map has kept its size. -/
theorem obey_player_on_floor {maze : List Nat} {y x sy sx : Int} (hb : bordered maze y x)
    (hstart : cell maze y x sy sx = some START) (command : List Nat) {p : Player}
    (hp : on_floor maze y x p) (hmap : Sized p.map y x) :
    obey_player command p maze y x sy sx = .ok (.exited 0) ∨
      ∃ p2, obey_player command p maze y x sy sx = .ok (.returned p2) ∧
        on_floor maze y x p2 ∧ Sized p2.map y x := by
  obtain ⟨h1, h2, h3, h4⟩ := on_floor_interior hb hp
  obtain ⟨u, hu⟩ := cell_some hb.1 (i := p.player_y - 1) (j := p.player_x) (by omega)
    (by omega) (by omega) (by omega)
  obtain ⟨d, hd⟩ := cell_some hb.1 (i := p.player_y + 1) (j := p.player_x) (by omega)
    (by omega) (by omega) (by omega)
  obtain ⟨l, hl⟩ := cell_some hb.1 (i := p.player_y) (j := p.player_x - 1) (by omega)
    (by omega) (by omega) (by omega)
  obtain ⟨r, hr⟩ := cell_some hb.1 (i := p.player_y) (j := p.player_x + 1) (by omega)
    (by omega) (by omega) (by omega)
  have lu := (load_cell (by omega) (by omega) (by omega) (by omega) u).2 hu
  have ld := (load_cell (by omega) (by omega) (by omega) (by omega) d).2 hd
  have ll := (load_cell (by omega) (by omega) (by omega) (by omega) l).2 hl
  have lr := (load_cell (by omega) (by omega) (by omega) (by omega) r).2 hr
  rw [← UP_eq] at lu
  rw [← DOWN_eq] at ld
  rw [← LEFT_eq] at ll
  rw [← RIGHT_eq] at lr
  obtain ⟨m, hm, hsz, _⟩ := play_init_map_spec hb.1 hmap
  rw [← restart_map_eq] at hm
  unfold obey_player
  simp only [lu, ld, ll, lr, hm, bind, Except.bind, pure, Except.pure]
  split_ifs with c1 t1 t2 c2 t3 t4 c3 t5 t6 c4 t7 t8 c5 c6 c7
  · right
    refine ⟨_, rfl, ?_, hmap⟩
    rcases t1 with e | e
    · left; rw [← e]; exact hu
    · right; rw [← e]; exact hu
  · exact Or.inr ⟨_, rfl, hp, hmap⟩
  · exact Or.inr ⟨_, rfl, hp, hmap⟩
  · right
    refine ⟨_, rfl, ?_, hmap⟩
    rcases t3 with e | e
    · left; rw [← e]; exact hd
    · right; rw [← e]; exact hd
  · exact Or.inr ⟨_, rfl, hp, hmap⟩
  · exact Or.inr ⟨_, rfl, hp, hmap⟩
  · right
    refine ⟨_, rfl, ?_, hmap⟩
    rcases t5 with e | e
    · left; rw [← e]; exact hl
    · right; rw [← e]; exact hl
  · exact Or.inr ⟨_, rfl, hp, hmap⟩
  · exact Or.inr ⟨_, rfl, hp, hmap⟩
  · right
    refine ⟨_, rfl, ?_, hmap⟩
    rcases t7 with e | e
    · left; rw [← e]; exact hr
    · right; rw [← e]; exact hr
  · exact Or.inr ⟨_, rfl, hp, hmap⟩
  · exact Or.inr ⟨_, rfl, hp, hmap⟩
  · exact Or.inr ⟨_, rfl, hp, hmap⟩
  · exact Or.inr ⟨_, rfl, Or.inr hstart, hsz⟩
  · exact Or.inl rfl
  · exact Or.inr ⟨_, rfl, hp, hmap⟩

/-- The gameplay loop returns on every list of commands, and the player is on FLOOR or
START after every call of `obey_player`. -/
theorem play_turn_on_floor {maze : List Nat} {y x sy sx : Int} (hb : bordered maze y x)
    (hstart : cell maze y x sy sx = some START) :
    ∀ (commands : List (List Nat)) (p : Player), on_floor maze y x p → Sized p.map y x →
      ∃ r, play_turn maze y x sy sx commands p = .ok r ∧
        r.states.length ≤ commands.length ∧ ∀ q ∈ r.states, on_floor maze y x q := by
  intro commands
  induction commands with
  | nil =>
    intro p _ _
    exact ⟨⟨[], .exited 1⟩, rfl, le_refl _, by simp⟩
  | cons command rest ih =>
    intro p hp hmap
    unfold play_turn
    rcases obey_player_on_floor hb hstart command hp hmap with e | ⟨p2, e, hp2, hmap2⟩
    · simp only [e, bind, Except.bind, pure, Except.pure]
      exact ⟨_, rfl, by simp, by simp⟩
    · simp only [e, bind, Except.bind, pure, Except.pure]
      by_cases hmv : p2.movement = false
      · obtain ⟨r, hr, hlen, hall⟩ := ih p2 hp2 hmap2
        simp only [hmv, if_true, hr]
        refine ⟨_, rfl, by simpa using hlen, ?_⟩
        intro q hq
        simp only [List.mem_cons] at hq
        rcases hq with e | hq
        · rw [e]; exact hp2
        · exact hall q hq
      · rw [if_neg hmv]
        by_cases hwon : p2.won = true
        · rw [if_pos hwon]
          refine ⟨_, rfl, by simp, ?_⟩
          intro q hq
          simp only [List.mem_singleton] at hq
          rw [hq]; exact hp2
        · rw [if_neg hwon]
          obtain ⟨m, hm, hsz⟩ := update_map_sized hb.1 hmap2 (on_floor_interior hb hp2)
          obtain ⟨r, hr, hlen, hall⟩ := ih { p2 with map := m, movement := false } hp2 hsz
          simp only [hm, hr]
          refine ⟨_, rfl, by simpa using hlen, ?_⟩
          intro q hq
          simp only [List.mem_cons] at hq
          rcases hq with e | hq
          · rw [e]; exact hp2
          · exact hall q hq

/-! ## What `update_map` writes -/

theorem reveal_spec {map maze : List Nat} {y x i j : Int} (hmaze : Sized maze y x)
    (hmap : Sized map y x) (hi0 : 0 ≤ i) (hi : i < y) (hj0 : 0 ≤ j) (hj : j < x) :
    ∃ m, reveal map maze i j x = .ok m ∧ Sized m y x ∧
      ∀ a b, cell m y x a b =
        if a = i ∧ b = j then (cell maze y x a b).map shown else cell map y x a b := by
  obtain ⟨c, hc⟩ := cell_some hmaze hi0 hi hj0 hj
  have hl := (load_cell hi0 hi hj0 hj c).2 hc
  obtain ⟨m, hm, hsz, hcm⟩ := store_cell hmap hi0 hi hj0 hj (if c = BORDER then WALL else c)
  refine ⟨m, ?_, hsz, ?_⟩
  · unfold reveal
    simp only [hl, bind, Except.bind]
    exact hm
  · intro a b
    rw [hcm]
    by_cases e : a = i ∧ b = j
    · rw [if_pos e, if_pos e, e.1, e.2, hc]
      rfl
    · rw [if_neg e, if_neg e]

/-- At a cell inside the ring `update_map` returns; the map it returns holds the mark of the
player at the player's cell, what the maze holds, BORDER shown as WALL, at the four cells
next to it, and what the map held at every other cell. -/
theorem update_map_spec {map maze : List Nat} {y x i j : Int} (hmaze : Sized maze y x)
    (hmap : Sized map y x) (hin : interior y x i j) :
    ∃ m, update_map map maze i j x = .ok m ∧ Sized m y x ∧
      ∀ a b, cell m y x a b =
        if a = i ∧ b = j then some 42
        else if adjacent (i, j) (a, b) then (cell maze y x a b).map shown
        else cell map y x a b := by
  obtain ⟨h1, h2, h3, h4⟩ := hin
  obtain ⟨m1, e1, s1, c1⟩ := reveal_spec hmaze hmap (i := i) (j := j) (by omega) (by omega)
    (by omega) (by omega)
  obtain ⟨m2, e2, s2, c2⟩ := reveal_spec hmaze s1 (i := i - 1) (j := j) (by omega) (by omega)
    (by omega) (by omega)
  obtain ⟨m3, e3, s3, c3⟩ := reveal_spec hmaze s2 (i := i + 1) (j := j) (by omega) (by omega)
    (by omega) (by omega)
  obtain ⟨m4, e4, s4, c4⟩ := reveal_spec hmaze s3 (i := i) (j := j + 1) (by omega) (by omega)
    (by omega) (by omega)
  obtain ⟨m5, e5, s5, c5⟩ := reveal_spec hmaze s4 (i := i) (j := j - 1) (by omega) (by omega)
    (by omega) (by omega)
  obtain ⟨m6, e6, s6, c6⟩ := store_cell s5 (a := i) (b := j) (by omega) (by omega) (by omega)
    (by omega) 42
  refine ⟨m6, ?_, s6, ?_⟩
  · unfold update_map
    simp only [e1, e2, e3, e4, e5, bind, Except.bind]
    exact e6
  · intro a b
    rw [c6]
    by_cases h0 : a = i ∧ b = j
    · rw [if_pos h0, if_pos h0]
    · rw [if_neg h0, if_neg h0, c5]
      by_cases hl : a = i ∧ b = j - 1
      · rw [if_pos hl, if_pos (show adjacent (i, j) (a, b) from Or.inr (Or.inr (Or.inl hl)))]
      · rw [if_neg hl, c4]
        by_cases hr : a = i ∧ b = j + 1
        · rw [if_pos hr, if_pos (show adjacent (i, j) (a, b) from Or.inr (Or.inr (Or.inr hr)))]
        · rw [if_neg hr, c3]
          by_cases hd : a = i + 1 ∧ b = j
          · rw [if_pos hd, if_pos (show adjacent (i, j) (a, b) from Or.inr (Or.inl hd))]
          · rw [if_neg hd, c2]
            by_cases hu : a = i - 1 ∧ b = j
            · rw [if_pos hu, if_pos (show adjacent (i, j) (a, b) from Or.inl hu)]
            · rw [if_neg hu, c1, if_neg h0]
              have hna : ¬ adjacent (i, j) (a, b) := by
                intro h
                rcases h with h | h | h | h
                · exact hu h
                · exact hd h
                · exact hl h
                · exact hr h
              rw [if_neg hna]

/-! ## The mark of the player on the map -/

/-- Every offset into a grid is the offset of a row and a column of the grid. -/
theorem cell_of_index {m : List Nat} {y x : Int} (hs : Sized m y x) {n : Nat}
    (hn : n < m.length) :
    ∃ a b, cell m y x a b = m[n]? ∧ MAZE_OF_I_OF_J a b x = n := by
  obtain ⟨hy, hx, hl⟩ := hs
  have hq0 : 0 ≤ (n : Int) / x := Int.ediv_nonneg (by omega) (by omega)
  have hr0 : 0 ≤ (n : Int) % x := Int.emod_nonneg _ (by omega)
  have hr1 : (n : Int) % x < x := Int.emod_lt_of_pos _ hx
  have hdm : (n : Int) / x * x + (n : Int) % x = n := by
    have := Int.ediv_add_emod (n : Int) x
    rw [mul_comm] at this
    exact this
  have hq1 : (n : Int) / x < y := by
    by_contra hge
    have h2 : y * x ≤ ((n : Int) / x) * x := mul_le_mul_of_nonneg_right (by omega) (by omega)
    omega
  refine ⟨(n : Int) / x, (n : Int) % x, ?_, hdm⟩
  unfold cell MAZE_OF_I_OF_J
  rw [if_pos ⟨hq0, hq1, hr0, hr1⟩, hdm]
  simp

theorem cell_mem {m : List Nat} {y x a b : Int} {v : Nat} (h : cell m y x a b = some v) :
    v ∈ m := by
  unfold cell at h
  split_ifs at h
  exact List.getElem?_mem h

theorem not_mem_of_cells {m : List Nat} {y x : Int} {v : Nat} (hs : Sized m y x)
    (h : ∀ a b, cell m y x a b ≠ some v) : v ∉ m := by
  intro hv
  obtain ⟨n, hn, e⟩ := List.mem_iff_getElem.1 hv
  obtain ⟨a, b, hc, _⟩ := cell_of_index hs hn
  apply h a b
  rw [hc, List.getElem?_eq_getElem hn, e]

/-- A value that a list holds at one index and at no other occurs once in it. -/
theorem count_one_of_index {v : Nat} :
    ∀ (l : List Nat) (k : Nat), (∀ n, l[n]? = some v ↔ n = k) → l.count v = 1 := by
  intro l
  induction l with
  | nil =>
    intro k h
    have := (h k).2 rfl
    simp at this
  | cons a t ih =>
    intro k h
    cases k with
    | zero =>
      have ha : a = v := by
        have := (h 0).2 rfl
        simpa using this
      have ht : v ∉ t := by
        intro hv
        obtain ⟨n, hn, e⟩ := List.mem_iff_getElem.1 hv
        have := (h (n + 1)).1 (by simp [List.getElem?_eq_getElem hn, e])
        omega
      rw [ha, List.count_cons_self, List.count_eq_zero_of_not_mem ht]
    | succ k2 =>
      have ha : a ≠ v := by
        intro e
        have := (h 0).1 (by simp [e])
        omega
      have ht : ∀ n, t[n]? = some v ↔ n = k2 := by
        intro n
        have := h (n + 1)
        simpa using this
      rw [List.count_cons_of_ne (Ne.symm ha), ih k2 ht]

/-- A map that holds the mark in one cell and in no other holds it once. -/
theorem one_mark_count {m : List Nat} {y x i j : Int} (hs : Sized m y x)
    (h : one_mark m y x i j) : m.count 42 = 1 := by
  have hij := (h i j).2 ⟨rfl, rfl⟩
  obtain ⟨i0, i1, j0, j1⟩ := cell_in_range hij
  obtain ⟨b0, b1⟩ := index_bounds i0 i1 j0 j1
  apply count_one_of_index m (MAZE_OF_I_OF_J i j x).toNat
  intro n
  constructor
  · intro hn
    have hlt : n < m.length := by
      by_contra hge
      rw [List.getElem?_eq_none (by omega)] at hn
      exact absurd hn (by simp)
    obtain ⟨a, b, hc, ho⟩ := cell_of_index hs hlt
    rw [← hc] at hn
    obtain ⟨ea, eb⟩ := (h a b).1 hn
    rw [ea, eb] at ho
    omega
  · intro e
    rw [e]
    unfold cell at hij
    rw [if_pos ⟨i0, i1, j0, j1⟩] at hij
    exact hij

/-- The map after `update_map` holds the mark at the player's cell and nowhere else, when
the maze holds no mark and the map held none but at a cell next to the player's. -/
theorem update_map_one_mark {map maze : List Nat} {y x i j : Int} (hmaze : Sized maze y x)
    (hno : 42 ∉ maze) (hmap : Sized map y x) (hin : interior y x i j)
    (hold : ∀ a b, cell map y x a b = some 42 → adjacent (i, j) (a, b)) :
    ∃ m, update_map map maze i j x = .ok m ∧ Sized m y x ∧ one_mark m y x i j ∧
      m.count 42 = 1 := by
  obtain ⟨m, hm, hsz, hc⟩ := update_map_spec hmaze hmap hin
  have hone : one_mark m y x i j := by
    intro a b
    rw [hc]
    constructor
    · intro h
      by_contra hne
      rw [if_neg hne] at h
      by_cases hadj : adjacent (i, j) (a, b)
      · rw [if_pos hadj] at h
        cases hcm : cell maze y x a b with
        | none => rw [hcm] at h; simp at h
        | some c =>
          rw [hcm] at h
          simp only [Option.map_some', Option.some.injEq, shown] at h
          have hc42 : c = 42 := by
            split_ifs at h with hb
            · exact absurd h (by decide)
            · exact h
          rw [hc42] at hcm
          exact hno (cell_mem hcm)
      · rw [if_neg hadj] at h
        exact hadj (hold a b h)
    · intro h
      rw [if_pos h]
  exact ⟨m, hm, hsz, hone, one_mark_count hsz hone⟩

/-- The cases of one call of `obey_player` for a player on FLOOR or START, in a maze with a
BORDER ring whose start cell holds START: the program exits with status 0; or the player
and the map stay as they are, `movement` too unless `won` is set; or the player goes to a
cell next to the one it was on, the map as it was; or the player is at the start cell and
the map is the map before the player has seen anything. -/
theorem obey_player_step {maze : List Nat} {y x sy sx : Int} (hb : bordered maze y x)
    (hstart : cell maze y x sy sx = some START) (command : List Nat) {p : Player}
    (hp : on_floor maze y x p) (hmap : Sized p.map y x) :
    obey_player command p maze y x sy sx = .ok (.exited 0) ∨
      ∃ p2, obey_player command p maze y x sy sx = .ok (.returned p2) ∧
        on_floor maze y x p2 ∧ Sized p2.map y x ∧
        ((p2.map = p.map ∧ p2.player_y = p.player_y ∧ p2.player_x = p.player_x ∧
            (p2.movement = p.movement ∨ p2.won = true)) ∨
          (p2.map = p.map ∧
            adjacent (p2.player_y, p2.player_x) (p.player_y, p.player_x) ∧
            p2.movement = true) ∨
          (p2.player_y = sy ∧ p2.player_x = sx ∧ p2.movement = true ∧
            ∀ i j, 0 ≤ i → i < y → 0 ≤ j → j < x →
              cell p2.map y x i j = some (fog (cell maze y x i j)))) := by
  obtain ⟨h1, h2, h3, h4⟩ := on_floor_interior hb hp
  obtain ⟨u, hu⟩ := cell_some hb.1 (i := p.player_y - 1) (j := p.player_x) (by omega)
    (by omega) (by omega) (by omega)
  obtain ⟨d, hd⟩ := cell_some hb.1 (i := p.player_y + 1) (j := p.player_x) (by omega)
    (by omega) (by omega) (by omega)
  obtain ⟨l, hl⟩ := cell_some hb.1 (i := p.player_y) (j := p.player_x - 1) (by omega)
    (by omega) (by omega) (by omega)
  obtain ⟨r, hr⟩ := cell_some hb.1 (i := p.player_y) (j := p.player_x + 1) (by omega)
    (by omega) (by omega) (by omega)
  have lu := (load_cell (by omega) (by omega) (by omega) (by omega) u).2 hu
  have ld := (load_cell (by omega) (by omega) (by omega) (by omega) d).2 hd
  have ll := (load_cell (by omega) (by omega) (by omega) (by omega) l).2 hl
  have lr := (load_cell (by omega) (by omega) (by omega) (by omega) r).2 hr
  rw [← UP_eq] at lu
  rw [← DOWN_eq] at ld
  rw [← LEFT_eq] at ll
  rw [← RIGHT_eq] at lr
  obtain ⟨m, hm, hsz, hfog⟩ := play_init_map_spec hb.1 hmap
  rw [← restart_map_eq] at hm
  have stay : on_floor maze y x p ∧ Sized p.map y x ∧
      ((p.map = p.map ∧ p.player_y = p.player_y ∧ p.player_x = p.player_x ∧
          (p.movement = p.movement ∨ p.won = true)) ∨
        (p.map = p.map ∧ adjacent (p.player_y, p.player_x) (p.player_y, p.player_x) ∧
          p.movement = true) ∨
        (p.player_y = sy ∧ p.player_x = sx ∧ p.movement = true ∧
          ∀ i j, 0 ≤ i → i < y → 0 ≤ j → j < x →
            cell p.map y x i j = some (fog (cell maze y x i j)))) :=
    ⟨hp, hmap, Or.inl ⟨rfl, rfl, rfl, Or.inl rfl⟩⟩
  unfold obey_player
  simp only [lu, ld, ll, lr, hm, bind, Except.bind, pure, Except.pure]
  split_ifs with c1 t1 t2 c2 t3 t4 c3 t5 t6 c4 t7 t8 c5 c6 c7
  · right
    refine ⟨_, rfl, ?_, hmap, Or.inr (Or.inl ⟨rfl, by simp [adjacent], rfl⟩)⟩
    rcases t1 with e | e
    · left; rw [← e]; exact hu
    · right; rw [← e]; exact hu
  · exact Or.inr ⟨_, rfl, hp, hmap, Or.inl ⟨rfl, rfl, rfl, Or.inr rfl⟩⟩
  · exact Or.inr ⟨_, rfl, stay⟩
  · right
    refine ⟨_, rfl, ?_, hmap, Or.inr (Or.inl ⟨rfl, by simp [adjacent], rfl⟩)⟩
    rcases t3 with e | e
    · left; rw [← e]; exact hd
    · right; rw [← e]; exact hd
  · exact Or.inr ⟨_, rfl, hp, hmap, Or.inl ⟨rfl, rfl, rfl, Or.inr rfl⟩⟩
  · exact Or.inr ⟨_, rfl, stay⟩
  · right
    refine ⟨_, rfl, ?_, hmap, Or.inr (Or.inl ⟨rfl, by simp [adjacent], rfl⟩)⟩
    rcases t5 with e | e
    · left; rw [← e]; exact hl
    · right; rw [← e]; exact hl
  · exact Or.inr ⟨_, rfl, hp, hmap, Or.inl ⟨rfl, rfl, rfl, Or.inr rfl⟩⟩
  · exact Or.inr ⟨_, rfl, stay⟩
  · right
    refine ⟨_, rfl, ?_, hmap, Or.inr (Or.inl ⟨rfl, by simp [adjacent], rfl⟩)⟩
    rcases t7 with e | e
    · left; rw [← e]; exact hr
    · right; rw [← e]; exact hr
  · exact Or.inr ⟨_, rfl, hp, hmap, Or.inl ⟨rfl, rfl, rfl, Or.inr rfl⟩⟩
  · exact Or.inr ⟨_, rfl, stay⟩
  · exact Or.inr ⟨_, rfl, stay⟩
  · exact Or.inr ⟨_, rfl, Or.inr hstart, hsz, Or.inr (Or.inr ⟨rfl, rfl, rfl, hfog⟩)⟩
  · exact Or.inl rfl
  · exact Or.inr ⟨_, rfl, stay⟩

/-- The gameplay loop on a map that holds the mark at the player's cell and nowhere else:
every call of `update_map` it makes returns a map that holds the mark at the player's cell
and nowhere else. -/
theorem play_turn_marks {maze : List Nat} {y x sy sx : Int} (hb : bordered maze y x)
    (hstart : cell maze y x sy sx = some START) (hno : 42 ∉ maze) :
    ∀ (commands : List (List Nat)) (p : Player), on_floor maze y x p → Sized p.map y x →
      p.movement = false → one_mark p.map y x p.player_y p.player_x →
      ∃ r, play_turn maze y x sy sx commands p = .ok r ∧
        ∀ q ∈ r.states, q.movement = true → q.won = false →
          ((∃ a b, adjacent (q.player_y, q.player_x) (a, b) ∧ one_mark q.map y x a b) ∨
            (q.player_y = sy ∧ q.player_x = sx ∧ 42 ∉ q.map)) ∧
          ∃ m, update_map q.map maze q.player_y q.player_x x = .ok m ∧
            one_mark m y x q.player_y q.player_x ∧ m.count 42 = 1 := by
  intro commands
  induction commands with
  | nil =>
    intro p _ _ _ _
    exact ⟨⟨[], .exited 1⟩, rfl, by simp⟩
  | cons command rest ih =>
    intro p hp hmap hmove hmark
    unfold play_turn
    rcases obey_player_step hb hstart command hp hmap with e | ⟨p2, e, hp2, hmap2, hcase⟩
    · simp only [e, bind, Except.bind, pure, Except.pure]
      exact ⟨_, rfl, by simp⟩
    · simp only [e, bind, Except.bind, pure, Except.pure]
      by_cases hmv : p2.movement = false
      · have hmark2 : one_mark p2.map y x p2.player_y p2.player_x := by
          rcases hcase with ⟨e1, e2, e3, _⟩ | ⟨_, _, e1⟩ | ⟨_, _, e1, _⟩
          · rw [e1, e2, e3]; exact hmark
          · rw [e1] at hmv; exact absurd hmv (by decide)
          · rw [e1] at hmv; exact absurd hmv (by decide)
        obtain ⟨r, hr, hall⟩ := ih p2 hp2 hmap2 hmv hmark2
        simp only [hmv, if_true, hr]
        refine ⟨_, rfl, ?_⟩
        intro q hq
        simp only [List.mem_cons] at hq
        rcases hq with e | hq
        · intro h
          rw [e, hmv] at h
          exact absurd h (by decide)
        · exact hall q hq
      · rw [if_neg hmv]
        by_cases hwon : p2.won = true
        · rw [if_pos hwon]
          refine ⟨_, rfl, ?_⟩
          intro q hq _ h
          simp only [List.mem_singleton] at hq
          rw [hq, hwon] at h
          exact absurd h (by decide)
        · rw [if_neg hwon]
          have hin2 := on_floor_interior hb hp2
          have hcause : (∃ a b, adjacent (p2.player_y, p2.player_x) (a, b) ∧
                one_mark p2.map y x a b) ∨
              (p2.player_y = sy ∧ p2.player_x = sx ∧ 42 ∉ p2.map) := by
            rcases hcase with ⟨_, _, _, e1 | e1⟩ | ⟨e1, e2, _⟩ | ⟨e1, e2, _, e3⟩
            · rw [hmove] at e1; exact absurd e1 hmv
            · exact absurd e1 hwon
            · left
              exact ⟨p.player_y, p.player_x, e2, by rw [e1]; exact hmark⟩
            · right
              refine ⟨e1, e2, not_mem_of_cells hmap2 ?_⟩
              intro a b hc
              obtain ⟨a0, a1, b0, b1⟩ := cell_in_range hc
              rw [e3 a b a0 a1 b0 b1] at hc
              unfold fog at hc
              split_ifs at hc <;> exact absurd hc (by decide)
          have hold : ∀ a b, cell p2.map y x a b = some 42 →
              adjacent (p2.player_y, p2.player_x) (a, b) := by
            intro a b hc
            rcases hcause with ⟨a2, b2, hadj, hone⟩ | ⟨_, _, hnone⟩
            · obtain ⟨ea, eb⟩ := (hone a b).1 hc
              rw [ea, eb]; exact hadj
            · exact absurd (cell_mem hc) hnone
          obtain ⟨m, hm, hsz, hone, hcount⟩ := update_map_one_mark hb.1 hno hmap2 hin2 hold
          obtain ⟨r, hr, hall⟩ := ih { p2 with map := m, movement := false } hp2 hsz rfl hone
          simp only [hm, hr]
          refine ⟨_, rfl, ?_⟩
          intro q hq
          simp only [List.mem_cons] at hq
          rcases hq with e | hq
          · intro _ _
            rw [e]
            exact ⟨hcause, m, hm, hone, hcount⟩
          · exact hall q hq

/-- C1. For every width and height from 4 to 255 and every random source for which
`draw_maze` returns, the grid it produced has exactly one cell holding START and exactly one
cell holding END. -/
theorem draw_maze_one_start_one_end (fuel : Nat) (rand : Nat → Nat) (y x : Int)
    (g : Generated) (hy : 4 ≤ y) (_hy2 : y ≤ 255) (hx : 4 ≤ x) (_hx2 : x ≤ 255)
    (h : draw_maze fuel rand y x = .ok g) :
    (∃! p : Int × Int, cell g.maze y x p.1 p.2 = some START) ∧
      (∃! p : Int × Int, cell g.maze y x p.1 p.2 = some END) := by
  obtain ⟨hs, ei, ej, he⟩ := draw_maze_marks hy (by omega) h
  constructor
  · refine ⟨(g.start_y, g.start_x), (hs _ _).2 ⟨rfl, rfl⟩, ?_⟩
    rintro ⟨a, b⟩ hp
    obtain ⟨e1, e2⟩ := (hs a b).1 hp
    simp only [Prod.mk.injEq]; exact ⟨e1, e2⟩
  · refine ⟨(ei, ej), (he _ _).2 ⟨rfl, rfl⟩, ?_⟩
    rintro ⟨a, b⟩ hp
    obtain ⟨e1, e2⟩ := (he a b).1 hp
    simp only [Prod.mk.injEq]; exact ⟨e1, e2⟩

/-- C1, on the 4 by 4 run. -/
theorem draw_maze_one_start_one_end_witness :
    (∃! p : Int × Int, cell run_4x4.maze 4 4 p.1 p.2 = some START) ∧
      (∃! p : Int × Int, cell run_4x4.maze 4 4 p.1 p.2 = some END) :=
  draw_maze_one_start_one_end 50 counting_rand 4 4 run_4x4 (by decide) (by decide) (by decide)
    (by decide) run_4x4_eq

/-- C2. In every grid that `draw_maze` produces, no two by two block of cells consists of
four path cells, a path cell being one that holds FLOOR, START or END. -/
theorem draw_maze_no_block (fuel : Nat) (rand : Nat → Nat) (y x : Int) (g : Generated)
    (h : draw_maze fuel rand y x = .ok g) :
    ∀ i j, ¬ (is_path (cell g.maze y x i j) ∧ is_path (cell g.maze y x i (j + 1)) ∧
      is_path (cell g.maze y x (i + 1) j) ∧ is_path (cell g.maze y x (i + 1) (j + 1))) := by
  obtain ⟨hy2, hx2⟩ := draw_maze_two h
  by_cases hbig : 3 ≤ y ∧ 3 ≤ x
  · obtain ⟨_, _, _, _, _, _, _, _, _, _, _, hg, _⟩ := draw_maze_spec hbig.1 hbig.2 h
    exact hg.no_block
  · intro i j ⟨p1, p2, p3, p4⟩
    have hr : ∀ a b, is_path (cell g.maze y x a b) → 0 ≤ a ∧ a < y ∧ 0 ≤ b ∧ b < x := by
      intro a b hp
      rcases hp with hp | hp | hp <;> exact cell_in_range hp
    have r1 := hr _ _ p1
    have r4 := hr _ _ p4
    omega

/-- C2, on the 4 by 4 run. -/
theorem draw_maze_no_block_witness :
    (∀ i j, ¬ (is_path (cell run_4x4.maze 4 4 i j) ∧
      is_path (cell run_4x4.maze 4 4 i (j + 1)) ∧ is_path (cell run_4x4.maze 4 4 (i + 1) j) ∧
      is_path (cell run_4x4.maze 4 4 (i + 1) (j + 1)))) ∧
    ¬ (is_path (cell run_4x4.maze 4 4 1 1) ∧ is_path (cell run_4x4.maze 4 4 1 (1 + 1)) ∧
      is_path (cell run_4x4.maze 4 4 (1 + 1) 1) ∧
      is_path (cell run_4x4.maze 4 4 (1 + 1) (1 + 1))) :=
  ⟨draw_maze_no_block 50 counting_rand 4 4 run_4x4 run_4x4_eq,
    draw_maze_no_block 50 counting_rand 4 4 run_4x4 run_4x4_eq 1 1⟩

/-- C3. On every grid, a buffer whose ring holds BORDER and so no WALL (`ring_closed`), and
at every cell inside the ring: `find_move` reads no cell outside the buffer; what it returns
is NO_VALID_STEP exactly when no direction is legal, and a legal direction otherwise; with
no legal direction it returns NO_VALID_STEP without drawing a random value; and it returns
as soon as the random source supplies the number of a legal direction.  Legal is `legal`:
the neighbour holds WALL and none of the three look-ahead cells holds FLOOR, START or END,
so that BORDER or WALL in them does not disqualify.  The buffer is only read: `find_move`
returns the step and the count of random values drawn. -/
theorem find_move_legal (maze : List Nat) (y x i j : Int) (hs : Sized maze y x)
    (hring : ring_closed maze y x) (hin : interior y x i j) :
    (∀ (fuel : Nat) (rand : Nat → Nat) (k : Nat),
        find_move fuel rand k maze i j x ≠ .error .undefined) ∧
      (∀ (fuel : Nat) (rand : Nat → Nat) (k : Nat) (step : Int) (k2 : Nat),
        find_move fuel rand k maze i j x = .ok (step, k2) →
          (step = NO_VALID_STEP ↔ ∀ d, ¬ legal maze y x i j d) ∧
          (step ≠ NO_VALID_STEP → legal maze y x i j step)) ∧
      ((∀ d, ¬ legal maze y x i j d) → ∀ (fuel : Nat) (rand : Nat → Nat) (k : Nat),
        find_move fuel rand k maze i j x = .ok (NO_VALID_STEP, k)) ∧
      (∀ (fuel : Nat) (rand : Nat → Nat) (k n : Nat),
        legal maze y x i j (Int.tmod (rand (k + n) : Int) DIRECTIONS) → n + 1 ≤ fuel →
          ∃ r, find_move fuel rand k maze i j x = .ok r) := by
  have heq := find_move_eq hs hring hin
  refine ⟨?_, ?_, ?_, ?_⟩
  · intro fuel rand k
    rw [heq]
    split_ifs
    · simp
    · exact pick_direction_defined _ _
  · intro fuel rand k step k2 h
    rcases find_move_spec hs hring hin h with ⟨e, _, hnone⟩ | ⟨hne, _, hl⟩
    · exact ⟨⟨fun _ => hnone, fun _ => e⟩, fun hne => absurd e hne⟩
    · exact ⟨⟨fun e => absurd e hne, fun hnone => absurd hl (hnone step)⟩, fun _ => hl⟩
  · intro hnone fuel rand k
    rw [heq, if_pos]
    exact ⟨fun hl => hnone GO_UP (Or.inl ⟨rfl, hl⟩),
      fun hl => hnone GO_DOWN (Or.inr (Or.inl ⟨rfl, hl⟩)),
      fun hl => hnone GO_LEFT (Or.inr (Or.inr (Or.inl ⟨rfl, hl⟩))),
      fun hl => hnone GO_RIGHT (Or.inr (Or.inr (Or.inr ⟨rfl, hl⟩)))⟩
  · intro fuel rand k n hl hfuel
    rw [heq, if_neg]
    · apply pick_direction_returns n k _ fuel hfuel
      simp only [flag_of, decide_eq_true_eq]
      exact hl
    · intro hnone
      exact not_legal_of_none hnone _ hl

/-- C3, at the Floor cell of the 4 by 4 run (row 1, column 1). -/
theorem find_move_legal_witness :
    (∀ (fuel : Nat) (rand : Nat → Nat) (k : Nat),
        find_move fuel rand k run_4x4.maze 1 1 4 ≠ .error .undefined) ∧
      (∀ (fuel : Nat) (rand : Nat → Nat) (k : Nat) (step : Int) (k2 : Nat),
        find_move fuel rand k run_4x4.maze 1 1 4 = .ok (step, k2) →
          (step = NO_VALID_STEP ↔ ∀ d, ¬ legal run_4x4.maze 4 4 1 1 d) ∧
          (step ≠ NO_VALID_STEP → legal run_4x4.maze 4 4 1 1 step)) ∧
      ((∀ d, ¬ legal run_4x4.maze 4 4 1 1 d) → ∀ (fuel : Nat) (rand : Nat → Nat) (k : Nat),
        find_move fuel rand k run_4x4.maze 1 1 4 = .ok (NO_VALID_STEP, k)) ∧
      (∀ (fuel : Nat) (rand : Nat → Nat) (k n : Nat),
        legal run_4x4.maze 4 4 1 1 (Int.tmod (rand (k + n) : Int) DIRECTIONS) → n + 1 ≤ fuel →
          ∃ r, find_move fuel rand k run_4x4.maze 1 1 4 = .ok r) :=
  find_move_legal run_4x4.maze 4 4 1 1 run_4x4_gen.sized
    (framed_ring_closed run_4x4_gen.framed) (by decide)

/-- Why the ring matters to `find_move`.  The buffer `open_ring_4x4` is no grid of the
program: its ring holds WALL and FLOOR, which `draw_border` rules out.  On it, at row 1,
column 1, Left is legal by rows and columns (the neighbour at column 0 holds WALL, the cells
above and below it hold BORDER, and there is no cell further left), yet `find_move` returns
NO_VALID_STEP: the offset LEFT_LEFT is that of row 0, column 3, which holds FLOOR. -/
theorem find_move_open_ring :
    Sized open_ring_4x4 4 4 ∧ interior 4 4 1 1 ∧ legal open_ring_4x4 4 4 1 1 GO_LEFT ∧
      find_move 1 counting_rand 0 open_ring_4x4 1 1 4 = .ok (NO_VALID_STEP, 0) ∧
      LEFT_LEFT 1 1 4 = MAZE_OF_I_OF_J 0 3 4 :=
  ⟨by decide, by decide, by decide, by rfl, by decide⟩

/-- C4. When `draw_dead_ends` returns, at every cell of the grid that holds FLOOR `find_move`
on the final grid yields NO_VALID_STEP, for every random source; and when the ring of the
final grid holds no WALL, no direction is legal at any FLOOR cell inside the ring. -/
theorem draw_dead_ends_no_legal (fuel : Nat) (rand : Nat → Nat) (k : Nat) (maze : List Nat)
    (y x : Int) (m2 : List Nat) (k2 : Nat)
    (h : draw_dead_ends fuel rand k maze y x = .ok (m2, k2)) :
    (∀ i j, 0 ≤ i → i < y → 0 ≤ j → j < x → load m2 (MAZE_OF_I_OF_J i j x) = .ok FLOOR →
        ∀ (fuel2 : Nat) (rand2 : Nat → Nat) (k3 : Nat),
          find_move fuel2 rand2 k3 m2 i j x = .ok (NO_VALID_STEP, k3)) ∧
      (Sized m2 y x → ring_closed m2 y x → ∀ i j, interior y x i j →
        cell m2 y x i j = some FLOOR → ∀ d, ¬ legal m2 y x i j d) := by
  unfold draw_dead_ends at h
  have hq := dead_ends_loop_quiet fuel k maze m2 k2 h
  have h1 : ∀ i j, 0 ≤ i → i < y → 0 ≤ j → j < x → load m2 (MAZE_OF_I_OF_J i j x) = .ok FLOOR →
      ∀ (fuel2 : Nat) (rand2 : Nat → Nat) (k3 : Nat),
        find_move fuel2 rand2 k3 m2 i j x = .ok (NO_VALID_STEP, k3) := by
    intro i j hi0 hi hj0 hj hl
    obtain ⟨c, hc, hf⟩ := hq i j hi0 hi hj0 hj
    rw [hl] at hc
    simp only [Except.ok.injEq] at hc
    exact hf hc.symm
  refine ⟨h1, ?_⟩
  intro hs hring i j hin hc d hl
  have hin2 := hin
  obtain ⟨i1, i2, i3, i4⟩ := hin2
  have hload : load m2 (MAZE_OF_I_OF_J i j x) = .ok FLOOR :=
    (load_cell (y := y) (by omega) (by omega) (by omega) (by omega) FLOOR).2 hc
  have hfm := h1 i j (by omega) (by omega) (by omega) (by omega) hload 0 rand 0
  rcases find_move_spec hs hring hin hfm with ⟨_, _, hnone⟩ | ⟨hne, _, _⟩
  · exact hnone d hl
  · exact hne rfl

/-- C4, on the 5 by 5 run of the filler. -/
theorem draw_dead_ends_no_legal_witness :
    (∀ i j, 0 ≤ i → i < 5 → 0 ≤ j → j < 5 →
        load filled_5x5 (MAZE_OF_I_OF_J i j 5) = .ok FLOOR →
        ∀ (fuel2 : Nat) (rand2 : Nat → Nat) (k3 : Nat),
          find_move fuel2 rand2 k3 filled_5x5 i j 5 = .ok (NO_VALID_STEP, k3)) ∧
      (Sized filled_5x5 5 5 → ring_closed filled_5x5 5 5 → ∀ i j, interior 5 5 i j →
        cell filled_5x5 5 5 i j = some FLOOR → ∀ d, ¬ legal filled_5x5 5 5 i j d) :=
  draw_dead_ends_no_legal 10 halving_rand 0 walked_5x5 5 5 filled_5x5 45 filled_5x5_eq

/-- C5. Running `draw_dead_ends` again on a grid that `draw_dead_ends` returned gives back
the same grid, for every random source of the second run, and the second run ends after a
single scan: its first scan leaves the grid as it is and `moved` false, so that fuel for one
scan (`fuel2 = 1`) is enough. -/
theorem draw_dead_ends_again (fuel : Nat) (rand : Nat → Nat) (k : Nat) (maze : List Nat)
    (y x : Int) (m2 : List Nat) (k2 : Nat)
    (h : draw_dead_ends fuel rand k maze y x = .ok (m2, k2)) :
    ∀ (rand2 : Nat → Nat) (k3 : Nat) (fuel2 : Nat), 1 ≤ fuel2 → ∃ k4,
      dead_end_scan fuel2 rand2 k3 m2 y x = .ok ⟨m2, k4, false⟩ ∧
      draw_dead_ends fuel2 rand2 k3 m2 y x = .ok (m2, k4) := by
  unfold draw_dead_ends at h
  have hq := dead_ends_loop_quiet fuel k maze m2 k2 h
  intro rand2 k3 fuel2 hf
  obtain ⟨n, rfl⟩ : ∃ n, fuel2 = n + 1 := ⟨fuel2 - 1, by omega⟩
  obtain ⟨k4, hk4⟩ := quiet_scan hq (n + 1) rand2 k3
  refine ⟨k4, hk4, ?_⟩
  unfold draw_dead_ends dead_ends_loop
  simp only [bind, Except.bind, pure, Except.pure, hk4, if_true]

/-- C5, on the 5 by 5 run of the filler. -/
theorem draw_dead_ends_again_witness :
    ∃ k4, dead_end_scan 1 counting_rand 45 filled_5x5 5 5 = .ok ⟨filled_5x5, k4, false⟩ ∧
      draw_dead_ends 1 counting_rand 45 filled_5x5 5 5 = .ok (filled_5x5, k4) :=
  draw_dead_ends_again 10 halving_rand 0 walked_5x5 5 5 filled_5x5 45 filled_5x5_eq
    counting_rand 45 1 (le_refl 1)

/-- C6. Round trip. For every width and height from 1 to 255 and every grid of that size:
every start position that the start selection of `draw_maze` returns fits a byte; and for
every start position that fits a byte, the writing steps of `draw_maze` return, and decoding
the bytes they wrote the way `play` does yields the same width, height and start position
and the same grid, byte for byte. -/
theorem write_then_decode (maze : List Nat) (y x : Int)
    (hy1 : 1 ≤ y) (hy2 : y ≤ 255) (hx1 : 1 ≤ x) (hx2 : x ≤ 255)
    (hlen : (maze.length : Int) = y * x) :
    (∀ (rand : Nat → Nat) (k : Nat) (start_y start_x : Int),
        pick_start rand k y x = .ok (start_y, start_x) →
        (0 ≤ start_y ∧ start_y ≤ 255) ∧ (0 ≤ start_x ∧ start_x ≤ 255)) ∧
      (∀ start_y start_x : Int, 0 ≤ start_y → start_y ≤ 255 → 0 ≤ start_x → start_x ≤ 255 →
        ∃ file, write_maze maze y x start_y start_x = .ok file ∧
          play_decode file = some ⟨x, y, start_x, start_y, maze⟩) := by
  refine ⟨fun rand k sy sx h => pick_start_byte hy1 hy2 hx1 hx2 h, ?_⟩
  intro start_y start_x hsy0 hsy1 hsx0 hsx1
  have hs : Sized maze y x := ⟨by omega, by omega, hlen⟩
  refine ⟨_, write_maze_spec hs start_y start_x, ?_⟩
  have c : ∀ v : Int, 0 ≤ v → v ≤ 255 → ((to_uint8 v : Nat) : Int) = v := by
    intro v h0 h1
    unfold to_uint8
    omega
  have hpos : 0 < y * x := mul_pos (by omega) (by omega)
  have hsize : (y * x).toNat = maze.length := by omega
  unfold play_decode
  simp only [HEADER_SIZE, List.length_append, List.length_cons, List.length_nil,
    List.getD_cons_zero, List.getD_cons_succ, List.cons_append, List.nil_append,
    List.drop_succ_cons, List.drop_zero, c x (by omega) hx2, c y (by omega) hy2,
    c start_x hsx0 hsx1, c start_y hsy0 hsy1, hsize]
  have h1 : ¬ (maze.length + 1 + 1 + 1 + 1 < 4) := by omega
  have h2 : ¬ (maze.length = 0 ∨ maze.length < maze.length) := by omega
  simp only [h1, h2, if_false, List.take_length]

/-- C6, on the grid of the 4 by 4 run. -/
theorem write_then_decode_witness :
    (∀ (rand : Nat → Nat) (k : Nat) (start_y start_x : Int),
        pick_start rand k 4 4 = .ok (start_y, start_x) →
        (0 ≤ start_y ∧ start_y ≤ 255) ∧ (0 ≤ start_x ∧ start_x ≤ 255)) ∧
      (∀ start_y start_x : Int, 0 ≤ start_y → start_y ≤ 255 → 0 ≤ start_x → start_x ≤ 255 →
        ∃ file, write_maze run_4x4.maze 4 4 start_y start_x = .ok file ∧
          play_decode file = some ⟨4, 4, start_x, start_y, run_4x4.maze⟩) :=
  write_then_decode run_4x4.maze 4 4 (by decide) (by decide) (by decide) (by decide)
    (by decide)

/-- C7. For every width and height from 3 to 255, the bytes `draw_maze` writes are: the
width, the height, the start column, the start row (each byte equal to the integer, nothing
cut off), then the `width * height` cells of the grid, each as it is in memory, the cell of
row `i`, column `j` at position `4 + i * width + j`; the ring cells are written as BORDER;
`4 + width * height` bytes in all. -/
theorem draw_maze_file (fuel : Nat) (rand : Nat → Nat) (y x : Int) (g : Generated)
    (hy1 : 3 ≤ y) (hy2 : y ≤ 255) (hx1 : 3 ≤ x) (hx2 : x ≤ 255)
    (h : draw_maze fuel rand y x = .ok g) :
    g.file = [x.toNat, y.toNat, g.start_x.toNat, g.start_y.toNat] ++ g.maze ∧
      ((g.file.getD 0 0 : Nat) : Int) = x ∧ ((g.file.getD 1 0 : Nat) : Int) = y ∧
      ((g.file.getD 2 0 : Nat) : Int) = g.start_x ∧
      ((g.file.getD 3 0 : Nat) : Int) = g.start_y ∧
      (g.maze.length : Int) = x * y ∧ (g.file.length : Int) = 4 + x * y ∧
      (∀ i j, 0 ≤ i → i < y → 0 ≤ j → j < x →
        g.file[4 + (i * x + j).toNat]? = cell g.maze y x i j) ∧
      (∀ i j, 0 ≤ i → i < y → 0 ≤ j → j < x → on_ring y x i j →
        g.file[4 + (i * x + j).toNat]? = some BORDER) := by
  obtain ⟨_, _, _, _, _, _, hin, _, _, _, _, hg, _, _, hfile⟩ := draw_maze_spec hy1 hx1 h
  obtain ⟨i1, i2, i3, i4⟩ := hin
  have c : ∀ v : Int, 0 ≤ v → v ≤ 255 → to_uint8 v = v.toNat := by
    intro v h0 h1
    unfold to_uint8
    omega
  rw [c x (by omega) hx2, c y (by omega) hy2, c g.start_x (by omega) (by omega),
    c g.start_y (by omega) (by omega)] at hfile
  have hlen := hg.sized.2.2
  have hcell : ∀ i j, 0 ≤ i → i < y → 0 ≤ j → j < x →
      g.file[4 + (i * x + j).toNat]? = cell g.maze y x i j := by
    intro i j hi0 hi hj0 hj
    rw [hfile]
    unfold cell MAZE_OF_I_OF_J
    rw [if_pos ⟨hi0, hi, hj0, hj⟩]
    have : 4 + (i * x + j).toNat = (i * x + j).toNat + 4 := by omega
    rw [this]
    simp
  refine ⟨hfile, ?_, ?_, ?_, ?_, ?_, ?_, hcell, ?_⟩
  · rw [hfile]; simp only [List.cons_append, List.getD_cons_zero]; omega
  · rw [hfile]; simp only [List.cons_append, List.getD_cons_zero, List.getD_cons_succ]; omega
  · rw [hfile]; simp only [List.cons_append, List.getD_cons_zero, List.getD_cons_succ]; omega
  · rw [hfile]; simp only [List.cons_append, List.getD_cons_zero, List.getD_cons_succ]; omega
  · rw [hlen]; ring
  · rw [hfile]
    simp only [List.length_append, List.length_cons, List.length_nil]
    have : y * x = x * y := by ring
    omega
  · intro i j hi0 hi hj0 hj hr
    rw [hcell i j hi0 hi hj0 hj]
    exact (hg.framed i j hi0 hi hj0 hj).2 hr

/-- C7, on the 4 by 4 run. -/
theorem draw_maze_file_witness :
    run_4x4.file = [(4 : Int).toNat, (4 : Int).toNat, run_4x4.start_x.toNat,
        run_4x4.start_y.toNat] ++ run_4x4.maze ∧
      ((run_4x4.file.getD 0 0 : Nat) : Int) = 4 ∧ ((run_4x4.file.getD 1 0 : Nat) : Int) = 4 ∧
      ((run_4x4.file.getD 2 0 : Nat) : Int) = run_4x4.start_x ∧
      ((run_4x4.file.getD 3 0 : Nat) : Int) = run_4x4.start_y ∧
      (run_4x4.maze.length : Int) = 4 * 4 ∧ (run_4x4.file.length : Int) = 4 + 4 * 4 ∧
      (∀ i j, 0 ≤ i → i < 4 → 0 ≤ j → j < 4 →
        run_4x4.file[4 + (i * 4 + j).toNat]? = cell run_4x4.maze 4 4 i j) ∧
      (∀ i j, 0 ≤ i → i < 4 → 0 ≤ j → j < 4 → on_ring 4 4 i j →
        run_4x4.file[4 + (i * 4 + j).toNat]? = some BORDER) :=
  draw_maze_file 50 counting_rand 4 4 run_4x4 (by decide) (by decide) (by decide) (by decide)
    run_4x4_eq

/-- C8. For every width and height of at least 3 and every random source, the start
selection of `draw_maze` returns a position with `1 ≤ start_y ≤ height - 2` and
`1 ≤ start_x ≤ width - 2`, the cell there holds START after the Start write, and this is the
start position of every run of `draw_maze` that returns; every cell strictly inside the ring
is chosen by some random source, one whose values stay below the dimensions. -/
theorem draw_maze_start_interior (y x : Int) (hy : 3 ≤ y) (hx : 3 ≤ x) :
    (∀ rand : Nat → Nat, ∃ m sy sx, draw_maze_start rand y x = .ok (m, sy, sx) ∧
        1 ≤ sy ∧ sy ≤ y - 2 ∧ 1 ≤ sx ∧ sx ≤ x - 2 ∧ cell m y x sy sx = some START ∧
        ∀ fuel g, draw_maze fuel rand y x = .ok g → g.start_y = sy ∧ g.start_x = sx) ∧
      (∀ a b, 1 ≤ a → a ≤ y - 2 → 1 ≤ b → b ≤ x - 2 →
        ∃ (rand : Nat → Nat) (m : List Nat), (∀ n, (rand n : Int) < y ∨ (rand n : Int) < x) ∧
          draw_maze_start rand y x = .ok (m, a, b)) := by
  constructor
  · intro rand
    obtain ⟨m, sy, sx, hst, _, _, hin, _, hfresh⟩ := draw_maze_start_spec rand hy hx
    have hin2 := hin
    obtain ⟨i1, i2, i3, i4⟩ := hin2
    refine ⟨m, sy, sx, hst, i1, i2, i3, i4, ?_, ?_⟩
    · rw [hfresh sy sx (by omega) (by omega) (by omega) (by omega)]
      have hr : ¬ on_ring y x sy sx := by unfold on_ring; omega
      rw [if_neg hr, if_pos ⟨rfl, rfl⟩]
    · intro fuel g hg
      obtain ⟨m0, _, _, hst2, _⟩ := draw_maze_spec hy hx hg
      rw [hst] at hst2
      simp only [Except.ok.injEq, Prod.mk.injEq] at hst2
      exact ⟨hst2.2.1.symm, hst2.2.2.symm⟩
  · intro a b ha1 ha2 hb1 hb2
    obtain ⟨m, sy, sx, hst, hsy, hsx, _, _, _⟩ :=
      draw_maze_start_spec (fun n => if n = 0 then (a - 1).toNat else (b - 1).toNat) hy hx
    refine ⟨fun n => if n = 0 then (a - 1).toNat else (b - 1).toNat, m, ?_, ?_⟩
    · intro n
      by_cases hn : n = 0
      · left; simp only [hn, if_true]; omega
      · right; simp only [hn, if_false]; omega
    · have e1 : sy = a := by
        rw [hsy]
        simp only [if_true]
        have : (((a - 1).toNat : Nat) : Int) = a - 1 := by omega
        rw [this, Int.emod_eq_of_lt (by omega) (by omega)]
        omega
      have e2 : sx = b := by
        rw [hsx]
        simp only [Nat.one_ne_zero, if_false]
        have : (((b - 1).toNat : Nat) : Int) = b - 1 := by omega
        rw [this, Int.emod_eq_of_lt (by omega) (by omega)]
        omega
      rw [e1, e2] at hst
      exact hst

/-- C8, for a 4 by 4 maze. -/
theorem draw_maze_start_interior_witness :
    (∀ rand : Nat → Nat, ∃ m sy sx, draw_maze_start rand 4 4 = .ok (m, sy, sx) ∧
        1 ≤ sy ∧ sy ≤ 4 - 2 ∧ 1 ≤ sx ∧ sx ≤ 4 - 2 ∧ cell m 4 4 sy sx = some START ∧
        ∀ fuel g, draw_maze fuel rand 4 4 = .ok g → g.start_y = sy ∧ g.start_x = sx) ∧
      (∀ a b, 1 ≤ a → a ≤ 4 - 2 → 1 ≤ b → b ≤ 4 - 2 →
        ∃ (rand : Nat → Nat) (m : List Nat), (∀ n, (rand n : Int) < 4 ∨ (rand n : Int) < 4) ∧
          draw_maze_start rand 4 4 = .ok (m, a, b)) :=
  draw_maze_start_interior 4 4 (by decide) (by decide)

/-- C9. In every grid that `draw_maze` produces with width and height of at least 3, a cell
holds BORDER if and only if it lies on the ring; and the cells holding BORDER are those that
held BORDER when the walk of `draw_critical_path` began: neither the walk nor the dead-end
filler overwrote a Border cell or made one. -/
theorem draw_maze_border_ring (fuel : Nat) (rand : Nat → Nat) (y x : Int) (g : Generated)
    (hy : 3 ≤ y) (hx : 3 ≤ x) (h : draw_maze fuel rand y x = .ok g) :
    (∀ i j, 0 ≤ i → i < y → 0 ≤ j → j < x →
        (cell g.maze y x i j = some BORDER ↔ on_ring y x i j)) ∧
      ∃ m0, draw_maze_start rand y x = .ok (m0, g.start_y, g.start_x) ∧
        ∀ i j, cell g.maze y x i j = some BORDER ↔ cell m0 y x i j = some BORDER := by
  obtain ⟨m0, w, m1, hst, _, _, _, hw, _, hc1, _, hg, hk2, _, _⟩ := draw_maze_spec hy hx h
  refine ⟨hg.framed, m0, hst, ?_⟩
  intro i j
  rw [hk2 i j BORDER (by decide) (by decide), hc1]
  by_cases e : i = w.i ∧ j = w.j
  · rw [if_pos e]
    obtain ⟨rfl, rfl⟩ := e
    constructor
    · intro hh; simp [END, BORDER] at hh
    · intro hh
      exfalso
      have hb := (hw.2.2.1 w.i w.j BORDER (by decide) (by decide)).2 hh
      obtain ⟨i1, i2, i3, i4⟩ := hw.2.1
      have hr := (hw.1.framed w.i w.j (by omega) (by omega) (by omega) (by omega)).1 hb
      unfold on_ring at hr
      omega
  · rw [if_neg e]
    exact hw.2.2.1 i j BORDER (by decide) (by decide)

/-- C9, on the 4 by 4 run. -/
theorem draw_maze_border_ring_witness :
    (∀ i j, 0 ≤ i → i < 4 → 0 ≤ j → j < 4 →
        (cell run_4x4.maze 4 4 i j = some BORDER ↔ on_ring 4 4 i j)) ∧
      ∃ m0, draw_maze_start counting_rand 4 4 = .ok (m0, run_4x4.start_y, run_4x4.start_x) ∧
        ∀ i j, cell run_4x4.maze 4 4 i j = some BORDER ↔ cell m0 4 4 i j = some BORDER :=
  draw_maze_border_ring 50 counting_rand 4 4 run_4x4 (by decide) (by decide) run_4x4_eq

/-- C10. For every width and height of at least 4, `draw_border` on the all-WALL grid
returns a grid in which every cell of row 0, row `height - 1`, column 0 and column
`width - 1` holds BORDER and every other cell still holds WALL. -/
theorem draw_border_all_wall (y x : Int) (hy : 4 ≤ y) (hx : 4 ≤ x) :
    ∃ m, draw_border (List.replicate (y * x).toNat WALL) y x = .ok m ∧
      ∀ i j, 0 ≤ i → i < y → 0 ≤ j → j < x →
        (on_ring y x i j → cell m y x i j = some BORDER) ∧
        (¬ on_ring y x i j → cell m y x i j = some WALL ∧ cell m y x i j ≠ some BORDER) := by
  have hs := replicate_sized (by omega : 0 < y) (by omega : 0 < x) WALL
  obtain ⟨m, hm, _, hc⟩ := draw_border_spec hs
  refine ⟨m, hm, ?_⟩
  intro i j hi0 hi hj0 hj
  have hw : cell (List.replicate (y * x).toNat WALL) y x i j = some WALL := by
    obtain ⟨c, hcell⟩ := cell_some hs hi0 hi hj0 hj
    rw [hcell]
    unfold cell at hcell
    rw [if_pos ⟨hi0, hi, hj0, hj⟩] at hcell
    have hmem := List.getElem?_mem hcell
    rw [List.eq_of_mem_replicate hmem]
  constructor
  · intro hr
    rw [hc, if_pos ⟨hi0, hi, hj0, hj, hr⟩]
  · intro hr
    have : ¬ (0 ≤ i ∧ i < y ∧ 0 ≤ j ∧ j < x ∧ on_ring y x i j) := fun hh => hr hh.2.2.2.2
    rw [hc, if_neg this, hw]
    exact ⟨rfl, by decide⟩

/-- C10, for the 4 by 4 grid. -/
theorem draw_border_all_wall_witness :
    ∃ m, draw_border (List.replicate ((4 : Int) * 4).toNat WALL) 4 4 = .ok m ∧
      ∀ i j, 0 ≤ i → i < 4 → 0 ≤ j → j < 4 →
        (on_ring 4 4 i j → cell m 4 4 i j = some BORDER) ∧
        (¬ on_ring 4 4 i j → cell m 4 4 i j = some WALL ∧ cell m 4 4 i j ≠ some BORDER) :=
  draw_border_all_wall 4 4 (by decide) (by decide)

/-- C16. For strings (character lists without a null character), `caseless_cmp` returns true
if and only if the two strings have the same length and every pair of corresponding
characters is equal after `tolower`; it is reflexive and symmetric. -/
theorem caseless_cmp_iff (str1 str2 : List Nat) (h1 : ∀ c ∈ str1, c ≠ 0)
    (h2 : ∀ c ∈ str2, c ≠ 0) :
    (caseless_cmp str1 str2 = true ↔
      str1.length = str2.length ∧
        ∀ i, i < str1.length → tolower (str1.getD i 0) = tolower (str2.getD i 0)) ∧
      caseless_cmp str1 str1 = true ∧
      caseless_cmp str1 str2 = caseless_cmp str2 str1 := by
  have key : ∀ a b : List Nat, (∀ c ∈ a, c ≠ 0) → (caseless_cmp a b = true ↔
      a.length = b.length ∧ ∀ i, i < a.length → tolower (a.getD i 0) = tolower (b.getD i 0)) := by
    intro a b ha
    unfold caseless_cmp strlen
    by_cases hlen : a.length = b.length
    · simp only [hlen, ne_eq, not_true_eq_false, if_false, true_and]
      rw [caseless_cmp_loop_iff a b ha hlen, hlen]
    · simp [hlen]
  refine ⟨key str1 str2 h1, (key str1 str1 h1).2 ⟨rfl, fun _ _ => rfl⟩, ?_⟩
  have e : caseless_cmp str1 str2 = true ↔ caseless_cmp str2 str1 = true := by
    rw [key str1 str2 h1, key str2 str1 h2]
    constructor
    · rintro ⟨hl, h⟩
      exact ⟨hl.symm, fun i hi => (h i (by omega)).symm⟩
    · rintro ⟨hl, h⟩
      exact ⟨hl.symm, fun i hi => (h i (by omega)).symm⟩
  cases h : caseless_cmp str1 str2 <;> cases h' : caseless_cmp str2 str1 <;> simp_all

/-- C16, on the strings "Up" and "uP". -/
theorem caseless_cmp_iff_witness :
    (caseless_cmp (c_string "Up") (c_string "uP") = true ↔
      (c_string "Up").length = (c_string "uP").length ∧
        ∀ i, i < (c_string "Up").length →
          tolower ((c_string "Up").getD i 0) = tolower ((c_string "uP").getD i 0)) ∧
      caseless_cmp (c_string "Up") (c_string "Up") = true ∧
      caseless_cmp (c_string "Up") (c_string "uP") =
        caseless_cmp (c_string "uP") (c_string "Up") :=
  caseless_cmp_iff (c_string "Up") (c_string "uP") (by decide) (by decide)

/-- C17. For each movement command (up or w, down or s, left or a, right or d, in any letter
case), `obey_player` reads the cell one step away in that direction; when it holds FLOOR or
START the player moves exactly one cell in that direction and `movement` is set, everything
else as before; when it holds WALL or BORDER nothing changes. -/
theorem obey_player_moves (command : List Nat) (p : Player) (maze : List Nat)
    (y x sy sx : Int) (hc : ∀ c ∈ command, c ≠ 0) :
    (command_is command "up" "w" → ∀ t, load maze (UP p.player_y p.player_x x) = .ok t →
        ((t = FLOOR ∨ t = START) → obey_player command p maze y x sy sx =
          .ok (.returned { p with player_y := p.player_y - 1, movement := true })) ∧
        ((t = WALL ∨ t = BORDER) → obey_player command p maze y x sy sx = .ok (.returned p))) ∧
      (command_is command "down" "s" → ∀ t, load maze (DOWN p.player_y p.player_x x) = .ok t →
        ((t = FLOOR ∨ t = START) → obey_player command p maze y x sy sx =
          .ok (.returned { p with player_y := p.player_y + 1, movement := true })) ∧
        ((t = WALL ∨ t = BORDER) → obey_player command p maze y x sy sx = .ok (.returned p))) ∧
      (command_is command "left" "a" → ∀ t, load maze (LEFT p.player_y p.player_x x) = .ok t →
        ((t = FLOOR ∨ t = START) → obey_player command p maze y x sy sx =
          .ok (.returned { p with player_x := p.player_x - 1, movement := true })) ∧
        ((t = WALL ∨ t = BORDER) → obey_player command p maze y x sy sx = .ok (.returned p))) ∧
      (command_is command "right" "d" → ∀ t, load maze (RIGHT p.player_y p.player_x x) = .ok t →
        ((t = FLOOR ∨ t = START) → obey_player command p maze y x sy sx =
          .ok (.returned { p with player_x := p.player_x + 1, movement := true })) ∧
        ((t = WALL ∨ t = BORDER) → obey_player command p maze y x sy sx = .ok (.returned p))) := by
  have hopen : ∀ (moved : Player) (t : Nat), (t = FLOOR ∨ t = START) →
      after_move p moved t = moved := by
    intro moved t ht
    unfold after_move
    rw [if_pos ht]
  have hshut : ∀ (moved : Player) (t : Nat), (t = WALL ∨ t = BORDER) →
      after_move p moved t = p := by
    intro moved t ht
    unfold after_move
    have h1 : ¬ (t = FLOOR ∨ t = START) := by
      rcases ht with rfl | rfl <;> decide
    have h2 : ¬ t = END := by
      rcases ht with rfl | rfl <;> decide
    rw [if_neg h1, if_neg h2]
  refine ⟨?_, ?_, ?_, ?_⟩
  · intro hcmd t ht
    rw [obey_player_up command p maze y x sy sx hc hcmd, ht]
    exact ⟨fun h => by simp only [bind, Except.bind, pure, Except.pure, hopen _ t h],
      fun h => by simp only [bind, Except.bind, pure, Except.pure, hshut _ t h]⟩
  · intro hcmd t ht
    rw [obey_player_down command p maze y x sy sx hc hcmd, ht]
    exact ⟨fun h => by simp only [bind, Except.bind, pure, Except.pure, hopen _ t h],
      fun h => by simp only [bind, Except.bind, pure, Except.pure, hshut _ t h]⟩
  · intro hcmd t ht
    rw [obey_player_left command p maze y x sy sx hc hcmd, ht]
    exact ⟨fun h => by simp only [bind, Except.bind, pure, Except.pure, hopen _ t h],
      fun h => by simp only [bind, Except.bind, pure, Except.pure, hshut _ t h]⟩
  · intro hcmd t ht
    rw [obey_player_right command p maze y x sy sx hc hcmd, ht]
    exact ⟨fun h => by simp only [bind, Except.bind, pure, Except.pure, hopen _ t h],
      fun h => by simp only [bind, Except.bind, pure, Except.pure, hshut _ t h]⟩

/-- C17, in the 4 by 4 run: from the start cell the command LEFT moves the player onto the
Floor cell at row 1, column 1, and the command Up, towards the ring, changes nothing. -/
theorem obey_player_moves_witness :
    obey_player (c_string "LEFT") player_4x4 run_4x4.maze 4 4 1 2 =
        .ok (.returned { player_4x4 with player_x := player_4x4.player_x - 1,
                                         movement := true }) ∧
      obey_player (c_string "Up") player_4x4 run_4x4.maze 4 4 1 2 = .ok (.returned player_4x4) :=
  ⟨((obey_player_moves (c_string "LEFT") player_4x4 run_4x4.maze 4 4 1 2 (by decide)).2.2.1
      (by decide) FLOOR (by rfl)).1 (by decide),
    ((obey_player_moves (c_string "Up") player_4x4 run_4x4.maze 4 4 1 2 (by decide)).1
      (by decide) BORDER (by rfl)).2 (by decide)⟩

/-- C18. When `obey_player` returns, `won` is true afterwards if and only if it was true
before or the command is a movement command whose target cell holds END; in that case the
player stays where it is and `movement` is set; every other command that returns leaves
`won` as it was. -/
theorem obey_player_won (command : List Nat) (p : Player) (maze : List Nat)
    (y x sy sx : Int) (p2 : Player) (hc : ∀ c ∈ command, c ≠ 0)
    (h : obey_player command p maze y x sy sx = .ok (.returned p2)) :
    (p2.won = true ↔ (p.won = true ∨
        ∃ off, target_offset command p x = some off ∧ load maze off = .ok END)) ∧
      ((∃ off, target_offset command p x = some off ∧ load maze off = .ok END) →
        p2 = { p with won := true, movement := true }) ∧
      ((¬ ∃ off, target_offset command p x = some off ∧ load maze off = .ok END) →
        p2.won = p.won) := by
  cases ht : target_offset command p x with
  | some off =>
    obtain ⟨moved, hw, _, _, heq⟩ := obey_player_target command p maze y x sy sx hc off ht
    rw [heq] at h
    rcases load_cases maze off with hl | ⟨t, hl⟩
    · rw [hl] at h; simp [bind, Except.bind] at h
    rw [hl] at h
    simp only [bind, Except.bind, pure, Except.pure, Except.ok.injEq, Obeyed.returned.injEq] at h
    subst h
    have hex : (∃ off2, some off = some off2 ∧ load maze off2 = .ok END) ↔ t = END := by
      constructor
      · rintro ⟨off2, e, hl2⟩
        simp only [Option.some.injEq] at e
        subst e
        rw [hl] at hl2
        simpa using hl2
      · intro e; subst e; exact ⟨off, rfl, hl⟩
    rw [hex]
    unfold after_move
    by_cases h1 : t = FLOOR ∨ t = START
    · have hne : ¬ t = END := by rcases h1 with rfl | rfl <;> decide
      simp only [h1, if_true, hw, hne, or_false, false_implies, not_false_eq_true,
        true_implies, and_self]
    · by_cases h2 : t = END
      · subst h2
        rw [if_neg h1, if_pos rfl]
        simp
      · simp only [h1, h2, if_false, or_false, false_implies, not_false_eq_true,
          true_implies, and_self]
  | none =>
    rw [obey_player_other command p maze y x sy sx ht] at h
    have hex : ¬ ∃ off, (none : Option Int) = some off ∧ load maze off = .ok END := by
      rintro ⟨off, e, _⟩; simp at e
    have hwon : p2.won = p.won := by
      split_ifs at h
      · simp only [pure, Except.pure, Except.ok.injEq, Obeyed.returned.injEq] at h
        rw [← h]
      · cases hr : restart_map p.map maze y x with
        | error e => rw [hr] at h; simp [bind, Except.bind] at h
        | ok m =>
          rw [hr] at h
          simp only [bind, Except.bind, pure, Except.pure, Except.ok.injEq,
            Obeyed.returned.injEq] at h
          rw [← h]
      · simp [pure, Except.pure] at h
      · simp only [pure, Except.pure, Except.ok.injEq, Obeyed.returned.injEq] at h
        rw [← h]
    refine ⟨?_, fun he => absurd he hex, fun _ => hwon⟩
    rw [hwon]
    constructor
    · intro hh; exact Or.inl hh
    · rintro (hh | hh)
      · exact hh
      · exact absurd hh hex

/-- C18, in the 4 by 4 run: from the Floor cell at row 1, column 1 the command s, towards the
End cell, sets `won` and `movement` and leaves the player where it is. -/
theorem obey_player_won_witness :
    ((⟨true, 1, 1, true, []⟩ : Player).won = true ↔ ((⟨false, 1, 1, false, []⟩ : Player).won = true ∨
        ∃ off, target_offset (c_string "s") ⟨false, 1, 1, false, []⟩ 4 = some off ∧
          load run_4x4.maze off = .ok END)) ∧
      ((∃ off, target_offset (c_string "s") ⟨false, 1, 1, false, []⟩ 4 = some off ∧
          load run_4x4.maze off = .ok END) →
        (⟨true, 1, 1, true, []⟩ : Player) =
          { (⟨false, 1, 1, false, []⟩ : Player) with won := true, movement := true }) ∧
      ((¬ ∃ off, target_offset (c_string "s") ⟨false, 1, 1, false, []⟩ 4 = some off ∧
          load run_4x4.maze off = .ok END) →
        (⟨true, 1, 1, true, []⟩ : Player).won = (⟨false, 1, 1, false, []⟩ : Player).won) :=
  obey_player_won (c_string "s") ⟨false, 1, 1, false, []⟩ run_4x4.maze 4 4 1 2
    ⟨true, 1, 1, true, []⟩ (by decide) (by rfl)

/-- C19. The restart command returns with the player at `(start_y, start_x)`, `movement` set,
`won` as before, and the map that the loops of `play` build at the start of the game,
whatever the map held: WALL where the maze cell holds BORDER, the null character everywhere
else.  The maze is only read. -/
theorem obey_player_restart (command : List Nat) (p : Player) (maze : List Nat)
    (y x sy sx : Int) (hc : ∀ c ∈ command, c ≠ 0)
    (hcmd : caseless_cmp command (c_string "restart") = true)
    (hmaze : Sized maze y x) (hmap : Sized p.map y x) :
    ∃ m, obey_player command p maze y x sy sx =
        .ok (.returned { p with map := m, player_y := sy, player_x := sx, movement := true }) ∧
      (∀ map0, Sized map0 y x → play_init_map map0 maze y x = .ok m) ∧
      (∀ i j, 0 ≤ i → i < y → 0 ≤ j → j < x →
        cell m y x i j = some (if cell maze y x i j = some BORDER then WALL else 0)) := by
  have h := hcmd
  have n0 := caseless_cmp_other command (c_string "restart") (c_string "up") hc
    (by decide) h (by decide)
  have n1 := caseless_cmp_other command (c_string "restart") (c_string "w") hc
    (by decide) h (by decide)
  have n2 := caseless_cmp_other command (c_string "restart") (c_string "down") hc
    (by decide) h (by decide)
  have n3 := caseless_cmp_other command (c_string "restart") (c_string "s") hc
    (by decide) h (by decide)
  have n4 := caseless_cmp_other command (c_string "restart") (c_string "left") hc
    (by decide) h (by decide)
  have n5 := caseless_cmp_other command (c_string "restart") (c_string "a") hc
    (by decide) h (by decide)
  have n6 := caseless_cmp_other command (c_string "restart") (c_string "right") hc
    (by decide) h (by decide)
  have n7 := caseless_cmp_other command (c_string "restart") (c_string "d") hc
    (by decide) h (by decide)
  have n8 := caseless_cmp_other command (c_string "restart") (c_string "help") hc
    (by decide) h (by decide)
  have ht : target_offset command p x = none := by
    unfold target_offset command_is
    simp only [n0, n1, n2, n3, n4, n5, n6, n7, Bool.false_eq_true, or_self, if_false]
  obtain ⟨m, hm, hsz, hcell⟩ := play_init_map_spec hmaze hmap
  refine ⟨m, ?_, ?_, ?_⟩
  · rw [obey_player_other command p maze y x sy sx ht, restart_map_eq, hm]
    simp only [n8, h, Bool.false_eq_true, if_false, if_true, bind, Except.bind, pure,
      Except.pure]
  · intro map0 h0
    obtain ⟨m2, hm2, hsz2, hcell2⟩ := play_init_map_spec hmaze h0
    rw [hm2]
    have : m2 = m := sized_ext hsz2 hsz (fun i j hi0 hi hj0 hj => by
      rw [hcell i j hi0 hi hj0 hj, hcell2 i j hi0 hi hj0 hj])
    rw [this]
  · intro i j hi0 hi hj0 hj
    rw [hcell i j hi0 hi hj0 hj]
    rfl

/-- C19, in the 4 by 4 run, for the command ReStart. -/
theorem obey_player_restart_witness :
    ∃ m, obey_player (c_string "ReStart") player_4x4 run_4x4.maze 4 4 1 2 =
        .ok (.returned { player_4x4 with map := m, player_y := 1, player_x := 2,
                                         movement := true }) ∧
      (∀ map0, Sized map0 4 4 → play_init_map map0 run_4x4.maze 4 4 = .ok m) ∧
      (∀ i j, 0 ≤ i → i < 4 → 0 ≤ j → j < 4 →
        cell m 4 4 i j = some (if cell run_4x4.maze 4 4 i j = some BORDER then WALL else 0)) :=
  obey_player_restart (c_string "ReStart") player_4x4 run_4x4.maze 4 4 1 2 (by decide)
    (by decide) (by decide) (by decide)

/-- C15, as amended. When a write to the maze file fails, `draw_maze` ends the program
through `error_check` with the report of `fwrite`: the line "Error 2: Write-to-file error.",
the line with the value `fwrite` returned and the value 1 it should have returned, and exit
status 2.  The report is this one for a failed header write (no byte in the file) and for a
failed write of any cell (the header and the cells before it in the file) alike; when no
write fails the program goes on and the file holds what `write_maze` writes. -/
theorem write_failure_report (maze : List Nat) (y x start_y start_x : Int)
    (fwrite_result : Nat → Int) (hs : Sized maze y x) :
    ∃ w, write_maze_checked fwrite_result maze y x start_y start_x = .ok w ∧
      (fwrite_result 0 ≠ 1 →
        w.ended = some (fwrite_report (fwrite_result 0)) ∧ w.file = []) ∧
      (∀ n, n < maze.length → (∀ m, m ≤ n → fwrite_result m = 1) → fwrite_result (n + 1) ≠ 1 →
        w.ended = some (fwrite_report (fwrite_result (n + 1))) ∧
        w.file = [to_uint8 x, to_uint8 y, to_uint8 start_x, to_uint8 start_y] ++ maze.take n) ∧
      ((∀ m, m ≤ maze.length → fwrite_result m = 1) →
        w.ended = none ∧ write_maze maze y x start_y start_x = .ok w.file) := by
  refine ⟨_, write_maze_checked_eq hs fwrite_result start_y start_x, ?_, ?_, ?_⟩
  · intro h0
    rw [checked_fwrite_fail fwrite_result _ ⟨[], 0, none⟩ rfl h0,
      cells_written_ended fwrite_result maze _ _ rfl]
    exact ⟨rfl, rfl⟩
  · intro n hn hok hfail
    rw [checked_fwrite_ok fwrite_result _ ⟨[], 0, none⟩ rfl (hok 0 (by omega))]
    have hsplit : maze = maze.take n ++ (maze[n] :: maze.drop (n + 1)) := by
      rw [← List.drop_eq_getElem_cons hn, List.take_append_drop]
    have hlt : (maze.take n).length = n := by
      rw [List.length_take]; omega
    rw [hsplit, List.foldl_append, cells_written_ok fwrite_result (maze.take n) _ rfl (by
      intro m h1 h2
      simp only [hlt] at h1 h2
      exact hok m (by omega)), List.foldl_cons]
    simp only [List.nil_append, Nat.zero_add, hlt]
    rw [checked_fwrite_fail fwrite_result _ _ rfl (by
        simp only
        have : 1 + n = n + 1 := by omega
        rw [this]; exact hfail),
      cells_written_ended fwrite_result _ _ _ rfl]
    simp only [← hsplit]
    have : 1 + n = n + 1 := by omega
    rw [this]
    exact ⟨rfl, trivial⟩
  · intro hok
    rw [checked_fwrite_ok fwrite_result _ ⟨[], 0, none⟩ rfl (hok 0 (by omega)),
      cells_written_ok fwrite_result maze _ rfl (by
        intro m h1 h2
        simp only [Nat.zero_add] at h1 h2
        exact hok m (by omega))]
    exact ⟨rfl, write_maze_spec hs start_y start_x⟩

/-- C15 as amended, on the 4 by 4 run when every call of `fwrite` from the third on fails. -/
theorem write_failure_report_witness :
    ∃ w, write_maze_checked (fun n => if n < 3 then 1 else 0) run_4x4.maze 4 4 1 2 = .ok w ∧
      ((fun n => if n < 3 then 1 else 0 : Nat → Int) 0 ≠ 1 →
        w.ended = some (fwrite_report ((fun n => if n < 3 then 1 else 0 : Nat → Int) 0)) ∧
        w.file = []) ∧
      (∀ n, n < run_4x4.maze.length →
        (∀ m, m ≤ n → (fun n => if n < 3 then 1 else 0 : Nat → Int) m = 1) →
        (fun n => if n < 3 then 1 else 0 : Nat → Int) (n + 1) ≠ 1 →
        w.ended = some (fwrite_report ((fun n => if n < 3 then 1 else 0 : Nat → Int) (n + 1))) ∧
        w.file = [to_uint8 4, to_uint8 4, to_uint8 2, to_uint8 1] ++ run_4x4.maze.take n) ∧
      ((∀ m, m ≤ run_4x4.maze.length → (fun n => if n < 3 then 1 else 0 : Nat → Int) m = 1) →
        w.ended = none ∧ write_maze run_4x4.maze 4 4 1 2 = .ok w.file) :=
  write_failure_report run_4x4.maze 4 4 1 2 (fun n => if n < 3 then 1 else 0) (by decide)

/-- C15 as stated fails: on the 4 by 4 run, a failed header write (the first call of `fwrite`
returns 0) and a failed cell write (the fourth call returns 0) end the program with the same
printed lines and the same exit status, 2. -/
theorem write_failure_same_report :
    (write_maze_checked (fails_at 0) run_4x4.maze 4 4 1 2).map (fun w => w.ended) =
        .ok (some (fwrite_report 0)) ∧
      (write_maze_checked (fails_at 3) run_4x4.maze 4 4 1 2).map (fun w => w.ended) =
        .ok (some (fwrite_report 0)) ∧
      (fwrite_report 0).status = 2 ∧
      error_check "fwrite()" 1 0 = some (fwrite_report 0) :=
  ⟨by rfl, by rfl, by rfl, by rfl⟩

/-- C11. On a grid with the generation properties (ring of BORDER, no two by two block of
path cells) and from a start cell inside the ring that holds START, a run of
`draw_critical_path` that returns has visited the positions of `critical_path_trace`: the
list starts at the start cell and ends at the cell where END is written; no position occurs
twice; each position is one step up, down, left or right of the one before it; and each
position held WALL in the grid as it was when the walk stood on the position before it. -/
theorem critical_path_simple (fuel : Nat) (rand : Nat → Nat) (k k2 : Nat) (m0 m : List Nat)
    (y x sy sx : Int) (hg : Gen m0 y x) (hin : interior y x sy sx)
    (hs : cell m0 y x sy sx = some START)
    (h : draw_critical_path fuel rand k m0 y x sy sx = .ok (m, k2)) :
    ∃ (rest : List Walk) (wz : Walk),
      critical_path_trace rand x fuel ⟨m0, sy, sx, k⟩ = ⟨m0, sy, sx, k⟩ :: rest ∧
      ((⟨m0, sy, sx, k⟩ : Walk) :: rest).getLast? = some wz ∧
      store wz.maze (MAZE_OF_I_OF_J wz.i wz.j x) END = .ok m ∧
      cell m y x wz.i wz.j = some END ∧
      (((⟨m0, sy, sx, k⟩ : Walk) :: rest).map Walk.position).Nodup ∧
      List.Chain' (fun a b : Walk => adjacent (a.i, a.j) (b.i, b.j) ∧
        cell a.maze y x b.i b.j = some WALL) (⟨m0, sy, sx, k⟩ :: rest) := by
  have hp : is_path (cell m0 y x sy sx) := by rw [hs]; decide
  obtain ⟨rest, wl, ht, T, hst, hc⟩ := draw_critical_path_trail hg hin hp h
  obtain ⟨wz, hz, e1, e2, e3⟩ := T.last
  refine ⟨rest, wz, ht, hz, by rw [e1, e2, e3]; exact hst, ?_, T.nodup, T.chain⟩
  rw [hc, e2, e3]
  simp

/-- C11, on the 5 by 5 walk: up from the start, then right. -/
theorem critical_path_simple_witness :
    ∃ (rest : List Walk) (wz : Walk),
      critical_path_trace stall_rand 5 10 ⟨fresh_5x5, 2, 2, 2⟩ = ⟨fresh_5x5, 2, 2, 2⟩ :: rest ∧
      ((⟨fresh_5x5, 2, 2, 2⟩ : Walk) :: rest).getLast? = some wz ∧
      store wz.maze (MAZE_OF_I_OF_J wz.i wz.j 5) END = .ok stalled_5x5 ∧
      cell stalled_5x5 5 5 wz.i wz.j = some END ∧
      (((⟨fresh_5x5, 2, 2, 2⟩ : Walk) :: rest).map Walk.position).Nodup ∧
      List.Chain' (fun a b : Walk => adjacent (a.i, a.j) (b.i, b.j) ∧
        cell a.maze 5 5 b.i b.j = some WALL) (⟨fresh_5x5, 2, 2, 2⟩ :: rest) :=
  critical_path_simple 10 stall_rand 2 4 fresh_5x5 stalled_5x5 5 5 2 2 fresh_5x5_gen
    (by decide) (by decide) stalled_5x5_eq

/-- C20. On the grid that `draw_maze` hands over (BORDER on the ring, START at a cell
inside the ring, WALL elsewhere) with a legal direction at the start cell, a run of
`draw_critical_path` that returns leaves a single path without branches.  The positions of
the walk are the start cell, cells `mid`, then the cell `e` where END is written; they are
exactly the path cells of the final grid, no position occurs twice, and consecutive
positions are adjacent.  The start cell and `e` each have exactly one adjacent path cell,
every cell of `mid` has exactly two, which are the cell before it and the cell after it in
the walk, and no two cells of the walk that are not consecutive are adjacent. -/
theorem critical_path_non_branching (fuel : Nat) (rand : Nat → Nat) (k k2 : Nat)
    (m0 m : List Nat) (y x sy sx : Int) (hs : Sized m0 y x) (hf : fresh m0 y x sy sx)
    (hin : interior y x sy sx) (hl : ∃ d, legal m0 y x sy sx d)
    (h : draw_critical_path fuel rand k m0 y x sy sx = .ok (m, k2)) :
    ∃ (mid : List (Int × Int)) (e : Int × Int),
      (critical_path_trace rand x fuel ⟨m0, sy, sx, k⟩).map Walk.position =
        (sy, sx) :: mid ++ [e] ∧
      cell m y x e.1 e.2 = some END ∧
      (∀ a c, is_path (cell m y x a c) ↔ (a, c) ∈ (sy, sx) :: mid ++ [e]) ∧
      ((sy, sx) :: mid ++ [e]).Nodup ∧ List.Chain' adjacent ((sy, sx) :: mid ++ [e]) ∧
      path_neighbours m y x sy sx = 1 ∧ path_neighbours m y x e.1 e.2 = 1 ∧
      (∀ p ∈ mid, path_neighbours m y x p.1 p.2 = 2) ∧
      (∀ l1 u p v l2, (sy, sx) :: mid ++ [e] = l1 ++ u :: p :: v :: l2 →
        ∀ q : Int × Int, adjacent p q → (is_path (cell m y x q.1 q.2) ↔ q = u ∨ q = v)) ∧
      (∀ l1 p l2 q l3, (sy, sx) :: mid ++ [e] = l1 ++ p :: l2 ++ q :: l3 → l2 ≠ [] →
        ¬ adjacent p q) := by
  have hstart : cell m0 y x sy sx = some START := by
    obtain ⟨h1, h2, h3, h4⟩ := hin
    rw [hf sy sx (by omega) (by omega) (by omega) (by omega)]
    have hr : ¬ on_ring y x sy sx := by unfold on_ring; omega
    rw [if_neg hr, if_pos ⟨rfl, rfl⟩]
  have hp : is_path (cell m0 y x sy sx) := by rw [hstart]; decide
  obtain ⟨rest, wl, ht, T, _, hc⟩ := draw_critical_path_trail (fresh_gen hs hf) hin hp h
  have hne : rest ≠ [] := fun e => by
    obtain ⟨d, hd⟩ := hl
    exact T.stuck e d hd
  obtain ⟨L, b, rfl⟩ := eq_append_last hne
  obtain ⟨wz, hz, _, e2, e3⟩ := T.last
  have hzb : b = wz := by
    rw [← List.cons_append, last_append_last] at hz
    exact Option.some.inj hz
  subst hzb
  have hpath : ((⟨m0, sy, sx, k⟩ : Walk) :: (L ++ [b])).map Walk.position =
      (sy, sx) :: L.map Walk.position ++ [(wl.i, wl.j)] := by
    simp [Walk.position, e2, e3]
  have hrest : (L ++ [b]).map Walk.position = L.map Walk.position ++ [(wl.i, wl.j)] := by
    simp [Walk.position, e2, e3]
  have hap := T.apart
  have hnd := T.nodup
  have hch : List.Chain' adjacent (((⟨m0, sy, sx, k⟩ : Walk) :: (L ++ [b])).map
      Walk.position) := by
    rw [List.chain'_map]
    exact T.chain.imp (fun a c hab => show adjacent (a.i, a.j) (c.i, c.j) from hab.1)
  rw [hpath] at hap hnd hch
  generalize L.map Walk.position = mid at *
  have hmem : ∀ a c, is_path (cell m y x a c) ↔ (a, c) ∈ (sy, sx) :: mid ++ [(wl.i, wl.j)] := by
    intro a c
    have hwl : is_path (cell wl.maze y x wl.i wl.j) := by
      rw [T.cells, hrest]
      right; simp
    have h1 : is_path (cell m y x a c) ↔ is_path (cell wl.maze y x a c) := by
      rw [hc]
      by_cases hh : a = wl.i ∧ c = wl.j
      · rw [if_pos hh, hh.1, hh.2]
        exact ⟨fun _ => hwl, fun _ => by decide⟩
      · rw [if_neg hh]
    have h2 : is_path (cell m0 y x a c) ↔ (a, c) = (sy, sx) := by
      constructor
      · intro hq
        by_contra hn
        exact fresh_not_path hf (by simpa using hn) hq
      · intro e
        simp only [Prod.mk.injEq] at e
        rw [e.1, e.2]; exact hp
    rw [h1, T.cells, hrest, h2]
    simp only [List.cons_append, List.mem_cons]
  have hnb : ∀ l1 p l2, (sy, sx) :: mid ++ [(wl.i, wl.j)] = l1 ++ p :: l2 →
      ∀ q : Int × Int, adjacent p q → is_path (cell m y x q.1 q.2) →
        l1.getLast? = some q ∨ l2.head? = some q := by
    intro l1 p l2 e q ha hq
    rw [hmem, e] at hq
    rw [e] at hap
    exact apart_neighbours hap hq ha
  have hpair : ∀ l1 u p v l2, (sy, sx) :: mid ++ [(wl.i, wl.j)] = l1 ++ u :: p :: v :: l2 →
      ∀ q : Int × Int, adjacent p q → (is_path (cell m y x q.1 q.2) ↔ q = u ∨ q = v) := by
    intro l1 u p v l2 e q ha
    constructor
    · intro hq
      have e1 : (sy, sx) :: mid ++ [(wl.i, wl.j)] = (l1 ++ [u]) ++ p :: (v :: l2) := by
        rw [e]; simp
      rcases hnb _ _ _ e1 q ha hq with h1 | h1
      · left; simpa using h1.symm
      · right; simpa using h1.symm
    · intro hq
      rw [hmem, e]
      rcases hq with hq | hq <;> rw [hq] <;> simp
  refine ⟨mid, (wl.i, wl.j), by rw [ht, hpath], by rw [hc]; simp, hmem, hnd, hch, ?_, ?_, ?_,
    hpair, ?_⟩
  · cases hmid : mid ++ [(wl.i, wl.j)] with
    | nil => simp at hmid
    | cons v l2 =>
      have e : (sy, sx) :: mid ++ [(wl.i, wl.j)] = [] ++ (sy, sx) :: v :: l2 := by
        rw [List.cons_append, hmid]; rfl
      rw [e] at hch
      apply path_neighbours_one (p := (sy, sx)) (u := v) (chain_at hch)
      intro q ha
      constructor
      · intro hq
        have e1 : (sy, sx) :: mid ++ [(wl.i, wl.j)] = [] ++ (sy, sx) :: (v :: l2) := e
        rcases hnb _ _ _ e1 q ha hq with h1 | h1
        · simp at h1
        · simpa using h1.symm
      · intro hq
        rw [hmem, e, hq]; simp
  · obtain ⟨l1, u, hl1⟩ := eq_append_last (l := (sy, sx) :: mid) (by simp)
    have e : (sy, sx) :: mid ++ [(wl.i, wl.j)] = l1 ++ u :: (wl.i, wl.j) :: [] := by
      rw [hl1]; simp
    rw [e] at hch
    apply path_neighbours_one (p := (wl.i, wl.j)) (u := u) (adjacent_symm (chain_at hch))
    intro q ha
    constructor
    · intro hq
      have e1 : (sy, sx) :: mid ++ [(wl.i, wl.j)] = (l1 ++ [u]) ++ (wl.i, wl.j) :: [] := by
        rw [e]; simp
      rcases hnb _ _ _ e1 q ha hq with h1 | h1
      · simpa using h1.symm
      · simp at h1
    · intro hq
      rw [hmem, e, hq]; simp
  · intro p hpm
    obtain ⟨s, t, rfl⟩ := List.append_of_mem hpm
    obtain ⟨l1, u, hl1⟩ := eq_append_last (l := (sy, sx) :: s) (by simp)
    cases ht2 : t ++ [(wl.i, wl.j)] with
    | nil => simp at ht2
    | cons v l2 =>
      have e : (sy, sx) :: (s ++ p :: t) ++ [(wl.i, wl.j)] = l1 ++ u :: p :: v :: l2 := by
        have : (sy, sx) :: (s ++ p :: t) ++ [(wl.i, wl.j)] =
            ((sy, sx) :: s) ++ p :: (t ++ [(wl.i, wl.j)]) := by simp
        rw [this, hl1, ht2]; simp
      have hch2 := hch
      rw [e] at hch2 hnd
      have hu : adjacent u p := chain_at hch2
      have hv : adjacent p v := by
        have : l1 ++ u :: p :: v :: l2 = (l1 ++ [u]) ++ p :: v :: l2 := by simp
        rw [this] at hch2
        exact chain_at hch2
      have huv : u ≠ v := by
        have h1 := (List.nodup_append.1 hnd).2.1
        have h2 := (List.nodup_cons.1 h1).1
        intro e3
        apply h2
        rw [e3]; simp
      exact path_neighbours_two (adjacent_symm hu) hv huv (hpair l1 u p v l2 e)
  · intro l1 p l2 q l3 e hne2
    rw [e] at hap
    exact apart_far hap hne2

/-- C20, on the 5 by 5 walk: up from the start, then right. -/
theorem critical_path_non_branching_witness :
    ∃ (mid : List (Int × Int)) (e : Int × Int),
      (critical_path_trace stall_rand 5 10 ⟨fresh_5x5, 2, 2, 2⟩).map Walk.position =
        (2, 2) :: mid ++ [e] ∧
      cell stalled_5x5 5 5 e.1 e.2 = some END ∧
      (∀ a c, is_path (cell stalled_5x5 5 5 a c) ↔ (a, c) ∈ (2, 2) :: mid ++ [e]) ∧
      ((2, 2) :: mid ++ [e]).Nodup ∧ List.Chain' adjacent ((2, 2) :: mid ++ [e]) ∧
      path_neighbours stalled_5x5 5 5 2 2 = 1 ∧ path_neighbours stalled_5x5 5 5 e.1 e.2 = 1 ∧
      (∀ p ∈ mid, path_neighbours stalled_5x5 5 5 p.1 p.2 = 2) ∧
      (∀ l1 u p v l2, (2, 2) :: mid ++ [e] = l1 ++ u :: p :: v :: l2 →
        ∀ q : Int × Int, adjacent p q →
          (is_path (cell stalled_5x5 5 5 q.1 q.2) ↔ q = u ∨ q = v)) ∧
      (∀ l1 p l2 q l3, (2, 2) :: mid ++ [e] = l1 ++ p :: l2 ++ q :: l3 → l2 ≠ [] →
        ¬ adjacent p q) :=
  critical_path_non_branching 10 stall_rand 2 4 fresh_5x5 stalled_5x5 5 5 2 2 (by decide)
    fresh_5x5_fresh (by decide) ⟨GO_UP, by decide⟩ stalled_5x5_eq

/-- C13, as amended. For every width and height from 3 to 255 and every random source, the
in-memory generation of `draw_maze` performs no undefined operation: the start selection
takes remainders by positive numbers, it and the START write return, with the start inside
the ring; `draw_critical_path` on that grid, `draw_dead_ends` on any grid that
`draw_critical_path` returned, and `draw_maze` as a whole never end in `Fault.undefined`,
whatever the fuel. -/
theorem draw_maze_no_undefined (rand : Nat → Nat) (y x : Int) (hy : 3 ≤ y) (_hy2 : y ≤ 255)
    (hx : 3 ≤ x) (_hx2 : x ≤ 255) :
    0 < y - 1 - 1 ∧ 0 < x - 1 - 1 ∧
      ∃ m0 sy sx, pick_start rand 0 y x = .ok (sy, sx) ∧
        draw_maze_start rand y x = .ok (m0, sy, sx) ∧ interior y x sy sx ∧
        (∀ fuel k, draw_critical_path fuel rand k m0 y x sy sx ≠ .error .undefined) ∧
        (∀ fuel k m k2, draw_critical_path fuel rand k m0 y x sy sx = .ok (m, k2) →
          ∀ fuel2 k3, draw_dead_ends fuel2 rand k3 m y x ≠ .error .undefined) ∧
        ∀ fuel, draw_maze fuel rand y x ≠ .error .undefined := by
  obtain ⟨m0, sy, sx, h0, e1, e2, hin, hs, hf⟩ := draw_maze_start_spec rand hy hx
  have hg := fresh_gen hs hf
  have hp : is_path (cell m0 y x sy sx) := by rw [fresh_start hf hin]; decide
  refine ⟨by omega, by omega, m0, sy, sx, ?_, h0, hin, ?_, ?_, ?_⟩
  · rw [pick_start_spec rand 0 hy hx, e1, e2]
  · intro fuel k
    exact draw_critical_path_defined hg hin fuel rand k
  · intro fuel k m k2 h fuel2 k3
    exact dead_ends_loop_defined fuel2 k3 m (draw_critical_path_gen hg hin hp h)
  · intro fuel
    exact draw_maze_defined hy hx fuel rand

/-- C13 as amended, on the 5 by 5 maze with the random source `counting_rand`. -/
theorem draw_maze_no_undefined_witness :
    (0 : Int) < 5 - 1 - 1 ∧ (0 : Int) < 5 - 1 - 1 ∧
      ∃ m0 sy sx, pick_start counting_rand 0 5 5 = .ok (sy, sx) ∧
        draw_maze_start counting_rand 5 5 = .ok (m0, sy, sx) ∧ interior 5 5 sy sx ∧
        (∀ fuel k, draw_critical_path fuel counting_rand k m0 5 5 sy sx ≠ .error .undefined) ∧
        (∀ fuel k m k2, draw_critical_path fuel counting_rand k m0 5 5 sy sx = .ok (m, k2) →
          ∀ fuel2 k3, draw_dead_ends fuel2 counting_rand k3 m 5 5 ≠ .error .undefined) ∧
        ∀ fuel, draw_maze fuel counting_rand 5 5 ≠ .error .undefined :=
  draw_maze_no_undefined counting_rand 5 5 (by decide) (by decide) (by decide) (by decide)

/-- C13 as stated fails below 3.  With a height or a width of 2 the start selection takes a
remainder by zero; with a height of 1 it takes a remainder by -1 and the START write falls
outside the buffer.  This holds for every random source and every fuel. -/
theorem draw_maze_small_undefined :
    ((2 : Int) - 1 - 1 = 0 ∧ (1 : Int) - 1 - 1 = -1) ∧
      (∀ (fuel : Nat) (rand : Nat → Nat), draw_maze fuel rand 2 5 = .error .undefined) ∧
      (∀ (fuel : Nat) (rand : Nat → Nat), draw_maze fuel rand 5 2 = .error .undefined) ∧
      (∀ (fuel : Nat) (rand : Nat → Nat), draw_maze fuel rand 1 5 = .error .undefined) :=
  ⟨by decide, fun _ _ => rfl, fun _ _ => rfl, fun fuel rand => by
    unfold draw_maze
    simp only [bind, Except.bind, draw_maze_start_one]⟩

/-- C14, as amended. `draw_maze` checks neither dimension: for every width and height from 3
on, however large, a run that returns has generated the maze and written it, 4 header bytes
and one byte for each cell, the width and height bytes being the values reduced modulo 256.
Values beyond a byte are kept out by the caller: `main` calls `draw_maze` only with a width
from 10 to 150 and a height from 10 to 50, which the header bytes hold unchanged. -/
theorem draw_maze_unchecked (fuel : Nat) (rand : Nat → Nat) (y x : Int) (g : Generated)
    (hy : 3 ≤ y) (hx : 3 ≤ x) (h : draw_maze fuel rand y x = .ok g) :
    (g.file = [to_uint8 x, to_uint8 y, to_uint8 g.start_x, to_uint8 g.start_y] ++ g.maze ∧
      g.file.length = 4 + (y * x).toNat ∧
      (to_uint8 x : Int) = x % 256 ∧ (to_uint8 y : Int) = y % 256) ∧
    ∀ (inputs : List (Option Int)) (r : Run Generated),
      main_new_maze fuel rand inputs = some r →
        ∃ y2 x2 : Int, r = draw_maze fuel rand y2 x2 ∧ 10 ≤ x2 ∧ x2 ≤ 150 ∧ 10 ≤ y2 ∧
          y2 ≤ 50 ∧ (to_uint8 x2 : Int) = x2 ∧ (to_uint8 y2 : Int) = y2 := by
  constructor
  · obtain ⟨_, _, _, _, _, _, _, _, _, _, _, hg, _, _, hfile⟩ := draw_maze_spec hy hx h
    refine ⟨hfile, ?_, ?_, ?_⟩
    · rw [hfile]
      have hl := hg.sized.2.2
      simp only [List.length_append, List.length_cons, List.length_nil]
      omega
    · unfold to_uint8; omega
    · unfold to_uint8; omega
  · intro inputs r hr
    unfold main_new_maze at hr
    simp only [bind, Option.bind, pure] at hr
    cases h1 : prompt_dimension 10 150 inputs with
    | none => rw [h1] at hr; simp at hr
    | some p =>
      obtain ⟨x2, rest⟩ := p
      rw [h1] at hr
      simp only at hr
      cases h2 : prompt_dimension 10 50 rest with
      | none => rw [h2] at hr; simp at hr
      | some q =>
        obtain ⟨y2, rest2⟩ := q
        rw [h2] at hr
        simp only [Option.some.injEq] at hr
        have r1 := prompt_dimension_range inputs x2 rest h1
        have r2 := prompt_dimension_range rest y2 rest2 h2
        refine ⟨y2, x2, hr.symm, r1.1, r1.2, r2.1, r2.2, ?_, ?_⟩
        · unfold to_uint8; omega
        · unfold to_uint8; omega

/-- C14 as amended, on the 4 by 4 run. -/
theorem draw_maze_unchecked_witness :
    (run_4x4.file = [to_uint8 4, to_uint8 4, to_uint8 run_4x4.start_x,
        to_uint8 run_4x4.start_y] ++ run_4x4.maze ∧
      run_4x4.file.length = 4 + ((4 : Int) * 4).toNat ∧
      (to_uint8 4 : Int) = 4 % 256 ∧ (to_uint8 4 : Int) = 4 % 256) ∧
    ∀ (inputs : List (Option Int)) (r : Run Generated),
      main_new_maze 50 counting_rand inputs = some r →
        ∃ y2 x2 : Int, r = draw_maze 50 counting_rand y2 x2 ∧ 10 ≤ x2 ∧ x2 ≤ 150 ∧ 10 ≤ y2 ∧
          y2 ≤ 50 ∧ (to_uint8 x2 : Int) = x2 ∧ (to_uint8 y2 : Int) = y2 :=
  draw_maze_unchecked 50 counting_rand 4 4 run_4x4 (by decide) (by decide) run_4x4_eq

/-- C14 as stated fails: `draw_maze` has no check of its own.  With a height of 3 and a
width of 300, on `west_rand`, it returns, having generated a maze of 900 cells and written
904 bytes, the first of which is 44, that is 300 reduced modulo 256. -/
theorem draw_maze_wide :
    ∃ g, draw_maze 2 west_rand 3 300 = .ok g ∧ g.maze.length = 900 ∧
      g.file.length = 904 ∧ g.file.take 2 = [44, 3] ∧ to_uint8 300 = 44 := by
  obtain ⟨g, hg⟩ := corridor_run (x := 300) (by decide) 0
  obtain ⟨_, _, _, _, _, _, _, _, _, _, _, hgen, _, _, hfile⟩ :=
    draw_maze_spec (by decide : (3 : Int) ≤ 3) (by decide : (3 : Int) ≤ 300) hg
  have hl := hgen.sized.2.2
  have hlen : g.maze.length = 900 := by omega
  refine ⟨g, hg, hlen, ?_, ?_, by decide⟩
  · rw [hfile]
    simp only [List.length_append, List.length_cons, List.length_nil]
    omega
  · rw [hfile]
    rfl

/-- C21. Legality is monotone under carving.  When the grid `g2` comes from `g` by changing
WALL cells to FLOOR or END and FLOOR cells to END, a direction that is not legal at a cell
in `g` is not legal at that cell in `g2`; and at a cell inside the ring of `g2`, the ring
holding no WALL, `find_move` on `g2` does not return that direction, whatever the random
source. -/
theorem carving_keeps_illegal (g g2 : List Nat) (y x i j d : Int) (hc : carved g g2 y x)
    (h : ¬ legal g y x i j d) :
    ¬ legal g2 y x i j d ∧
      (Sized g2 y x → ring_closed g2 y x → interior y x i j → d ≠ NO_VALID_STEP →
        ∀ (fuel : Nat) (rand : Nat → Nat) (k : Nat) (step : Int) (k2 : Nat),
          find_move fuel rand k g2 i j x = .ok (step, k2) → step ≠ d) := by
  refine ⟨fun hl => h (carved_legal hc hl), ?_⟩
  intro hs hring hin hd fuel rand k step k2 hfm e
  rcases find_move_spec hs hring hin hfm with ⟨e2, _, _⟩ | ⟨_, _, hl⟩
  · exact hd (by rw [← e, e2])
  · rw [e] at hl
    exact h (carved_legal hc hl)

/-- C21, on the 5 by 5 grid before and after the walk: Down is not legal at row 1,
column 2 of `fresh_5x5`, for the start cell lies below it, and is not legal there after
the walk. -/
theorem carving_keeps_illegal_witness :
    ¬ legal stalled_5x5 5 5 1 2 GO_DOWN ∧
      (Sized stalled_5x5 5 5 → ring_closed stalled_5x5 5 5 → interior 5 5 1 2 →
        GO_DOWN ≠ NO_VALID_STEP →
        ∀ (fuel : Nat) (rand : Nat → Nat) (k : Nat) (step : Int) (k2 : Nat),
          find_move fuel rand k stalled_5x5 1 2 5 = .ok (step, k2) → step ≠ GO_DOWN) :=
  carving_keeps_illegal fresh_5x5 stalled_5x5 5 5 1 2 GO_DOWN carved_5x5 (by decide)

/-- C24. In a scan of `draw_dead_ends`, at a FLOOR cell for which `find_move` returns a
direction: when the coin is 0 the visit leaves the grid as it is and still sets `moved`;
whatever the coin, a visit that returns has set `moved`; no later visit of the scan resets
`moved`; a scan that starts on this grid ends with `moved` set; and after a scan that ends
with `moved` set the while loop runs another full scan. -/
theorem idle_visit_sets_moved (fuel : Nat) (rand : Nat → Nat) (x i j : Int) (s : Scan)
    (step : Int) (k2 : Nat)
    (hl : load s.maze (MAZE_OF_I_OF_J i j x) = .ok FLOOR)
    (hfm : find_move fuel rand (s.k + 1) s.maze i j x = .ok (step, k2))
    (hstep : step ≠ NO_VALID_STEP) :
    (FLIP_COIN (rand s.k) = 0 →
        dead_end_visit fuel rand x i j s = .ok ⟨s.maze, k2, true⟩) ∧
      (∀ s2, dead_end_visit fuel rand x i j s = .ok s2 → s2.moved = true) ∧
      (∀ (f2 : Nat) (rand2 : Nat → Nat) (i2 j2 : Int) (s1 s2 : Scan), s1.moved = true →
        dead_end_visit f2 rand2 x i2 j2 s1 = .ok s2 → s2.moved = true) ∧
      (∀ (f2 : Nat) (rand2 : Nat → Nat) (k1 : Nat) (y : Int) (s3 : Scan),
        0 ≤ i → i < y → 0 ≤ j → j < x →
        dead_end_scan f2 rand2 k1 s.maze y x = .ok s3 → s3.moved = true) ∧
      (∀ (f2 : Nat) (rand2 : Nat → Nat) (k1 : Nat) (m : List Nat) (y : Int) (s3 : Scan),
        dead_end_scan (f2 + 1) rand2 k1 m y x = .ok s3 → s3.moved = true →
        dead_ends_loop rand2 y x (f2 + 1) k1 m = dead_ends_loop rand2 y x f2 s3.k s3.maze) := by
  have hdir : step = GO_UP ∨ step = GO_DOWN ∨ step = GO_LEFT ∨ step = GO_RIGHT := by
    rcases find_move_range hfm with ⟨e, _⟩ | ⟨e, _⟩
    · exact absurd e hstep
    · exact e
  refine ⟨?_, ?_, ?_, ?_, ?_⟩
  · intro hcoin
    unfold dead_end_visit
    simp only [bind, Except.bind, pure, Except.pure, hl, hfm, if_true, hcoin]
    rcases hdir with e | e | e | e <;> subst e <;> simp [GO_UP, GO_DOWN, GO_LEFT, GO_RIGHT]
  · intro s2 h
    unfold dead_end_visit at h
    simp only [bind, Except.bind, pure, Except.pure, hl, hfm, if_true] at h
    rcases hdir with e | e | e | e
    · subst e
      rw [if_pos rfl] at h
      split_ifs at h
      · cases hst : store s.maze (UP i j x) FLOOR with
        | error e => rw [hst] at h; simp at h
        | ok v => rw [hst] at h; simp only [Except.ok.injEq] at h; rw [← h]
      · simp only [Except.ok.injEq] at h; rw [← h]
    · subst e
      rw [if_neg (by decide), if_pos rfl] at h
      split_ifs at h
      · cases hst : store s.maze (DOWN i j x) FLOOR with
        | error e => rw [hst] at h; simp at h
        | ok v => rw [hst] at h; simp only [Except.ok.injEq] at h; rw [← h]
      · simp only [Except.ok.injEq] at h; rw [← h]
    · subst e
      rw [if_neg (by decide), if_neg (by decide), if_pos rfl] at h
      split_ifs at h
      · cases hst : store s.maze (LEFT i j x) FLOOR with
        | error e => rw [hst] at h; simp at h
        | ok v => rw [hst] at h; simp only [Except.ok.injEq] at h; rw [← h]
      · simp only [Except.ok.injEq] at h; rw [← h]
    · subst e
      rw [if_neg (by decide), if_neg (by decide), if_neg (by decide), if_pos rfl] at h
      split_ifs at h
      · cases hst : store s.maze (RIGHT i j x) FLOOR with
        | error e => rw [hst] at h; simp at h
        | ok v => rw [hst] at h; simp only [Except.ok.injEq] at h; rw [← h]
      · simp only [Except.ok.injEq] at h; rw [← h]
  · intro f2 rand2 i2 j2 s1 s2 hm h
    by_contra hne
    have hf : s2.moved = false := by simpa using hne
    have := (dead_end_visit_quiet h hf).1
    rw [hm] at this
    exact absurd this (by decide)
  · intro f2 rand2 k1 y s3 hi0 hi hj0 hj h
    by_contra hne
    have hf : s3.moved = false := by simpa using hne
    obtain ⟨_, hq⟩ := dead_end_scan_quiet h hf
    obtain ⟨c, hc, hnone⟩ := hq i j hi0 hi hj0 hj
    rw [hl] at hc
    simp only [Except.ok.injEq] at hc
    have h1 := hnone hc.symm fuel rand (s.k + 1)
    rw [hfm] at h1
    simp only [Except.ok.injEq, Prod.mk.injEq] at h1
    exact hstep h1.1
  · intro f2 rand2 k1 m y s3 h hm
    conv_lhs => unfold dead_ends_loop
    simp only [bind, Except.bind, pure, Except.pure, h, hm]
    rfl

/-- C24, on the grid `stalled_5x5` with the random source `stall_rand`: at the FLOOR cell
in row 1, column 2 the direction Left comes back and the coin is 0. -/
theorem idle_visit_sets_moved_witness :
    (FLIP_COIN (stall_rand 4) = 0 →
        dead_end_visit 1 stall_rand 5 1 2 ⟨stalled_5x5, 4, false⟩ =
          .ok ⟨stalled_5x5, 6, true⟩) ∧
      (∀ s2, dead_end_visit 1 stall_rand 5 1 2 ⟨stalled_5x5, 4, false⟩ = .ok s2 →
        s2.moved = true) ∧
      (∀ (f2 : Nat) (rand2 : Nat → Nat) (i2 j2 : Int) (s1 s2 : Scan), s1.moved = true →
        dead_end_visit f2 rand2 5 i2 j2 s1 = .ok s2 → s2.moved = true) ∧
      (∀ (f2 : Nat) (rand2 : Nat → Nat) (k1 : Nat) (y : Int) (s3 : Scan),
        (0 : Int) ≤ 1 → 1 < y → (0 : Int) ≤ 2 → (2 : Int) < 5 →
        dead_end_scan f2 rand2 k1 stalled_5x5 y 5 = .ok s3 → s3.moved = true) ∧
      (∀ (f2 : Nat) (rand2 : Nat → Nat) (k1 : Nat) (m : List Nat) (y : Int) (s3 : Scan),
        dead_end_scan (f2 + 1) rand2 k1 m y 5 = .ok s3 → s3.moved = true →
        dead_ends_loop rand2 y 5 (f2 + 1) k1 m = dead_ends_loop rand2 y 5 f2 s3.k s3.maze) :=
  idle_visit_sets_moved 1 stall_rand 5 1 2 ⟨stalled_5x5, 4, false⟩ GO_LEFT 6 (by rfl) (by rfl)
    (by decide)

/-- C25, as amended. At each cell visited by `draw_dead_ends`: a cell that does not hold
FLOOR consumes no random value; at a FLOOR cell the coin is drawn first, it is the random
value number `s.k`, and `find_move` then runs on the values from number `s.k + 1` on.  With
no legal direction `find_move` draws nothing, so the visit has consumed exactly one value,
the coin; with a direction it has consumed at least two, `moved` is set, and the cell the
step leads to is written exactly when the coin is not 0. -/
theorem dead_end_visit_draws (fuel : Nat) (rand : Nat → Nat) (x i j : Int) (s : Scan) :
    (∀ c, load s.maze (MAZE_OF_I_OF_J i j x) = .ok c → c ≠ FLOOR →
        dead_end_visit fuel rand x i j s = .ok s) ∧
      (load s.maze (MAZE_OF_I_OF_J i j x) = .ok FLOOR →
        ∀ step k2, find_move fuel rand (s.k + 1) s.maze i j x = .ok (step, k2) →
          (step = NO_VALID_STEP → k2 = s.k + 1 ∧
            dead_end_visit fuel rand x i j s = .ok ⟨s.maze, s.k + 1, s.moved⟩) ∧
          (step ≠ NO_VALID_STEP → s.k + 1 < k2 ∧
            (FLIP_COIN (rand s.k) = 0 →
              dead_end_visit fuel rand x i j s = .ok ⟨s.maze, k2, true⟩) ∧
            (FLIP_COIN (rand s.k) ≠ 0 →
              dead_end_visit fuel rand x i j s =
                (store s.maze (MAZE_OF_I_OF_J (step_target step i j).1
                  (step_target step i j).2 x) FLOOR).map (fun m => ⟨m, k2, true⟩)))) := by
  constructor
  · intro c hl hc
    unfold dead_end_visit
    simp only [bind, Except.bind, pure, Except.pure, hl, hc, if_false]
  · intro hl step k2 hfm
    constructor
    · intro e
      subst e
      rcases find_move_range hfm with ⟨_, hk⟩ | ⟨hd, _⟩
      · subst hk
        refine ⟨rfl, ?_⟩
        unfold dead_end_visit
        simp only [bind, Except.bind, pure, Except.pure, hl, hfm, if_true]
        simp [NO_VALID_STEP, GO_UP, GO_DOWN, GO_LEFT, GO_RIGHT]
      · rcases hd with e | e | e | e <;> exact absurd e (by decide)
    · intro hstep
      rcases find_move_range hfm with ⟨e, _⟩ | ⟨hd, hk⟩
      · exact absurd e hstep
      · refine ⟨hk, ?_, ?_⟩
        · intro hcoin
          unfold dead_end_visit
          simp only [bind, Except.bind, pure, Except.pure, hl, hfm, if_true, hcoin]
          rcases hd with e | e | e | e <;> subst e <;>
            simp [GO_UP, GO_DOWN, GO_LEFT, GO_RIGHT]
        · intro hcoin
          unfold dead_end_visit
          simp only [bind, Except.bind, pure, Except.pure, hl, hfm, if_true]
          rcases hd with e | e | e | e
          · subst e
            rw [if_pos rfl, if_pos hcoin]
            simp only [step_target, if_true]
            rw [← UP_eq]
            cases store s.maze (UP i j x) FLOOR <;> rfl
          · subst e
            rw [if_neg (by decide), if_pos rfl, if_pos hcoin]
            simp only [step_target, if_neg (show ¬ GO_DOWN = GO_UP by decide), if_true]
            rw [← DOWN_eq]
            cases store s.maze (DOWN i j x) FLOOR <;> rfl
          · subst e
            rw [if_neg (by decide), if_neg (by decide), if_pos rfl, if_pos hcoin]
            simp only [step_target, if_neg (show ¬ GO_LEFT = GO_UP by decide),
              if_neg (show ¬ GO_LEFT = GO_DOWN by decide), if_true]
            rw [← LEFT_eq]
            cases store s.maze (LEFT i j x) FLOOR <;> rfl
          · subst e
            rw [if_neg (by decide), if_neg (by decide), if_neg (by decide), if_pos rfl,
              if_pos hcoin]
            simp only [step_target, if_neg (show ¬ GO_RIGHT = GO_UP by decide),
              if_neg (show ¬ GO_RIGHT = GO_DOWN by decide),
              if_neg (show ¬ GO_RIGHT = GO_LEFT by decide)]
            rw [← RIGHT_eq]
            cases store s.maze (RIGHT i j x) FLOOR <;> rfl

/-- C25 as amended, on the grid `stalled_5x5` with the random source `stall_rand`, at the
FLOOR cell in row 1, column 2, where Left is legal. -/
theorem dead_end_visit_draws_witness :
    find_move 1 stall_rand 5 stalled_5x5 1 2 5 = .ok (GO_LEFT, 6) ∧
      (GO_LEFT ≠ NO_VALID_STEP → 4 + 1 < 6 ∧
        (FLIP_COIN (stall_rand 4) = 0 →
          dead_end_visit 1 stall_rand 5 1 2 ⟨stalled_5x5, 4, false⟩ =
            .ok ⟨stalled_5x5, 6, true⟩) ∧
        (FLIP_COIN (stall_rand 4) ≠ 0 →
          dead_end_visit 1 stall_rand 5 1 2 ⟨stalled_5x5, 4, false⟩ =
            (store stalled_5x5 (MAZE_OF_I_OF_J (step_target GO_LEFT 1 2).1
              (step_target GO_LEFT 1 2).2 5) FLOOR).map (fun m => ⟨m, 6, true⟩))) :=
  ⟨by rfl, ((dead_end_visit_draws 1 stall_rand 5 1 2 ⟨stalled_5x5, 4, false⟩).2 (by rfl)
    GO_LEFT 6 (by rfl)).2⟩

/-- C25 as stated fails: the coin is drawn before the legal directions are computed.  In
`filled_5x5` the FLOOR cell in row 1, column 2 has no legal direction, and `find_move`
there draws nothing, yet the visit of that cell moves the count of random values from 7
to 8. -/
theorem dead_end_visit_coin_first :
    load filled_5x5 (MAZE_OF_I_OF_J 1 2 5) = .ok FLOOR ∧
      (¬ legal filled_5x5 5 5 1 2 GO_UP ∧ ¬ legal filled_5x5 5 5 1 2 GO_DOWN ∧
        ¬ legal filled_5x5 5 5 1 2 GO_LEFT ∧ ¬ legal filled_5x5 5 5 1 2 GO_RIGHT) ∧
      find_move 1 counting_rand 8 filled_5x5 1 2 5 = .ok (NO_VALID_STEP, 8) ∧
      dead_end_visit 1 counting_rand 5 1 2 ⟨filled_5x5, 7, false⟩ =
        .ok ⟨filled_5x5, 8, false⟩ :=
  ⟨by rfl, by decide, by rfl, by rfl⟩

/-- C27. On a grid with the generation properties, a visit of `draw_dead_ends` that returns
either leaves the grid as it is or changes exactly one cell: a cell adjacent to the FLOOR
cell being visited, which held WALL and now holds FLOOR, the number of WALL cells dropping
by one.  Hence, when `draw_dead_ends` returns, every cell is as it was or went from WALL to
FLOOR: every cell that held START, END, BORDER or FLOOR holds it still, and no cell holds
START, END or BORDER that did not hold it before. -/
theorem dead_ends_only_carve (fuel : Nat) (rand : Nat → Nat) (k : Nat) (maze : List Nat)
    (y x : Int) (m2 : List Nat) (k2 : Nat) (hg : Gen maze y x)
    (h : draw_dead_ends fuel rand k maze y x = .ok (m2, k2)) :
    (∀ (f2 : Nat) (rand2 : Nat → Nat) (i j : Int) (s s2 : Scan), Gen s.maze y x →
        0 ≤ i → i < y → 0 ≤ j → j < x → dead_end_visit f2 rand2 x i j s = .ok s2 →
        s2.maze = s.maze ∨
          ∃ p q, adjacent (i, j) (p, q) ∧ cell s.maze y x i j = some FLOOR ∧
            cell s.maze y x p q = some WALL ∧
            (∀ a b, cell s2.maze y x a b =
              if a = p ∧ b = q then some FLOOR else cell s.maze y x a b) ∧
            wall_count s2.maze + 1 = wall_count s.maze) ∧
      (∀ a b, cell m2 y x a b = cell maze y x a b ∨
        (cell maze y x a b = some WALL ∧ cell m2 y x a b = some FLOOR)) ∧
      (∀ a b v, v ≠ WALL → cell maze y x a b = some v → cell m2 y x a b = some v) ∧
      (∀ a b v, v ≠ FLOOR → cell m2 y x a b = some v → cell maze y x a b = some v) := by
  unfold draw_dead_ends at h
  have hd := dead_ends_loop_dug fuel k maze m2 k2 hg h
  refine ⟨?_, hd, ?_, ?_⟩
  · intro f2 rand2 i j s s2 hgs hi0 hi hj0 hj hv
    rcases dead_end_visit_cases hgs hi0 hi hj0 hj hv with ⟨_, e⟩ | ⟨hfl, _, step, k3, _, _, hc⟩
    · left; rw [e]
    · rcases hc with ⟨_, _, e, _⟩ | ⟨_, _, hl, _, ⟨_, e⟩ | ⟨_, _, hcount, hcells⟩⟩
      · left; exact e
      · left; exact e
      · right
        obtain ⟨h1, h2, _⟩ := legal_target hl
        exact ⟨(step_target step i j).1, (step_target step i j).2, h1, hfl, h2, hcells,
          hcount⟩
  · intro a b v hv hc
    rcases hd a b with e | ⟨e, _⟩
    · rw [e]; exact hc
    · rw [e] at hc
      exact absurd (Option.some.inj hc).symm hv
  · intro a b v hv hc
    rcases hd a b with e | ⟨_, e⟩
    · rw [← e]; exact hc
    · rw [e] at hc
      exact absurd (Option.some.inj hc).symm hv

/-- C27, on the 5 by 5 run of the filler on `stalled_5x5` with `counting_rand`. -/
theorem dead_ends_only_carve_witness :
    ∃ m2 k2, draw_dead_ends 10 counting_rand 5 stalled_5x5 5 5 = .ok (m2, k2) ∧
      (∀ a b, cell m2 5 5 a b = cell stalled_5x5 5 5 a b ∨
        (cell stalled_5x5 5 5 a b = some WALL ∧ cell m2 5 5 a b = some FLOOR)) ∧
      (∀ a b v, v ≠ WALL → cell stalled_5x5 5 5 a b = some v → cell m2 5 5 a b = some v) ∧
      (∀ a b v, v ≠ FLOOR → cell m2 5 5 a b = some v → cell stalled_5x5 5 5 a b = some v) :=
  ⟨[66, 66, 66, 66, 66, 66, 48, 48, 69, 66, 66, 49, 83, 49, 66, 66, 49, 49, 49, 66, 66, 66, 66,
    66, 66], 9, by rfl,
    (dead_ends_only_carve 10 counting_rand 5 stalled_5x5 5 5 _ 9 stalled_5x5_gen (by rfl)).2⟩

/-- C28. In every grid that `draw_maze` produces with a width and a height of at least 4,
the path cells (FLOOR, START, END) form a tree under adjacency.  The recorded start holds
START; every path cell is reached from it by a route through path cells; a route from the
start to a path cell, no cell visited twice, is the only one; there is no cycle, that is no
list of three or more path cells, each once and adjacent to the next, whose last cell is
adjacent to its first; and there is exactly one cell holding END, with exactly one route
from the start to it. -/
theorem draw_maze_tree (fuel : Nat) (rand : Nat → Nat) (y x : Int) (g : Generated)
    (hy : 4 ≤ y) (hx : 4 ≤ x) (h : draw_maze fuel rand y x = .ok g) :
    cell g.maze y x g.start_y g.start_x = some START ∧
      (∀ a b, is_path (cell g.maze y x a b) →
        ∃ r, Route (fun p => is_path (cell g.maze y x p.1 p.2)) (g.start_y, g.start_x)
          (a, b) r) ∧
      (∀ (c : Int × Int) (r1 r2 : List (Int × Int)),
        Route (fun p => is_path (cell g.maze y x p.1 p.2)) (g.start_y, g.start_x) c r1 →
        Route (fun p => is_path (cell g.maze y x p.1 p.2)) (g.start_y, g.start_x) c r2 →
        r1 = r2) ∧
      (∀ cyc : List (Int × Int), 3 ≤ cyc.length → cyc.Nodup → cyc.Chain' adjacent →
        (∀ p ∈ cyc, is_path (cell g.maze y x p.1 p.2)) →
        ∀ first last, cyc.head? = some first → cyc.getLast? = some last →
          ¬ adjacent last first) ∧
      ∃ ei ej, (∀ a b, cell g.maze y x a b = some END ↔ (a = ei ∧ b = ej)) ∧
        ∃! r, Route (fun p => is_path (cell g.maze y x p.1 p.2)) (g.start_y, g.start_x)
          (ei, ej) r := by
  obtain ⟨order, T⟩ := draw_maze_grown (by omega : 3 ≤ y) (by omega : 3 ≤ x) h
  obtain ⟨hs, ei, ej, he⟩ := draw_maze_marks hy (by omega) h
  have up : ∀ {c : Int × Int} {r : List (Int × Int)},
      Route (fun p => p ∈ order) (g.start_y, g.start_x) c r →
      Route (fun p => is_path (cell g.maze y x p.1 p.2)) (g.start_y, g.start_x) c r :=
    fun hr => route_mono hr (fun p _ hp => (T.cells p.1 p.2).2 hp)
  have down : ∀ {c : Int × Int} {r : List (Int × Int)},
      Route (fun p => is_path (cell g.maze y x p.1 p.2)) (g.start_y, g.start_x) c r →
      Route (fun p => p ∈ order) (g.start_y, g.start_x) c r :=
    fun hr => route_mono hr (fun p _ hp => (T.cells p.1 p.2).1 hp)
  have hconn : ∀ a b, is_path (cell g.maze y x a b) →
      ∃ r, Route (fun p => is_path (cell g.maze y x p.1 p.2)) (g.start_y, g.start_x)
        (a, b) r := by
    intro a b hp
    obtain ⟨r, hr⟩ := grown_connected order _ T.grown T.last (a, b) ((T.cells a b).1 hp)
    exact ⟨r, up hr⟩
  have huniq : ∀ (c : Int × Int) (r1 r2 : List (Int × Int)),
      Route (fun p => is_path (cell g.maze y x p.1 p.2)) (g.start_y, g.start_x) c r1 →
      Route (fun p => is_path (cell g.maze y x p.1 p.2)) (g.start_y, g.start_x) c r2 →
      r1 = r2 :=
    fun c r1 r2 h1 h2 => grown_unique order _ T.grown T.last c r1 r2 (down h1) (down h2)
  refine ⟨(hs _ _).2 ⟨rfl, rfl⟩, hconn, huniq, ?_, ei, ej, he, ?_⟩
  · intro cyc hlen hnd hch hin first last hh hl
    exact grown_acyclic order T.grown cyc hlen hnd hch
      (fun p hp => (T.cells p.1 p.2).1 (hin p hp)) first last hh hl
  · have hp : is_path (cell g.maze y x ei ej) := by
      rw [(he ei ej).2 ⟨rfl, rfl⟩]; decide
    obtain ⟨r, hr⟩ := hconn ei ej hp
    exact ⟨r, hr, fun r2 hr2 => huniq _ r2 r hr2 hr⟩

/-- C28, on the 4 by 4 run. -/
theorem draw_maze_tree_witness :
    cell run_4x4.maze 4 4 run_4x4.start_y run_4x4.start_x = some START ∧
      (∀ a b, is_path (cell run_4x4.maze 4 4 a b) →
        ∃ r, Route (fun p => is_path (cell run_4x4.maze 4 4 p.1 p.2))
          (run_4x4.start_y, run_4x4.start_x) (a, b) r) ∧
      (∀ (c : Int × Int) (r1 r2 : List (Int × Int)),
        Route (fun p => is_path (cell run_4x4.maze 4 4 p.1 p.2))
          (run_4x4.start_y, run_4x4.start_x) c r1 →
        Route (fun p => is_path (cell run_4x4.maze 4 4 p.1 p.2))
          (run_4x4.start_y, run_4x4.start_x) c r2 →
        r1 = r2) ∧
      (∀ cyc : List (Int × Int), 3 ≤ cyc.length → cyc.Nodup → cyc.Chain' adjacent →
        (∀ p ∈ cyc, is_path (cell run_4x4.maze 4 4 p.1 p.2)) →
        ∀ first last, cyc.head? = some first → cyc.getLast? = some last →
          ¬ adjacent last first) ∧
      ∃ ei ej, (∀ a b, cell run_4x4.maze 4 4 a b = some END ↔ (a = ei ∧ b = ej)) ∧
        ∃! r, Route (fun p => is_path (cell run_4x4.maze 4 4 p.1 p.2))
          (run_4x4.start_y, run_4x4.start_x) (ei, ej) r :=
  draw_maze_tree 50 counting_rand 4 4 run_4x4 (by decide) (by decide) run_4x4_eq

/-- C29. In every grid that `draw_maze` produces with a width and a height of at least 4,
the start cell has exactly one adjacent path cell and the one cell holding END has exactly
one adjacent path cell.  The cells adjacent to either of them are, in the final grid, as
`draw_critical_path` left them: `draw_dead_ends` carved none of them. -/
theorem draw_maze_ends (fuel : Nat) (rand : Nat → Nat) (y x : Int) (g : Generated)
    (hy : 4 ≤ y) (hx : 4 ≤ x) (h : draw_maze fuel rand y x = .ok g) :
    path_neighbours g.maze y x g.start_y g.start_x = 1 ∧
      ∃ ei ej, (∀ a b, cell g.maze y x a b = some END ↔ (a = ei ∧ b = ej)) ∧
        path_neighbours g.maze y x ei ej = 1 ∧
        ∃ (m0 m1 : List Nat) (k1 k2 : Nat),
          draw_maze_start rand y x = .ok (m0, g.start_y, g.start_x) ∧
          draw_critical_path fuel rand 2 m0 y x g.start_y g.start_x = .ok (m1, k1) ∧
          draw_dead_ends fuel rand k1 m1 y x = .ok (g.maze, k2) ∧
          cell m1 y x g.start_y g.start_x = some START ∧ cell m1 y x ei ej = some END ∧
          ∀ q : Int × Int, adjacent (g.start_y, g.start_x) q ∨ adjacent (ei, ej) q →
            cell g.maze y x q.1 q.2 = cell m1 y x q.1 q.2 := by
  obtain ⟨m0, m1, k1, k2, hstart, hs0, hf, hin, hcp, hg1, hde⟩ :=
    draw_maze_parts (by omega : 3 ≤ y) (by omega : 3 ≤ x) h
  obtain ⟨hs, ei, ej, he⟩ := draw_maze_marks hy (by omega) h
  have hl : ∃ d, legal m0 y x g.start_y g.start_x d := by
    rcases fresh_start_legal hy hf hin with h1 | h1
    · exact ⟨_, h1⟩
    · exact ⟨_, h1⟩
  obtain ⟨e, hend, _, hc1, hc2⟩ := critical_path_ends hs0 hf hin hl hcp
  have hde2 := hde
  unfold draw_dead_ends at hde2
  have hk := (dead_ends_loop_gen fuel k1 m1 g.maze k2 hg1 hde2).2
  have hS : cell m1 y x g.start_y g.start_x = some START :=
    (hk _ _ START (by decide) (by decide)).1 ((hs _ _).2 ⟨rfl, rfl⟩)
  have hE : cell m1 y x ei ej = some END :=
    (hk _ _ END (by decide) (by decide)).1 ((he _ _).2 ⟨rfl, rfl⟩)
  have hee : e = (ei, ej) := by
    have h1 := (hk e.1 e.2 END (by decide) (by decide)).2 hend
    have h2 := (he e.1 e.2).1 h1
    exact Prod.ext h2.1 h2.2
  have fS := dead_ends_loop_far (P := (g.start_y, g.start_x)) (Or.inl rfl) fuel k1 m1 g.maze
    k2 hg1 hS hde2
  have fE := dead_ends_loop_far (P := (ei, ej)) (Or.inr rfl) fuel k1 m1 g.maze k2 hg1 hE hde2
  refine ⟨?_, ei, ej, he, ?_, m0, m1, k1, k2, hstart, hcp, hde, hS, hE, ?_⟩
  · rw [path_neighbours_congr fS]; exact hc1
  · rw [path_neighbours_congr fE]
    rw [hee] at hc2
    exact hc2
  · intro q hq
    rcases hq with hq | hq
    · exact fS q hq
    · exact fE q hq

/-- C29, on the 4 by 4 run. -/
theorem draw_maze_ends_witness :
    path_neighbours run_4x4.maze 4 4 run_4x4.start_y run_4x4.start_x = 1 ∧
      ∃ ei ej, (∀ a b, cell run_4x4.maze 4 4 a b = some END ↔ (a = ei ∧ b = ej)) ∧
        path_neighbours run_4x4.maze 4 4 ei ej = 1 ∧
        ∃ (m0 m1 : List Nat) (k1 k2 : Nat),
          draw_maze_start counting_rand 4 4 = .ok (m0, run_4x4.start_y, run_4x4.start_x) ∧
          draw_critical_path 50 counting_rand 2 m0 4 4 run_4x4.start_y run_4x4.start_x =
            .ok (m1, k1) ∧
          draw_dead_ends 50 counting_rand k1 m1 4 4 = .ok (run_4x4.maze, k2) ∧
          cell m1 4 4 run_4x4.start_y run_4x4.start_x = some START ∧
          cell m1 4 4 ei ej = some END ∧
          ∀ q : Int × Int, adjacent (run_4x4.start_y, run_4x4.start_x) q ∨
              adjacent (ei, ej) q →
            cell run_4x4.maze 4 4 q.1 q.2 = cell m1 4 4 q.1 q.2 :=
  draw_maze_ends 50 counting_rand 4 4 run_4x4 (by decide) (by decide) run_4x4_eq

/-- C23. When the start cell has no legal direction on the grid that `draw_maze` hands to
`draw_critical_path`, which is so for every 3 by 3 maze, `draw_maze` returns for every fuel
but 0, and whenever it returns: the cell at the recorded start position holds END, it is
the only cell holding END and the only path cell, no cell holds START, and the header of the
file still records that position as the start. -/
theorem end_on_start (rand : Nat → Nat) (y x : Int) (hy : 3 ≤ y) (hx : 3 ≤ x)
    (hn : (y = 3 ∧ x = 3) ∨ ∀ m0 sy sx, draw_maze_start rand y x = .ok (m0, sy, sx) →
      ∀ d, ¬ legal m0 y x sy sx d) :
    (∀ fuel, ∃ g, draw_maze (fuel + 1) rand y x = .ok g) ∧
      ∀ fuel g, draw_maze fuel rand y x = .ok g →
        cell g.maze y x g.start_y g.start_x = some END ∧
        (∀ a b, cell g.maze y x a b = some END ↔ (a = g.start_y ∧ b = g.start_x)) ∧
        (∀ a b, is_path (cell g.maze y x a b) ↔ (a = g.start_y ∧ b = g.start_x)) ∧
        (∀ a b, cell g.maze y x a b ≠ some START) ∧
        g.file = [to_uint8 x, to_uint8 y, to_uint8 g.start_x, to_uint8 g.start_y] ++
          g.maze := by
  obtain ⟨m0, sy, sx, h0, _, _, hin, hs0, hf⟩ := draw_maze_start_spec rand hy hx
  have hg0 := fresh_gen hs0 hf
  have hstuck : ∀ d, ¬ legal m0 y x sy sx d := by
    rcases hn with ⟨e1, e2⟩ | hn
    · subst e1 e2
      exact fresh_3x3_stuck hf hin
    · exact hn m0 sy sx h0
  have hcells : ∀ m, (∀ a b, cell m y x a b =
      if a = sy ∧ b = sx then some END else cell m0 y x a b) →
      ∀ a b, (cell m y x a b = some END ↔ (a = sy ∧ b = sx)) ∧
        (is_path (cell m y x a b) ↔ (a = sy ∧ b = sx)) ∧ cell m y x a b ≠ some START ∧
        cell m y x a b ≠ some FLOOR := by
    intro m hc a b
    rw [hc]
    by_cases hh : a = sy ∧ b = sx
    · rw [if_pos hh]
      exact ⟨⟨fun _ => hh, fun _ => rfl⟩, ⟨fun _ => hh, fun _ => by decide⟩, by decide,
        by decide⟩
    · rw [if_neg hh]
      have hnp := fresh_not_path hf hh
      refine ⟨⟨fun e => ?_, fun e => absurd e hh⟩, ⟨fun e => absurd e hnp,
        fun e => absurd e hh⟩, fun e => ?_, fun e => ?_⟩
      · exact absurd (Or.inr (Or.inr e)) hnp
      · exact absurd (Or.inr (Or.inl e)) hnp
      · exact absurd (Or.inl e) hnp
  constructor
  · intro fuel
    obtain ⟨m1, hcp, hs1, hc1⟩ := draw_critical_path_stuck hg0 hin hstuck fuel rand 2
    have hq := quiet_of_no_floor hs1 (fun a b => (hcells m1 hc1 a b).2.2.2)
    obtain ⟨k2, hk2⟩ := quiet_scan hq (fuel + 1) rand 2
    have hfill : draw_dead_ends (fuel + 1) rand 2 m1 y x = .ok (m1, k2) := by
      unfold draw_dead_ends dead_ends_loop
      simp only [bind, Except.bind, pure, Except.pure, hk2, if_true]
    unfold draw_maze
    simp only [bind, Except.bind, pure, Except.pure, h0, hcp, hfill, write_maze_spec hs1]
    exact ⟨_, rfl⟩
  · intro fuel g h
    obtain ⟨m0b, m1, k1, k2, hstart, _, _, _, hcp, hg1, hde⟩ := draw_maze_parts hy hx h
    rw [h0] at hstart
    simp only [Except.ok.injEq, Prod.mk.injEq] at hstart
    obtain ⟨e0, e1, e2⟩ := hstart
    subst e0
    rw [← e1, ← e2]
    have hfuel : ∃ n, fuel = n + 1 := by
      cases fuel with
      | zero =>
        rw [← e1, ← e2] at hcp
        simp [draw_critical_path, critical_path_loop, bind, Except.bind] at hcp
      | succ n => exact ⟨n, rfl⟩
    obtain ⟨n, rfl⟩ := hfuel
    obtain ⟨m1b, hcp2, hs1, hc1⟩ := draw_critical_path_stuck hg0 hin hstuck n rand 2
    rw [← e1, ← e2, hcp2] at hcp
    simp only [Except.ok.injEq, Prod.mk.injEq] at hcp
    obtain ⟨e3, e4⟩ := hcp
    subst e3
    have hq := quiet_of_no_floor hs1 (fun a b => (hcells m1b hc1 a b).2.2.2)
    obtain ⟨k3, hk3⟩ := quiet_scan hq (n + 1) rand k1
    unfold draw_dead_ends dead_ends_loop at hde
    simp only [bind, Except.bind, pure, Except.pure, hk3, if_true, Except.ok.injEq,
      Prod.mk.injEq] at hde
    have hsame : ∀ a b, cell g.maze y x a b = cell m1b y x a b := by
      intro a b; rw [← hde.1]
    obtain ⟨_, _, _, _, _, _, _, _, _, _, _, _, _, _, hfile⟩ := draw_maze_spec hy hx h
    refine ⟨by rw [hsame]; exact ((hcells m1b hc1 sy sx).1).2 ⟨rfl, rfl⟩, ?_, ?_, ?_, ?_⟩
    · intro a b; rw [hsame]; exact (hcells m1b hc1 a b).1
    · intro a b; rw [hsame]; exact (hcells m1b hc1 a b).2.1
    · intro a b; rw [hsame]; exact (hcells m1b hc1 a b).2.2.1
    · rw [← e1, ← e2] at hfile; exact hfile

/-- C23, on the 3 by 3 maze with the random source `counting_rand`. -/
theorem end_on_start_witness :
    (∀ fuel, ∃ g, draw_maze (fuel + 1) counting_rand 3 3 = .ok g) ∧
      ∀ fuel g, draw_maze fuel counting_rand 3 3 = .ok g →
        cell g.maze 3 3 g.start_y g.start_x = some END ∧
        (∀ a b, cell g.maze 3 3 a b = some END ↔ (a = g.start_y ∧ b = g.start_x)) ∧
        (∀ a b, is_path (cell g.maze 3 3 a b) ↔ (a = g.start_y ∧ b = g.start_x)) ∧
        (∀ a b, cell g.maze 3 3 a b ≠ some START) ∧
        g.file = [to_uint8 3, to_uint8 3, to_uint8 g.start_x, to_uint8 g.start_y] ++
          g.maze :=
  end_on_start counting_rand 3 3 (by decide) (by decide) (Or.inl ⟨rfl, rfl⟩)

/-- C26. On the grid that `draw_maze` hands over (BORDER on the ring, START inside it, WALL
elsewhere), whatever the random source and the fuel: the walk of `draw_critical_path` makes
at most `(width - 2) * (height - 2) - 1` carving steps; each step turns one WALL cell inside
the ring into FLOOR and leaves every other cell as it is, so that no cell turns back into
WALL; and with fuel for `(width - 2) * (height - 2)` passes the loop returns, at a cell
without legal direction, unless a call of `find_move` itself runs out of fuel. -/
theorem critical_path_bounded (fuel : Nat) (rand : Nat → Nat) (k : Nat) (m0 : List Nat)
    (y x sy sx : Int) (hs : Sized m0 y x) (hf : fresh m0 y x sy sx)
    (hin : interior y x sy sx) :
    ∃ rest : List Walk,
      critical_path_trace rand x fuel ⟨m0, sy, sx, k⟩ = ⟨m0, sy, sx, k⟩ :: rest ∧
      (rest.length : Int) ≤ (x - 2) * (y - 2) - 1 ∧
      List.Chain' (carve_step y x) (⟨m0, sy, sx, k⟩ :: rest) ∧
      (∀ a b : Walk, carve_step y x a b → ∀ p q, cell a.maze y x p q ≠ some WALL →
        cell b.maze y x p q ≠ some WALL) ∧
      ((x - 2) * (y - 2) ≤ fuel →
        (∃ wl wz, critical_path_loop rand x fuel ⟨m0, sy, sx, k⟩ = .ok wl ∧
          ((⟨m0, sy, sx, k⟩ : Walk) :: rest).getLast? = some wz ∧ wz.maze = wl.maze ∧
          wz.i = wl.i ∧ wz.j = wl.j ∧ ∀ d, ¬ legal wl.maze y x wl.i wl.j d) ∨
        (∃ wz f2, ((⟨m0, sy, sx, k⟩ : Walk) :: rest).getLast? = some wz ∧ 0 < f2 ∧
          f2 ≤ fuel ∧
          find_move f2 rand wz.k wz.maze wz.i wz.j x = .error .out_of_fuel)) := by
  have hp : is_path (cell m0 y x sy sx) := by rw [fresh_start hf hin]; decide
  obtain ⟨rest, ht, hch, _, hint, hnd, hout⟩ :=
    @critical_path_trace_steps rand y x fuel ⟨m0, sy, sx, k⟩ (fresh_gen hs hf) hin hp
  have hcount := interior_count (y := y) (x := x) _ hnd (by
    intro p hp2
    obtain ⟨b, hb, e⟩ := List.mem_map.1 hp2
    rw [← e]
    exact hint b hb)
  have hlen : (rest.length : Int) ≤ (x - 2) * (y - 2) - 1 := by
    obtain ⟨h1, h2, h3, h4⟩ := hin
    simp only [List.length_map, List.length_cons] at hcount
    have h5 : ((rest.length + 1 : Nat) : Int) ≤ (((y - 2).toNat * (x - 2).toNat : Nat) : Int) := by
      exact_mod_cast hcount
    rw [Nat.cast_mul, Int.toNat_of_nonneg (by omega), Int.toNat_of_nonneg (by omega)] at h5
    push_cast at h5
    linarith [mul_comm (y - 2) (x - 2)]
  refine ⟨rest, ht, hlen, hch, ?_, ?_⟩
  · intro a b hab p q hne
    rw [hab.2.2.2]
    split_ifs
    · decide
    · exact hne
  · intro hfuel
    rcases hout with h1 | ⟨_, h2 | h2⟩
    · exact Or.inl h1
    · exfalso
      rw [← h2] at hfuel
      omega
    · exact Or.inr h2

/-- C26, on the 5 by 5 grid `fresh_5x5` with the random source `stall_rand`. -/
theorem critical_path_bounded_witness :
    ∃ rest : List Walk,
      critical_path_trace stall_rand 5 10 ⟨fresh_5x5, 2, 2, 2⟩ =
        ⟨fresh_5x5, 2, 2, 2⟩ :: rest ∧
      (rest.length : Int) ≤ (5 - 2) * (5 - 2) - 1 ∧
      List.Chain' (carve_step 5 5) (⟨fresh_5x5, 2, 2, 2⟩ :: rest) ∧
      (∀ a b : Walk, carve_step 5 5 a b → ∀ p q, cell a.maze 5 5 p q ≠ some WALL →
        cell b.maze 5 5 p q ≠ some WALL) ∧
      (((5 : Int) - 2) * (5 - 2) ≤ (10 : Nat) →
        (∃ wl wz, critical_path_loop stall_rand 5 10 ⟨fresh_5x5, 2, 2, 2⟩ = .ok wl ∧
          ((⟨fresh_5x5, 2, 2, 2⟩ : Walk) :: rest).getLast? = some wz ∧ wz.maze = wl.maze ∧
          wz.i = wl.i ∧ wz.j = wl.j ∧ ∀ d, ¬ legal wl.maze 5 5 wl.i wl.j d) ∨
        (∃ wz f2, ((⟨fresh_5x5, 2, 2, 2⟩ : Walk) :: rest).getLast? = some wz ∧ 0 < f2 ∧
          f2 ≤ 10 ∧
          find_move f2 stall_rand wz.k wz.maze wz.i wz.j 5 = .error .out_of_fuel)) :=
  critical_path_bounded 10 stall_rand 2 fresh_5x5 5 5 2 2 (by decide) fresh_5x5_fresh
    (by decide)

/-- C22: on a grid whose ring cells all hold BORDER, (1) every state in which the walk of
`draw_critical_path`, started at a cell inside the ring, calls `find_move` has a BORDER ring
and a position strictly inside it; (2) the state in which a scan of `draw_dead_ends` comes
to a cell of the grid has a BORDER ring, and a cell that holds FLOOR there, which is where
the scan calls `find_move`, is strictly inside the ring; (3) a scan that returns leaves a
BORDER ring, so that the next scan starts as this one did; (4) at a cell strictly inside the
ring of such a grid `find_move` makes no undefined read, and every cell it reads is one of
the four neighbours or a cell next to a neighbour that holds WALL, lies inside the grid in
the row and column that the read names, at the offset of that row and column, and is
read. -/
theorem find_move_reads_inside (maze : List Nat) (y x : Int) (hb : bordered maze y x) :
    (∀ (fuel : Nat) (rand : Nat → Nat) (k : Nat) (sy sx : Int), interior y x sy sx →
      ∀ w ∈ critical_path_trace rand x fuel ⟨maze, sy, sx, k⟩,
        bordered w.maze y x ∧ interior y x w.i w.j) ∧
    (∀ (fuel : Nat) (rand : Nat → Nat) (k i j : Nat) (s : Scan), (i : Int) < y →
      (j : Int) < x → dead_end_scan_upto fuel rand k maze x i j = .ok s →
      bordered s.maze y x ∧
        (load s.maze (MAZE_OF_I_OF_J i j x) = .ok FLOOR → interior y x i j)) ∧
    (∀ (fuel : Nat) (rand : Nat → Nat) (k : Nat) (s : Scan),
      dead_end_scan fuel rand k maze y x = .ok s → bordered s.maze y x) ∧
    (∀ i j, interior y x i j →
      (∀ (fuel : Nat) (rand : Nat → Nat) (k : Nat),
        find_move fuel rand k maze i j x ≠ .error .undefined) ∧
      ∀ r ∈ find_move_reads maze i j x,
        (adjacent (i, j) (r.row, r.col) ∨
          ∃ a c, adjacent (i, j) (a, c) ∧ cell maze y x a c = some WALL ∧
            adjacent (a, c) (r.row, r.col)) ∧
        0 ≤ r.row ∧ r.row < y ∧ 0 ≤ r.col ∧ r.col < x ∧
        r.offset = MAZE_OF_I_OF_J r.row r.col x ∧
        ∃ v, load maze r.offset = .ok v ∧ cell maze y x r.row r.col = some v) := by
  refine ⟨?_, ?_, ?_, ?_⟩
  · intro fuel rand k sy sx hin w hw
    exact critical_path_trace_bordered fuel ⟨maze, sy, sx, k⟩ hb hin w hw
  · intro fuel rand k i j s hi hj h
    have hbs := dead_end_scan_upto_bordered hb hi hj h
    refine ⟨hbs, fun hl => ?_⟩
    have hc := (load_cell (by omega) hi (by omega) hj FLOOR).1 hl
    exact bordered_interior hbs hc (by decide)
  · intro fuel rand k s h
    exact dead_end_scan_bordered hb h
  · intro i j hin
    refine ⟨fun fuel rand k => find_move_defined hb.1 (bordered_ring_closed hb) hin fuel rand k,
      fun r hr => ⟨find_move_reads_shape hin hr, find_move_reads_safe hb hin hr⟩⟩

/-- C22, on the 5 by 5 grid `fresh_5x5`, whose ring holds BORDER; at its START cell
`find_move` reads sixteen cells. -/
theorem find_move_reads_inside_witness :
    find_move_reads fresh_5x5 2 2 5 =
      [⟨7, 1, 2⟩, ⟨2, 0, 2⟩, ⟨6, 1, 1⟩, ⟨8, 1, 3⟩, ⟨17, 3, 2⟩, ⟨22, 4, 2⟩, ⟨16, 3, 1⟩,
        ⟨18, 3, 3⟩, ⟨11, 2, 1⟩, ⟨6, 1, 1⟩, ⟨16, 3, 1⟩, ⟨10, 2, 0⟩, ⟨13, 2, 3⟩, ⟨8, 1, 3⟩,
        ⟨18, 3, 3⟩, ⟨14, 2, 4⟩] ∧
    bordered fresh_5x5 5 5 ∧
    (∀ (fuel : Nat) (rand : Nat → Nat) (k : Nat) (sy sx : Int), interior 5 5 sy sx →
      ∀ w ∈ critical_path_trace rand 5 fuel ⟨fresh_5x5, sy, sx, k⟩,
        bordered w.maze 5 5 ∧ interior 5 5 w.i w.j) ∧
    (∀ (fuel : Nat) (rand : Nat → Nat) (k i j : Nat) (s : Scan), (i : Int) < 5 →
      (j : Int) < 5 → dead_end_scan_upto fuel rand k fresh_5x5 5 i j = .ok s →
      bordered s.maze 5 5 ∧
        (load s.maze (MAZE_OF_I_OF_J i j 5) = .ok FLOOR → interior 5 5 i j)) ∧
    (∀ (fuel : Nat) (rand : Nat → Nat) (k : Nat) (s : Scan),
      dead_end_scan fuel rand k fresh_5x5 5 5 = .ok s → bordered s.maze 5 5) ∧
    (∀ i j, interior 5 5 i j →
      (∀ (fuel : Nat) (rand : Nat → Nat) (k : Nat),
        find_move fuel rand k fresh_5x5 i j 5 ≠ .error .undefined) ∧
      ∀ r ∈ find_move_reads fresh_5x5 i j 5,
        (adjacent (i, j) (r.row, r.col) ∨
          ∃ a c, adjacent (i, j) (a, c) ∧ cell fresh_5x5 5 5 a c = some WALL ∧
            adjacent (a, c) (r.row, r.col)) ∧
        0 ≤ r.row ∧ r.row < 5 ∧ 0 ≤ r.col ∧ r.col < 5 ∧
        r.offset = MAZE_OF_I_OF_J r.row r.col 5 ∧
        ∃ v, load fresh_5x5 r.offset = .ok v ∧ cell fresh_5x5 5 5 r.row r.col = some v) :=
  ⟨by decide, gen_bordered (fresh_gen (by decide) fresh_5x5_fresh),
    find_move_reads_inside fresh_5x5 5 5 (gen_bordered (fresh_gen (by decide) fresh_5x5_fresh))⟩

/-- C30: in a maze whose ring cells all hold BORDER and whose header start cell holds START,
`play` runs its gameplay loop to its end on every sequence of commands (the player wins,
quits, or the input ends), and after every call of `obey_player` the player is on a cell
that holds FLOOR or START: a cell strictly inside the ring, which holds neither WALL nor
BORDER nor END. -/
theorem player_stays_on_floor (l : Loaded)
    (hb : bordered l.maze l.y_dimension l.x_dimension)
    (hstart : cell l.maze l.y_dimension l.x_dimension l.start_y l.start_x = some START)
    (commands : List (List Nat)) :
    ∃ r, play_game l commands = .ok r ∧ r.states.length ≤ commands.length ∧
      ∀ p ∈ r.states,
        on_floor l.maze l.y_dimension l.x_dimension p ∧
        interior l.y_dimension l.x_dimension p.player_y p.player_x ∧
        cell l.maze l.y_dimension l.x_dimension p.player_y p.player_x ≠ some WALL ∧
        cell l.maze l.y_dimension l.x_dimension p.player_y p.player_x ≠ some BORDER ∧
        cell l.maze l.y_dimension l.x_dimension p.player_y p.player_x ≠ some END := by
  have hin : interior l.y_dimension l.x_dimension l.start_y l.start_x :=
    bordered_interior hb hstart (by decide)
  have hs0 : Sized (List.replicate (l.y_dimension * l.x_dimension).toNat 0) l.y_dimension
      l.x_dimension :=
    ⟨hb.1.1, hb.1.2.1, by
      simp only [List.length_replicate]
      exact Int.toNat_of_nonneg (mul_nonneg (le_of_lt hb.1.1) (le_of_lt hb.1.2.1))⟩
  obtain ⟨m0, e0, s0, _⟩ := play_init_map_spec hb.1 hs0
  obtain ⟨m1, e1, s1⟩ := update_map_sized hb.1 s0 hin
  obtain ⟨r, hr, hlen, hall⟩ := play_turn_on_floor hb hstart commands
    ⟨false, l.start_y, l.start_x, false, m1⟩ (Or.inr hstart) s1
  refine ⟨r, ?_, hlen, ?_⟩
  · unfold play_game
    simp only [e0, e1, bind, Except.bind]
    exact hr
  · intro p hp
    have h := hall p hp
    refine ⟨h, on_floor_interior hb h, ?_, ?_, ?_⟩ <;>
      rcases h with h | h <;> rw [h] <;> decide

/-- C30, in the 4 by 4 run: the player goes left from the start cell and then down, onto
the END cell; the position is row 1, column 1 after both commands. -/
theorem player_stays_on_floor_witness :
    (play_game ⟨4, 4, 2, 1, run_4x4.maze⟩ [c_string "left", c_string "down"]).map
        (fun r => (r.states.map (fun p => (p.player_y, p.player_x, p.won)), r.ending)) =
      .ok ([(1, 1, false), (1, 1, true)], .won) ∧
    ∃ r, play_game ⟨4, 4, 2, 1, run_4x4.maze⟩ [c_string "left", c_string "down"] = .ok r ∧
      r.states.length ≤ [c_string "left", c_string "down"].length ∧
      ∀ p ∈ r.states,
        on_floor run_4x4.maze 4 4 p ∧ interior 4 4 p.player_y p.player_x ∧
        cell run_4x4.maze 4 4 p.player_y p.player_x ≠ some WALL ∧
        cell run_4x4.maze 4 4 p.player_y p.player_x ≠ some BORDER ∧
        cell run_4x4.maze 4 4 p.player_y p.player_x ≠ some END :=
  ⟨by rfl, player_stays_on_floor ⟨4, 4, 2, 1, run_4x4.maze⟩ (gen_bordered run_4x4_gen)
    (by decide) [c_string "left", c_string "down"]⟩

/-- C31: for a maze and a map of the same size and a player strictly inside the ring, as in
every call that `play` makes, `update_map` returns and the map it returns differs from the
map it was given in at most the five cells it writes, five cells of the grid no two of
which are the same: the player's cell holds the character `*`, each of the four cells one
step up, down, left and right of it holds what the maze holds there, BORDER shown as WALL,
and every other cell holds what it held.  The maze is only read: the function writes
through `map` alone, and the map is all it returns here. -/
theorem update_map_five_cells (map maze : List Nat) (y x i j : Int) (hmaze : Sized maze y x)
    (hmap : Sized map y x) (hin : interior y x i j) :
    ∃ m, update_map map maze i j x = .ok m ∧ m.length = map.length ∧
      cell m y x i j = some 42 ∧
      (∀ a b, adjacent (i, j) (a, b) →
        ∃ c, cell maze y x a b = some c ∧
          cell m y x a b = some (if c = BORDER then WALL else c)) ∧
      (∀ a b, ¬ (a = i ∧ b = j) → ¬ adjacent (i, j) (a, b) →
        cell m y x a b = cell map y x a b) ∧
      ([(i, j), (i - 1, j), (i + 1, j), (i, j + 1), (i, j - 1)].Nodup ∧
        ∀ p ∈ [(i, j), (i - 1, j), (i + 1, j), (i, j + 1), (i, j - 1)],
          0 ≤ p.1 ∧ p.1 < y ∧ 0 ≤ p.2 ∧ p.2 < x) := by
  obtain ⟨m, hm, hsz, hc⟩ := update_map_spec hmaze hmap hin
  obtain ⟨h1, h2, h3, h4⟩ := hin
  refine ⟨m, hm, ?_, ?_, ?_, ?_, ?_, ?_⟩
  · have e1 := hsz.2.2
    have e2 := hmap.2.2
    omega
  · rw [hc, if_pos ⟨rfl, rfl⟩]
  · intro a b hadj
    have hne : ¬ (a = i ∧ b = j) := by
      intro e
      simp only [adjacent] at hadj
      omega
    have hr : 0 ≤ a ∧ a < y ∧ 0 ≤ b ∧ b < x := by
      simp only [adjacent] at hadj
      omega
    obtain ⟨c, hcm⟩ := cell_some hmaze hr.1 hr.2.1 hr.2.2.1 hr.2.2.2
    refine ⟨c, hcm, ?_⟩
    rw [hc, if_neg hne, if_pos hadj, hcm]
    rfl
  · intro a b hne hna
    rw [hc, if_neg hne, if_neg hna]
  · simp only [List.nodup_cons, List.mem_cons, List.mem_singleton, Prod.mk.injEq,
      List.not_mem_nil, not_false_eq_true, List.nodup_nil, and_true, or_false]
    omega
  · intro p hp
    simp only [List.mem_cons, List.mem_singleton, List.not_mem_nil, or_false] at hp
    rcases hp with e | e | e | e | e <;> subst e <;> simp only <;> omega

/-- C31, in the 4 by 4 run, for the map before the player has seen anything and the player
at the start cell: row 1, column 2. -/
theorem update_map_five_cells_witness :
    update_map [49, 49, 49, 49, 49, 0, 0, 49, 49, 0, 0, 49, 49, 49, 49, 49] run_4x4.maze 1 2 4 =
      .ok [49, 49, 49, 49, 49, 48, 42, 49, 49, 0, 49, 49, 49, 49, 49, 49] ∧
    ∃ m, update_map [49, 49, 49, 49, 49, 0, 0, 49, 49, 0, 0, 49, 49, 49, 49, 49]
        run_4x4.maze 1 2 4 = .ok m ∧
      m.length = [49, 49, 49, 49, 49, 0, 0, 49, 49, 0, 0, 49, 49, 49, 49, 49].length ∧
      cell m 4 4 1 2 = some 42 ∧
      (∀ a b, adjacent (1, 2) (a, b) →
        ∃ c, cell run_4x4.maze 4 4 a b = some c ∧
          cell m 4 4 a b = some (if c = BORDER then WALL else c)) ∧
      (∀ a b, ¬ (a = 1 ∧ b = 2) → ¬ adjacent (1, 2) (a, b) →
        cell m 4 4 a b =
          cell [49, 49, 49, 49, 49, 0, 0, 49, 49, 0, 0, 49, 49, 49, 49, 49] 4 4 a b) ∧
      ([((1 : Int), (2 : Int)), (1 - 1, 2), (1 + 1, 2), (1, 2 + 1), (1, 2 - 1)].Nodup ∧
        ∀ p ∈ [((1 : Int), (2 : Int)), (1 - 1, 2), (1 + 1, 2), (1, 2 + 1), (1, 2 - 1)],
          0 ≤ p.1 ∧ p.1 < 4 ∧ 0 ≤ p.2 ∧ p.2 < 4) :=
  ⟨by rfl, update_map_five_cells [49, 49, 49, 49, 49, 0, 0, 49, 49, 0, 0, 49, 49, 49, 49, 49]
    run_4x4.maze 4 4 1 2 (by decide) (by decide) (by decide)⟩

/-- C32: in a maze whose ring cells all hold BORDER, whose header start cell holds START and
which holds no character `*`, `play` runs its gameplay loop to its end on every sequence of
commands, and every call of `update_map` in it returns a map that holds `*` in the player's
cell and in no other cell, once in all.  That is so of the first call, at the start cell on
the map before the player has seen anything, and of the call after every call of
`obey_player` that sets `movement` and not `won`, each of which is made on a map that holds
its one `*` in a cell next to the player's, which the call overwrites, or, after a restart,
at the start cell on a map that holds no `*`. -/
theorem one_mark_on_map (l : Loaded)
    (hb : bordered l.maze l.y_dimension l.x_dimension)
    (hstart : cell l.maze l.y_dimension l.x_dimension l.start_y l.start_x = some START)
    (hno : 42 ∉ l.maze) (commands : List (List Nat)) :
    ∃ m0 m1 r,
      play_init_map (List.replicate (l.y_dimension * l.x_dimension).toNat 0) l.maze
        l.y_dimension l.x_dimension = .ok m0 ∧ 42 ∉ m0 ∧
      update_map m0 l.maze l.start_y l.start_x l.x_dimension = .ok m1 ∧
      one_mark m1 l.y_dimension l.x_dimension l.start_y l.start_x ∧ m1.count 42 = 1 ∧
      play_game l commands = .ok r ∧
      ∀ q ∈ r.states, q.movement = true → q.won = false →
        ((∃ a b, adjacent (q.player_y, q.player_x) (a, b) ∧
            one_mark q.map l.y_dimension l.x_dimension a b) ∨
          (q.player_y = l.start_y ∧ q.player_x = l.start_x ∧ 42 ∉ q.map)) ∧
        ∃ m, update_map q.map l.maze q.player_y q.player_x l.x_dimension = .ok m ∧
          one_mark m l.y_dimension l.x_dimension q.player_y q.player_x ∧
          m.count 42 = 1 := by
  have hin : interior l.y_dimension l.x_dimension l.start_y l.start_x :=
    bordered_interior hb hstart (by decide)
  have hs0 : Sized (List.replicate (l.y_dimension * l.x_dimension).toNat 0) l.y_dimension
      l.x_dimension :=
    ⟨hb.1.1, hb.1.2.1, by
      simp only [List.length_replicate]
      exact Int.toNat_of_nonneg (mul_nonneg (le_of_lt hb.1.1) (le_of_lt hb.1.2.1))⟩
  obtain ⟨m0, e0, s0, hfog⟩ := play_init_map_spec hb.1 hs0
  have hnone : 42 ∉ m0 := by
    apply not_mem_of_cells s0
    intro a b hc
    obtain ⟨a0, a1, b0, b1⟩ := cell_in_range hc
    rw [hfog a b a0 a1 b0 b1] at hc
    unfold fog at hc
    split_ifs at hc <;> exact absurd hc (by decide)
  obtain ⟨m1, e1, s1, hone, hcount⟩ := update_map_one_mark hb.1 hno s0 hin
    (fun a b hc => absurd (cell_mem hc) hnone)
  obtain ⟨r, hr, hall⟩ := play_turn_marks hb hstart hno commands
    ⟨false, l.start_y, l.start_x, false, m1⟩ (Or.inr hstart) s1 rfl hone
  refine ⟨m0, m1, r, e0, hnone, e1, hone, hcount, ?_, hall⟩
  unfold play_game
  simp only [e0, e1, bind, Except.bind]
  exact hr

/-- C32, in the 4 by 4 run: the player goes left from the start cell, then restarts; the map
after the call of `update_map` that follows each command holds its one `*` in row 1,
column 1 and then in row 1, column 2. -/
theorem one_mark_on_map_witness :
    (play_game ⟨4, 4, 2, 1, run_4x4.maze⟩ [c_string "left", c_string "restart"]).map
        (fun r => r.states.map (fun p => (p.player_y, p.player_x,
          (update_map p.map run_4x4.maze p.player_y p.player_x 4).toOption))) =
      .ok [(1, 1, some [49, 49, 49, 49, 49, 42, 83, 49, 49, 69, 49, 49, 49, 49, 49, 49]),
        (1, 2, some [49, 49, 49, 49, 49, 48, 42, 49, 49, 0, 49, 49, 49, 49, 49, 49])] ∧
    ∃ m0 m1 r,
      play_init_map (List.replicate ((4 : Int) * 4).toNat 0) run_4x4.maze 4 4 = .ok m0 ∧
      42 ∉ m0 ∧
      update_map m0 run_4x4.maze 1 2 4 = .ok m1 ∧
      one_mark m1 4 4 1 2 ∧ m1.count 42 = 1 ∧
      play_game ⟨4, 4, 2, 1, run_4x4.maze⟩ [c_string "left", c_string "restart"] = .ok r ∧
      ∀ q ∈ r.states, q.movement = true → q.won = false →
        ((∃ a b, adjacent (q.player_y, q.player_x) (a, b) ∧ one_mark q.map 4 4 a b) ∨
          (q.player_y = 1 ∧ q.player_x = 2 ∧ 42 ∉ q.map)) ∧
        ∃ m, update_map q.map run_4x4.maze q.player_y q.player_x 4 = .ok m ∧
          one_mark m 4 4 q.player_y q.player_x ∧ m.count 42 = 1 :=
  ⟨by rfl, one_mark_on_map ⟨4, 4, 2, 1, run_4x4.maze⟩ (gen_bordered run_4x4_gen) (by decide)
    (by decide) [c_string "left", c_string "restart"]⟩

end Maze
